import Mathlib

/-!
Verification development for the RustyMazes maze-graph engine.

The Rust sources are shallowly embedded: machine integers (i32) become Int,
usize becomes Nat, Vec becomes List, HashMap<Point, usize> becomes an
association list with replace-or-append insertion, and panicking operations
return Option (none = panic).  The thread-local random number generator is
modelled as an infinite stream s : Nat -> Nat together with a position
counter; a draw gen_range(0..n) at position k yields s k % n (a panic when
n = 0), and gen_bool(0.5) at position k yields s k % 2 = 0.  Unbounded
while loops take a fuel parameter; exhausted fuel also yields none.
-/

/-- Embeds src/point.rs Point: a pair of i32 coordinates. -/
structure Point where
  x : Int
  y : Int
  deriving DecidableEq, Repr

/-- Embeds Point::new. -/
def Point.new (x y : Int) : Point := ⟨x, y⟩

/-- Embeds Point::north: (x, y-1). -/
def Point.north (p : Point) : Point := ⟨p.x, p.y - 1⟩

/-- Embeds Point::south: (x, y+1). -/
def Point.south (p : Point) : Point := ⟨p.x, p.y + 1⟩

/-- Embeds Point::east: (x+1, y). -/
def Point.east (p : Point) : Point := ⟨p.x + 1, p.y⟩

/-- Embeds Point::west: (x-1, y). -/
def Point.west (p : Point) : Point := ⟨p.x - 1, p.y⟩

/-- Embeds the Add impl for Point. -/
def Point.add (p q : Point) : Point := ⟨p.x + q.x, p.y + q.y⟩

/-- Embeds the Sub impl for Point. -/
def Point.sub (p q : Point) : Point := ⟨p.x - q.x, p.y - q.y⟩

/-- Embeds src/cell.rs NeighborPoint: a neighbour coordinate plus a linked flag. -/
structure NeighborPoint where
  point : Point
  linked : Bool
  deriving DecidableEq, Repr

/-- Embeds src/cell.rs Cell: a lattice node with four directional neighbour slots. -/
structure Cell where
  point : Point
  north : NeighborPoint
  east : NeighborPoint
  south : NeighborPoint
  west : NeighborPoint
  deriving DecidableEq, Repr

/-- Embeds Cell::new: slots at the four cardinal offsets, all unlinked. -/
def Cell.new (p : Point) : Cell :=
  { point := p
    north := { point := p.add ⟨0, -1⟩, linked := false }
    east := { point := p.add ⟨1, 0⟩, linked := false }
    south := { point := p.add ⟨0, 1⟩, linked := false }
    west := { point := p.add ⟨-1, 0⟩, linked := false } }

/-- Embeds Cell::link: sets the flag of the slot facing other_position;
panics (none) when other_position is not exactly one cardinal step away. -/
def Cell.link (c : Cell) (other_position : Point) : Option Cell :=
  if other_position.sub c.point = ⟨0, -1⟩ then
    some { c with north := { c.north with linked := true } }
  else if other_position.sub c.point = ⟨0, 1⟩ then
    some { c with south := { c.south with linked := true } }
  else if other_position.sub c.point = ⟨1, 0⟩ then
    some { c with east := { c.east with linked := true } }
  else if other_position.sub c.point = ⟨-1, 0⟩ then
    some { c with west := { c.west with linked := true } }
  else none

/-- Embeds Cell::links: the linked slot coordinates in north, south, east, west order. -/
def Cell.links (c : Cell) : List Point :=
  (if c.north.linked then [c.north.point] else []) ++
  (if c.south.linked then [c.south.point] else []) ++
  (if c.east.linked then [c.east.point] else []) ++
  (if c.west.linked then [c.west.point] else [])

/-- Embeds Cell::linked: whether this cell has a linked slot pointing at the other cell. -/
def Cell.linked (c : Cell) (other : Option Cell) : Bool :=
  match other with
  | none => false
  | some o => decide (o.point ∈ c.links)

/-- Embeds src/grid.rs Grid data (width, height, flat optional-cell array);
both RectangularGrid and PolarGrid carry exactly these fields and share every
trait-default method, so a single structure models the Grid contract.  The
Distances member of the Rust structs is carried separately by Distances. -/
structure Grid where
  width : Nat
  height : Nat
  cells : List (Option Cell)
  deriving DecidableEq, Repr

/-- Embeds Grid::point_to_index: flat index y*width+x for non-negative in-range
coordinates; none otherwise.  (Note the source does not check x < width.) -/
def Grid.point_to_index (g : Grid) (p : Point) : Option Nat :=
  if p.x < 0 ∨ p.y < 0 then none
  else
    let index := (p.y * (g.width : Int) + p.x).toNat
    if g.cells.length ≤ index then none else some index

/-- Embeds Grid::get: linear scan of the present cells for one with the given point. -/
def Grid.get (g : Grid) (p : Point) : Option Cell :=
  (g.cells.filterMap id).find? (fun c => decide (c.point = p))

/-- One half of Grid::link: resolve the index of a, and when that slot holds a
cell, set its flag toward b (propagating the Cell::link panic). -/
def Grid.linkHalf (g : Grid) (a b : Point) : Option Grid :=
  match g.point_to_index a with
  | none => some g
  | some ia =>
    match g.cells.getD ia none with
    | none => some g
    | some ca =>
      match ca.link b with
      | none => none
      | some ca2 => some { g with cells := g.cells.set ia (some ca2) }

/-- Embeds Grid::link: link a toward b, then, when bidi, b toward a. -/
def Grid.link (g : Grid) (a b : Point) (bidi : Bool) : Option Grid :=
  match g.linkHalf a b with
  | none => none
  | some g2 => if bidi then g2.linkHalf b a else some g2

/-- Embeds Grid::neighbors: points of the existing cells at the four cardinal
coordinates, in north, south, east, west order. -/
def Grid.neighbors (g : Grid) (p : Point) : List Point :=
  (match g.get p.north with | some c => [c.point] | none => []) ++
  (match g.get p.south with | some c => [c.point] | none => []) ++
  (match g.get p.east with | some c => [c.point] | none => []) ++
  (match g.get p.west with | some c => [c.point] | none => [])

/-- Embeds Cell::neighbors: the existing neighbouring cells of this cell,
in north, south, east, west slot order. -/
def Cell.neighbors (c : Cell) (g : Grid) : List Cell :=
  (match g.get c.north.point with | some n => [n] | none => []) ++
  (match g.get c.south.point with | some n => [n] | none => []) ++
  (match g.get c.east.point with | some n => [n] | none => []) ++
  (match g.get c.west.point with | some n => [n] | none => [])

/-- Embeds Grid::random_cell: draw indices uniformly over the backing array and
retry while the drawn slot is empty.  gen_range(0..0) on an empty backing array
panics (none); the retry loop is given fuel, and exhausting it is the
divergence of the source loop. -/
def Grid.random_cell (g : Grid) (s : Nat → Nat) (k : Nat) : Nat → Option (Cell × Nat)
  | 0 => none
  | fuel + 1 =>
    if g.cells.length = 0 then none
    else
      match g.cells.getD (s k % g.cells.length) none with
      | some c => some (c, k + 1)
      | none => g.random_cell s (k + 1) fuel

/-- Structural worker for chunksExact, recursing on a length bound so that it
evaluates by kernel reduction. -/
def chunksGo {α : Type} (n : Nat) : List α → Nat → List (List α)
  | _, 0 => []
  | l, bound + 1 =>
    if 0 < n ∧ n ≤ l.length then l.take n :: chunksGo n (l.drop n) bound else []

/-- Embeds slice::chunks_exact as used by Grid::iter_rows (only complete rows). -/
def chunksExact {α : Type} (n : Nat) (l : List α) : List (List α) :=
  chunksGo n l l.length

/-- Embeds Grid::iter_rows. -/
def Grid.iter_rows (g : Grid) : List (List (Option Cell)) :=
  chunksExact g.width g.cells

/-- Embeds RectangularGrid::new (PolarGrid::new is identical): one cell per
coordinate, pushed row by row. -/
def RectangularGrid.new (width height : Nat) : Grid :=
  { width := width
    height := height
    cells := (List.range height).flatMap
      (fun y => (List.range width).map (fun x => some (Cell.new ⟨Int.ofNat x, Int.ofNat y⟩))) }

/-- Embeds src/mask.rs Mask. -/
structure Mask where
  mask : List Bool
  width : Nat
  height : Nat
  deriving DecidableEq, Repr

/-- Embeds Mask::new: all-true occupancy. -/
def Mask.new (width height : Nat) : Mask :=
  { mask := List.replicate (width * height) true, width := width, height := height }

/-- Embeds the element-wise body of RectangularGrid::mask: slot i is cleared when
mask entry i is false; a mask longer than the cell array is the source's
out-of-bounds panic (none). -/
def applyMask : List (Option Cell) → List Bool → Option (List (Option Cell))
  | cs, [] => some cs
  | [], _ :: _ => none
  | c :: cs, v :: vs => (applyMask cs vs).map (fun rest => (if v then c else none) :: rest)

/-- Embeds RectangularGrid::mask (Maskable::mask). -/
def Grid.maskWith (g : Grid) (m : Mask) : Option Grid :=
  (applyMask g.cells m.mask).map (fun cs => { g with cells := cs })

/-- Embeds src/distances.rs Distances: a root and a point-to-distance map.
The HashMap is modelled as an association list with no duplicate keys. -/
structure Distances where
  root : Point
  cells : List (Point × Nat)
  deriving DecidableEq, Repr

/-- Embeds Distances::new. -/
def Distances.new (root : Point) : Distances := { root := root, cells := [] }

/-- HashMap::get on the association-list model. -/
def dlookup (m : List (Point × Nat)) (p : Point) : Option Nat :=
  (m.find? (fun e => decide (e.1 = p))).map (fun e => e.2)

/-- HashMap::insert on the association-list model: replace or append. -/
def dinsert (m : List (Point × Nat)) (p : Point) (v : Nat) : List (Point × Nat) :=
  if (m.find? (fun e => decide (e.1 = p))).isSome then
    m.map (fun e => if e.1 = p then (p, v) else e)
  else m ++ [(p, v)]

/-- Embeds Distances::distance. -/
def Distances.distance (d : Distances) (p : Point) : Option Nat := dlookup d.cells p

/-- Inner loop of Distances::compute over the links of one frontier cell:
already-recorded targets are skipped, fresh ones are recorded at
distance(point)+1 (unwrap panic = none) and pushed onto the new frontier. -/
def linkFold (p : Point) : List Point → List (Point × Nat) → List Point →
    Option (List (Point × Nat) × List Point)
  | [], m, nf => some (m, nf)
  | l :: ls, m, nf =>
    if (dlookup m l).isSome then linkFold p ls m nf
    else
      match dlookup m p with
      | none => none
      | some dp => linkFold p ls (dinsert m l (dp + 1)) (nf ++ [l])

/-- Middle loop of Distances::compute over the frontier points: absent cells
are skipped, the links of present ones are folded. -/
def frontierFold (g : Grid) : List Point → List (Point × Nat) → List Point →
    Option (List (Point × Nat) × List Point)
  | [], m, nf => some (m, nf)
  | p :: ps, m, nf =>
    match g.get p with
    | none => frontierFold g ps m nf
    | some c =>
      match linkFold p c.links m nf with
      | none => none
      | some (m2, nf2) => frontierFold g ps m2 nf2

/-- Outer while loop of Distances::compute (fuelled). -/
def bfsLoop (g : Grid) : Nat → List (Point × Nat) → List Point → Option (List (Point × Nat))
  | _, m, [] => some m
  | 0, _, _ :: _ => none
  | fuel + 1, m, frontier =>
    match frontierFold g frontier m [] with
    | none => none
    | some (m2, nf) => bfsLoop g fuel m2 nf

/-- Embeds Distances::compute: insert the root at 0 and run frontier BFS. -/
def Distances.compute (d : Distances) (g : Grid) (fuel : Nat) : Option Distances :=
  (bfsLoop g fuel (dinsert d.cells d.root 0) [d.root]).map
    (fun m => { root := d.root, cells := m })

/-- The Option<usize> Ord comparison used by shortest_path_to:
None < Some _, and Some a < Some b exactly when a < b. -/
def optLt : Option Nat → Option Nat → Bool
  | none, some _ => true
  | some a, some b => decide (a < b)
  | _, none => false

/-- The inner for loop of Distances::shortest_path_to: first linked neighbour
whose recorded distance is Option-less-than the current cell's. -/
def findSmaller (d : Distances) (cur : Point) : List Point → Option Point
  | [] => none
  | n :: ns =>
    if optLt (d.distance n) (d.distance cur) then some n else findSmaller d cur ns

/-- The while loop of Distances::shortest_path_to (fuelled): walk from the goal
toward the root, inserting each chosen neighbour into the breadcrumb map.
An absent current cell or an unrecorded chosen neighbour is an unwrap panic
(none); a step finding no smaller neighbour repeats forever (fuel exhaustion). -/
def spLoop (g : Grid) (d : Distances) : Nat → List (Point × Nat) → Point →
    Option (List (Point × Nat))
  | fuel, bc, cur =>
    if cur = d.root then some bc
    else
      match fuel with
      | 0 => none
      | f + 1 =>
        match g.get cur with
        | none => none
        | some c =>
          match findSmaller d cur c.links with
          | none => spLoop g d f bc cur
          | some n =>
            match d.distance n with
            | none => none
            | some dn => spLoop g d f (dinsert bc n dn) n

/-- Embeds Distances::shortest_path_to. -/
def Distances.shortest_path_to (d : Distances) (g : Grid) (goal : Point) (fuel : Nat) :
    Option Distances :=
  match d.distance goal with
  | none => none
  | some dg =>
    (spLoop g d fuel (dinsert [] goal dg) goal).map (fun bc => { root := d.root, cells := bc })

/-- gen_bool(0.5) at stream position k. -/
def boolDraw (s : Nat → Nat) (k : Nat) : Bool := decide (s k % 2 = 0)

/-- Applies a list of collected (cell, neighbour) link actions, each
bidirectional, in order. -/
def linkAll (g : Grid) : List (Point × Point) → Option Grid
  | [] => some g
  | (a, b) :: rest =>
    match g.link a b true with
    | none => none
    | some g2 => linkAll g2 rest

/-- The per-cell neighbour pool of Algorithm::binary_tree: the existing north
neighbour, then the existing east neighbour. -/
def btNeighborCells (g : Grid) (c : Cell) : List Cell :=
  (match g.get c.north.point with | some n => [n] | none => []) ++
  (match g.get c.east.point with | some n => [n] | none => [])

/-- The action-collection pass of Algorithm::binary_tree: for every present
cell with a non-empty north/east pool, record a link toward a randomly drawn
pool member. -/
def btActions (g : Grid) (s : Nat → Nat) : List (Option Cell) → Nat → List (Point × Point)
  | [], _ => []
  | none :: rest, k => btActions g s rest k
  | some c :: rest, k =>
    let ns := btNeighborCells g c
    if ns.isEmpty then btActions g s rest k
    else (c.point, (ns.getD (s k % ns.length) c).point) :: btActions g s rest (k + 1)

/-- Embeds Algorithm::binary_tree. -/
def Algorithm.binary_tree (g : Grid) (s : Nat → Nat) : Option Grid :=
  linkAll g (btActions g s g.cells 0)

/-- The close-out condition of Algorithm::sidewinder, exactly as written in the
source: at_eastern_boundary is east.point.x == width and at_northern_boundary
is north.point.y <= 0. -/
def shouldCloseOut (w : Nat) (c : Cell) (coin : Bool) : Bool :=
  decide (c.east.point.x = (w : Int)) || (!(decide (c.north.point.y ≤ 0)) && coin)

/-- One row of Algorithm::sidewinder: scan the row cells, extending the
current run east or closing it out; the coin is drawn only when neither
boundary condition short-circuits it, and a close-out draws a run member and
records a link from it toward its north slot. -/
def swRow (w : Nat) (s : Nat → Nat) : List (Option Cell) → List Cell → Nat →
    List (Point × Point) × Nat
  | [], _, k => ([], k)
  | none :: rest, run, k => swRow w s rest run k
  | some c :: rest, run, k =>
    let run2 := run ++ [c]
    if decide (c.east.point.x = (w : Int)) then
      let member := run2.getD (s k % run2.length) c
      let rk := swRow w s rest [] (k + 1)
      ((member.point, member.north.point) :: rk.1, rk.2)
    else if decide (c.north.point.y ≤ 0) then
      let rk := swRow w s rest run2 k
      ((c.point, c.east.point) :: rk.1, rk.2)
    else if boolDraw s k then
      let member := run2.getD (s (k + 1) % run2.length) c
      let rk := swRow w s rest [] (k + 2)
      ((member.point, member.north.point) :: rk.1, rk.2)
    else
      let rk := swRow w s rest run2 (k + 1)
      ((c.point, c.east.point) :: rk.1, rk.2)

/-- The row iteration of Algorithm::sidewinder. -/
def swActions (w : Nat) (s : Nat → Nat) : List (List (Option Cell)) → Nat → List (Point × Point)
  | [], _ => []
  | row :: rows, k =>
    let rk := swRow w s row [] k
    rk.1 ++ swActions w s rows rk.2

/-- Embeds Algorithm::sidewinder. -/
def Algorithm.sidewinder (g : Grid) (s : Nat → Nat) : Option Grid :=
  linkAll g (swActions g.width s (chunksExact g.width g.cells) 0)

/-- The random-walk loop of Algorithm::aldous_broder (fuelled): step to a
random neighbour, linking into it when it has no links yet; the unvisited
counter starts at width*height - 1 and decrements once per link. -/
def abLoop (g : Grid) (s : Nat → Nat) (fuel : Nat) (unvisited : Nat) (cell : Cell) (k : Nat) :
    Option Grid :=
  if unvisited = 0 then some g
  else
    match fuel with
    | 0 => none
    | f + 1 =>
      let ns := cell.neighbors g
      if ns.isEmpty then none
      else
        let neighbor := ns.getD (s k % ns.length) cell
        if neighbor.links.isEmpty then
          match g.link cell.point neighbor.point true with
          | none => none
          | some g2 => abLoop g2 s f (unvisited - 1) neighbor (k + 1)
        else abLoop g s f unvisited neighbor (k + 1)

/-- Embeds Algorithm::aldous_broder. -/
def Algorithm.aldous_broder (g : Grid) (s : Nat → Nat) (fuel : Nat) : Option Grid :=
  match g.random_cell s 0 fuel with
  | none => none
  | some (c, k) => abLoop g s fuel (g.width * g.height - 1) c k

/-- The loop-erased random walk of Algorithm::wilsons (fuelled): walk until the
current cell leaves the unvisited list, truncating the path at the first
earlier occurrence of a revisited cell, otherwise extending it. -/
def wilsonWalk (g : Grid) (s : Nat → Nat) (unvisited : List Cell) :
    Nat → Cell → List Cell → Nat → Option (List Cell × Nat)
  | fuel, cell, path, k =>
    if decide (cell ∈ unvisited) then
      match fuel with
      | 0 => none
      | f + 1 =>
        let ns := cell.neighbors g
        if ns.isEmpty then none
        else
          let cell2 := ns.getD (s k % ns.length) cell
          match path.findIdx? (fun c => decide (c = cell2)) with
          | some pos => wilsonWalk g s unvisited f cell2 (path.take (pos + 1)) (k + 1)
          | none => wilsonWalk g s unvisited f cell2 (path ++ [cell2]) (k + 1)
    else some (path, k)

/-- The link pass at the end of a Wilson walk: link consecutive path cells. -/
def wilsonLink (g : Grid) : List Cell → Option Grid
  | [] => some g
  | [_] => some g
  | a :: b :: rest =>
    match g.link a.point b.point true with
    | none => none
    | some g2 => wilsonLink g2 (b :: rest)

/-- The retain pass at the end of a Wilson walk: every path cell but the last
is removed from the unvisited list. -/
def wilsonRetain (unvisited : List Cell) (path : List Cell) : List Cell :=
  path.dropLast.foldl (fun uv p => uv.filter (fun c => !decide (c = p))) unvisited

/-- The outer loop of Algorithm::wilsons (fuelled): pick a random unvisited
cell, walk until the visited set is hit, then link the loop-erased path in and
mark it visited. -/
def wilsonLoop (g : Grid) (s : Nat → Nat) (wfuel : Nat) :
    Nat → List Cell → Nat → Option Grid
  | fuel, unvisited, k =>
    if unvisited.isEmpty then some g
    else
      match fuel with
      | 0 => none
      | f + 1 =>
        let cell := unvisited.getD (s k % unvisited.length) (Cell.new ⟨0, 0⟩)
        match wilsonWalk g s unvisited wfuel cell [cell] (k + 1) with
        | none => none
        | some (path, k2) =>
          match wilsonLink g path with
          | none => none
          | some g2 => wilsonLoop g2 s wfuel f (wilsonRetain unvisited path) k2

/-- Embeds Algorithm::wilsons: the initial unvisited list is the present
cells; one randomly drawn cell is removed to seed the visited set. -/
def Algorithm.wilsons (g : Grid) (s : Nat → Nat) (fuel wfuel : Nat) : Option Grid :=
  let unvisited := g.cells.filterMap id
  if unvisited.length = 0 then none
  else wilsonLoop g s wfuel fuel (unvisited.eraseIdx (s 0 % unvisited.length)) 1

/-- The hunt scan of Algorithm::hunt_and_kill: the first present cell that is
unlinked but has a linked neighbour, together with a randomly drawn linked
neighbour of it. -/
def huntScan (g : Grid) (s : Nat → Nat) (k : Nat) : List Cell → Option (Cell × Cell × Nat)
  | [] => none
  | c :: cs =>
    let vns := (c.neighbors g).filter (fun n => !n.links.isEmpty)
    if c.links.isEmpty && !vns.isEmpty then
      some (c, vns.getD (s k % vns.length) c, k + 1)
    else huntScan g s k cs

/-- The outer loop of Algorithm::hunt_and_kill (fuelled): random walk into
unlinked neighbours; when stuck, hunt row-major for a fresh cell adjacent to
the linked region and resume there. -/
def hkLoop (g : Grid) (s : Nat → Nat) : Nat → Option Cell → Nat → Option Grid
  | _, none, _ => some g
  | 0, some _, _ => none
  | f + 1, some cur, k =>
    let uns := (cur.neighbors g).filter (fun n => n.links.isEmpty)
    if !uns.isEmpty then
      let n := uns.getD (s k % uns.length) cur
      match g.link cur.point n.point true with
      | none => none
      | some g2 => hkLoop g2 s f (some n) (k + 1)
    else
      match huntScan g s k (g.cells.filterMap id) with
      | none => hkLoop g s f none k
      | some (c, n, k2) =>
        match g.link c.point n.point true with
        | none => none
        | some g2 => hkLoop g2 s f (some c) k2

/-- Embeds Algorithm::hunt_and_kill. -/
def Algorithm.hunt_and_kill (g : Grid) (s : Nat → Nat) (fuel : Nat) : Option Grid :=
  match g.random_cell s 0 fuel with
  | none => none
  | some (c, k) => hkLoop g s fuel (some c) k

/-- The stack loop of Algorithm::recursive_backtracker (fuelled); the stack is
kept head-first, so the list head is the Rust stack top. -/
def rbLoop (g : Grid) (s : Nat → Nat) : Nat → List Point → Nat → Option Grid
  | _, [], _ => some g
  | 0, _ :: _, _ => none
  | f + 1, cur :: rest, k =>
    let ns := ((g.neighbors cur).filterMap (fun p => g.get p)).filter
      (fun c => c.links.isEmpty)
    if ns.isEmpty then rbLoop g s f rest k
    else
      let n := (ns.getD (s k % ns.length) (Cell.new cur)).point
      match g.link cur n true with
      | none => none
      | some g2 =>
        match g.get n with
        | none => none
        | some cn => rbLoop g2 s f (cn.point :: cur :: rest) (k + 1)

/-- Embeds Algorithm::recursive_backtracker. -/
def Algorithm.recursive_backtracker (g : Grid) (s : Nat → Nat) (fuel : Nat) : Option Grid :=
  match g.random_cell s 0 fuel with
  | none => none
  | some (c, k) => rbLoop g s fuel [c.point] k

/-- The coordinate stored at flat index i of a width-w grid. -/
def idxPoint (w i : Nat) : Point := ⟨((i % w : Nat) : Int), ((i / w : Nat) : Int)⟩

/-- A slot is structurally sound when the cell it holds carries the coordinate
of its index and its four neighbour slots carry the four cardinal-adjacent
coordinates of that coordinate. -/
def slotOK (w i : Nat) : Option Cell → Bool
  | none => true
  | some c =>
    decide (c.point = idxPoint w i) && decide (c.north.point = c.point.north) &&
    decide (c.south.point = c.point.south) && decide (c.east.point = c.point.east) &&
    decide (c.west.point = c.point.west)

/-- Structural invariant of grids: the backing array has width*height slots and
every present cell sits at the index of its own coordinate with cardinal
neighbour slots. -/
def Grid.WF (g : Grid) : Prop :=
  g.cells.length = g.width * g.height ∧
  ∀ i, i < g.cells.length → slotOK g.width i (g.cells.getD i none) = true

/-- Whether the cell of the grid at p has a linked slot pointing at q. -/
def Grid.linkedTo (g : Grid) (p q : Point) : Bool :=
  match g.get p with
  | some c => decide (q ∈ c.links)
  | none => false

/-- A bidirectional carved passage between the cells at p and q. -/
def Grid.biLinked (g : Grid) (p q : Point) : Bool := g.linkedTo p q && g.linkedTo q p

/-- Whether the cell of the grid at p has at least one linked slot
(the visited test used by aldous_broder, hunt_and_kill and
recursive_backtracker). -/
def Grid.hasLink (g : Grid) (p : Point) : Bool :=
  match g.get p with
  | some c => !c.links.isEmpty
  | none => false

/-- The coordinates of the present cells, in backing-array order. -/
def Grid.presentPoints (g : Grid) : List Point := (g.cells.filterMap id).map (fun c => c.point)

/-- Every link target of every present cell is itself a present cell whose
links point back: the link relation is symmetric between present cells and
never dangles toward an absent coordinate. -/
def Grid.SymmLinks (g : Grid) : Prop :=
  ∀ c ∈ g.cells.filterMap id, ∀ q ∈ c.links, g.linkedTo q c.point = true

/-- One directed hop of the BFS traversal: the grid holds a cell at p whose
links contain q. -/
def LinkStep (g : Grid) (p q : Point) : Prop := ∃ c, g.get p = some c ∧ q ∈ c.links

/-- Directed paths of exactly n link hops from r. -/
inductive ReachN (g : Grid) (r : Point) : Nat → Point → Prop
  | refl : ReachN g r 0 r
  | tail {n q p} : ReachN g r n q → LinkStep g q p → ReachN g r (n + 1) p

/-- Directed link reachability from r. -/
def Reach (g : Grid) (r p : Point) : Prop := ∃ n, ReachN g r n p

/-- Reachability along bidirectional passages. -/
def LReach (g : Grid) (p q : Point) : Prop :=
  Relation.ReflTransGen (fun a b => g.biLinked a b = true) p q

/-- Reachability along bidirectional passages that never crosses the passage
between a and b (in either direction). -/
def ReachAvoid (g : Grid) (a b p q : Point) : Prop :=
  Relation.ReflTransGen
    (fun u v => g.biLinked u v = true ∧ ¬(u = a ∧ v = b) ∧ ¬(u = b ∧ v = a)) p q

/-- A strict total order on coordinates, used to orient unordered passages. -/
def ptLT (p q : Point) : Bool :=
  decide (p.y < q.y) || (decide (p.y = q.y) && decide (p.x < q.x))

/-- The set of carved passages of the grid, one ordered representative per
bidirectionally linked pair of present cells. -/
def Grid.edgePairs (g : Grid) : Finset (Point × Point) :=
  (g.presentPoints.toFinset ×ˢ g.presentPoints.toFinset).filter
    (fun pr => g.biLinked pr.1 pr.2 = true ∧ ptLT pr.1 pr.2 = true)

/-- A perfect maze: one fewer passage than cells, all cells mutually reachable
along passages, and every passage a bridge (no cycles). -/
def PerfectMaze (g : Grid) : Prop :=
  g.edgePairs.card + 1 = g.presentPoints.toFinset.card ∧
  (∀ p ∈ g.presentPoints, ∀ q ∈ g.presentPoints, LReach g p q) ∧
  (∀ a b, g.biLinked a b = true → ¬ ReachAvoid g a b a b)

theorem linkHalf_frame (g : Grid) (a b : Point) (g' : Grid)
    (h : g.linkHalf a b = some g') :
    g'.width = g.width ∧ g'.height = g.height ∧ g'.cells.length = g.cells.length ∧
    ∀ i, g.point_to_index a ≠ some i → g'.cells.getD i none = g.cells.getD i none := by
  unfold Grid.linkHalf at h
  split at h
  case _ hia =>
    simp only [Option.some_inj] at h
    subst h
    exact ⟨rfl, rfl, rfl, fun i _ => rfl⟩
  case _ ia hia =>
    split at h
    case _ hca =>
      simp only [Option.some_inj] at h
      subst h
      exact ⟨rfl, rfl, rfl, fun i _ => rfl⟩
    case _ ca hca =>
      split at h
      case _ => exact absurd h (by simp)
      case _ ca2 hl =>
        simp only [Option.some_inj] at h
        subst h
        refine ⟨rfl, rfl, by simp, fun i hi => ?_⟩
        have hne : ia ≠ i := fun he => hi (he ▸ hia)
        simp only [List.getD_eq_getElem?_getD, List.getElem?_set_ne hne]

theorem point_to_index_congr (g g' : Grid) (p : Point)
    (hw : g'.width = g.width) (hl : g'.cells.length = g.cells.length) :
    g'.point_to_index p = g.point_to_index p := by
  unfold Grid.point_to_index
  rw [hw, hl]

theorem linkHalf_target (g : Grid) (a b : Point) (g' : Grid) (ia : Nat) (ca : Cell)
    (hia : g.point_to_index a = some ia) (hca : g.cells.getD ia none = some ca)
    (h : g.linkHalf a b = some g') :
    ∃ ca2, ca.link b = some ca2 ∧ g'.cells.getD ia none = some ca2 := by
  unfold Grid.linkHalf at h
  split at h
  case _ h0 => exact absurd (h0.symm.trans hia) (by simp)
  case _ ia' hia' =>
    have hiaeq : ia' = ia := by
      have := hia'.symm.trans hia
      simpa using this
    subst hiaeq
    split at h
    case _ h0 => exact absurd (h0.symm.trans hca) (by simp)
    case _ ca' hca' =>
      have hcaeq : ca' = ca := by
        have := hca'.symm.trans hca
        simpa using this
      subst hcaeq
      split at h
      case _ => exact absurd h (by simp)
      case _ ca2 hl =>
        simp only [Option.some_inj] at h
        subst h
        refine ⟨ca2, hl, ?_⟩
        have hlt : ia' < g.cells.length := by
          unfold Grid.point_to_index at hia
          split at hia
          · exact absurd hia (by simp)
          · simp only at hia
            split at hia
            · exact absurd hia (by simp)
            · simp only [Option.some_inj] at hia
              omega
        simp only [List.getD_eq_getElem?_getD, List.getElem?_set_eq_of_lt _ hlt, Option.getD_some]

theorem link_split (g : Grid) (a b : Point) (bidi : Bool) (g' : Grid)
    (h : g.link a b bidi = some g') :
    ∃ g2, g.linkHalf a b = some g2 ∧
      ((bidi = true ∧ g2.linkHalf b a = some g') ∨ (bidi = false ∧ g' = g2)) := by
  unfold Grid.link at h
  split at h
  case _ => exact absurd h (by simp)
  case _ g2 h1 =>
    refine ⟨g2, h1, ?_⟩
    cases bidi with
    | false =>
      simp only [Bool.false_eq_true, if_false, Option.some_inj] at h
      exact Or.inr ⟨rfl, h.symm⟩
    | true =>
      simp only [if_true] at h
      exact Or.inl ⟨rfl, h⟩

/-- C6 (amended): a link call whose target b has no cell leaves every slot of
the backing array unchanged except possibly those at the resolved indices of a
and b; when moreover b resolves to no index at all and a resolves to a present
cell, exactly that one slot changes, by setting its flag toward b. -/
theorem C6_amended :
    (∀ (g : Grid) (a b : Point) (bidi : Bool) (g' : Grid),
      g.get b = none → g.link a b bidi = some g' →
      g'.width = g.width ∧ g'.height = g.height ∧
      ∀ i, g.point_to_index a ≠ some i → g.point_to_index b ≠ some i →
        g'.cells.getD i none = g.cells.getD i none) ∧
    (∀ (g : Grid) (a b : Point) (g' : Grid) (ia : Nat) (ca : Cell),
      g.get b = none → g.point_to_index b = none →
      g.point_to_index a = some ia → g.cells.getD ia none = some ca →
      g.link a b true = some g' →
      (∀ i, i ≠ ia → g'.cells.getD i none = g.cells.getD i none) ∧
      ∃ ca2, ca.link b = some ca2 ∧ g'.cells.getD ia none = some ca2) := by
  constructor
  · intro g a b bidi g' _ h
    obtain ⟨g2, h1, hrest⟩ := link_split g a b bidi g' h
    obtain ⟨hw2, hh2, hl2, hf2⟩ := linkHalf_frame g a b g2 h1
    rcases hrest with ⟨_, h2⟩ | ⟨_, h2⟩
    · obtain ⟨hw3, hh3, hl3, hf3⟩ := linkHalf_frame g2 b a g' h2
      have hpi : g2.point_to_index b = g.point_to_index b :=
        point_to_index_congr g g2 b hw2 hl2
      exact ⟨hw3.trans hw2, hh3.trans hh2,
        fun i hia hib => (hf3 i (hpi ▸ hib)).trans (hf2 i hia)⟩
    · subst h2
      exact ⟨hw2, hh2, fun i hia _ => hf2 i hia⟩
  · intro g a b g' ia ca _ hbnone hia hca h
    obtain ⟨g2, h1, hrest⟩ := link_split g a b true g' h
    obtain ⟨hw2, hh2, hl2, hf2⟩ := linkHalf_frame g a b g2 h1
    have hpi : g2.point_to_index b = g.point_to_index b :=
      point_to_index_congr g g2 b hw2 hl2
    rcases hrest with ⟨_, h2⟩ | ⟨hfalse, _⟩
    · have hg2 : g' = g2 := by
        unfold Grid.linkHalf at h2
        rw [hpi, hbnone] at h2
        simpa using h2.symm
      subst hg2
      refine ⟨fun i hi => hf2 i (fun he => hi (Option.some_inj.mp (hia.symm.trans he)).symm), ?_⟩
      exact linkHalf_target g a b g' ia ca hia hca h1
    · exact absurd hfalse (by simp)

/-- C6 is false as stated: on the 1x1 grid, linking the present cell (0,0)
toward the absent point (0,-1) changes the cell at (0,0) (its north flag is
set), rather than leaving every cell of the grid unchanged. -/
theorem C6_counterexample :
    (RectangularGrid.new 1 1).get ⟨0, -1⟩ = none ∧
    (RectangularGrid.new 1 1).link ⟨0, 0⟩ ⟨0, -1⟩ true ≠ some (RectangularGrid.new 1 1) := by
  constructor
  · rfl
  · decide

/-- Witness for C6_amended at the 1x1 grid and absent target (0,-1). -/
theorem C6_amended_witness :
    (∀ i, i ≠ 0 →
      (((RectangularGrid.new 1 1).link ⟨0, 0⟩ ⟨0, -1⟩ true).getD (RectangularGrid.new 0 0)).cells.getD i none =
      (RectangularGrid.new 1 1).cells.getD i none) ∧
    ∃ ca2, (Cell.new ⟨0, 0⟩).link ⟨0, -1⟩ = some ca2 ∧
      (((RectangularGrid.new 1 1).link ⟨0, 0⟩ ⟨0, -1⟩ true).getD (RectangularGrid.new 0 0)).cells.getD 0 none = some ca2 := by
  exact C6_amended.2 (RectangularGrid.new 1 1) ⟨0, 0⟩ ⟨0, -1⟩
    (((RectangularGrid.new 1 1).link ⟨0, 0⟩ ⟨0, -1⟩ true).getD (RectangularGrid.new 0 0))
    0 (Cell.new ⟨0, 0⟩) rfl rfl rfl rfl rfl

/-- A non-default getD result pins down the optional slot itself. -/
theorem getD_some_slot (l : List (Option Cell)) (i : Nat) (c : Cell)
    (h : l.getD i none = some c) : l[i]? = some (some c) := by
  rw [List.getD_eq_getElem?_getD] at h
  rcases h2 : l[i]? with _ | oc
  · rw [h2] at h; simp at h
  · rw [h2] at h
    simp only [Option.getD_some] at h
    rw [h]

/-- C7: on a grid whose slots are all empty (every cell masked), random_cell
never produces a cell no matter how many retries it is allowed: the source
loop retries forever instead of reporting an error.  Conversely any cell it
does return occupies a slot of the grid, hence is non-masked. -/
theorem C7_random_cell :
    (∀ (g : Grid) (s : Nat → Nat) (k fuel : Nat), (∀ oc ∈ g.cells, oc = none) →
      g.random_cell s k fuel = none) ∧
    (∀ (g : Grid) (s : Nat → Nat) (k fuel : Nat) (c : Cell) (k2 : Nat),
      g.random_cell s k fuel = some (c, k2) → some c ∈ g.cells) := by
  constructor
  · intro g s k fuel hmask
    induction fuel generalizing k with
    | zero => rfl
    | succ f ih =>
      unfold Grid.random_cell
      split
      · rfl
      · split
        case _ c hc =>
          have hmem : some c ∈ g.cells := List.getElem?_mem (getD_some_slot _ _ _ hc)
          exact absurd (hmask _ hmem) (by simp)
        case _ => exact ih (k + 1)
  · intro g s k fuel c k2 h
    induction fuel generalizing k with
    | zero => exact absurd h (by simp [Grid.random_cell])
    | succ f ih =>
      unfold Grid.random_cell at h
      split at h
      · exact absurd h (by simp)
      · split at h
        case _ c2 hc =>
          simp only [Option.some_inj, Prod.mk.injEq] at h
          obtain ⟨hcc, _⟩ := h
          subst hcc
          exact List.getElem?_mem (getD_some_slot _ _ _ hc)
        case _ => exact ih (k + 1) h

/-- Witness for C7_random_cell on the fully masked 1x2 grid: with every slot
empty the retry loop yields nothing for any fuel (here 5). -/
theorem C7_random_cell_witness :
    Grid.random_cell { width := 1, height := 2, cells := [none, none] } (fun _ => 0) 0 5 = none :=
  C7_random_cell.1 { width := 1, height := 2, cells := [none, none] } (fun _ => 0) 0 5
    (by decide)

/-- The grid of the failing input for aldous_broder: a 1x2 rectangular grid
whose second cell is masked away, leaving one present cell. -/
def maskedGrid12 : Grid :=
  ((RectangularGrid.new 1 2).maskWith
    { mask := [true, false], width := 1, height := 2 }).getD (RectangularGrid.new 0 0)

/-- C4: aldous_broder does not treat masked cells as absent: its unvisited
counter starts at width*height - 1 (here 1) although the single present cell
leaves zero cells to visit, so on the masked 1x2 grid the walk immediately
draws from an empty neighbour pool and dies (an empty-range gen_range panic),
for every amount of fuel. -/
theorem C4_aldous_broder_masked :
    maskedGrid12.presentPoints = [⟨0, 0⟩] ∧
    maskedGrid12.width * maskedGrid12.height - 1 = 1 ∧
    ∀ fuel, Algorithm.aldous_broder maskedGrid12 (fun _ => 0) fuel = none := by
  refine ⟨by decide, by decide, fun fuel => ?_⟩
  cases fuel with
  | zero => rfl
  | succ f =>
    show (match maskedGrid12.random_cell (fun _ => 0) 0 (f + 1) with
      | none => none
      | some (c, k) => abLoop maskedGrid12 (fun _ => 0) (f + 1) (maskedGrid12.width * maskedGrid12.height - 1) c k) = none
    rfl

/-- The close condition exactly as claim C3 words it: a run closes when at the
eastern boundary, or when the cell is not in the northern boundary row (y = 0)
and the coin chooses close.  Stated for comparison with shouldCloseOut, the
condition the source actually evaluates. -/
def closePerSpecC3 (w : Nat) (c : Cell) (coin : Bool) : Bool :=
  decide (c.east.point.x = (w : Int)) || (decide (¬ c.point.y = 0) && coin)

/-- C3 is false as stated: in a width-2 grid the cell (0,1) sits in row 1, so
the claim closes its run on a true coin, but the source's at_northern_boundary
test north.point.y <= 0 also captures row 1 and forces an extend; moreover the
row-0 cell (1,0) at the eastern boundary does close its run, and the close
emits a north-directed action out of row 0 (toward the absent point (0,-1)),
as the sidewinder action list of the 2x2 grid shows. -/
theorem C3_counterexample :
    shouldCloseOut 2 (Cell.new ⟨0, 1⟩) true ≠ closePerSpecC3 2 (Cell.new ⟨0, 1⟩) true ∧
    shouldCloseOut 2 (Cell.new ⟨1, 0⟩) false = true ∧
    ((⟨0, 0⟩, ⟨0, -1⟩) : Point × Point) ∈
      swActions 2 (fun _ => 0) (chunksExact 2 (RectangularGrid.new 2 2).cells) 0 := by
  refine ⟨by decide, by decide, by decide⟩

/-- C3 (amended): a sidewinder run closes exactly when the cell is at the
eastern boundary or lies in row 2 or below (y >= 2) with a true coin — the
source treats rows 0 and 1 both as the northern boundary — and every recorded
action either extends a run east from its own cell or links some member of the
current run toward that member's north slot. -/
theorem C3_amended :
    (∀ (w : Nat) (p : Point) (coin : Bool),
      shouldCloseOut w (Cell.new p) coin =
        (decide (p.x + 1 = (w : Int)) || (decide ((2 : Int) ≤ p.y) && coin))) ∧
    (∀ (w : Nat) (s : Nat → Nat) (row : List (Option Cell)) (run : List Cell) (k : Nat),
      ∀ a ∈ (swRow w s row run k).1,
        (∃ c : Cell, some c ∈ row ∧ a = (c.point, c.east.point)) ∨
        (∃ m : Cell, (m ∈ run ∨ some m ∈ row) ∧ a = (m.point, m.north.point))) := by
  constructor
  · intro w p coin
    have h1 : ((Cell.new p).east.point.x = (w : Int)) = (p.x + 1 = (w : Int)) := by
      simp [Cell.new, Point.add]
    have h2 : ((Cell.new p).north.point.y ≤ 0) = ¬((2 : Int) ≤ p.y) := by
      simp only [Cell.new, Point.add]
      exact propext ⟨fun h => by omega, fun h => by omega⟩
    unfold shouldCloseOut
    simp only [h1, h2, decide_not, Bool.not_not]
  · intro w s row
    induction row with
    | nil => intro run k a ha; exact absurd ha (by simp [swRow])
    | cons oc rest ih =>
      intro run k a ha
      cases oc with
      | none =>
        rcases ih run k a (by simpa [swRow] using ha) with ⟨c, hc, he⟩ | ⟨m, hm, he⟩
        · exact Or.inl ⟨c, List.mem_cons_of_mem _ hc, he⟩
        · rcases hm with hm | hm
          · exact Or.inr ⟨m, Or.inl hm, he⟩
          · exact Or.inr ⟨m, Or.inr (List.mem_cons_of_mem _ hm), he⟩
      | some c =>
        have hgetmem : ∀ (l : List Cell) (i : Nat) (d : Cell), l.getD i d ∈ l ∨ l.getD i d = d := by
          intro l i d
          rw [List.getD_eq_getElem?_getD]
          rcases h2 : l[i]? with _ | x
          · exact Or.inr rfl
          · exact Or.inl (by simpa using List.getElem?_mem h2)
        have hmemrun2 : ∀ i, (run ++ [c]).getD i c ∈ run ∨ (run ++ [c]).getD i c = c := by
          intro i
          rcases hgetmem (run ++ [c]) i c with hm | hm
          · rcases List.mem_append.mp hm with hm2 | hm2
            · exact Or.inl hm2
            · exact Or.inr (by simpa using hm2)
          · exact Or.inr hm
        simp only [swRow] at ha
        split at ha
        · rcases List.mem_cons.mp ha with he | htail
          · subst he
            rcases hmemrun2 (s k % (run ++ [c]).length) with hm | hm
            · exact Or.inr ⟨_, Or.inl hm, rfl⟩
            · exact Or.inr ⟨c, Or.inr (List.mem_cons_self _ _), by rw [hm]⟩
          · rcases ih [] (k + 1) a htail with ⟨c2, hc2, he2⟩ | ⟨m, hm, he2⟩
            · exact Or.inl ⟨c2, List.mem_cons_of_mem _ hc2, he2⟩
            · rcases hm with hm | hm
              · exact absurd hm (by simp)
              · exact Or.inr ⟨m, Or.inr (List.mem_cons_of_mem _ hm), he2⟩
        · split at ha
          · rcases List.mem_cons.mp ha with he | htail
            · exact Or.inl ⟨c, List.mem_cons_self _ _, he⟩
            · rcases ih (run ++ [c]) k a htail with ⟨c2, hc2, he2⟩ | ⟨m, hm, he2⟩
              · exact Or.inl ⟨c2, List.mem_cons_of_mem _ hc2, he2⟩
              · rcases hm with hm | hm
                · rcases List.mem_append.mp hm with hm2 | hm2
                  · exact Or.inr ⟨m, Or.inl hm2, he2⟩
                  · exact Or.inr ⟨m, Or.inr (by simp at hm2; rw [hm2]; exact List.mem_cons_self _ _), he2⟩
                · exact Or.inr ⟨m, Or.inr (List.mem_cons_of_mem _ hm), he2⟩
          · split at ha
            · rcases List.mem_cons.mp ha with he | htail
              · subst he
                rcases hmemrun2 (s (k + 1) % (run ++ [c]).length) with hm | hm
                · exact Or.inr ⟨_, Or.inl hm, rfl⟩
                · exact Or.inr ⟨c, Or.inr (List.mem_cons_self _ _), by rw [hm]⟩
              · rcases ih [] (k + 2) a htail with ⟨c2, hc2, he2⟩ | ⟨m, hm, he2⟩
                · exact Or.inl ⟨c2, List.mem_cons_of_mem _ hc2, he2⟩
                · rcases hm with hm | hm
                  · exact absurd hm (by simp)
                  · exact Or.inr ⟨m, Or.inr (List.mem_cons_of_mem _ hm), he2⟩
            · rcases List.mem_cons.mp ha with he | htail
              · exact Or.inl ⟨c, List.mem_cons_self _ _, he⟩
              · rcases ih (run ++ [c]) (k + 1) a htail with ⟨c2, hc2, he2⟩ | ⟨m, hm, he2⟩
                · exact Or.inl ⟨c2, List.mem_cons_of_mem _ hc2, he2⟩
                · rcases hm with hm | hm
                  · rcases List.mem_append.mp hm with hm2 | hm2
                    · exact Or.inr ⟨m, Or.inl hm2, he2⟩
                    · exact Or.inr ⟨m, Or.inr (by simp at hm2; rw [hm2]; exact List.mem_cons_self _ _), he2⟩
                  · exact Or.inr ⟨m, Or.inr (List.mem_cons_of_mem _ hm), he2⟩

/-- Witness for C3_amended: the close predicate at the width-3 cell (0,2) with
a true coin, and the action shape of the first recorded action of a
two-cell row. -/
theorem C3_amended_witness :
    shouldCloseOut 3 (Cell.new ⟨0, 2⟩) true =
      (decide (((⟨0, 2⟩ : Point).x + 1 : Int) = ((3 : Nat) : Int)) ||
        (decide ((2 : Int) ≤ (⟨0, 2⟩ : Point).y) && true)) ∧
    ((∃ c : Cell, some c ∈ [some (Cell.new ⟨0, 0⟩), some (Cell.new ⟨1, 0⟩)] ∧
        ((⟨0, 0⟩, ⟨1, 0⟩) : Point × Point) = (c.point, c.east.point)) ∨
     (∃ m : Cell,
        (m ∈ ([] : List Cell) ∨ some m ∈ [some (Cell.new ⟨0, 0⟩), some (Cell.new ⟨1, 0⟩)]) ∧
        ((⟨0, 0⟩, ⟨1, 0⟩) : Point × Point) = (m.point, m.north.point))) :=
  ⟨C3_amended.1 3 ⟨0, 2⟩ true,
   C3_amended.2 2 (fun _ => 0) [some (Cell.new ⟨0, 0⟩), some (Cell.new ⟨1, 0⟩)] [] 0
     (⟨0, 0⟩, ⟨1, 0⟩) (by decide)⟩

/-- The row generator of RectangularGrid.new. -/
def newRow (w y : Nat) : List (Option Cell) :=
  (List.range w).map (fun x => some (Cell.new ⟨Int.ofNat x, Int.ofNat y⟩))

theorem new_cells_eq (w h : Nat) :
    (RectangularGrid.new w h).cells = (List.range h).flatMap (newRow w) := rfl

theorem newRow_length (w y : Nat) : (newRow w y).length = w := by
  simp [newRow]

theorem new_cells_length (w h : Nat) : (RectangularGrid.new w h).cells.length = w * h := by
  rw [new_cells_eq]
  induction h with
  | zero => simp
  | succ n ih =>
    rw [List.range_succ, List.flatMap_append, List.length_append, ih]
    simp [newRow, Nat.mul_succ]

theorem new_cells_getElem (w h i : Nat) (hi : i < w * h) :
    (RectangularGrid.new w h).cells[i]? = some (some (Cell.new (idxPoint w i))) := by
  rw [new_cells_eq]
  induction h with
  | zero => omega
  | succ n ih =>
    have hlen : ((List.range n).flatMap (newRow w)).length = w * n := by
      have := new_cells_length w n
      rw [new_cells_eq] at this
      exact this
    have hsucc : w * (n + 1) = w * n + w := by ring
    rw [List.range_succ, List.flatMap_append]
    by_cases hlt : i < w * n
    · rw [List.getElem?_append_left (by omega)]
      exact ih hlt
    · rw [List.getElem?_append_right (by omega), hlen]
      have hw : 0 < w := by by_contra h0; omega
      have hj : i - w * n < w := by omega
      simp only [List.flatMap_cons, List.flatMap_nil, List.append_nil, newRow,
        List.getElem?_map, List.getElem?_range hj, Option.map_some]
      have hi2 : i = w * n + (i - w * n) := by omega
      have hx : i % w = i - w * n := by
        conv_lhs => rw [hi2]
        rw [Nat.mul_add_mod]
        exact Nat.mod_eq_of_lt hj
      have hy : i / w = n := by
        conv_lhs => rw [hi2]
        rw [Nat.mul_add_div hw, Nat.div_eq_of_lt hj, Nat.add_zero]
      simp [idxPoint, hx, hy]

theorem slotOK_new (w i : Nat) : slotOK w i (some (Cell.new (idxPoint w i))) = true := by
  simp only [slotOK, Cell.new, Point.add, Point.north, Point.south, Point.east, Point.west,
    idxPoint, Bool.and_eq_true, decide_eq_true_eq, Point.mk.injEq, Int.sub_eq_add_neg,
    add_zero, and_true, true_and, and_self]

theorem WF_new (w h : Nat) : (RectangularGrid.new w h).WF := by
  constructor
  · exact new_cells_length w h
  · intro i hi
    have hi2 : i < w * h := by
      rw [new_cells_length w h] at hi
      exact hi
    rw [List.getD_eq_getElem?_getD, new_cells_getElem w h i hi2]
    exact slotOK_new w i

theorem applyMask_length (cs : List (Option Cell)) (vs : List Bool) (cs2 : List (Option Cell))
    (h : applyMask cs vs = some cs2) : cs2.length = cs.length := by
  induction vs generalizing cs cs2 with
  | nil =>
    have heq : applyMask cs [] = some cs := by cases cs <;> rfl
    rw [heq, Option.some_inj] at h
    rw [← h]
  | cons v vs ih =>
    cases cs with
    | nil =>
      have heq : applyMask ([] : List (Option Cell)) (v :: vs) = none := rfl
      rw [heq] at h
      exact absurd h (by simp)
    | cons c cs =>
      unfold applyMask at h
      cases h2 : applyMask cs vs with
      | none => rw [h2] at h; exact absurd h (by simp)
      | some rest =>
        rw [h2] at h
        simp only [Option.map_some', Option.some_inj] at h
        subst h
        simp [ih cs rest h2]

theorem applyMask_getElem (cs : List (Option Cell)) (vs : List Bool) (cs2 : List (Option Cell))
    (h : applyMask cs vs = some cs2) :
    ∀ i : Nat, cs2[i]? = cs[i]? ∨ cs2[i]? = some none := by
  induction vs generalizing cs cs2 with
  | nil =>
    have heq : applyMask cs [] = some cs := by cases cs <;> rfl
    rw [heq, Option.some_inj] at h
    subst h
    exact fun i => Or.inl rfl
  | cons v vs ih =>
    cases cs with
    | nil =>
      have heq : applyMask ([] : List (Option Cell)) (v :: vs) = none := rfl
      rw [heq] at h
      exact absurd h (by simp)
    | cons c cs =>
      unfold applyMask at h
      cases h2 : applyMask cs vs with
      | none => rw [h2] at h; exact absurd h (by simp)
      | some rest =>
        rw [h2] at h
        simp only [Option.map_some', Option.some_inj] at h
        subst h
        intro i
        cases i with
        | zero =>
          cases v with
          | false => exact Or.inr (by simp)
          | true => exact Or.inl (by simp)
        | succ j =>
          rw [List.getElem?_cons_succ, List.getElem?_cons_succ]
          exact ih cs rest h2 j

/-- Clears the four linked flags of a slot, leaving coordinates untouched. -/
def stripLinks : Option Cell → Option Cell
  | none => none
  | some c => some
    { c with
      north := { c.north with linked := false }
      east := { c.east with linked := false }
      south := { c.south with linked := false }
      west := { c.west with linked := false } }

theorem cell_link_strip (c : Cell) (b : Point) (c2 : Cell) (h : c.link b = some c2) :
    stripLinks (some c2) = stripLinks (some c) := by
  unfold Cell.link at h
  split at h
  · rw [Option.some_inj] at h; subst h; rfl
  · split at h
    · rw [Option.some_inj] at h; subst h; rfl
    · split at h
      · rw [Option.some_inj] at h; subst h; rfl
      · split at h
        · rw [Option.some_inj] at h; subst h; rfl
        · exact absurd h (by simp)

theorem cell_link_points (c : Cell) (b : Point) (c2 : Cell) (h : c.link b = some c2) :
    c2.point = c.point ∧ c2.north.point = c.north.point ∧ c2.south.point = c.south.point ∧
    c2.east.point = c.east.point ∧ c2.west.point = c.west.point := by
  unfold Cell.link at h
  split at h
  · rw [Option.some_inj] at h; subst h; exact ⟨rfl, rfl, rfl, rfl, rfl⟩
  · split at h
    · rw [Option.some_inj] at h; subst h; exact ⟨rfl, rfl, rfl, rfl, rfl⟩
    · split at h
      · rw [Option.some_inj] at h; subst h; exact ⟨rfl, rfl, rfl, rfl, rfl⟩
      · split at h
        · rw [Option.some_inj] at h; subst h; exact ⟨rfl, rfl, rfl, rfl, rfl⟩
        · exact absurd h (by simp)

theorem slotOK_of_points (w i : Nat) (c c2 : Cell)
    (hpts : c2.point = c.point ∧ c2.north.point = c.north.point ∧ c2.south.point = c.south.point ∧
      c2.east.point = c.east.point ∧ c2.west.point = c.west.point)
    (h : slotOK w i (some c) = true) : slotOK w i (some c2) = true := by
  obtain ⟨h1, h2, h3, h4, h5⟩ := hpts
  simp only [slotOK, Bool.and_eq_true, decide_eq_true_eq] at *
  rw [h1, h2, h3, h4, h5]
  exact h

theorem point_to_index_lt (g : Grid) (p : Point) (i : Nat)
    (h : g.point_to_index p = some i) : i < g.cells.length := by
  unfold Grid.point_to_index at h
  split at h
  · exact absurd h (by simp)
  · simp only at h
    split at h
    · exact absurd h (by simp)
    · rw [Option.some_inj] at h
      omega

theorem linkHalf_WF (g : Grid) (a b : Point) (g2 : Grid)
    (hwf : g.WF) (h : g.linkHalf a b = some g2) :
    g2.WF ∧ g2.cells.map stripLinks = g.cells.map stripLinks ∧
    g2.width = g.width ∧ g2.height = g.height := by
  unfold Grid.linkHalf at h
  split at h
  case _ => rw [Option.some_inj] at h; subst h; exact ⟨hwf, rfl, rfl, rfl⟩
  case _ ia hia =>
    split at h
    case _ => rw [Option.some_inj] at h; subst h; exact ⟨hwf, rfl, rfl, rfl⟩
    case _ ca hca =>
      split at h
      case _ => exact absurd h (by simp)
      case _ ca2 hl =>
        rw [Option.some_inj] at h
        subst h
        have hlt : ia < g.cells.length := point_to_index_lt g a ia hia
        refine ⟨⟨by simpa using hwf.1, ?_⟩, ?_, rfl, rfl⟩
        · intro i hi
          simp only [List.length_set] at hi
          by_cases hieq : i = ia
          · subst hieq
            rw [List.getD_eq_getElem?_getD, List.getElem?_set_eq_of_lt _ hlt, Option.getD_some]
            have hslot : slotOK g.width i (g.cells.getD i none) = true := hwf.2 i hi
            rw [List.getD_eq_getElem?_getD] at hslot
            rw [getD_some_slot g.cells i ca hca] at hslot
            exact slotOK_of_points g.width i ca ca2 (cell_link_points ca b ca2 hl)
              (by simpa using hslot)
          · rw [List.getD_eq_getElem?_getD, List.getElem?_set_ne (fun he => hieq he.symm)]
            rw [← List.getD_eq_getElem?_getD]
            exact hwf.2 i hi
        · apply List.ext_getElem?
          intro i
          simp only [List.getElem?_map]
          by_cases hieq : i = ia
          · subst hieq
            rw [List.getElem?_set_eq_of_lt _ hlt]
            rw [getD_some_slot g.cells i ca hca]
            simp only [Option.map_some']
            rw [cell_link_strip ca b ca2 hl]
          · rw [List.getElem?_set_ne (fun he => hieq he.symm)]

/-- C10: RectangularGrid.new establishes the structural invariant (cell at
flat index i carries coordinate (i mod width, i div width) and cardinal
neighbour slots); masking preserves it and only replaces whole slots by none;
linking preserves it and changes only linked flags, never stored coordinates. -/
theorem link_WF (g : Grid) (a b : Point) (bidi : Bool) (g' : Grid) (hwf : g.WF)
    (h : g.link a b bidi = some g') :
    g'.WF ∧ g'.cells.map stripLinks = g.cells.map stripLinks := by
  obtain ⟨g2, h1, hrest⟩ := link_split g a b bidi g' h
  obtain ⟨hwf2, hstrip2, hw2, hh2⟩ := linkHalf_WF g a b g2 hwf h1
  rcases hrest with ⟨_, h2⟩ | ⟨_, h2⟩
  · obtain ⟨hwf3, hstrip3, _, _⟩ := linkHalf_WF g2 b a g' hwf2 h2
    exact ⟨hwf3, hstrip3.trans hstrip2⟩
  · subst h2
    exact ⟨hwf2, hstrip2⟩

theorem C10_structural_invariant :
    (∀ w h, (RectangularGrid.new w h).WF) ∧
    (∀ (g : Grid) (m : Mask) (g' : Grid), g.WF → g.maskWith m = some g' →
      g'.WF ∧ ∀ i : Nat, g'.cells[i]? = g.cells[i]? ∨ g'.cells[i]? = some none) ∧
    (∀ (g : Grid) (a b : Point) (bidi : Bool) (g' : Grid), g.WF → g.link a b bidi = some g' →
      g'.WF ∧ g'.cells.map stripLinks = g.cells.map stripLinks) := by
  refine ⟨WF_new, ?_, ?_⟩
  · intro g m g' hwf h
    unfold Grid.maskWith at h
    cases h2 : applyMask g.cells m.mask with
    | none => rw [h2] at h; exact absurd h (by simp)
    | some cs2 =>
      rw [h2] at h
      simp only [Option.map_some', Option.some_inj] at h
      subst h
      have hlen := applyMask_length g.cells m.mask cs2 h2
      have hget := applyMask_getElem g.cells m.mask cs2 h2
      refine ⟨⟨by simpa [hlen] using hwf.1, ?_⟩, hget⟩
      intro i hi
      simp only at hi ⊢
      rcases hget i with hg | hg
      · rw [List.getD_eq_getElem?_getD, hg, ← List.getD_eq_getElem?_getD]
        exact hwf.2 i (by omega)
      · rw [List.getD_eq_getElem?_getD, hg]
        rfl
  · intro g a b bidi g' hwf h
    exact link_WF g a b bidi g' hwf h

/-- The 2x2 grid with a single east-west passage carved between (0,0) and
(1,0), used as a concrete witness input. -/
def linkedGrid22 : Grid :=
  ((RectangularGrid.new 2 2).link ⟨0, 0⟩ ⟨1, 0⟩ true).getD (RectangularGrid.new 0 0)

/-- Witness for C10_structural_invariant on concrete grids. -/
theorem C10_witness :
    (RectangularGrid.new 2 2).WF ∧
    (maskedGrid12.WF ∧ ∀ i : Nat,
      maskedGrid12.cells[i]? = (RectangularGrid.new 1 2).cells[i]? ∨
      maskedGrid12.cells[i]? = some none) ∧
    (linkedGrid22.WF ∧
      linkedGrid22.cells.map stripLinks = (RectangularGrid.new 2 2).cells.map stripLinks) :=
  ⟨C10_structural_invariant.1 2 2,
   C10_structural_invariant.2.1 (RectangularGrid.new 1 2)
     { mask := [true, false], width := 1, height := 2 } maskedGrid12
     (C10_structural_invariant.1 1 2) rfl,
   C10_structural_invariant.2.2 (RectangularGrid.new 2 2) ⟨0, 0⟩ ⟨1, 0⟩ true linkedGrid22
     (C10_structural_invariant.1 2 2) rfl⟩

/-- Exactly one cardinal step apart. -/
def adjacentPt (a b : Point) : Prop :=
  b = a.north ∨ b = a.south ∨ b = a.east ∨ b = a.west

theorem get_point (g : Grid) (p : Point) (c : Cell) (h : g.get p = some c) : c.point = p := by
  unfold Grid.get at h
  have := List.find?_some h
  simpa using this

theorem get_mem (g : Grid) (p : Point) (c : Cell) (h : g.get p = some c) : some c ∈ g.cells := by
  unfold Grid.get at h
  have hmem := List.mem_of_find?_eq_some h
  rcases List.mem_filterMap.mp hmem with ⟨oc, hoc, hid⟩
  cases oc with
  | none => exact absurd hid (by simp)
  | some c2 => simp only [id_eq, Option.some_inj] at hid; rw [hid] at hoc; exact hoc

theorem mem_index (g : Grid) (c : Cell) (h : some c ∈ g.cells) :
    ∃ i, i < g.cells.length ∧ g.cells[i]? = some (some c) := by
  rcases List.getElem?_of_mem h with ⟨i, hi⟩
  exact ⟨i, by
    rcases List.getElem?_eq_some_iff.mp hi with ⟨hlt, _⟩
    exact hlt, hi⟩

theorem WF_slot_points (g : Grid) (c : Cell) (i : Nat)
    (hwf : g.WF) (hi : i < g.cells.length) (hc : g.cells[i]? = some (some c)) :
    c.point = idxPoint g.width i ∧ c.north.point = c.point.north ∧
    c.south.point = c.point.south ∧ c.east.point = c.point.east ∧
    c.west.point = c.point.west := by
  have := hwf.2 i hi
  rw [List.getD_eq_getElem?_getD, hc] at this
  simp only [Option.getD_some, slotOK, Bool.and_eq_true, decide_eq_true_eq] at this
  tauto

theorem WF_mem_unique (g : Grid) (c c2 : Cell) (hwf : g.WF)
    (h : some c ∈ g.cells) (h2 : some c2 ∈ g.cells) (hp : c.point = c2.point) : c = c2 := by
  rcases mem_index g c h with ⟨i, hi, hci⟩
  rcases mem_index g c2 h2 with ⟨j, hj, hcj⟩
  have hpi := (WF_slot_points g c i hwf hi hci).1
  have hpj := (WF_slot_points g c2 j hwf hj hcj).1
  have hw : 0 < g.width := by
    rcases Nat.eq_zero_or_pos g.width with h0 | h0
    · rw [hwf.1, h0] at hi; omega
    · exact h0
  have hij : i = j := by
    rw [hpi, hpj] at hp
    simp only [idxPoint, Point.mk.injEq, Int.ofNat_inj] at hp
    obtain ⟨hmod, hdiv⟩ := hp
    have d1 := Nat.div_add_mod i g.width
    have d2 := Nat.div_add_mod j g.width
    have hmul : g.width * (i / g.width) = g.width * (j / g.width) := by rw [hdiv]
    omega
  rw [hij] at hci
  rw [hci] at hcj
  simpa using hcj

theorem WF_get_of_mem (g : Grid) (c : Cell) (hwf : g.WF) (h : some c ∈ g.cells) :
    g.get c.point = some c := by
  unfold Grid.get
  have hmem2 : c ∈ g.cells.filterMap id := List.mem_filterMap.mpr ⟨some c, h, rfl⟩
  have hsome : ((g.cells.filterMap id).find? (fun x => decide (x.point = c.point))).isSome := by
    rw [List.find?_isSome]
    exact ⟨c, hmem2, by simp⟩
  rcases Option.isSome_iff_exists.mp hsome with ⟨c2, hc2⟩
  rw [hc2]
  have hpt : c2.point = c.point := by simpa using List.find?_some hc2
  have hmemc2 : some c2 ∈ g.cells := by
    rcases List.mem_filterMap.mp (List.mem_of_find?_eq_some hc2) with ⟨oc, hoc, hid⟩
    cases oc with
    | none => exact absurd hid (by simp)
    | some c3 => simp only [id_eq, Option.some_inj] at hid; rw [hid] at hoc; exact hoc
  rw [WF_mem_unique g c2 c hwf hmemc2 h hpt]

theorem WF_point_to_index (g : Grid) (c : Cell) (i : Nat) (hwf : g.WF)
    (hi : i < g.cells.length) (hc : g.cells[i]? = some (some c)) :
    g.point_to_index c.point = some i := by
  have hpt := (WF_slot_points g c i hwf hi hc).1
  unfold Grid.point_to_index
  rw [hpt]
  simp only [idxPoint]
  rw [if_neg (by
    intro hcon
    rcases hcon with hlt | hlt <;> exact absurd hlt (Int.not_lt.mpr (by positivity)))]
  have harith : (((i / g.width : Nat) : Int) * (g.width : Int) + ((i % g.width : Nat) : Int)).toNat = i := by
    have hcast : (((i / g.width : Nat) : Int) * (g.width : Int) + ((i % g.width : Nat) : Int)) =
        ((g.width * (i / g.width) + i % g.width : Nat) : Int) := by push_cast; ring
    rw [hcast, Int.toNat_natCast, Nat.div_add_mod]
  simp only [harith]
  rw [if_neg (by omega)]

theorem WF_get_index (g : Grid) (p : Point) (c : Cell) (hwf : g.WF) (h : g.get p = some c) :
    ∃ i, i < g.cells.length ∧ g.cells[i]? = some (some c) ∧ g.point_to_index p = some i ∧
      c.point = p := by
  have hpt := get_point g p c h
  rcases mem_index g c (get_mem g p c h) with ⟨i, hi, hci⟩
  exact ⟨i, hi, hci, hpt ▸ WF_point_to_index g c i hwf hi hci, hpt⟩

theorem mem_links_iff (c : Cell) (q : Point) :
    q ∈ c.links ↔ ((c.north.linked = true ∧ q = c.north.point) ∨
      (c.south.linked = true ∧ q = c.south.point) ∨
      (c.east.linked = true ∧ q = c.east.point) ∨
      (c.west.linked = true ∧ q = c.west.point)) := by
  simp only [Cell.links, List.mem_append, List.mem_ite_nil_right, List.mem_singleton]
  tauto

theorem cell_link_adj (c : Cell) (b : Point)
    (hsl : c.north.point = c.point.north ∧ c.south.point = c.point.south ∧
      c.east.point = c.point.east ∧ c.west.point = c.point.west)
    (hadj : adjacentPt c.point b) :
    ∃ c2, c.link b = some c2 ∧
      (∀ q, q ∈ c2.links ↔ (q ∈ c.links ∨ q = b)) ∧ c2.point = c.point := by
  obtain ⟨hn, hs, he, hw⟩ := hsl
  rcases hadj with hb | hb | hb | hb
  · refine ⟨{ c with north := { c.north with linked := true } }, ?_, ?_, rfl⟩
    · unfold Cell.link
      rw [if_pos (by rw [hb]; unfold Point.north Point.sub; simp only [Point.mk.injEq]; omega)]
    · intro q
      rw [mem_links_iff, mem_links_iff]
      simp only
      rw [hb, ← hn]
      tauto
  · refine ⟨{ c with south := { c.south with linked := true } }, ?_, ?_, rfl⟩
    · unfold Cell.link
      rw [if_neg (by rw [hb]; unfold Point.south Point.sub; simp only [Point.mk.injEq]; omega),
        if_pos (by rw [hb]; unfold Point.south Point.sub; simp only [Point.mk.injEq]; omega)]
    · intro q
      rw [mem_links_iff, mem_links_iff]
      simp only
      rw [hb, ← hs]
      tauto
  · refine ⟨{ c with east := { c.east with linked := true } }, ?_, ?_, rfl⟩
    · unfold Cell.link
      rw [if_neg (by rw [hb]; unfold Point.east Point.sub; simp only [Point.mk.injEq]; omega),
        if_neg (by rw [hb]; unfold Point.east Point.sub; simp only [Point.mk.injEq]; omega),
        if_pos (by rw [hb]; unfold Point.east Point.sub; simp only [Point.mk.injEq]; omega)]
    · intro q
      rw [mem_links_iff, mem_links_iff]
      simp only
      rw [hb, ← he]
      tauto
  · refine ⟨{ c with west := { c.west with linked := true } }, ?_, ?_, rfl⟩
    · unfold Cell.link
      rw [if_neg (by rw [hb]; unfold Point.west Point.sub; simp only [Point.mk.injEq]; omega),
        if_neg (by rw [hb]; unfold Point.west Point.sub; simp only [Point.mk.injEq]; omega),
        if_neg (by rw [hb]; unfold Point.west Point.sub; simp only [Point.mk.injEq]; omega),
        if_pos (by rw [hb]; unfold Point.west Point.sub; simp only [Point.mk.injEq]; omega)]
    · intro q
      rw [mem_links_iff, mem_links_iff]
      simp only
      rw [hb, ← hw]
      tauto

theorem adjacentPt_symm (a b : Point) (h : adjacentPt a b) : adjacentPt b a := by
  rcases h with h | h | h | h
  · refine Or.inr (Or.inl ?_)
    rw [h]; rcases a with ⟨x, y⟩
    simp only [Point.north, Point.south, Point.mk.injEq, true_and, and_true]
    omega
  · refine Or.inl ?_
    rw [h]; rcases a with ⟨x, y⟩
    simp only [Point.north, Point.south, Point.mk.injEq, true_and, and_true]
    omega
  · refine Or.inr (Or.inr (Or.inr ?_))
    rw [h]; rcases a with ⟨x, y⟩
    simp only [Point.east, Point.west, Point.mk.injEq, true_and, and_true]
    omega
  · refine Or.inr (Or.inr (Or.inl ?_))
    rw [h]; rcases a with ⟨x, y⟩
    simp only [Point.east, Point.west, Point.mk.injEq, true_and, and_true]
    omega

theorem adjacentPt_ne (a b : Point) (h : adjacentPt a b) : a ≠ b := by
  rcases h with h | h | h | h <;>
    (rw [h]; rcases a with ⟨x, y⟩;
     simp only [Point.north, Point.south, Point.east, Point.west, ne_eq, Point.mk.injEq,
       not_and];
     intro h2; omega)

theorem link_adj_some (g : Grid) (a b : Point) (ca cb : Cell) (hwf : g.WF)
    (ha : g.get a = some ca) (hb : g.get b = some cb) (hadj : adjacentPt a b) :
    ∃ g' ca2 cb2, g.link a b true = some g' ∧ g'.WF ∧
      g'.width = g.width ∧ g'.height = g.height ∧ g'.cells.length = g.cells.length ∧
      (∀ p, p ≠ a → p ≠ b → g'.get p = g.get p) ∧
      g'.get a = some ca2 ∧ (∀ q, q ∈ ca2.links ↔ (q ∈ ca.links ∨ q = b)) ∧
      g'.get b = some cb2 ∧ (∀ q, q ∈ cb2.links ↔ (q ∈ cb.links ∨ q = a)) := by
  obtain ⟨ia, hia, hcia, hidxa, hpa⟩ := WF_get_index g a ca hwf ha
  obtain ⟨ib, hib, hcib, hidxb, hpb⟩ := WF_get_index g b cb hwf hb
  have hne : a ≠ b := adjacentPt_ne a b hadj
  have hiane : ia ≠ ib := by
    intro he
    rw [he, hcib] at hcia
    simp only [Option.some_inj] at hcia
    exact hne (by rw [← hpa, ← hcia, hpb])
  have hsla := WF_slot_points g ca ia hwf hia hcia
  have hslb := WF_slot_points g cb ib hwf hib hcib
  obtain ⟨ca2, hlka, hlinksa, hpca2⟩ := cell_link_adj ca b
    ⟨hsla.2.1, hsla.2.2.1, hsla.2.2.2.1, hsla.2.2.2.2⟩ (hpa ▸ hadj)
  obtain ⟨cb2, hlkb, hlinksb, hpcb2⟩ := cell_link_adj cb a
    ⟨hslb.2.1, hslb.2.2.1, hslb.2.2.2.1, hslb.2.2.2.2⟩ (hpb ▸ adjacentPt_symm a b hadj)
  -- first half
  have hgetD_ia : g.cells.getD ia none = some ca := by
    rw [List.getD_eq_getElem?_getD, hcia]; rfl
  have h1 : g.linkHalf a b = some { g with cells := g.cells.set ia (some ca2) } := by
    unfold Grid.linkHalf
    simp only [hidxa, hgetD_ia, hlka]
  set g2 : Grid := { g with cells := g.cells.set ia (some ca2) } with hg2
  have hg2len : g2.cells.length = g.cells.length := by simp [hg2]
  have hg2idx : g2.point_to_index b = some ib := by
    rw [point_to_index_congr g g2 b (by simp [hg2]) hg2len]
    exact hidxb
  have hgetD2_ib : g2.cells.getD ib none = some cb := by
    rw [List.getD_eq_getElem?_getD]
    show (g.cells.set ia (some ca2))[ib]?.getD none = some cb
    rw [List.getElem?_set_ne hiane, hcib]
    rfl
  have h2 : g2.linkHalf b a = some { g2 with cells := g2.cells.set ib (some cb2) } := by
    unfold Grid.linkHalf
    simp only [hg2idx, hgetD2_ib, hlkb]
  set g' : Grid := { g2 with cells := g2.cells.set ib (some cb2) } with hg'
  have hlink : g.link a b true = some g' := by
    unfold Grid.link
    rw [h1]
    simp only [if_pos rfl]
    exact h2
  have hwf' : g'.WF ∧ g'.cells.map stripLinks = g.cells.map stripLinks :=
    link_WF g a b true g' hwf hlink
  have hlen' : g'.cells.length = g.cells.length := by simp [hg', hg2]
  -- slot contents of g'
  have hslots : ∀ i : Nat, g'.cells[i]? =
      (if i = ib then some (some cb2) else if i = ia then some (some ca2) else g.cells[i]?) := by
    intro i
    by_cases hieqb : i = ib
    · subst hieqb
      rw [if_pos rfl]
      show (g2.cells.set i (some cb2))[i]? = some (some cb2)
      exact List.getElem?_set_eq_of_lt _ (by rw [hg2len]; exact hib)
    · rw [if_neg hieqb]
      have hstep : g'.cells[i]? = g2.cells[i]? := by
        show (g2.cells.set ib (some cb2))[i]? = g2.cells[i]?
        exact List.getElem?_set_ne (fun he => hieqb he.symm)
      by_cases hieqa : i = ia
      · subst hieqa
        rw [if_pos rfl, hstep]
        show (g.cells.set i (some ca2))[i]? = some (some ca2)
        exact List.getElem?_set_eq_of_lt _ hia
      · rw [if_neg hieqa, hstep]
        show (g.cells.set ia (some ca2))[i]? = g.cells[i]?
        exact List.getElem?_set_ne (fun he => hieqa he.symm)
  have hwidth' : g'.width = g.width := by simp [hg', hg2]
  -- presence characterisation of g'
  have hgeta : g'.get a = some ca2 := by
    have hmem : some ca2 ∈ g'.cells := List.getElem?_mem (by
      rw [hslots ia, if_neg hiane, if_pos rfl])
    have := WF_get_of_mem g' ca2 hwf'.1 hmem
    rw [hpca2, hpa] at this
    exact this
  have hgetb : g'.get b = some cb2 := by
    have hmem : some cb2 ∈ g'.cells := List.getElem?_mem (by
      rw [hslots ib, if_pos rfl])
    have := WF_get_of_mem g' cb2 hwf'.1 hmem
    rw [hpcb2, hpb] at this
    exact this
  have hgetother : ∀ p, p ≠ a → p ≠ b → g'.get p = g.get p := by
    intro p hpa2 hpb2
    cases hgp : g.get p with
    | some cp =>
      obtain ⟨ip, hip, hcip, _, hppt⟩ := WF_get_index g p cp hwf hgp
      have hipa : ip ≠ ia := by
        intro he
        rw [he, hcia] at hcip
        simp only [Option.some_inj] at hcip
        exact hpa2 (by rw [← hppt, ← hcip, hpa])
      have hipb : ip ≠ ib := by
        intro he
        rw [he, hcib] at hcip
        simp only [Option.some_inj] at hcip
        exact hpb2 (by rw [← hppt, ← hcip, hpb])
      have hmem : some cp ∈ g'.cells := List.getElem?_mem (by
        rw [hslots ip, if_neg hipb, if_neg hipa]; exact hcip)
      have := WF_get_of_mem g' cp hwf'.1 hmem
      rw [hppt] at this
      rw [this]
    | none =>
      cases hgp' : g'.get p with
      | none => rfl
      | some cp' =>
        obtain ⟨ip, hip, hcip, _, hppt⟩ := WF_get_index g' p cp' hwf'.1 hgp'
        rw [hslots ip] at hcip
        by_cases hieqb : ip = ib
        · rw [if_pos hieqb] at hcip
          simp only [Option.some_inj] at hcip
          exact absurd (by rw [← hppt, ← hcip, hpcb2, hpb]) hpb2
        · rw [if_neg hieqb] at hcip
          by_cases hieqa : ip = ia
          · rw [if_pos hieqa] at hcip
            simp only [Option.some_inj] at hcip
            exact absurd (by rw [← hppt, ← hcip, hpca2, hpa]) hpa2
          · rw [if_neg hieqa] at hcip
            have hmem : some cp' ∈ g.cells := List.getElem?_mem hcip
            have := WF_get_of_mem g cp' hwf hmem
            rw [hppt, hgp] at this
            exact absurd this (by simp)
  exact ⟨g', ca2, cb2, hlink, hwf'.1, hwidth', by simp [hg', hg2], hlen',
    hgetother, hgeta, hlinksa, hgetb, hlinksb⟩

theorem linkedTo_update (g g' : Grid) (a b : Point) (ca cb ca2 cb2 : Cell)
    (ha : g.get a = some ca) (hb : g.get b = some cb) (hne : a ≠ b)
    (hgetother : ∀ p, p ≠ a → p ≠ b → g'.get p = g.get p)
    (hgeta : g'.get a = some ca2) (hlinksa : ∀ q, q ∈ ca2.links ↔ (q ∈ ca.links ∨ q = b))
    (hgetb : g'.get b = some cb2) (hlinksb : ∀ q, q ∈ cb2.links ↔ (q ∈ cb.links ∨ q = a)) :
    ∀ p q, g'.linkedTo p q = true ↔
      (g.linkedTo p q = true ∨ (p = a ∧ q = b) ∨ (p = b ∧ q = a)) := by
  intro p q
  unfold Grid.linkedTo
  by_cases hpa : p = a
  · subst hpa
    rw [hgeta, ha]
    simp only [decide_eq_true_eq, hlinksa]
    constructor
    · rintro (hq | hq)
      · exact Or.inl hq
      · exact Or.inr (Or.inl ⟨trivial, hq⟩)
    · rintro (hq | h2 | h2)
      · exact Or.inl hq
      · exact Or.inr h2.2
      · exact absurd h2.1 hne
  · by_cases hpb : p = b
    · subst hpb
      rw [hgetb, hb]
      simp only [decide_eq_true_eq, hlinksb]
      constructor
      · rintro (hq | hq)
        · exact Or.inl hq
        · exact Or.inr (Or.inr ⟨trivial, hq⟩)
      · rintro (hq | h2 | h2)
        · exact Or.inl hq
        · exact absurd h2.1 hpa
        · exact Or.inr h2.2
    · rw [hgetother p hpa hpb]
      constructor
      · exact fun hq => Or.inl hq
      · rintro (hq | h2 | h2)
        · exact hq
        · exact absurd h2.1 hpa
        · exact absurd h2.1 hpb

theorem isSome_update (g g' : Grid) (a b : Point) (ca cb ca2 cb2 : Cell)
    (ha : g.get a = some ca) (hb : g.get b = some cb)
    (hgetother : ∀ p, p ≠ a → p ≠ b → g'.get p = g.get p)
    (hgeta : g'.get a = some ca2) (hgetb : g'.get b = some cb2) :
    ∀ p, (g'.get p).isSome = (g.get p).isSome := by
  intro p
  by_cases hpa : p = a
  · subst hpa; rw [hgeta, ha]; rfl
  · by_cases hpb : p = b
    · subst hpb; rw [hgetb, hb]; rfl
    · rw [hgetother p hpa hpb]

theorem linkAll_props (pairs : List (Point × Point)) :
    ∀ (g g' : Grid), g.WF →
    (∀ pr ∈ pairs, (g.get pr.1).isSome = true ∧ (g.get pr.2).isSome = true ∧
      adjacentPt pr.1 pr.2) →
    linkAll g pairs = some g' →
    g'.WF ∧ g'.width = g.width ∧ g'.height = g.height ∧
    (∀ p, (g'.get p).isSome = (g.get p).isSome) ∧
    (∀ p q, g'.linkedTo p q = true ↔
      (g.linkedTo p q = true ∨ ∃ pr ∈ pairs, (p = pr.1 ∧ q = pr.2) ∨ (p = pr.2 ∧ q = pr.1))) := by
  induction pairs with
  | nil =>
    intro g g' hwf _ h
    simp only [linkAll, Option.some_inj] at h
    subst h
    exact ⟨hwf, rfl, rfl, fun p => rfl, fun p q => by simp⟩
  | cons pr rest ih =>
    intro g g' hwf hok h
    obtain ⟨a, b⟩ := pr
    obtain ⟨hsa, hsb, hadj⟩ := hok (a, b) (List.mem_cons_self _ _)
    rcases Option.isSome_iff_exists.mp hsa with ⟨ca, hca⟩
    rcases Option.isSome_iff_exists.mp hsb with ⟨cb, hcb⟩
    obtain ⟨g2, ca2, cb2, hlink, hwf2, hw2, hh2, hlen2, hgetother, hgeta, hlinksa, hgetb,
      hlinksb⟩ := link_adj_some g a b ca cb hwf hca hcb hadj
    have hne := adjacentPt_ne a b hadj
    unfold linkAll at h
    rw [hlink] at h
    have hpres2 := isSome_update g g2 a b ca cb ca2 cb2 hca hcb hgetother hgeta hgetb
    have hok2 : ∀ q ∈ rest, (g2.get q.1).isSome = true ∧ (g2.get q.2).isSome = true ∧
        adjacentPt q.1 q.2 := by
      intro q hq
      obtain ⟨h1, h2, h3⟩ := hok q (List.mem_cons_of_mem _ hq)
      exact ⟨(hpres2 q.1).trans h1, (hpres2 q.2).trans h2, h3⟩
    obtain ⟨hwf', hw', hh', hpres', hlinked'⟩ := ih g2 g' hwf2 hok2 h
    have hlt2 := linkedTo_update g g2 a b ca cb ca2 cb2 hca hcb hne hgetother hgeta hlinksa
      hgetb hlinksb
    refine ⟨hwf', hw'.trans hw2, hh'.trans hh2, fun p => (hpres' p).trans (hpres2 p), ?_⟩
    intro p q
    rw [hlinked' p q, hlt2 p q]
    constructor
    · rintro ((hl | hpq | hpq) | ⟨pr2, hpr2, hc⟩)
      · exact Or.inl hl
      · exact Or.inr ⟨(a, b), List.mem_cons_self _ _, Or.inl hpq⟩
      · exact Or.inr ⟨(a, b), List.mem_cons_self _ _, Or.inr hpq⟩
      · exact Or.inr ⟨pr2, List.mem_cons_of_mem _ hpr2, hc⟩
    · rintro (hl | ⟨pr2, hpr2, hc⟩)
      · exact Or.inl (Or.inl hl)
      · rcases List.mem_cons.mp hpr2 with he | hm
        · subst he
          rcases hc with hc | hc
          · exact Or.inl (Or.inr (Or.inl hc))
          · exact Or.inl (Or.inr (Or.inr hc))
        · exact Or.inr ⟨pr2, hm, hc⟩

/-- The linked relation restricted to present cells is symmetric. -/
def Grid.SymmLinked (g : Grid) : Prop :=
  ∀ p q : Point, (g.get p).isSome = true → (g.get q).isSome = true →
    g.linkedTo p q = g.linkedTo q p

/-- C8: linking two present, cardinally adjacent cells bidirectionally marks
both facing slots, and any sequence of such bidirectional link calls on a
well-formed grid with a symmetric linked relation leaves the relation
symmetric between present cells. -/
theorem C8_link_symmetric (g : Grid) (pairs : List (Point × Point)) (g' : Grid)
    (hwf : g.WF) (hsymm : g.SymmLinked)
    (hok : ∀ pr ∈ pairs, (g.get pr.1).isSome = true ∧ (g.get pr.2).isSome = true ∧
      adjacentPt pr.1 pr.2)
    (h : linkAll g pairs = some g') :
    g'.SymmLinked ∧
    ∀ pr ∈ pairs, g'.linkedTo pr.1 pr.2 = true ∧ g'.linkedTo pr.2 pr.1 = true := by
  obtain ⟨_, _, _, hpres, hlinked⟩ := linkAll_props pairs g g' hwf hok h
  constructor
  · intro p q hp hq
    have hp0 : (g.get p).isSome = true := by rw [← hpres p]; exact hp
    have hq0 : (g.get q).isSome = true := by rw [← hpres q]; exact hq
    have hiff : g'.linkedTo p q = true ↔ g'.linkedTo q p = true := by
      rw [hlinked p q, hlinked q p, hsymm p q hp0 hq0]
      constructor
      · rintro (hl | ⟨pr2, hm, hc | hc⟩)
        · exact Or.inl hl
        · exact Or.inr ⟨pr2, hm, Or.inr ⟨hc.2, hc.1⟩⟩
        · exact Or.inr ⟨pr2, hm, Or.inl ⟨hc.2, hc.1⟩⟩
      · rintro (hl | ⟨pr2, hm, hc | hc⟩)
        · exact Or.inl hl
        · exact Or.inr ⟨pr2, hm, Or.inr ⟨hc.2, hc.1⟩⟩
        · exact Or.inr ⟨pr2, hm, Or.inl ⟨hc.2, hc.1⟩⟩
    cases h1 : g'.linkedTo p q <;> cases h2 : g'.linkedTo q p
    · rfl
    · exact absurd (hiff.mpr h2) (by rw [h1]; simp)
    · exact absurd (hiff.mp h1) (by rw [h2]; simp)
    · rfl
  · intro pr hm
    constructor
    · rw [hlinked pr.1 pr.2]
      exact Or.inr ⟨pr, hm, Or.inl ⟨rfl, rfl⟩⟩
    · rw [hlinked pr.2 pr.1]
      exact Or.inr ⟨pr, hm, Or.inr ⟨rfl, rfl⟩⟩

instance (a b : Point) : Decidable (adjacentPt a b) :=
  inferInstanceAs (Decidable (_ ∨ _ ∨ _ ∨ _))

theorem new_linkedTo_false (w h : Nat) (p q : Point) :
    (RectangularGrid.new w h).linkedTo p q = false := by
  unfold Grid.linkedTo
  cases hg : (RectangularGrid.new w h).get p with
  | none => rfl
  | some c =>
    have hmem := get_mem _ p c hg
    rcases mem_index _ c hmem with ⟨i, hi, hci⟩
    have hcc := new_cells_getElem w h i (by rw [← new_cells_length w h]; exact hi)
    rw [hcc] at hci
    simp only [Option.some_inj] at hci
    rw [← hci]
    simp [Cell.new, Cell.links]

theorem new_SymmLinked (w h : Nat) : (RectangularGrid.new w h).SymmLinked :=
  fun p q _ _ => by rw [new_linkedTo_false, new_linkedTo_false]

/-- Witness for C8 on the 2x2 grid and the single pair ((0,0),(1,0)). -/
theorem C8_link_symmetric_witness :
    linkedGrid22.SymmLinked ∧
    ∀ pr ∈ [((⟨0, 0⟩, ⟨1, 0⟩) : Point × Point)],
      linkedGrid22.linkedTo pr.1 pr.2 = true ∧ linkedGrid22.linkedTo pr.2 pr.1 = true :=
  C8_link_symmetric (RectangularGrid.new 2 2) [(⟨0, 0⟩, ⟨1, 0⟩)] linkedGrid22
    (WF_new 2 2) (new_SymmLinked 2 2)
    (by decide) rfl

theorem dlookup_isSome_find (m : List (Point × Nat)) (p : Point) :
    (dlookup m p).isSome = (m.find? (fun e => decide (e.1 = p))).isSome := by
  unfold dlookup
  cases m.find? (fun e => decide (e.1 = p)) <;> rfl

theorem dlookup_append (m1 m2 : List (Point × Nat)) (q : Point) :
    dlookup (m1 ++ m2) q = if (dlookup m1 q).isSome then dlookup m1 q else dlookup m2 q := by
  unfold dlookup
  rw [List.find?_append]
  cases m1.find? (fun e => decide (e.1 = q)) with
  | none => simp
  | some e => simp

theorem find?_map_replace (m : List (Point × Nat)) (p q : Point) (v : Nat) :
    dlookup (m.map (fun e => if e.1 = p then (p, v) else e)) q =
      if q = p then (if (dlookup m p).isSome then some v else none) else dlookup m q := by
  induction m with
  | nil =>
    unfold dlookup
    simp only [List.map_nil, List.find?_nil]
    split <;> simp
  | cons e m ih =>
    simp only [List.map_cons]
    by_cases hep : e.1 = p
    · rw [if_pos hep]
      by_cases hq : q = p
      · rw [if_pos hq]
        unfold dlookup
        rw [List.find?_cons_of_pos _ (by simp [hq]),
          List.find?_cons_of_pos _ (by simp [hep, hq])]
        simp
      · rw [if_neg hq]
        unfold dlookup
        rw [List.find?_cons_of_neg _ (by simp; exact fun he => hq he.symm),
          List.find?_cons_of_neg _ (by simp [hep]; exact fun he => hq he.symm)]
        have := ih
        unfold dlookup at this
        rw [this, if_neg hq]
    · rw [if_neg hep]
      by_cases hq : q = p
      · rw [if_pos hq]
        unfold dlookup
        rw [List.find?_cons_of_neg _ (by simp [hq]; exact fun he => hep he),
          List.find?_cons_of_neg _ (by simp; exact fun he => hep (hq ▸ he))]
        have := ih
        unfold dlookup at this
        rw [this, if_pos hq]
      · by_cases heq : e.1 = q
        · rw [if_neg hq]
          unfold dlookup
          rw [List.find?_cons_of_pos _ (by simp [heq]),
            List.find?_cons_of_pos _ (by simp [heq])]
        · rw [if_neg hq]
          unfold dlookup
          rw [List.find?_cons_of_neg _ (by simp [heq]),
            List.find?_cons_of_neg _ (by simp [heq])]
          have := ih
          unfold dlookup at this
          rw [this, if_neg hq]

theorem dlookup_cons_self (e : Point × Nat) (m : List (Point × Nat)) :
    dlookup (e :: m) e.1 = some e.2 := by
  unfold dlookup
  rw [List.find?_cons_of_pos _ (by simp)]
  rfl

theorem dlookup_cons_ne (e : Point × Nat) (m : List (Point × Nat)) (q : Point) (h : e.1 ≠ q) :
    dlookup (e :: m) q = dlookup m q := by
  unfold dlookup
  rw [List.find?_cons_of_neg _ (by simpa using h)]

theorem dlookup_nil (q : Point) : dlookup [] q = none := rfl

theorem dlookup_dinsert (m : List (Point × Nat)) (p q : Point) (v : Nat) :
    dlookup (dinsert m p v) q = if q = p then some v else dlookup m q := by
  unfold dinsert
  by_cases hc : (m.find? (fun e => decide (e.1 = p))).isSome
  · rw [if_pos hc, find?_map_replace]
    by_cases hq : q = p
    · rw [if_pos hq, if_pos hq, if_pos (by rw [dlookup_isSome_find]; exact hc)]
    · rw [if_neg hq, if_neg hq]
  · rw [if_neg hc, dlookup_append]
    have hnone : dlookup m p = none := by
      unfold dlookup
      rcases h2 : m.find? (fun e => decide (e.1 = p)) with _ | e
      · rw [h2]; rfl
      · rw [h2] at hc; exact (hc (by rfl)).elim
    by_cases hq : q = p
    · rw [hq, hnone]
      simp only [Option.isSome_none, Bool.false_eq_true, if_false]
      exact dlookup_cons_self (p, v) []
    · by_cases hs : (dlookup m q).isSome
      · rw [if_pos hs, if_neg hq]
      · rw [if_neg hs, if_neg hq]
        rw [dlookup_cons_ne (p, v) [] q (fun he => hq he.symm), dlookup_nil]
        rcases h3 : dlookup m q with _ | x
        · rfl
        · rw [h3] at hs; exact (hs (by rfl)).elim

/-- p is at shortest directed link distance n from r. -/
def minDistP (g : Grid) (r p : Point) (n : Nat) : Prop :=
  ReachN g r n p ∧ ∀ j, ReachN g r j p → n ≤ j

theorem reachN_zero (g : Grid) (r p : Point) : ReachN g r 0 p ↔ p = r := by
  constructor
  · intro h
    cases h
    rfl
  · intro h
    subst h
    exact ReachN.refl

theorem reachN_succ (g : Grid) (r p : Point) (n : Nat) :
    ReachN g r (n + 1) p ↔ ∃ q, ReachN g r n q ∧ LinkStep g q p := by
  constructor
  · intro h
    cases h with
    | tail hq hs => exact ⟨_, hq, hs⟩
  · rintro ⟨q, hq, hs⟩
    exact ReachN.tail hq hs

theorem minDistP_unique (g : Grid) (r p : Point) (n n2 : Nat)
    (h : minDistP g r p n) (h2 : minDistP g r p n2) : n = n2 :=
  Nat.le_antisymm (h.2 n2 h2.1) (h2.2 n h.1)

theorem exists_minDist (g : Grid) (r p : Point) (n : Nat) (h : ReachN g r n p) :
    ∃ m, minDistP g r p m := by
  classical
  have hex : ∃ j, ReachN g r j p := ⟨n, h⟩
  exact ⟨Nat.find hex, Nat.find_spec hex, fun j hj => Nat.find_le hj⟩

theorem minDist_root (g : Grid) (r : Point) : minDistP g r r 0 :=
  ⟨ReachN.refl, fun j _ => Nat.zero_le j⟩

theorem minDist_zero (g : Grid) (r p : Point) (h : minDistP g r p 0) : p = r :=
  (reachN_zero g r p).mp h.1

theorem minDist_no_gap (g : Grid) (r p : Point) (k : Nat) (h : minDistP g r p (k + 1)) :
    ∃ q, minDistP g r q k ∧ LinkStep g q p := by
  rcases (reachN_succ g r p k).mp h.1 with ⟨q, hq, hs⟩
  rcases exists_minDist g r q k hq with ⟨j, hj⟩
  have hjk : j ≤ k := hj.2 k hq
  have hk : k ≤ j := by
    by_contra hlt
    push_neg at hlt
    have : ReachN g r (j + 1) p := ReachN.tail hj.1 hs
    have := h.2 (j + 1) this
    omega
  have hjeq : j = k := Nat.le_antisymm hjk hk
  exact ⟨q, hjeq ▸ hj, hs⟩

/-- Map states reached during one BFS round: entries are the old levels up to
k plus the freshly inserted level-(k+1) points listed in nf. -/
def RoundInv (g : Grid) (r : Point) (k : Nat) (m : List (Point × Nat)) (nf : List Point) : Prop :=
  (∀ p n, dlookup m p = some n ↔
    ((n ≤ k ∧ minDistP g r p n) ∨ (n = k + 1 ∧ p ∈ nf))) ∧
  nf.Nodup ∧
  (∀ p, p ∈ nf → minDistP g r p (k + 1))

theorem linkFold_spec (g : Grid) (r : Point) (k : Nat) (pt : Point)
    (hminpt : minDistP g r pt k) :
    ∀ (ls : List Point) (m : List (Point × Nat)) (nf : List Point),
    RoundInv g r k m nf →
    (∀ l ∈ ls, LinkStep g pt l) →
    ∃ m2 nf2, linkFold pt ls m nf = some (m2, nf2) ∧
      RoundInv g r k m2 nf2 ∧
      (∀ p, p ∈ nf → p ∈ nf2) ∧
      (∀ l ∈ ls, l ∈ nf2 ∨ ∃ j, j ≤ k ∧ minDistP g r l j) := by
  intro ls
  induction ls with
  | nil =>
    intro m nf hinv _
    exact ⟨m, nf, rfl, hinv, fun p hp => hp, fun l hl => absurd hl (by simp)⟩
  | cons l ls ih =>
    intro m nf hinv hls
    obtain ⟨hmap, hnodup, hnfmin⟩ := hinv
    have hstep : LinkStep g pt l := hls l (List.mem_cons_self _ _)
    have hptk : dlookup m pt = some k := (hmap pt k).mpr (Or.inl ⟨le_refl k, hminpt⟩)
    by_cases hc : (dlookup m l).isSome
    · rcases Option.isSome_iff_exists.mp hc with ⟨n, hn⟩
      have hcase := (hmap l n).mp hn
      have hres : linkFold pt (l :: ls) m nf = linkFold pt ls m nf := by
        rw [linkFold, if_pos hc]
      rcases ih m nf ⟨hmap, hnodup, hnfmin⟩ (fun x hx => hls x (List.mem_cons_of_mem _ hx))
        with ⟨m2, nf2, hrun, hinv2, hsub, hcov⟩
      refine ⟨m2, nf2, by rw [hres]; exact hrun, hinv2, hsub, ?_⟩
      intro x hx
      rcases List.mem_cons.mp hx with he | hm2
      · subst he
        rcases hcase with ⟨hle, hmin⟩ | ⟨_, hnf⟩
        · exact Or.inr ⟨n, hle, hmin⟩
        · exact Or.inl (hsub x hnf)
      · exact hcov x hm2
    · -- fresh insert at k+1
      have hlnotin : l ∉ nf := by
        intro hmem
        have := (hmap l (k + 1)).mpr (Or.inr ⟨rfl, hmem⟩)
        rw [this] at hc
        exact hc rfl
      have hlmin : minDistP g r l (k + 1) := by
        have hreach : ReachN g r (k + 1) l := ReachN.tail hminpt.1 hstep
        refine ⟨hreach, fun j hj => ?_⟩
        by_contra hlt
        push_neg at hlt
        have hjk : j ≤ k := by omega
        rcases exists_minDist g r l j hj with ⟨j2, hj2⟩
        have hj2k : j2 ≤ k := le_trans (hj2.2 j hj) hjk
        have := (hmap l j2).mpr (Or.inl ⟨hj2k, hj2⟩)
        rw [this] at hc
        exact hc rfl
      have hres : linkFold pt (l :: ls) m nf =
          linkFold pt ls (dinsert m l (k + 1)) (nf ++ [l]) := by
        rw [linkFold, if_neg hc, hptk]
      have hmap2 : ∀ p n, dlookup (dinsert m l (k + 1)) p = some n ↔
          ((n ≤ k ∧ minDistP g r p n) ∨ (n = k + 1 ∧ p ∈ nf ++ [l])) := by
        intro p n
        rw [dlookup_dinsert]
        by_cases hp : p = l
        · subst hp
          rw [if_pos rfl]
          constructor
          · intro hn
            simp only [Option.some_inj] at hn
            exact Or.inr ⟨hn.symm, by simp⟩
          · rintro (⟨hle, hmin⟩ | ⟨hn, _⟩)
            · exact absurd (minDistP_unique g r p _ _ hmin hlmin) (by omega)
            · rw [hn]
        · rw [if_neg hp]
          rw [hmap p n]
          constructor
          · rintro (ho | ⟨hn, hnf⟩)
            · exact Or.inl ho
            · exact Or.inr ⟨hn, List.mem_append_left _ hnf⟩
          · rintro (ho | ⟨hn, hnf⟩)
            · exact Or.inl ho
            · rcases List.mem_append.mp hnf with h2 | h2
              · exact Or.inr ⟨hn, h2⟩
              · simp only [List.mem_singleton] at h2
                exact absurd h2 hp
      have hnodup2 : (nf ++ [l]).Nodup := by
        rw [List.nodup_append]
        exact ⟨hnodup, List.nodup_singleton l, by
          intro x hx hx2
          simp only [List.mem_singleton] at hx2
          subst hx2
          exact hlnotin hx⟩
      have hnfmin2 : ∀ p, p ∈ nf ++ [l] → minDistP g r p (k + 1) := by
        intro p hp
        rcases List.mem_append.mp hp with h2 | h2
        · exact hnfmin p h2
        · simp only [List.mem_singleton] at h2
          exact h2 ▸ hlmin
      rcases ih (dinsert m l (k + 1)) (nf ++ [l]) ⟨hmap2, hnodup2, hnfmin2⟩
        (fun x hx => hls x (List.mem_cons_of_mem _ hx))
        with ⟨m2, nf2, hrun, hinv2, hsub, hcov⟩
      refine ⟨m2, nf2, by rw [hres]; exact hrun, hinv2, ?_, ?_⟩
      · intro p hp
        exact hsub p (List.mem_append_left _ hp)
      · intro x hx
        rcases List.mem_cons.mp hx with he | hm2
        · subst he
          exact Or.inl (hsub x (List.mem_append_right _ (by simp)))
        · exact hcov x hm2

theorem frontierFold_spec (g : Grid) (r : Point) (k : Nat) :
    ∀ (F : List Point) (m : List (Point × Nat)) (nf : List Point),
    RoundInv g r k m nf →
    (∀ p ∈ F, minDistP g r p k) →
    ∃ m2 nf2, frontierFold g F m nf = some (m2, nf2) ∧
      RoundInv g r k m2 nf2 ∧
      (∀ p, p ∈ nf → p ∈ nf2) ∧
      (∀ p q, p ∈ F → LinkStep g p q → (q ∈ nf2 ∨ ∃ j, j ≤ k ∧ minDistP g r q j)) := by
  intro F
  induction F with
  | nil =>
    intro m nf hinv _
    exact ⟨m, nf, rfl, hinv, fun p hp => hp, fun p q hp => absurd hp (by simp)⟩
  | cons pt F ih =>
    intro m nf hinv hF
    have hminpt : minDistP g r pt k := hF pt (List.mem_cons_self _ _)
    cases hget : g.get pt with
    | none =>
      have hres : frontierFold g (pt :: F) m nf = frontierFold g F m nf := by
        rw [frontierFold, hget]
      rcases ih m nf hinv (fun p hp => hF p (List.mem_cons_of_mem _ hp))
        with ⟨m2, nf2, hrun, hinv2, hsub, hcov⟩
      refine ⟨m2, nf2, by rw [hres]; exact hrun, hinv2, hsub, ?_⟩
      intro p q hp hs
      rcases List.mem_cons.mp hp with he | hm2
      · subst he
        rcases hs with ⟨c, hc, _⟩
        rw [hget] at hc
        exact absurd hc (by simp)
      · exact hcov p q hm2 hs
    | some c =>
      rcases linkFold_spec g r k pt hminpt c.links m nf hinv
        (fun l hl => ⟨c, hget, hl⟩)
        with ⟨m1, nf1, hrun1, hinv1, hsub1, hcov1⟩
      have hres : frontierFold g (pt :: F) m nf = frontierFold g F m1 nf1 := by
        rw [frontierFold, hget]
        show (match linkFold pt c.links m nf with
          | none => none
          | some (m2, nf2) => frontierFold g F m2 nf2) = frontierFold g F m1 nf1
        rw [hrun1]
      rcases ih m1 nf1 hinv1 (fun p hp => hF p (List.mem_cons_of_mem _ hp))
        with ⟨m2, nf2, hrun2, hinv2, hsub2, hcov2⟩
      refine ⟨m2, nf2, by rw [hres]; exact hrun2, hinv2,
        fun p hp => hsub2 p (hsub1 p hp), ?_⟩
      intro p q hp hs
      rcases List.mem_cons.mp hp with he | hm2
      · subst he
        rcases hs with ⟨c2, hc2, hql⟩
        rw [hget] at hc2
        simp only [Option.some_inj] at hc2
        subst hc2
        rcases hcov1 q hql with hn | ho
        · exact Or.inl (hsub2 q hn)
        · exact Or.inr ho
      · exact hcov2 p q hm2 hs

/-- The invariant carried between BFS rounds. -/
def BfsInv (g : Grid) (r : Point) (k : Nat) (m : List (Point × Nat)) (F : List Point) : Prop :=
  (∀ p n, dlookup m p = some n ↔ (n ≤ k ∧ minDistP g r p n)) ∧
  (∀ p, p ∈ F ↔ minDistP g r p k)

theorem bfs_round (g : Grid) (r : Point) (k : Nat) (m : List (Point × Nat)) (F : List Point)
    (hinv : BfsInv g r k m F) :
    ∃ m2 nf2, frontierFold g F m [] = some (m2, nf2) ∧ BfsInv g r (k + 1) m2 nf2 := by
  obtain ⟨hmap, hfr⟩ := hinv
  have hround : RoundInv g r k m [] := by
    refine ⟨fun p n => ?_, List.nodup_nil, fun p hp => absurd hp (by simp)⟩
    rw [hmap p n]
    simp
  rcases frontierFold_spec g r k F m [] hround (fun p hp => (hfr p).mp hp)
    with ⟨m2, nf2, hrun, ⟨hmap2, hnodup2, hmin2⟩, _, hcov⟩
  refine ⟨m2, nf2, hrun, ?_, ?_⟩
  · intro p n
    rw [hmap2 p n]
    constructor
    · rintro (⟨hle, hmin⟩ | ⟨hn, hnf⟩)
      · exact ⟨by omega, hmin⟩
      · exact ⟨by omega, hn ▸ hmin2 p hnf⟩
    · rintro ⟨hle, hmin⟩
      by_cases hk : n ≤ k
      · exact Or.inl ⟨hk, hmin⟩
      · have hn : n = k + 1 := by omega
        subst hn
        rcases minDist_no_gap g r p k hmin with ⟨q, hq, hs⟩
        rcases hcov q p ((hfr q).mpr hq) hs with hnf | ⟨j, hj, hjmin⟩
        · exact Or.inr ⟨rfl, hnf⟩
        · exact absurd (minDistP_unique g r p _ _ hjmin hmin) (by omega)
  · intro p
    constructor
    · exact fun hp => hmin2 p hp
    · intro hmin
      rcases minDist_no_gap g r p k hmin with ⟨q, hq, hs⟩
      rcases hcov q p ((hfr q).mpr hq) hs with hnf | ⟨j, hj, hjmin⟩
      · exact hnf
      · exact absurd (minDistP_unique g r p _ _ hjmin hmin) (by omega)

theorem bfs_no_level_above (g : Grid) (r : Point) (k : Nat)
    (hnone : ∀ p, ¬ minDistP g r p k) :
    ∀ j p, k ≤ j → ¬ minDistP g r p j := by
  intro j
  induction j with
  | zero =>
    intro p hle
    have hk : k = 0 := by omega
    exact hk ▸ hnone p
  | succ n ih =>
    intro p hle hmin
    by_cases hk : k = n + 1
    · exact hnone p (hk ▸ hmin)
    · have hkn : k ≤ n := by omega
      rcases minDist_no_gap g r p n hmin with ⟨q, hq, _⟩
      exact ih q hkn hq

theorem bfsLoop_correct (g : Grid) (r : Point) :
    ∀ (fuel : Nat) (k : Nat) (m : List (Point × Nat)) (F : List Point),
    BfsInv g r k m F →
    ∀ mf, bfsLoop g fuel m F = some mf →
    (∀ p n, dlookup mf p = some n ↔ minDistP g r p n) := by
  intro fuel
  induction fuel with
  | zero =>
    intro k m F hinv mf h
    cases F with
    | nil =>
      simp only [bfsLoop, Option.some_inj] at h
      subst h
      intro p n
      rw [hinv.1 p n]
      constructor
      · exact fun h2 => h2.2
      · intro hmin
        refine ⟨?_, hmin⟩
        by_contra hgt
        push_neg at hgt
        have hempty : ∀ q, ¬ minDistP g r q k := by
          intro q hq
          exact (by simpa using (hinv.2 q).mpr hq)
        exact bfs_no_level_above g r k hempty n p (by omega) hmin
    | cons a F2 => exact absurd h (by simp [bfsLoop])
  | succ f ih =>
    intro k m F hinv mf h
    cases F with
    | nil =>
      simp only [bfsLoop, Option.some_inj] at h
      subst h
      intro p n
      rw [hinv.1 p n]
      constructor
      · exact fun h2 => h2.2
      · intro hmin
        refine ⟨?_, hmin⟩
        by_contra hgt
        push_neg at hgt
        have hempty : ∀ q, ¬ minDistP g r q k := by
          intro q hq
          exact (by simpa using (hinv.2 q).mpr hq)
        exact bfs_no_level_above g r k hempty n p (by omega) hmin
    | cons a F2 =>
      rcases bfs_round g r k m (a :: F2) hinv with ⟨m2, nf2, hrun, hinv2⟩
      have hres : bfsLoop g (f + 1) m (a :: F2) = bfsLoop g f m2 nf2 := by
        have hstep : bfsLoop g (f + 1) m (a :: F2) =
            (match frontierFold g (a :: F2) m [] with
              | none => none
              | some (m3, nf3) => bfsLoop g f m3 nf3) := rfl
        rw [hstep, hrun]
      rw [hres] at h
      exact ih (k + 1) m2 nf2 hinv2 mf h

theorem compute_char (g : Grid) (d0 : Distances) (fuel : Nat) (d : Distances)
    (hempty : d0.cells = []) (h : d0.compute g fuel = some d) :
    d.root = d0.root ∧ ∀ p n, d.distance p = some n ↔ minDistP g d0.root p n := by
  unfold Distances.compute at h
  cases hb : bfsLoop g fuel (dinsert d0.cells d0.root 0) [d0.root] with
  | none => rw [hb] at h; exact absurd h (by simp)
  | some mf =>
    rw [hb] at h
    simp only [Option.map_some', Option.some_inj] at h
    subst h
    have hm0 : dinsert d0.cells d0.root 0 = [(d0.root, 0)] := by
      rw [hempty]
      rfl
    have hinv : BfsInv g d0.root 0 (dinsert d0.cells d0.root 0) [d0.root] := by
      rw [hm0]
      constructor
      · intro p n
        by_cases hp : p = d0.root
        · subst hp
          rw [show dlookup [(d0.root, 0)] d0.root = some 0 from dlookup_cons_self (d0.root, 0) []]
          constructor
          · intro h2
            simp only [Option.some_inj] at h2
            exact ⟨by omega, h2 ▸ minDist_root g d0.root⟩
          · rintro ⟨hle, hmin⟩
            have : n = 0 := by omega
            rw [this]
        · rw [dlookup_cons_ne (d0.root, 0) [] p (fun he => hp he.symm), dlookup_nil]
          constructor
          · intro h2
            exact absurd h2 (by simp)
          · rintro ⟨hle, hmin⟩
            have hn0 : n = 0 := by omega
            exact absurd (minDist_zero g d0.root p (hn0 ▸ hmin)) hp
      · intro p
        simp only [List.mem_singleton]
        constructor
        · intro hp
          exact hp ▸ minDist_root g d0.root
        · exact fun hmin => minDist_zero g d0.root p hmin
    exact ⟨rfl, bfsLoop_correct g d0.root fuel 0 _ _ hinv mf hb⟩

/-- C2: after compute from an empty distance map, the root is recorded at 0,
every recorded point's distance is the length of the shortest directed path of
links from the root, every link-reachable point is recorded, and every
unreachable point is absent. -/
theorem C2_compute_bfs (g : Grid) (d0 : Distances) (fuel : Nat) (d : Distances)
    (hempty : d0.cells = []) (h : d0.compute g fuel = some d) :
    d.root = d0.root ∧
    d.distance d0.root = some 0 ∧
    (∀ p n, d.distance p = some n →
      ReachN g d0.root n p ∧ ∀ j, ReachN g d0.root j p → n ≤ j) ∧
    (∀ p, Reach g d0.root p → (d.distance p).isSome = true) ∧
    (∀ p, ¬ Reach g d0.root p → d.distance p = none) := by
  obtain ⟨hroot, hchar⟩ := compute_char g d0 fuel d hempty h
  refine ⟨hroot, (hchar d0.root 0).mpr (minDist_root g d0.root), ?_, ?_, ?_⟩
  · intro p n h2
    exact (hchar p n).mp h2
  · rintro p ⟨n, hn⟩
    rcases exists_minDist g d0.root p n hn with ⟨j, hj⟩
    rw [(hchar p j).mpr hj]
    rfl
  · intro p hnr
    cases h2 : d.distance p with
    | none => rfl
    | some n => exact absurd ⟨n, ((hchar p n).mp h2).1⟩ hnr

/-- The distances of the concrete two-passage 2x2 grid, computed from (0,0). -/
def computedD22 : Distances :=
  ((Distances.new ⟨0, 0⟩).compute linkedGrid22 5).getD (Distances.new ⟨0, 0⟩)

/-- Witness for C2 on a concrete grid: computing on linkedGrid22 from (0,0)
satisfies all the BFS invariants. -/
theorem C2_compute_bfs_witness :
    computedD22.root = (Distances.new ⟨0, 0⟩).root ∧
    computedD22.distance ⟨0, 0⟩ = some 0 ∧
    (∀ p n, computedD22.distance p = some n →
      ReachN linkedGrid22 ⟨0, 0⟩ n p ∧ ∀ j, ReachN linkedGrid22 ⟨0, 0⟩ j p → n ≤ j) ∧
    (∀ p, Reach linkedGrid22 ⟨0, 0⟩ p → (computedD22.distance p).isSome = true) ∧
    (∀ p, ¬ Reach linkedGrid22 ⟨0, 0⟩ p → computedD22.distance p = none) :=
  C2_compute_bfs linkedGrid22 (Distances.new ⟨0, 0⟩) 5 computedD22 rfl rfl

theorem get_mem_filterMap (g : Grid) (p : Point) (c : Cell) (h : g.get p = some c) :
    c ∈ g.cells.filterMap id :=
  List.mem_of_find?_eq_some h

theorem symm_linkstep (g : Grid) (hsym : g.SymmLinks) (p q : Point) (h : LinkStep g p q) :
    ∃ cq, g.get q = some cq ∧ p ∈ cq.links := by
  rcases h with ⟨c, hget, hql⟩
  have hlt := hsym c (get_mem_filterMap g p c hget) q hql
  unfold Grid.linkedTo at hlt
  cases hq : g.get q with
  | none => rw [hq] at hlt; exact absurd hlt (by simp)
  | some cq =>
    rw [hq] at hlt
    simp only [decide_eq_true_eq] at hlt
    exact ⟨cq, rfl, by rw [get_point g p c hget] at hlt; exact hlt⟩

theorem findSmaller_first (d : Distances) (cur : Point) :
    ∀ ls : List Point, (∃ l ∈ ls, optLt (d.distance l) (d.distance cur) = true) →
    ∃ x, findSmaller d cur ls = some x ∧ x ∈ ls ∧ optLt (d.distance x) (d.distance cur) = true := by
  intro ls
  induction ls with
  | nil => rintro ⟨l, hl, _⟩; exact absurd hl (by simp)
  | cons l ls ih =>
    intro hex
    by_cases hl : optLt (d.distance l) (d.distance cur) = true
    · exact ⟨l, by rw [findSmaller, if_pos hl], List.mem_cons_self _ _, hl⟩
    · have hex2 : ∃ x ∈ ls, optLt (d.distance x) (d.distance cur) = true := by
        rcases hex with ⟨x, hx, hxlt⟩
        rcases List.mem_cons.mp hx with he | hm
        · exact absurd (he ▸ hxlt) hl
        · exact ⟨x, hm, hxlt⟩
      rcases ih hex2 with ⟨x, hrun, hm, hxlt⟩
      exact ⟨x, by rw [findSmaller, if_neg hl]; exact hrun, List.mem_cons_of_mem _ hm, hxlt⟩

theorem findSmaller_mem (d : Distances) (cur : Point) :
    ∀ (ls : List Point) (x : Point), findSmaller d cur ls = some x →
    x ∈ ls ∧ optLt (d.distance x) (d.distance cur) = true := by
  intro ls
  induction ls with
  | nil => intro x h; exact absurd h (by simp [findSmaller])
  | cons l ls ih =>
    intro x h
    by_cases hl : optLt (d.distance l) (d.distance cur) = true
    · rw [findSmaller, if_pos hl, Option.some_inj] at h
      subst h
      exact ⟨List.mem_cons_self _ _, hl⟩
    · rw [findSmaller, if_neg hl] at h
      rcases ih x h with ⟨hm, hxlt⟩
      exact ⟨List.mem_cons_of_mem _ hm, hxlt⟩

/-- The backward walk of shortest_path_to: each step moves to the first linked
neighbour whose recorded distance is Option-smaller, ending at the root. -/
def DescChain (g : Grid) (d : Distances) : List Point → Prop
  | [] => False
  | [p] => p = d.root
  | p :: q :: rest =>
    (∃ c, g.get p = some c ∧ findSmaller d p c.links = some q) ∧ DescChain g d (q :: rest)

theorem linked_dist_bounds (g : Grid) (d : Distances)
    (hchar : ∀ p n, d.distance p = some n ↔ minDistP g d.root p n)
    (hsym : g.SymmLinks) (p l : Point) (cp : Cell) (n : Nat)
    (hp : g.get p = some cp) (hrec : d.distance p = some n) (hl : l ∈ cp.links) :
    ∃ jl, d.distance l = some jl ∧ jl ≤ n + 1 ∧ n ≤ jl + 1 := by
  have hmin := (hchar p n).mp hrec
  have hstep : LinkStep g p l := ⟨cp, hp, hl⟩
  have hreach : ReachN g d.root (n + 1) l := ReachN.tail hmin.1 hstep
  rcases exists_minDist g d.root l (n + 1) hreach with ⟨jl, hjl⟩
  refine ⟨jl, (hchar l jl).mpr hjl, hjl.2 (n + 1) hreach, ?_⟩
  rcases symm_linkstep g hsym p l hstep with ⟨cl, hcl, hpl⟩
  have hback : LinkStep g l p := ⟨cl, hcl, hpl⟩
  exact hmin.2 (jl + 1) (ReachN.tail hjl.1 hback)

theorem spLoop_correct (g : Grid) (d : Distances)
    (hchar : ∀ p n, d.distance p = some n ↔ minDistP g d.root p n)
    (hsym : g.SymmLinks) :
    ∀ (n : Nat) (cur : Point) (bc : List (Point × Nat)) (fuel : Nat),
    minDistP g d.root cur n → n ≤ fuel →
    ∃ bc2 path,
      spLoop g d fuel bc cur = some bc2 ∧
      DescChain g d path ∧
      path.head? = some cur ∧
      path.length = n + 1 ∧
      (∀ i, i < path.length → d.distance (path.getD i d.root) = some (n - i)) ∧
      (∀ p, p ∈ path.tail → dlookup bc2 p = d.distance p) ∧
      (∀ p, p ∉ path.tail → dlookup bc2 p = dlookup bc p) := by
  intro n
  induction n with
  | zero =>
    intro cur bc fuel hmin _
    have hcur : cur = d.root := minDist_zero g d.root cur hmin
    refine ⟨bc, [cur], ?_, ?_, rfl, rfl, ?_, ?_, ?_⟩
    · subst hcur
      cases fuel with
      | zero =>
        have h0 : spLoop g d 0 bc d.root =
            (if d.root = d.root then some bc else none) := rfl
        rw [h0, if_pos rfl]
      | succ f2 =>
        have h0 : spLoop g d (f2 + 1) bc d.root =
            (if d.root = d.root then some bc
             else
               match g.get d.root with
               | none => none
               | some c =>
                 match findSmaller d d.root c.links with
                 | none => spLoop g d f2 bc d.root
                 | some n2 =>
                   match d.distance n2 with
                   | none => none
                   | some dn => spLoop g d f2 (dinsert bc n2 dn) n2) := rfl
        rw [h0, if_pos rfl]
    · exact hcur
    · intro i hi
      simp only [List.length_singleton] at hi
      have hi0 : i = 0 := by omega
      subst hi0
      simpa using (hchar cur 0).mpr hmin
    · intro p hp
      exact absurd hp (by simp)
    · intro p _
      rfl
  | succ n ih =>
    intro cur bc fuel hmin hfuel
    have hcurne : cur ≠ d.root := by
      intro he
      have := minDistP_unique g d.root cur (n + 1) 0 hmin (he ▸ minDist_root g d.root)
      omega
    rcases minDist_no_gap g d.root cur n hmin with ⟨q, hq, hqs⟩
    rcases symm_linkstep g hsym q cur hqs with ⟨ccur, hgetcur, hqin⟩
    have hcurrec : d.distance cur = some (n + 1) := (hchar cur (n + 1)).mpr hmin
    have hqrec : d.distance q = some n := (hchar q n).mpr hq
    -- q is a passing candidate, so findSmaller succeeds
    have hqpass : optLt (d.distance q) (d.distance cur) = true := by
      rw [hqrec, hcurrec]
      simp [optLt]
    rcases findSmaller_first d cur ccur.links ⟨q, hqin, hqpass⟩ with ⟨x, hfind, hxmem, hxlt⟩
    -- the chosen x has recorded distance exactly n
    obtain ⟨jx, hjx, hjxu, hjxl⟩ :=
      linked_dist_bounds g d hchar hsym cur x ccur (n + 1) hgetcur hcurrec hxmem
    have hjxn : jx = n := by
      rw [hjx, hcurrec] at hxlt
      simp only [optLt, decide_eq_true_eq] at hxlt
      omega
    subst hjxn
    have hxmin : minDistP g d.root x jx := (hchar x jx).mp hjx
    cases fuel with
    | zero => omega
    | succ f =>
      rcases ih x (dinsert bc x jx) f hxmin (by omega)
        with ⟨bc2, path, hrun, hchain, hhead, hlen, hlab, hin, hout⟩
      have hxnotintail : x ∉ path.tail := by
        intro hmem
        rcases List.mem_iff_getElem.mp hmem with ⟨i, hi, hgeti⟩
        have hi2 : i + 1 < path.length := by
          rcases path with _ | ⟨p0, rest⟩
          · simp at hmem
          · simp only [List.tail_cons] at hi
            simp only [List.length_cons]
            omega
        have := hlab (i + 1) hi2
        have hgetd : path.getD (i + 1) d.root = x := by
          rcases path with _ | ⟨p0, rest⟩
          · simp at hmem
          · simp only [List.tail_cons] at hgeti hi
            simp only [List.getD_cons_succ]
            rw [List.getD_eq_getElem?_getD, List.getElem?_eq_getElem hi, hgeti]
            rfl
        rw [hgetd, hjx] at this
        simp only [Option.some_inj] at this
        omega
      have hres : spLoop g d (f + 1) bc cur = spLoop g d f (dinsert bc x jx) x := by
        have h0 : spLoop g d (f + 1) bc cur =
            (if cur = d.root then some bc
             else
               match g.get cur with
               | none => none
               | some c =>
                 match findSmaller d cur c.links with
                 | none => spLoop g d f bc cur
                 | some n2 =>
                   match d.distance n2 with
                   | none => none
                   | some dn => spLoop g d f (dinsert bc n2 dn) n2) := rfl
        rw [h0, if_neg hcurne]
        simp only [hgetcur, hfind, hjx]
      refine ⟨bc2, cur :: path, by rw [hres]; exact hrun, ?_, rfl, ?_, ?_, ?_, ?_⟩
      · rcases path with _ | ⟨p0, rest⟩
        · exact absurd hchain (by simp [DescChain])
        · have hp0 : p0 = x := by simpa using hhead
          subst hp0
          exact ⟨⟨ccur, hgetcur, hfind⟩, hchain⟩
      · simp only [List.length_cons, hlen]
      · intro i hi
        cases i with
        | zero => simpa using hcurrec
        | succ j =>
          simp only [List.getD_cons_succ]
          simp only [List.length_cons] at hi
          have := hlab j (by omega)
          rw [this]
          congr 1
          omega
      · intro p hp
        simp only [List.tail_cons] at hp
        by_cases hpt : p ∈ path.tail
        · exact hin p hpt
        · have hpx : p = x := by
            rcases path with _ | ⟨p0, rest⟩
            · simp at hp
            · have hp0 : p0 = x := by simpa using hhead
              simp only [List.tail_cons] at hpt
              rcases List.mem_cons.mp hp with he | hm
              · exact he.trans hp0
              · exact absurd hm hpt
          subst hpx
          rw [hout p hxnotintail, dlookup_dinsert, if_pos rfl, hjx]
      · intro p hp
        simp only [List.tail_cons] at hp
        have hpt : p ∉ path.tail := by
          intro hmem
          exact hp (List.mem_of_mem_tail hmem)
        have hpx : p ≠ x := by
          intro he
          apply hp
          rcases path with _ | ⟨p0, rest⟩
          · exact absurd hchain (by simp [DescChain])
          · have hp0 : p0 = x := by simpa using hhead
            rw [he, ← hp0]
            exact List.mem_cons_self _ _
        rw [hout p hpt, dlookup_dinsert, if_neg hpx]

theorem descChain_biLinked (g : Grid) (d : Distances) (hsym : g.SymmLinks) :
    ∀ path, DescChain g d path → ∀ i, i + 1 < path.length →
      g.biLinked (path.getD i d.root) (path.getD (i + 1) d.root) = true := by
  intro path
  induction path with
  | nil => intro h; exact absurd h (by simp [DescChain])
  | cons p rest ih =>
    intro hchain i hi
    cases rest with
    | nil => simp at hi
    | cons q rest2 =>
      obtain ⟨⟨c, hget, hfind⟩, hchain2⟩ := hchain
      cases i with
      | zero =>
        have hqmem : q ∈ c.links := (findSmaller_mem d p c.links q hfind).1
        have hlpq : g.linkedTo p q = true := by
          unfold Grid.linkedTo
          rw [hget]
          simpa using hqmem
        have hlqp : g.linkedTo q p = true := by
          rcases symm_linkstep g hsym p q ⟨c, hget, hqmem⟩ with ⟨cq, hcq, hpin⟩
          unfold Grid.linkedTo
          rw [hcq]
          simpa using hpin
        simp only [List.getD_cons_zero, List.getD_cons_succ]
        unfold Grid.biLinked
        rw [hlpq, hlqp]
        rfl
      | succ j =>
        simp only [List.getD_cons_succ]
        simp only [List.length_cons] at hi
        exact ih hchain2 j (by simpa using hi)

theorem nodup_of_labels (d : Distances) (n : Nat) :
    ∀ path : List Point, path.length = n + 1 →
    (∀ i, i < path.length → d.distance (path.getD i d.root) = some (n - i)) →
    path.Nodup := by
  intro path hlen hlab
  rw [List.nodup_iff_injective_get]
  rintro ⟨i, hi⟩ ⟨j, hj⟩ he
  simp only [Fin.mk.injEq]
  have hgi : path.getD i d.root = path.get ⟨i, hi⟩ := by
    rw [List.getD_eq_getElem?_getD, List.getElem?_eq_getElem hi]
    rfl
  have hgj : path.getD j d.root = path.get ⟨j, hj⟩ := by
    rw [List.getD_eq_getElem?_getD, List.getElem?_eq_getElem hj]
    rfl
  have h1 := hlab i hi
  have h2 := hlab j hj
  rw [hgi, he, ← hgj, h2] at h1
  simp only [Option.some_inj] at h1
  omega

/-- Full specification of shortest_path_to on BFS-computed distances over a
grid with symmetric links: it returns a breadcrumb map whose domain is a
descending chain from the goal to the root. -/
theorem shortest_path_spec (g : Grid) (d0 : Distances) (cfuel : Nat) (d : Distances)
    (goal : Point) (n fuel : Nat)
    (hempty : d0.cells = []) (hcomp : d0.compute g cfuel = some d) (hsym : g.SymmLinks)
    (hgoal : d.distance goal = some n) (hfuel : n ≤ fuel) :
    ∃ (bc : Distances) (path : List Point),
      d.shortest_path_to g goal fuel = some bc ∧
      bc.root = d.root ∧
      DescChain g d path ∧
      path.head? = some goal ∧
      path.getLast? = some d.root ∧
      path.length = n + 1 ∧
      path.Nodup ∧
      (∀ i, i < path.length → d.distance (path.getD i d.root) = some (n - i)) ∧
      (∀ i, i + 1 < path.length →
        g.biLinked (path.getD i d.root) (path.getD (i + 1) d.root) = true) ∧
      (∀ p, (bc.distance p).isSome = true ↔ p ∈ path) ∧
      (∀ p, p ∈ path → bc.distance p = d.distance p) := by
  obtain ⟨hroot, hchar0⟩ := compute_char g d0 cfuel d hempty hcomp
  have hchar : ∀ p m, d.distance p = some m ↔ minDistP g d.root p m := by
    rw [hroot]
    exact hchar0
  have hmin : minDistP g d.root goal n := (hchar goal n).mp hgoal
  rcases spLoop_correct g d hchar hsym n goal (dinsert [] goal n) fuel hmin hfuel
    with ⟨bc2, path, hrun, hchain, hhead, hlen, hlab, hin, hout⟩
  have hpathzero : path.getD 0 d.root = goal := by
    rcases path with _ | ⟨p0, rest⟩
    · exact absurd hhead (by simp)
    · simpa using hhead
  have hgoalnotint : goal ∉ path.tail := by
    intro hmem
    have hnd := nodup_of_labels d n path hlen hlab
    rcases path with _ | ⟨p0, rest⟩
    · simp at hmem
    · have hp0 : p0 = goal := by simpa using hhead
      subst hp0
      simp only [List.tail_cons] at hmem
      exact (List.nodup_cons.mp hnd).1 hmem
  have hmempath : ∀ p, p ∈ path ↔ (p = goal ∨ p ∈ path.tail) := by
    intro p
    rcases path with _ | ⟨p0, rest⟩
    · exact absurd hhead (by simp)
    · have hp0 : p0 = goal := by simpa using hhead
      subst hp0
      simp only [List.tail_cons, List.mem_cons]
  refine ⟨{ root := d.root, cells := bc2 }, path, ?_, rfl, hchain, hhead, ?_, hlen,
    nodup_of_labels d n path hlen hlab, hlab, descChain_biLinked g d hsym path hchain, ?_, ?_⟩
  · unfold Distances.shortest_path_to
    simp only [hgoal, hrun, Option.map_some']
  · have hlast : path.getLast? = some (path.getD (path.length - 1) d.root) := by
      rcases path with _ | ⟨p0, rest⟩
      · exact absurd hhead (by simp)
      · rw [List.getLast?_eq_getElem?]
        simp only [List.length_cons]
        rw [List.getD_eq_getElem?_getD, List.getElem?_eq_getElem (by simp)]
        rfl
    rw [hlast]
    have := hlab (path.length - 1) (by omega)
    rw [hlen] at this
    simp only [Nat.add_sub_cancel, Nat.sub_self] at this
    have hmin0 : minDistP g d.root (path.getD (n + 1 - 1) d.root) 0 := by
      rw [show n + 1 - 1 = n from rfl]
      exact (hchar _ 0).mp (by simpa using this)
    rw [hlen]
    rw [show n + 1 - 1 = n from rfl] at hmin0 ⊢
    rw [minDist_zero g d.root _ hmin0]
  · intro p
    show (dlookup bc2 p).isSome = true ↔ p ∈ path
    constructor
    · intro hs
      by_contra hnot
      have hnt : p ∉ path.tail := fun hmem => hnot ((hmempath p).mpr (Or.inr hmem))
      have hng : p ≠ goal := fun he => hnot ((hmempath p).mpr (Or.inl he))
      rw [hout p hnt, dlookup_dinsert, if_neg hng, dlookup_nil] at hs
      exact absurd hs (by simp)
    · intro hmem
      rcases (hmempath p).mp hmem with he | ht
      · subst he
        rw [hout p hgoalnotint, dlookup_dinsert, if_pos rfl]
        rfl
      · rw [hin p ht]
        rcases List.mem_iff_getElem.mp ht with ⟨i, hi, hget⟩
        have hi2 : i + 1 < path.length := by
          rcases path with _ | ⟨p0, rest⟩
          · simp at ht
          · simp only [List.tail_cons] at hi
            simp only [List.length_cons]
            omega
        have hlab2 := hlab (i + 1) hi2
        have hgetd : path.getD (i + 1) d.root = p := by
          rcases path with _ | ⟨p0, rest⟩
          · simp at ht
          · simp only [List.tail_cons] at hget hi
            simp only [List.getD_cons_succ]
            rw [List.getD_eq_getElem?_getD, List.getElem?_eq_getElem hi, hget]
            rfl
        rw [hgetd] at hlab2
        rw [hlab2]
        rfl
  · intro p hmem
    show dlookup bc2 p = d.distance p
    rcases (hmempath p).mp hmem with he | ht
    · subst he
      rw [hout p hgoalnotint, dlookup_dinsert, if_pos rfl, hgoal]
    · exact hin p ht

instance (g : Grid) : Decidable g.SymmLinks :=
  inferInstanceAs (Decidable (∀ c ∈ g.cells.filterMap id, ∀ q ∈ c.links, g.linkedTo q c.point = true))

/-- The 1x1 grid whose only cell carries a dangling one-sided north flag
toward the absent point (0,-1), as produced by Grid::link. -/
def danglingGrid : Grid :=
  ((RectangularGrid.new 1 1).link ⟨0, 0⟩ ⟨0, -1⟩ true).getD (RectangularGrid.new 0 0)

/-- The BFS distances of danglingGrid from (0,0): they record the phantom
point (0,-1) at distance 1. -/
def danglingDist : Distances :=
  ((Distances.new ⟨0, 0⟩).compute danglingGrid 5).getD (Distances.new ⟨0, 0⟩)

/-- C5 is false as stated: on danglingGrid the distances were computed by BFS
from (0,0) and the goal (0,-1) has recorded distance 1, yet shortest_path_to
panics (returns nothing) instead of yielding a 2-point path, because the
recorded goal is not a cell of the grid. -/
theorem C5_counterexample :
    (Distances.new ⟨0, 0⟩).compute danglingGrid 5 = some danglingDist ∧
    danglingDist.distance ⟨0, -1⟩ = some 1 ∧
    danglingDist.shortest_path_to danglingGrid ⟨0, -1⟩ 5 = none :=
  ⟨rfl, rfl, rfl⟩

/-- C5 (amended): on BFS-computed distances over a grid whose links are
symmetric between present cells, shortest_path_to from a recorded goal yields
a breadcrumb set of exactly distance(goal)+1 points forming a descending
chain from goal to root: consecutive points are bidirectionally linked, the
recorded distance drops by exactly one per step, and each step takes the
first smaller-distance linked neighbour in north, south, east, west order. -/
theorem C5_shortest_path (g : Grid) (d0 : Distances) (cfuel : Nat) (d : Distances)
    (goal : Point) (n fuel : Nat)
    (hempty : d0.cells = []) (hcomp : d0.compute g cfuel = some d) (hsym : g.SymmLinks)
    (hgoal : d.distance goal = some n) (hfuel : n ≤ fuel) :
    ∃ (bc : Distances) (path : List Point),
      d.shortest_path_to g goal fuel = some bc ∧
      bc.root = d.root ∧
      DescChain g d path ∧
      path.head? = some goal ∧
      path.getLast? = some d.root ∧
      path.length = n + 1 ∧
      path.Nodup ∧
      (∀ i, i < path.length → d.distance (path.getD i d.root) = some (n - i)) ∧
      (∀ i, i + 1 < path.length →
        g.biLinked (path.getD i d.root) (path.getD (i + 1) d.root) = true) ∧
      (∀ p, (bc.distance p).isSome = true ↔ p ∈ path) ∧
      (∀ p, p ∈ path → bc.distance p = d.distance p) :=
  shortest_path_spec g d0 cfuel d goal n fuel hempty hcomp hsym hgoal hfuel

/-- Witness for C5 on the 2x2 two-passage grid with goal (1,0). -/
theorem C5_shortest_path_witness :
    linkedGrid22.SymmLinks ∧
    computedD22.distance ⟨1, 0⟩ = some 1 ∧
    ∃ (bc : Distances) (path : List Point),
      computedD22.shortest_path_to linkedGrid22 ⟨1, 0⟩ 5 = some bc ∧
      bc.root = computedD22.root ∧
      DescChain linkedGrid22 computedD22 path ∧
      path.head? = some ⟨1, 0⟩ ∧
      path.getLast? = some computedD22.root ∧
      path.length = 1 + 1 ∧
      path.Nodup ∧
      (∀ i, i < path.length →
        computedD22.distance (path.getD i computedD22.root) = some (1 - i)) ∧
      (∀ i, i + 1 < path.length →
        linkedGrid22.biLinked (path.getD i computedD22.root)
          (path.getD (i + 1) computedD22.root) = true) ∧
      (∀ p, (bc.distance p).isSome = true ↔ p ∈ path) ∧
      (∀ p, p ∈ path → bc.distance p = computedD22.distance p) :=
  ⟨by decide, rfl,
   C5_shortest_path linkedGrid22 (Distances.new ⟨0, 0⟩) 5 computedD22 ⟨1, 0⟩ 1 5
     rfl rfl (by decide) rfl (by decide)⟩

/-- C9 is false in its second half: on danglingGrid the goal (0,-1) is
recorded and the distances are exactly the BFS output, yet the walk's
grid.get(current).unwrap() hits an absent cell and fails. -/
theorem C9_counterexample :
    danglingDist.distance ⟨0, -1⟩ = some 1 ∧
    danglingGrid.get ⟨0, -1⟩ = none ∧
    (Distances.new ⟨0, 0⟩).compute danglingGrid 7 = some danglingDist ∧
    danglingDist.shortest_path_to danglingGrid ⟨0, -1⟩ 7 = none :=
  ⟨rfl, rfl, rfl, rfl⟩

/-- C9 (amended): shortest_path_to fails immediately (unwraps None) whenever
the goal is unrecorded; and under the preconditions that the goal is recorded,
the distances are BFS-computed from an empty map, and the grid's links are
symmetric between present cells, no failing unwrap branch is reachable: the
call returns a breadcrumb map. -/
theorem C9_shortest_path_defined :
    (∀ (g : Grid) (d : Distances) (goal : Point) (fuel : Nat),
      d.distance goal = none → d.shortest_path_to g goal fuel = none) ∧
    (∀ (g : Grid) (d0 : Distances) (cfuel : Nat) (d : Distances) (goal : Point) (n fuel : Nat),
      d0.cells = [] → d0.compute g cfuel = some d → g.SymmLinks →
      d.distance goal = some n → n ≤ fuel →
      (d.shortest_path_to g goal fuel).isSome = true) := by
  constructor
  · intro g d goal fuel h
    unfold Distances.shortest_path_to
    rw [h]
  · intro g d0 cfuel d goal n fuel hempty hcomp hsym hgoal hfuel
    rcases shortest_path_spec g d0 cfuel d goal n fuel hempty hcomp hsym hgoal hfuel
      with ⟨bc, path, hrun, _⟩
    rw [hrun]
    rfl

/-- Witness for C9: an unrecorded goal fails on the fresh 1x1 grid, and the
recorded goal (1,0) of the 2x2 two-passage grid succeeds. -/
theorem C9_shortest_path_defined_witness :
    (Distances.new ⟨0, 0⟩).shortest_path_to (RectangularGrid.new 1 1) ⟨5, 5⟩ 3 = none ∧
    (computedD22.shortest_path_to linkedGrid22 ⟨1, 0⟩ 5).isSome = true :=
  ⟨C9_shortest_path_defined.1 (RectangularGrid.new 1 1) (Distances.new ⟨0, 0⟩) ⟨5, 5⟩ 3 rfl,
   C9_shortest_path_defined.2 linkedGrid22 (Distances.new ⟨0, 0⟩) 5 computedD22 ⟨1, 0⟩ 1 5
     rfl rfl (by decide) rfl (by decide)⟩

/-- A parent-function certificate that the carved passages of a grid form a
tree on the vertex list V rooted at r: every non-root vertex has a parent in V
at strictly smaller rank, and the bidirectionally linked pairs are exactly the
parent edges. -/
structure TreeCert (g : Grid) (r : Point) (V : List Point) (parent : Point → Point)
    (mu : Point → Nat) : Prop where
  nodupV : V.Nodup
  rootMem : r ∈ V
  presentV : ∀ p ∈ V, ∃ c, g.get p = some c
  parentMem : ∀ p ∈ V, p ≠ r → parent p ∈ V
  parentMu : ∀ p ∈ V, p ≠ r → mu (parent p) < mu p
  edgeChar : ∀ p q, g.biLinked p q = true ↔
    ∃ c, c ∈ V ∧ c ≠ r ∧ ((p = c ∧ q = parent c) ∨ (q = c ∧ p = parent c))

theorem biLinked_comm (g : Grid) (p q : Point) : g.biLinked p q = g.biLinked q p := by
  unfold Grid.biLinked
  exact Bool.and_comm _ _

theorem ptLT_asymm (a b : Point) (h : ptLT a b = true) : ptLT b a = false := by
  unfold ptLT at *
  simp only [Bool.or_eq_true, Bool.and_eq_true, decide_eq_true_eq] at h
  simp only [Bool.or_eq_false_iff, Bool.and_eq_false_iff, decide_eq_false_iff_not]
  rcases h with h | ⟨h1, h2⟩
  · exact ⟨by omega, Or.inl (by omega)⟩
  · exact ⟨by omega, Or.inr (by omega)⟩

theorem ptLT_total (a b : Point) (h : a ≠ b) : ptLT a b = true ∨ ptLT b a = true := by
  unfold ptLT
  simp only [Bool.or_eq_true, Bool.and_eq_true, decide_eq_true_eq]
  rcases a with ⟨ax, ay⟩
  rcases b with ⟨bx, by2⟩
  simp only [ne_eq, Point.mk.injEq, not_and] at h
  by_cases hy : ay = by2
  · subst hy
    have hx : ax ≠ bx := fun he => h he rfl
    rcases lt_or_gt_of_ne hx with hlt | hgt
    · exact Or.inl (Or.inr ⟨rfl, hlt⟩)
    · exact Or.inr (Or.inr ⟨rfl, hgt⟩)
  · rcases lt_or_gt_of_ne (fun he => hy he : ay ≠ by2) with hlt | hgt
    · exact Or.inl (Or.inl hlt)
    · exact Or.inr (Or.inl hgt)

theorem mem_presentPoints (g : Grid) (p : Point) :
    p ∈ g.presentPoints ↔ ∃ c, c ∈ g.cells.filterMap id ∧ c.point = p := by
  unfold Grid.presentPoints
  rw [List.mem_map]

theorem get_presentPoints (g : Grid) (p : Point) (c : Cell) (h : g.get p = some c) :
    p ∈ g.presentPoints :=
  (mem_presentPoints g p).mpr ⟨c, get_mem_filterMap g p c h, get_point g p c h⟩

/-- The parent-chain relation: one step follows a non-root vertex to its parent. -/
def PStep (r : Point) (V : List Point) (parent : Point → Point) (x y : Point) : Prop :=
  x ∈ V ∧ x ≠ r ∧ y = parent x

theorem pchain_mu (r : Point) (V : List Point) (parent : Point → Point) (mu : Point → Nat)
    (hmu : ∀ p ∈ V, p ≠ r → mu (parent p) < mu p) (x y : Point)
    (h : Relation.ReflTransGen (PStep r V parent) x y) : y = x ∨ mu y < mu x := by
  induction h with
  | refl => exact Or.inl rfl
  | tail hxz hstep ih =>
    rcases hstep with ⟨hmem, hne, hpar⟩
    rcases ih with he | hlt
    · right
      rw [hpar, ← he]
      exact hmu _ (he ▸ hmem) (he ▸ hne)
    · right
      have := hmu _ hmem hne
      rw [hpar]
      omega

theorem cert_connected (g : Grid) (r : Point) (V : List Point) (parent : Point → Point)
    (mu : Point → Nat) (hc : TreeCert g r V parent mu) :
    ∀ p ∈ V, LReach g p r := by
  have key : ∀ n, ∀ p ∈ V, mu p ≤ n → LReach g p r := by
    intro n
    induction n with
    | zero =>
      intro p hp hmu
      by_cases hpr : p = r
      · exact hpr ▸ Relation.ReflTransGen.refl
      · have := hc.parentMu p hp hpr
        omega
    | succ n ih =>
      intro p hp hmu
      by_cases hpr : p = r
      · exact hpr ▸ Relation.ReflTransGen.refl
      · have hedge : g.biLinked p (parent p) = true :=
          (hc.edgeChar p (parent p)).mpr ⟨p, hp, hpr, Or.inl ⟨rfl, rfl⟩⟩
        have hmu2 := hc.parentMu p hp hpr
        exact Relation.ReflTransGen.head hedge
          (ih (parent p) (hc.parentMem p hp hpr) (by omega))
  exact fun p hp => key (mu p) p hp (le_refl _)

theorem lreach_symm (g : Grid) (p q : Point) (h : LReach g p q) : LReach g q p := by
  unfold LReach at *
  have hsym : Symmetric (fun a b => g.biLinked a b = true) := by
    intro a b hab
    rw [biLinked_comm]
    exact hab
  exact (Relation.ReflTransGen.symmetric hsym) h

theorem cert_all_connected (g : Grid) (r : Point) (V : List Point) (parent : Point → Point)
    (mu : Point → Nat) (hc : TreeCert g r V parent mu)
    (hspan : ∀ p, p ∈ V ↔ p ∈ g.presentPoints) :
    ∀ p ∈ g.presentPoints, ∀ q ∈ g.presentPoints, LReach g p q := by
  intro p hp q hq
  exact Relation.ReflTransGen.trans
    (cert_connected g r V parent mu hc p ((hspan p).mpr hp))
    (lreach_symm g q r (cert_connected g r V parent mu hc q ((hspan q).mpr hq)))

theorem avoid_to_chain (g : Grid) (r : Point) (V : List Point) (parent : Point → Point)
    (mu : Point → Nat) (hc : TreeCert g r V parent mu)
    (a b c0 : Point) (hc0 : c0 ∈ V) (hner : c0 ≠ r)
    (hab : (a = c0 ∧ b = parent c0) ∨ (a = parent c0 ∧ b = c0)) :
    ∀ q, ReachAvoid g a b c0 q → Relation.ReflTransGen (PStep r V parent) q c0 := by
  intro q h
  induction h with
  | refl => exact Relation.ReflTransGen.refl
  | tail hxz hstep ih =>
    rename_i u v
    rcases hstep with ⟨hbi, hav1, hav2⟩
    obtain ⟨c, hcV, hcr, hor⟩ := (hc.edgeChar u v).mp hbi
    rcases hor with ⟨hu, hv⟩ | ⟨hv, hu⟩
    · by_cases huc : u = c0
      · exfalso
        rcases hab with ⟨ha, hb⟩ | ⟨ha, hb⟩
        · exact hav1 ⟨huc.trans ha.symm, by rw [hv, hu.symm.trans huc, hb]⟩
        · exact hav2 ⟨huc.trans hb.symm, by rw [hv, hu.symm.trans huc, ha]⟩
      · rcases Relation.ReflTransGen.cases_head ih with he | ⟨w, hsw, hwc⟩
        · exact absurd he huc
        · rcases hsw with ⟨_, _, hw⟩
          have : v = w := by rw [hv, hw, hu]
          exact this ▸ hwc
    · exact Relation.ReflTransGen.head ⟨hv ▸ hcV, hv ▸ hcr, by rw [hv, hu]⟩ ih

theorem cert_acyclic (g : Grid) (r : Point) (V : List Point) (parent : Point → Point)
    (mu : Point → Nat) (hc : TreeCert g r V parent mu) :
    ∀ a b, g.biLinked a b = true → ¬ ReachAvoid g a b a b := by
  intro a b hbi hra
  obtain ⟨c, hcV, hcr, hor⟩ := (hc.edgeChar a b).mp hbi
  have hsym : Symmetric (fun u v => g.biLinked u v = true ∧ ¬(u = a ∧ v = b) ∧ ¬(u = b ∧ v = a)) := by
    intro u v ⟨h1, h2, h3⟩
    refine ⟨by rw [biLinked_comm]; exact h1, ?_, ?_⟩
    · intro ⟨hva, hub⟩; exact h3 ⟨hub, hva⟩
    · intro ⟨hvb, hua⟩; exact h2 ⟨hua, hvb⟩
  have hchain : Relation.ReflTransGen (PStep r V parent) (parent c) c := by
    rcases hor with ⟨ha, hb⟩ | ⟨hb, ha⟩
    · refine avoid_to_chain g r V parent mu hc a b c hcV hcr
        (Or.inl ⟨ha, hb⟩) (parent c) ?_
      rw [← hb, ← ha]
      exact hra
    · refine avoid_to_chain g r V parent mu hc a b c hcV hcr
        (Or.inr ⟨ha, hb⟩) (parent c) ?_
      rw [← ha, ← hb]
      exact (Relation.ReflTransGen.symmetric hsym) hra
  have hmu := hc.parentMu c hcV hcr
  rcases pchain_mu r V parent mu hc.parentMu (parent c) c hchain with he | hlt
  · rw [← he] at hmu; omega
  · omega

/-- One ordered representative of the parent edge of a vertex. -/
def edgeRep (parent : Point → Point) (c : Point) : Point × Point :=
  if ptLT c (parent c) then (c, parent c) else (parent c, c)

theorem cert_count (g : Grid) (r : Point) (V : List Point) (parent : Point → Point)
    (mu : Point → Nat) (hc : TreeCert g r V parent mu)
    (hspan : ∀ p, p ∈ V ↔ p ∈ g.presentPoints) :
    g.edgePairs.card + 1 = g.presentPoints.toFinset.card ∧
    g.presentPoints.toFinset.card = V.length := by
  have hpres : g.presentPoints.toFinset = V.toFinset := by
    apply Finset.ext
    intro p
    rw [List.mem_toFinset, List.mem_toFinset, hspan]
  have hcardV : g.presentPoints.toFinset.card = V.length := by
    rw [hpres, List.toFinset_card_of_nodup hc.nodupV]
  have hne : ∀ c ∈ V, c ≠ r → c ≠ parent c := by
    intro c hcV hcr he
    have := hc.parentMu c hcV hcr
    rw [← he] at this
    omega
  have himg : g.edgePairs = (V.toFinset.erase r).image (edgeRep parent) := by
    apply Finset.ext
    intro pr
    rw [Grid.edgePairs, Finset.mem_filter, Finset.mem_product, Finset.mem_image]
    constructor
    · rintro ⟨⟨h1, h2⟩, hbi, hlt⟩
      obtain ⟨c, hcV, hcr, hor⟩ := (hc.edgeChar pr.1 pr.2).mp hbi
      refine ⟨c, Finset.mem_erase.mpr ⟨hcr, List.mem_toFinset.mpr hcV⟩, ?_⟩
      rcases hor with ⟨ha, hb⟩ | ⟨hb, ha⟩
      · rw [edgeRep, if_pos (by rw [ha, hb] at hlt; exact hlt)]
        exact Prod.ext ha.symm hb.symm
      · rw [edgeRep, if_neg (by rw [ptLT_asymm _ _ (by rw [ha, hb] at hlt; exact hlt)]; simp)]
        exact Prod.ext ha.symm hb.symm
    · rintro ⟨c, hcm, hfe⟩
      obtain ⟨hcr, hcV'⟩ := Finset.mem_erase.mp hcm
      have hcV := List.mem_toFinset.mp hcV'
      have hbi : g.biLinked c (parent c) = true :=
        (hc.edgeChar c (parent c)).mpr ⟨c, hcV, hcr, Or.inl ⟨rfl, rfl⟩⟩
      have hcP : c ∈ g.presentPoints.toFinset :=
        List.mem_toFinset.mpr ((hspan c).mp hcV)
      have hpP : parent c ∈ g.presentPoints.toFinset :=
        List.mem_toFinset.mpr ((hspan (parent c)).mp (hc.parentMem c hcV hcr))
      rw [edgeRep] at hfe
      by_cases hcl : ptLT c (parent c) = true
      · rw [if_pos hcl] at hfe
        rw [← hfe]
        exact ⟨⟨hcP, hpP⟩, hbi, hcl⟩
      · rw [if_neg hcl] at hfe
        rw [← hfe]
        refine ⟨⟨hpP, hcP⟩, by rw [biLinked_comm]; exact hbi, ?_⟩
        rcases ptLT_total c (parent c) (hne c hcV hcr) with h | h
        · exact absurd h hcl
        · exact h
  have hinj : Set.InjOn (edgeRep parent) ↑(V.toFinset.erase r) := by
    intro c hcm c' hcm' hfe
    obtain ⟨hcr, hcV'⟩ := Finset.mem_erase.mp (Finset.mem_coe.mp hcm)
    obtain ⟨hcr', hcV''⟩ := Finset.mem_erase.mp (Finset.mem_coe.mp hcm')
    have hcV := List.mem_toFinset.mp hcV'
    have hcV2 := List.mem_toFinset.mp hcV''
    have hmu1 := hc.parentMu c hcV hcr
    have hmu2 := hc.parentMu c' hcV2 hcr'
    rw [edgeRep, edgeRep] at hfe
    by_cases h1 : ptLT c (parent c) = true
    · rw [if_pos h1] at hfe
      by_cases h2 : ptLT c' (parent c') = true
      · rw [if_pos h2] at hfe
        exact (Prod.mk.injEq _ _ _ _ ▸ hfe).1
      · rw [if_neg h2] at hfe
        obtain ⟨he1, he2⟩ := Prod.mk.injEq _ _ _ _ ▸ hfe
        rw [he2] at hmu1
        rw [← he1] at hmu2
        omega
    · rw [if_neg h1] at hfe
      by_cases h2 : ptLT c' (parent c') = true
      · rw [if_pos h2] at hfe
        obtain ⟨he1, he2⟩ := Prod.mk.injEq _ _ _ _ ▸ hfe
        rw [he1] at hmu1
        rw [← he2] at hmu2
        omega
      · rw [if_neg h2] at hfe
        exact (Prod.mk.injEq _ _ _ _ ▸ hfe).2
  have hcard : g.edgePairs.card = V.length - 1 := by
    rw [himg, Finset.card_image_of_injOn hinj, Finset.card_erase_of_mem
      (List.mem_toFinset.mpr hc.rootMem), List.toFinset_card_of_nodup hc.nodupV]
  have hlen : 1 ≤ V.length := List.length_pos_of_mem hc.rootMem
  refine ⟨?_, hcardV⟩
  rw [hcard, hcardV]
  omega

theorem cert_perfect (g : Grid) (r : Point) (V : List Point) (parent : Point → Point)
    (mu : Point → Nat) (hc : TreeCert g r V parent mu)
    (hspan : ∀ p, p ∈ V ↔ p ∈ g.presentPoints) : PerfectMaze g :=
  ⟨(cert_count g r V parent mu hc hspan).1,
   cert_all_connected g r V parent mu hc hspan,
   cert_acyclic g r V parent mu hc⟩

/-- The parent read off a (child, parent) action list: the second component of
the first action whose first component is p. -/
def parentOf (A : List (Point × Point)) (p : Point) : Point :=
  match A.find? (fun pr => decide (pr.1 = p)) with
  | some pr => pr.2
  | none => p

/-- A carved-link certificate: the bidirectional passages of g are exactly the
unordered pairs of the action list A, whose first components are distinct
non-root present points, whose second components stay inside the tree built so
far, and which strictly decrease some rank from child to parent. -/
structure LinkCert (g : Grid) (r : Point) (A : List (Point × Point)) : Prop where
  biChar : ∀ p q, g.biLinked p q = true ↔
    ∃ pr ∈ A, (p = pr.1 ∧ q = pr.2) ∨ (p = pr.2 ∧ q = pr.1)
  nodupFst : (A.map Prod.fst).Nodup
  rootNot : r ∉ A.map Prod.fst
  presentR : ∃ c, g.get r = some c
  presentA : ∀ pr ∈ A, (∃ c, g.get pr.1 = some c) ∧ (∃ c, g.get pr.2 = some c)
  ranked : ∃ mu : Point → Nat, ∀ pr ∈ A, mu pr.2 < mu pr.1
  attached : ∀ pr ∈ A, pr.2 = r ∨ pr.2 ∈ A.map Prod.fst

theorem parentOf_eq (A : List (Point × Point)) (hnd : (A.map Prod.fst).Nodup)
    (pr : Point × Point) (hm : pr ∈ A) : parentOf A pr.1 = pr.2 := by
  induction A with
  | nil => exact absurd hm (List.not_mem_nil pr)
  | cons q rest ih =>
    rw [List.map_cons, List.nodup_cons] at hnd
    by_cases hq : q.1 = pr.1
    · rcases List.mem_cons.mp hm with he | hm2
      · rw [parentOf, List.find?_cons_of_pos _ (by rw [he]; simp), ← he]
      · exact absurd (hq ▸ List.mem_map_of_mem Prod.fst hm2) hnd.1
    · rcases List.mem_cons.mp hm with he | hm2
      · exact absurd (congrArg Prod.fst he.symm) hq
      · rw [parentOf, List.find?_cons_of_neg _ (by simpa using hq)]
        exact ih hnd.2 hm2

theorem mem_fst_parentOf (A : List (Point × Point)) (hnd : (A.map Prod.fst).Nodup)
    (c : Point) (hm : c ∈ A.map Prod.fst) : (c, parentOf A c) ∈ A := by
  rcases List.mem_map.mp hm with ⟨pr, hpr, he⟩
  have := parentOf_eq A hnd pr hpr
  rw [← he, this]
  exact hpr

theorem linkCert_tree (g : Grid) (r : Point) (A : List (Point × Point))
    (hc : LinkCert g r A) :
    ∃ mu : Point → Nat, TreeCert g r (r :: A.map Prod.fst) (parentOf A) mu := by
  obtain ⟨mu, hmu⟩ := hc.ranked
  refine ⟨mu, ?_, ?_, ?_, ?_, ?_, ?_⟩
  · exact List.nodup_cons.mpr ⟨hc.rootNot, hc.nodupFst⟩
  · exact List.mem_cons_self r _
  · intro p hp
    rcases List.mem_cons.mp hp with he | hm
    · exact he ▸ hc.presentR
    · rcases List.mem_map.mp hm with ⟨pr, hpr, hfe⟩
      exact hfe ▸ (hc.presentA pr hpr).1
  · intro p hp hpr
    rcases List.mem_cons.mp hp with he | hm
    · exact absurd he hpr
    · have hmem := mem_fst_parentOf A hc.nodupFst p hm
      rcases hc.attached _ hmem with he | hm2
      · exact List.mem_cons.mpr (Or.inl he)
      · exact List.mem_cons.mpr (Or.inr hm2)
  · intro p hp hpr
    rcases List.mem_cons.mp hp with he | hm
    · exact absurd he hpr
    · exact hmu _ (mem_fst_parentOf A hc.nodupFst p hm)
  · intro p q
    rw [hc.biChar p q]
    constructor
    · rintro ⟨pr, hpr, hor⟩
      have hfst : pr.1 ∈ A.map Prod.fst := List.mem_map_of_mem Prod.fst hpr
      refine ⟨pr.1, List.mem_cons.mpr (Or.inr hfst), fun he => hc.rootNot (he ▸ hfst), ?_⟩
      rw [parentOf_eq A hc.nodupFst pr hpr]
      tauto
    · rintro ⟨c, hcm, hcr, hor⟩
      rcases List.mem_cons.mp hcm with he | hm
      · exact absurd he hcr
      · refine ⟨(c, parentOf A c), mem_fst_parentOf A hc.nodupFst c hm, ?_⟩
        simp only []
        tauto

theorem presentPoints_iff_get (g : Grid) (hwf : g.WF) (p : Point) :
    p ∈ g.presentPoints ↔ (g.get p).isSome = true := by
  constructor
  · intro hm
    rcases (mem_presentPoints g p).mp hm with ⟨c, hc, he⟩
    have hmem : some c ∈ g.cells := by
      rcases List.mem_filterMap.mp hc with ⟨oc, hoc, hid⟩
      cases oc with
      | none => exact absurd hid (by simp)
      | some c2 =>
        simp only [id_eq, Option.some_inj] at hid
        rw [hid] at hoc
        exact hoc
    rw [← he, WF_get_of_mem g c hwf hmem]
    rfl
  · intro hs
    rcases Option.isSome_iff_exists.mp hs with ⟨c, hc⟩
    exact get_presentPoints g p c hc

theorem linkCert_perfect (g : Grid) (r : Point) (A : List (Point × Point))
    (hc : LinkCert g r A)
    (hspan : ∀ p, p ∈ (r :: A.map Prod.fst) ↔ p ∈ g.presentPoints) :
    PerfectMaze g ∧ g.edgePairs.card = A.length ∧
      g.presentPoints.toFinset.card = A.length + 1 := by
  obtain ⟨mu, hcert⟩ := linkCert_tree g r A hc
  have hcnt := cert_count g r (r :: A.map Prod.fst) (parentOf A) mu hcert hspan
  have hlen : (r :: A.map Prod.fst).length = A.length + 1 := by
    rw [List.length_cons, List.length_map]
  refine ⟨cert_perfect g r _ (parentOf A) mu hcert hspan, ?_, ?_⟩
  · have := hcnt.1
    rw [hcnt.2, hlen] at this
    omega
  · rw [hcnt.2, hlen]

theorem cellNew_slots (p : Point) :
    (Cell.new p).point = p ∧ (Cell.new p).north.point = p.north ∧
    (Cell.new p).south.point = p.south ∧ (Cell.new p).east.point = p.east ∧
    (Cell.new p).west.point = p.west := by
  refine ⟨rfl, ?_, ?_, ?_, ?_⟩
  · show p.add ⟨0, -1⟩ = p.north
    simp only [Point.add, Point.north, Point.mk.injEq, add_zero, and_true, true_and]
    try omega
  · show p.add ⟨0, 1⟩ = p.south
    simp only [Point.add, Point.south, Point.mk.injEq, add_zero, and_true, true_and]
    try omega
  · show p.add ⟨1, 0⟩ = p.east
    simp only [Point.add, Point.east, Point.mk.injEq, add_zero, and_true, true_and]
    try omega
  · show p.add ⟨-1, 0⟩ = p.west
    simp only [Point.add, Point.west, Point.mk.injEq, add_zero, and_true, true_and]
    try omega

theorem new_get_some (w h : Nat) (p : Point) (hx0 : 0 ≤ p.x) (hxw : p.x < (w : Int))
    (hy0 : 0 ≤ p.y) (hyh : p.y < (h : Int)) :
    (RectangularGrid.new w h).get p = some (Cell.new p) := by
  have hw1 : 1 ≤ w := by omega
  have hi : p.x.toNat + p.y.toNat * w < w * h := by
    have hxlt : p.x.toNat < w := by omega
    have hylt : p.y.toNat < h := by omega
    have h1 : (p.y.toNat + 1) * w ≤ h * w := Nat.mul_le_mul_right w (by omega)
    have h2 : (p.y.toNat + 1) * w = p.y.toNat * w + w := by ring
    have h3 : w * h = h * w := Nat.mul_comm w h
    omega
  have hidx : idxPoint w (p.x.toNat + p.y.toNat * w) = p := by
    have hxlt : p.x.toNat < w := by omega
    have hmod : (p.x.toNat + p.y.toNat * w) % w = p.x.toNat := by
      rw [Nat.add_mul_mod_self_right, Nat.mod_eq_of_lt hxlt]
    have hdiv : (p.x.toNat + p.y.toNat * w) / w = p.y.toNat := by
      rw [Nat.add_mul_div_right _ _ (by omega), Nat.div_eq_of_lt hxlt]
      omega
    rw [idxPoint, hmod, hdiv, Int.toNat_of_nonneg hx0, Int.toNat_of_nonneg hy0]
  have hcell := new_cells_getElem w h (p.x.toNat + p.y.toNat * w) hi
  rw [hidx] at hcell
  have hmem : some (Cell.new p) ∈ (RectangularGrid.new w h).cells := List.getElem?_mem hcell
  have := WF_get_of_mem (RectangularGrid.new w h) (Cell.new p) (WF_new w h) hmem
  rw [(cellNew_slots p).1] at this
  exact this

theorem new_get_isSome (w h : Nat) (p : Point) :
    ((RectangularGrid.new w h).get p).isSome = true ↔
      (0 ≤ p.x ∧ p.x < (w : Int) ∧ 0 ≤ p.y ∧ p.y < (h : Int)) := by
  constructor
  · intro hs
    rcases Option.isSome_iff_exists.mp hs with ⟨c, hc⟩
    rcases mem_index _ c (get_mem _ p c hc) with ⟨i, hilen, hci⟩
    have hi : i < w * h := by rw [← new_cells_length w h]; exact hilen
    have hcc := new_cells_getElem w h i hi
    rw [hcc] at hci
    simp only [Option.some_inj] at hci
    have hpt := get_point _ p c hc
    rw [← hci, (cellNew_slots (idxPoint w i)).1] at hpt
    have hw1 : 1 ≤ w := by
      rcases Nat.eq_zero_or_pos w with h0 | h1
      · subst h0; omega
      · exact h1
    have hxm : i % w < w := Nat.mod_lt i (by omega)
    have hyd : i / w < h := Nat.div_lt_of_lt_mul hi
    rw [← hpt]
    refine ⟨?_, ?_, ?_, ?_⟩
    · show (0 : Int) ≤ ((i % w : Nat) : Int)
      exact Int.natCast_nonneg _
    · show ((i % w : Nat) : Int) < (w : Int)
      exact_mod_cast hxm
    · show (0 : Int) ≤ ((i / w : Nat) : Int)
      exact Int.natCast_nonneg _
    · show ((i / w : Nat) : Int) < (h : Int)
      exact_mod_cast hyd
  · rintro ⟨h1, h2, h3, h4⟩
    rw [new_get_some w h p h1 h2 h3 h4]
    rfl

theorem new_presentPoints_card (w h : Nat) :
    (RectangularGrid.new w h).presentPoints.toFinset.card = w * h := by
  have hinj : Function.Injective (fun pr : Nat × Nat => (⟨(pr.1 : Int), (pr.2 : Int)⟩ : Point)) := by
    intro a b he
    simp only [Point.mk.injEq, Int.natCast_inj] at he
    exact Prod.ext he.1 he.2
  have himg : (RectangularGrid.new w h).presentPoints.toFinset =
      (Finset.range w ×ˢ Finset.range h).image
        (fun pr : Nat × Nat => (⟨(pr.1 : Int), (pr.2 : Int)⟩ : Point)) := by
    apply Finset.ext
    intro p
    rw [List.mem_toFinset, presentPoints_iff_get _ (WF_new w h), new_get_isSome,
      Finset.mem_image]
    constructor
    · rintro ⟨h1, h2, h3, h4⟩
      refine ⟨(p.x.toNat, p.y.toNat), Finset.mem_product.mpr
        ⟨Finset.mem_range.mpr (by omega), Finset.mem_range.mpr (by omega)⟩, ?_⟩
      have hx : (p.x.toNat : Int) = p.x := Int.toNat_of_nonneg h1
      have hy : (p.y.toNat : Int) = p.y := Int.toNat_of_nonneg h3
      rw [hx, hy]
    · rintro ⟨⟨a, b⟩, hm, he⟩
      obtain ⟨ha, hb⟩ := Finset.mem_product.mp hm
      rw [Finset.mem_range] at ha hb
      have hx : p.x = (a : Int) := (congrArg Point.x he).symm
      have hy : p.y = (b : Int) := (congrArg Point.y he).symm
      omega
  rw [himg, Finset.card_image_of_injective _ hinj, Finset.card_product, Finset.card_range,
    Finset.card_range]

theorem presentPoints_toFinset_eq (g g' : Grid) (hwf : g.WF) (hwf' : g'.WF)
    (hpres : ∀ p, (g'.get p).isSome = (g.get p).isSome) :
    g'.presentPoints.toFinset = g.presentPoints.toFinset := by
  apply Finset.ext
  intro p
  rw [List.mem_toFinset, List.mem_toFinset, presentPoints_iff_get _ hwf',
    presentPoints_iff_get _ hwf, hpres p]

theorem mem_filterMap_get (g : Grid) (hwf : g.WF) (c : Cell) :
    c ∈ g.cells.filterMap id ↔ g.get c.point = some c := by
  constructor
  · intro hm
    rcases List.mem_filterMap.mp hm with ⟨oc, hoc, hid⟩
    cases oc with
    | none => exact absurd hid (by simp)
    | some c2 =>
      simp only [id_eq, Option.some_inj] at hid
      rw [hid] at hoc
      exact WF_get_of_mem g c hwf hoc
  · exact get_mem_filterMap g c.point c

theorem filterMap_id_length (l : List (Option Cell)) (h : ∀ x ∈ l, x.isSome = true) :
    (l.filterMap id).length = l.length := by
  induction l with
  | nil => rfl
  | cons x rest ih =>
    cases x with
    | none => exact absurd (h none (List.mem_cons_self _ _)) (by simp)
    | some c =>
      rw [List.filterMap_cons]
      simp only [id_eq]
      rw [List.length_cons, List.length_cons, ih (fun y hy => h y (List.mem_cons_of_mem _ hy))]

theorem new_presentPoints_length (w h : Nat) :
    (RectangularGrid.new w h).presentPoints.length = w * h := by
  rw [Grid.presentPoints, List.length_map, filterMap_id_length, new_cells_length]
  intro x hx
  rcases List.getElem?_of_mem hx with ⟨i, hi⟩
  have hlt : i < w * h := by
    rcases List.getElem?_eq_some_iff.mp hi with ⟨hlt, _⟩
    rw [new_cells_length] at hlt
    exact hlt
  rw [new_cells_getElem w h i hlt] at hi
  simp only [Option.some_inj] at hi
  rw [← hi]
  rfl

theorem new_presentPoints_nodup (w h : Nat) :
    (RectangularGrid.new w h).presentPoints.Nodup := by
  have hcard := new_presentPoints_card w h
  have hlen := new_presentPoints_length w h
  rw [List.card_toFinset] at hcard
  have hsub : (RectangularGrid.new w h).presentPoints.dedup.Sublist
      (RectangularGrid.new w h).presentPoints := List.dedup_sublist _
  have heq := List.Sublist.eq_of_length hsub (by rw [hcard, hlen])
  exact List.dedup_eq_self.mp heq

theorem new_mem_cell (w h : Nat) (c : Cell) (hm : some c ∈ (RectangularGrid.new w h).cells) :
    c = Cell.new c.point ∧
    (0 ≤ c.point.x ∧ c.point.x < (w : Int) ∧ 0 ≤ c.point.y ∧ c.point.y < (h : Int)) := by
  have hget := WF_get_of_mem _ c (WF_new w h) hm
  constructor
  · rcases mem_index _ c hm with ⟨i, hilen, hci⟩
    have hi : i < w * h := by rw [← new_cells_length w h]; exact hilen
    have hcc := new_cells_getElem w h i hi
    rw [hcc] at hci
    simp only [Option.some_inj] at hci
    rw [← hci, (cellNew_slots (idxPoint w i)).1]
  · rw [← new_get_isSome w h c.point, hget]
    rfl

theorem btNeighborCells_mem (g : Grid) (c n : Cell) (hm : n ∈ btNeighborCells g c) :
    g.get c.north.point = some n ∨ g.get c.east.point = some n := by
  rw [btNeighborCells, List.mem_append] at hm
  rcases hm with hm | hm
  · left
    cases hg : g.get c.north.point with
    | none => rw [hg] at hm; exact absurd hm (List.not_mem_nil n)
    | some m =>
      rw [hg] at hm
      rw [List.mem_singleton] at hm
      rw [hm]
  · right
    cases hg : g.get c.east.point with
    | none => rw [hg] at hm; exact absurd hm (List.not_mem_nil n)
    | some m =>
      rw [hg] at hm
      rw [List.mem_singleton] at hm
      rw [hm]

theorem btNeighborCells_empty (g : Grid) (c : Cell) :
    (btNeighborCells g c).isEmpty = true ↔
      g.get c.north.point = none ∧ g.get c.east.point = none := by
  rw [btNeighborCells]
  cases hn : g.get c.north.point <;> cases he : g.get c.east.point <;> simp

theorem btActions_fst (g : Grid) (s : Nat → Nat) (cs : List (Option Cell)) :
    ∀ k, (btActions g s cs k).map Prod.fst =
      ((cs.filterMap id).filter (fun c => !(btNeighborCells g c).isEmpty)).map
        (fun c => c.point) := by
  induction cs with
  | nil => intro k; rfl
  | cons x rest ih =>
    intro k
    cases x with
    | none =>
      rw [btActions, List.filterMap_cons]
      simp only [id_eq]
      exact ih k
    | some c =>
      rw [btActions, List.filterMap_cons]
      simp only [id_eq]
      by_cases hemp : (btNeighborCells g c).isEmpty = true
      · rw [if_pos hemp, List.filter_cons_of_neg (by simp [hemp])]
        exact ih k
      · rw [if_neg hemp, List.filter_cons_of_pos (by simp [Bool.not_eq_true] at hemp ⊢; exact hemp)]
        rw [List.map_cons, List.map_cons]
        rw [ih (k + 1)]

theorem btActions_mem (g : Grid) (s : Nat → Nat) (cs : List (Option Cell)) :
    ∀ k pr, pr ∈ btActions g s cs k →
      ∃ c n, some c ∈ cs ∧ pr.1 = c.point ∧ pr.2 = n.point ∧ n ∈ btNeighborCells g c := by
  induction cs with
  | nil => intro k pr hm; exact absurd hm (List.not_mem_nil pr)
  | cons x rest ih =>
    intro k pr hm
    cases x with
    | none =>
      rw [btActions] at hm
      rcases ih k pr hm with ⟨c, n, hmem, h1, h2, h3⟩
      exact ⟨c, n, List.mem_cons_of_mem _ hmem, h1, h2, h3⟩
    | some c =>
      rw [btActions] at hm
      by_cases hemp : (btNeighborCells g c).isEmpty = true
      · rw [if_pos hemp] at hm
        rcases ih k pr hm with ⟨c2, n, hmem, h1, h2, h3⟩
        exact ⟨c2, n, List.mem_cons_of_mem _ hmem, h1, h2, h3⟩
      · rw [if_neg hemp] at hm
        rcases List.mem_cons.mp hm with he | hm2
        · have hlen : 0 < (btNeighborCells g c).length := by
            rcases hl : btNeighborCells g c with _ | ⟨y, ys⟩
            · rw [hl] at hemp; exact absurd rfl hemp
            · simp
          have hchosen : (btNeighborCells g c).getD
              (s k % (btNeighborCells g c).length) c ∈ btNeighborCells g c := by
            rw [List.getD_eq_getElem?_getD]
            rw [List.getElem?_eq_getElem (Nat.mod_lt _ hlen)]
            exact List.getElem_mem _
          refine ⟨c, _, List.mem_cons_self _ _, ?_, ?_, hchosen⟩
          · rw [he]
          · rw [he]
        · rcases ih (k + 1) pr hm2 with ⟨c2, n, hmem, h1, h2, h3⟩
          exact ⟨c2, n, List.mem_cons_of_mem _ hmem, h1, h2, h3⟩

theorem new_get_none (w h : Nat) (p : Point) :
    ((RectangularGrid.new w h).get p = none) ↔
      ¬(0 ≤ p.x ∧ p.x < (w : Int) ∧ 0 ≤ p.y ∧ p.y < (h : Int)) := by
  rw [← new_get_isSome w h p]
  cases hg : (RectangularGrid.new w h).get p <;> simp

/-- The rank that decreases along north- and east-going parent edges. -/
def neMu (w : Nat) (p : Point) : Nat := p.y.toNat * w + (w - 1 - p.x.toNat)

theorem neMu_north (w : Nat) (p : Point) (hw : 1 ≤ w) (hy : 1 ≤ p.y) :
    neMu w p.north < neMu w p := by
  show (p.y - 1).toNat * w + (w - 1 - p.x.toNat) < p.y.toNat * w + (w - 1 - p.x.toNat)
  have hyt : p.y.toNat = (p.y - 1).toNat + 1 := by omega
  have hmul : p.y.toNat * w = (p.y - 1).toNat * w + w := by rw [hyt]; ring
  omega

theorem neMu_east (w : Nat) (p : Point) (hx0 : 0 ≤ p.x) (hxw : p.x + 1 < (w : Int)) :
    neMu w p.east < neMu w p := by
  show p.y.toNat * w + (w - 1 - (p.x + 1).toNat) < p.y.toNat * w + (w - 1 - p.x.toNat)
  omega

theorem bt_pool_nonempty (w h : Nat) (p : Point)
    (hp : 0 ≤ p.x ∧ p.x < (w : Int) ∧ 0 ≤ p.y ∧ p.y < (h : Int))
    (hr : p ≠ ⟨(w : Int) - 1, 0⟩) :
    (!(btNeighborCells (RectangularGrid.new w h) (Cell.new p)).isEmpty) = true := by
  rw [Bool.not_eq_true']
  rw [Bool.eq_false_iff]
  intro hemp
  obtain ⟨hn, he⟩ := (btNeighborCells_empty _ _).mp hemp
  rw [(cellNew_slots p).2.1, new_get_none] at hn
  rw [(cellNew_slots p).2.2.2.1, new_get_none] at he
  simp only [Point.north] at hn
  simp only [Point.east] at he
  apply hr
  obtain ⟨hp1, hp2, hp3, hp4⟩ := hp
  have hx : p.x = (w : Int) - 1 := by omega
  have hy : p.y = 0 := by omega
  rw [← hx, ← hy]

theorem bt_pool_empty_at_root (w h : Nat) (c : Cell)
    (hm : some c ∈ (RectangularGrid.new w h).cells)
    (hr : c.point = (⟨(w : Int) - 1, 0⟩ : Point)) :
    (btNeighborCells (RectangularGrid.new w h) c).isEmpty = true := by
  obtain ⟨hcnew, hp⟩ := new_mem_cell w h c hm
  apply (btNeighborCells_empty _ _).mpr
  have hcn : c.north.point = c.point.north := by
    conv_lhs => rw [hcnew]
    exact (cellNew_slots c.point).2.1
  have hce : c.east.point = c.point.east := by
    conv_lhs => rw [hcnew]
    exact (cellNew_slots c.point).2.2.2.1
  constructor
  · rw [hcn, new_get_none, hr]
    simp only [Point.north]
    intro hcon
    have h2 := hcon.2.2.1
    omega
  · rw [hce, new_get_none, hr]
    simp only [Point.east]
    intro hcon
    have h2 := hcon.2.1
    omega

theorem bt_action_shape (w h : Nat) (s : Nat → Nat) (pr : Point × Point)
    (hm : pr ∈ btActions (RectangularGrid.new w h) s (RectangularGrid.new w h).cells 0) :
    ((RectangularGrid.new w h).get pr.1).isSome = true ∧
    ((RectangularGrid.new w h).get pr.2).isSome = true ∧
    (pr.2 = pr.1.north ∨ pr.2 = pr.1.east) := by
  obtain ⟨c, n, hmem, h1, h2, hn⟩ := btActions_mem _ s _ 0 pr hm
  have hget : (RectangularGrid.new w h).get c.point = some c :=
    WF_get_of_mem _ c (WF_new w h) hmem
  have hcnew := (new_mem_cell w h c hmem).1
  have hcn : c.north.point = c.point.north := by
    conv_lhs => rw [hcnew]
    exact (cellNew_slots c.point).2.1
  have hce : c.east.point = c.point.east := by
    conv_lhs => rw [hcnew]
    exact (cellNew_slots c.point).2.2.2.1
  refine ⟨by rw [h1, hget]; rfl, ?_, ?_⟩
  · rcases btNeighborCells_mem _ c n hn with hg | hg
    · have hpn := get_point _ _ _ hg
      rw [h2, hpn, hg]
      rfl
    · have hpn := get_point _ _ _ hg
      rw [h2, hpn, hg]
      rfl
  · rcases btNeighborCells_mem _ c n hn with hg | hg
    · left
      have hpn := get_point _ _ _ hg
      rw [h2, hpn, hcn, h1]
    · right
      have hpn := get_point _ _ _ hg
      rw [h2, hpn, hce, h1]

theorem bt_perfect (w h : Nat) (s : Nat → Nat) (g' : Grid) (hw : 1 ≤ w) (hh : 1 ≤ h)
    (hrun : Algorithm.binary_tree (RectangularGrid.new w h) s = some g') :
    PerfectMaze g' ∧ g'.edgePairs.card + 1 = w * h := by
  have hg0wf := WF_new w h
  rw [Algorithm.binary_tree] at hrun
  have hok : ∀ pr ∈ btActions (RectangularGrid.new w h) s (RectangularGrid.new w h).cells 0,
      ((RectangularGrid.new w h).get pr.1).isSome = true ∧
      ((RectangularGrid.new w h).get pr.2).isSome = true ∧ adjacentPt pr.1 pr.2 := by
    intro pr hm
    obtain ⟨h1, h2, h3⟩ := bt_action_shape w h s pr hm
    refine ⟨h1, h2, ?_⟩
    rcases h3 with h3 | h3
    · exact Or.inl h3
    · exact Or.inr (Or.inr (Or.inl h3))
  obtain ⟨hwf', hwid, hhei, hpres, hlinked⟩ := linkAll_props _ _ g' hg0wf hok hrun
  have hbichar : ∀ p q, g'.biLinked p q = true ↔
      ∃ pr ∈ btActions (RectangularGrid.new w h) s (RectangularGrid.new w h).cells 0,
        (p = pr.1 ∧ q = pr.2) ∨ (p = pr.2 ∧ q = pr.1) := by
    intro p q
    rw [Grid.biLinked, Bool.and_eq_true, hlinked p q, hlinked q p]
    simp only [new_linkedTo_false, Bool.false_eq_true, false_or]
    constructor
    · rintro ⟨⟨pr, hpr, hc⟩, _⟩
      exact ⟨pr, hpr, hc⟩
    · rintro ⟨pr, hpr, hc⟩
      exact ⟨⟨pr, hpr, hc⟩, ⟨pr, hpr, by tauto⟩⟩
  have hcert : LinkCert g' ⟨(w : Int) - 1, 0⟩
      (btActions (RectangularGrid.new w h) s (RectangularGrid.new w h).cells 0) := by
    refine ⟨hbichar, ?_, ?_, ?_, ?_, ?_, ?_⟩
    · rw [btActions_fst]
      have hsub : ((((RectangularGrid.new w h).cells.filterMap id).filter
          (fun c => !(btNeighborCells (RectangularGrid.new w h) c).isEmpty)).map
            (fun c => c.point)).Sublist
          (((RectangularGrid.new w h).cells.filterMap id).map (fun c => c.point)) :=
        List.Sublist.map _ (List.filter_sublist _)
      exact (new_presentPoints_nodup w h).sublist hsub
    · rw [btActions_fst]
      intro hmem
      rcases List.mem_map.mp hmem with ⟨c, hcf, hcp⟩
      rcases List.mem_filter.mp hcf with ⟨hcm, hpool⟩
      have hget := (mem_filterMap_get _ hg0wf c).mp hcm
      have hmc : some c ∈ (RectangularGrid.new w h).cells := get_mem _ _ _ hget
      have hempty := bt_pool_empty_at_root w h c hmc hcp
      rw [hempty] at hpool
      exact absurd hpool (by simp)
    · have hin : ((RectangularGrid.new w h).get ⟨(w : Int) - 1, 0⟩).isSome = true := by
        rw [new_get_isSome]
        refine ⟨?_, ?_, ?_, ?_⟩
        · show (0 : Int) ≤ (w : Int) - 1
          omega
        · show (w : Int) - 1 < (w : Int)
          omega
        · show (0 : Int) ≤ 0
          omega
        · show (0 : Int) < (h : Int)
          omega
      exact Option.isSome_iff_exists.mp ((hpres _).trans hin)
    · intro pr hm
      obtain ⟨h1, h2, _⟩ := bt_action_shape w h s pr hm
      exact ⟨Option.isSome_iff_exists.mp ((hpres pr.1).trans h1),
             Option.isSome_iff_exists.mp ((hpres pr.2).trans h2)⟩
    · refine ⟨neMu w, ?_⟩
      intro pr hm
      obtain ⟨h1, h2, h3⟩ := bt_action_shape w h s pr hm
      have hr1 := (new_get_isSome w h pr.1).mp h1
      have hr2 := (new_get_isSome w h pr.2).mp h2
      rcases h3 with h3 | h3
      · rw [h3]
        apply neMu_north w pr.1 hw
        rw [h3] at hr2
        have h4 : (0 : Int) ≤ pr.1.y - 1 := hr2.2.2.1
        omega
      · rw [h3]
        apply neMu_east w pr.1 hr1.1
        rw [h3] at hr2
        have h4 : pr.1.x + 1 < (w : Int) := hr2.2.1
        exact h4
    · intro pr hm
      obtain ⟨h1, h2, h3⟩ := bt_action_shape w h s pr hm
      by_cases hpr2 : pr.2 = (⟨(w : Int) - 1, 0⟩ : Point)
      · exact Or.inl hpr2
      · right
        rw [btActions_fst]
        have hr2 := (new_get_isSome w h pr.2).mp h2
        apply List.mem_map.mpr
        refine ⟨Cell.new pr.2, List.mem_filter.mpr ⟨?_, bt_pool_nonempty w h pr.2 hr2 hpr2⟩,
          (cellNew_slots pr.2).1⟩
        apply (mem_filterMap_get _ hg0wf _).mpr
        rw [(cellNew_slots pr.2).1]
        exact new_get_some w h pr.2 hr2.1 hr2.2.1 hr2.2.2.1 hr2.2.2.2
  have hspan : ∀ p, p ∈ (⟨(w : Int) - 1, 0⟩ : Point) ::
      (btActions (RectangularGrid.new w h) s (RectangularGrid.new w h).cells 0).map Prod.fst ↔
      p ∈ g'.presentPoints := by
    intro p
    rw [presentPoints_iff_get _ hwf', hpres p, new_get_isSome]
    constructor
    · intro hm
      rcases List.mem_cons.mp hm with he | hmem
      · subst he
        refine ⟨?_, ?_, ?_, ?_⟩
        · show (0 : Int) ≤ (w : Int) - 1
          omega
        · show (w : Int) - 1 < (w : Int)
          omega
        · show (0 : Int) ≤ 0
          omega
        · show (0 : Int) < (h : Int)
          omega
      · rw [btActions_fst] at hmem
        rcases List.mem_map.mp hmem with ⟨c, hcf, hcp⟩
        rcases List.mem_filter.mp hcf with ⟨hcm, _⟩
        have hget := (mem_filterMap_get _ hg0wf c).mp hcm
        have hs : ((RectangularGrid.new w h).get c.point).isSome = true := by
          rw [hget]
          rfl
        rw [new_get_isSome, hcp] at hs
        exact hs
    · intro hp
      by_cases hpr : p = (⟨(w : Int) - 1, 0⟩ : Point)
      · exact List.mem_cons.mpr (Or.inl hpr)
      · apply List.mem_cons.mpr
        right
        rw [btActions_fst]
        apply List.mem_map.mpr
        refine ⟨Cell.new p, List.mem_filter.mpr ⟨?_, bt_pool_nonempty w h p hp hpr⟩,
          (cellNew_slots p).1⟩
        apply (mem_filterMap_get _ hg0wf _).mpr
        rw [(cellNew_slots p).1]
        exact new_get_some w h p hp.1 hp.2.1 hp.2.2.1 hp.2.2.2
  obtain ⟨hpm, hedge, hcardp⟩ := linkCert_perfect g' _ _ hcert hspan
  refine ⟨hpm, ?_⟩
  have hfin : g'.presentPoints.toFinset.card = w * h := by
    rw [presentPoints_toFinset_eq (RectangularGrid.new w h) g' hg0wf hwf' hpres,
        new_presentPoints_card]
  rw [hedge]
  omega

/-- Sequential attachment: every pair's parent is the root or the first
component of an earlier pair (or was already seen). -/
def Attach (r : Point) : List (Point × Point) → List Point → Prop
  | [], _ => True
  | pr :: rest, seen => (pr.2 = r ∨ pr.2 ∈ seen) ∧ Attach r rest (pr.1 :: seen)

theorem attach_mono (r : Point) : ∀ (A : List (Point × Point)) (s1 s2 : List Point),
    (∀ p ∈ s1, p ∈ s2) → Attach r A s1 → Attach r A s2 := by
  intro A
  induction A with
  | nil => intro s1 s2 _ _; trivial
  | cons pr rest ih =>
    intro s1 s2 hsub h
    obtain ⟨h1, h2⟩ := h
    refine ⟨?_, ih (pr.1 :: s1) (pr.1 :: s2) ?_ h2⟩
    · rcases h1 with h1 | h1
      · exact Or.inl h1
      · exact Or.inr (hsub _ h1)
    · intro p hp
      rcases List.mem_cons.mp hp with he | hm
      · exact List.mem_cons.mpr (Or.inl he)
      · exact List.mem_cons.mpr (Or.inr (hsub _ hm))

theorem attach_append (r : Point) : ∀ (A B : List (Point × Point)) (seen : List Point),
    Attach r A seen → Attach r B (A.map Prod.fst ++ seen) → Attach r (A ++ B) seen := by
  intro A
  induction A with
  | nil => intro B seen _ hB; exact attach_mono r B _ _ (by simp) hB
  | cons pr rest ih =>
    intro B seen hA hB
    obtain ⟨h1, h2⟩ := hA
    refine ⟨h1, ih B (pr.1 :: seen) h2 (attach_mono r B _ _ ?_ hB)⟩
    intro p hp
    simp only [List.map_cons, List.cons_append, List.mem_cons, List.mem_append] at hp ⊢
    tauto

theorem attach_closed (r : Point) : ∀ (A : List (Point × Point)) (seen : List Point),
    Attach r A seen → ∀ pr ∈ A, pr.2 = r ∨ pr.2 ∈ seen ∨ pr.2 ∈ A.map Prod.fst := by
  intro A
  induction A with
  | nil => intro seen _ pr hm; exact absurd hm (List.not_mem_nil pr)
  | cons q rest ih =>
    intro seen h pr hm
    obtain ⟨h1, h2⟩ := h
    rcases List.mem_cons.mp hm with he | hm2
    · subst he
      rcases h1 with h1 | h1
      · exact Or.inl h1
      · exact Or.inr (Or.inl h1)
    · rcases ih (q.1 :: seen) h2 pr hm2 with h3 | h3 | h3
      · exact Or.inl h3
      · rcases List.mem_cons.mp h3 with he | hm3
        · exact Or.inr (Or.inr (by rw [he]; exact List.mem_map_of_mem _ (List.mem_cons_self _ _)))
        · exact Or.inr (Or.inl hm3)
      · rw [List.map_cons]
        exact Or.inr (Or.inr (List.mem_cons.mpr (Or.inr h3)))

theorem attach_mu_aux (r : Point) : ∀ (A : List (Point × Point)) (seen : List Point)
    (mu0 : Point → Nat) (B : Nat),
    Attach r A seen →
    (∀ p, (p ∈ seen ∨ p = r) → mu0 p < B) →
    (∀ pr ∈ A, pr.1 ∉ seen ∧ pr.1 ≠ r) →
    (A.map Prod.fst).Nodup →
    ∃ mu : Point → Nat, (∀ pr ∈ A, mu pr.2 < mu pr.1) ∧
      (∀ p, (p ∈ seen ∨ p = r) → mu p = mu0 p) := by
  intro A
  induction A with
  | nil => intro seen mu0 B _ _ _ _; exact ⟨mu0, fun pr hm => absurd hm (List.not_mem_nil pr),
      fun p _ => rfl⟩
  | cons pr rest ih =>
    intro seen mu0 B hat hbd hfresh hnd
    obtain ⟨h1, h2⟩ := hat
    rw [List.map_cons, List.nodup_cons] at hnd
    have hfr := hfresh pr (List.mem_cons_self _ _)
    obtain ⟨mu, hmu, hkeep⟩ := ih (pr.1 :: seen) (fun p => if p = pr.1 then B else mu0 p)
      (B + 1) h2
      (by
        intro p hp
        show (if p = pr.1 then B else mu0 p) < B + 1
        by_cases hpe : p = pr.1
        · rw [if_pos hpe]; omega
        · rw [if_neg hpe]
          rcases hp with hp | hp
          · rcases List.mem_cons.mp hp with he | hm
            · exact absurd he hpe
            · have := hbd p (Or.inl hm); omega
          · have := hbd p (Or.inr hp); omega)
      (by
        intro q hq
        obtain ⟨hq1, hq2⟩ := hfresh q (List.mem_cons_of_mem _ hq)
        refine ⟨?_, hq2⟩
        intro hmem
        rcases List.mem_cons.mp hmem with he | hm
        · exact hnd.1 (he ▸ List.mem_map_of_mem Prod.fst hq)
        · exact hq1 hm)
      hnd.2
    refine ⟨mu, ?_, ?_⟩
    · intro q hq
      rcases List.mem_cons.mp hq with he | hm
      · have ha : mu q.1 = B := by
          rw [hkeep q.1 (Or.inl (by rw [he]; exact List.mem_cons_self _ _))]
          show (if q.1 = pr.1 then B else mu0 q.1) = B
          rw [if_pos (by rw [he])]
        have hq2c : q.2 = r ∨ q.2 ∈ seen := by rw [he]; exact h1
        have hne2 : q.2 ≠ pr.1 := by
          intro he2
          rcases hq2c with h1f | h1f
          · exact hfr.2 (he2 ▸ h1f)
          · exact hfr.1 (he2 ▸ h1f)
        have hb : mu q.2 < B := by
          rcases hq2c with h1f | h1f
          · rw [hkeep q.2 (Or.inr h1f)]
            show (if q.2 = pr.1 then B else mu0 q.2) < B
            rw [if_neg hne2]
            exact hbd q.2 (Or.inr h1f)
          · rw [hkeep q.2 (Or.inl (List.mem_cons_of_mem _ h1f))]
            show (if q.2 = pr.1 then B else mu0 q.2) < B
            rw [if_neg hne2]
            exact hbd q.2 (Or.inl h1f)
        omega
      · exact hmu q hm
    · intro p hp
      have hne : p ≠ pr.1 := by
        intro he
        rcases hp with hp | hp
        · exact hfr.1 (he ▸ hp)
        · exact hfr.2 (he.symm.trans hp)
      have h5 := hkeep p (by
        rcases hp with hp | hp
        · exact Or.inl (List.mem_cons_of_mem _ hp)
        · exact Or.inr hp)
      rw [h5]
      show (if p = pr.1 then B else mu0 p) = mu0 p
      rw [if_neg hne]

theorem attach_mu (r : Point) (A : List (Point × Point))
    (hat : Attach r A [])
    (hfresh : ∀ pr ∈ A, pr.1 ≠ r)
    (hnd : (A.map Prod.fst).Nodup) :
    ∃ mu : Point → Nat, ∀ pr ∈ A, mu pr.2 < mu pr.1 := by
  obtain ⟨mu, hmu, _⟩ := attach_mu_aux r A [] (fun _ => 0) 1 hat
    (by
      intro p hp
      rcases hp with hp | hp
      · exact absurd hp (List.not_mem_nil p)
      · exact Nat.zero_lt_one)
    (by intro pr hm; exact ⟨List.not_mem_nil _, hfresh pr hm⟩) hnd
  exact ⟨mu, hmu⟩

/-- Membership of an unordered pair in an action list. -/
def unordMem (L : List (Point × Point)) (p q : Point) : Prop :=
  ∃ pr ∈ L, (p = pr.1 ∧ q = pr.2) ∨ (p = pr.2 ∧ q = pr.1)

theorem unordMem_append (A B : List (Point × Point)) (p q : Point) :
    unordMem (A ++ B) p q ↔ unordMem A p q ∨ unordMem B p q := by
  unfold unordMem
  constructor
  · rintro ⟨pr, hm, hc⟩
    rcases List.mem_append.mp hm with hm | hm
    · exact Or.inl ⟨pr, hm, hc⟩
    · exact Or.inr ⟨pr, hm, hc⟩
  · rintro (⟨pr, hm, hc⟩ | ⟨pr, hm, hc⟩)
    · exact ⟨pr, List.mem_append.mpr (Or.inl hm), hc⟩
    · exact ⟨pr, List.mem_append.mpr (Or.inr hm), hc⟩

theorem unordMem_cons (pr0 : Point × Point) (B : List (Point × Point)) (p q : Point) :
    unordMem (pr0 :: B) p q ↔
      ((p = pr0.1 ∧ q = pr0.2) ∨ (p = pr0.2 ∧ q = pr0.1)) ∨ unordMem B p q := by
  unfold unordMem
  constructor
  · rintro ⟨pr, hm, hc⟩
    rcases List.mem_cons.mp hm with he | hm
    · subst he; exact Or.inl hc
    · exact Or.inr ⟨pr, hm, hc⟩
  · rintro (hc | ⟨pr, hm, hc⟩)
    · exact ⟨pr0, List.mem_cons_self _ _, hc⟩
    · exact ⟨pr, List.mem_cons_of_mem _ hm, hc⟩

theorem linkCert_of_attach (g : Grid) (r : Point) (A : List (Point × Point))
    (hbi : ∀ p q, g.biLinked p q = true ↔ unordMem A p q)
    (hnd : (A.map Prod.fst).Nodup)
    (hroot : r ∉ A.map Prod.fst)
    (hpresR : ∃ c, g.get r = some c)
    (hpresA : ∀ pr ∈ A, (∃ c, g.get pr.1 = some c) ∧ (∃ c, g.get pr.2 = some c))
    (hat : Attach r A []) : LinkCert g r A := by
  have hfresh : ∀ pr ∈ A, pr.1 ≠ r := by
    intro pr hm he
    exact hroot (he ▸ List.mem_map_of_mem Prod.fst hm)
  refine ⟨hbi, hnd, hroot, hpresR, hpresA, attach_mu r A hat hfresh hnd, ?_⟩
  intro pr hm
  rcases attach_closed r A [] hat pr hm with h | h | h
  · exact Or.inl h
  · exact absurd h (List.not_mem_nil _)
  · exact Or.inr h

theorem WF_get_neg (g : Grid) (hwf : g.WF) (q : Point) (hq : q.x < 0 ∨ q.y < 0) :
    g.get q = none := by
  cases hg : g.get q with
  | none => rfl
  | some c =>
    exfalso
    have hpt := get_point g q c hg
    rcases mem_index g c (get_mem g q c hg) with ⟨i, hi, hci⟩
    have hsl := (WF_slot_points g c i hwf hi hci).1
    rw [hsl] at hpt
    have hx : (0 : Int) ≤ q.x := by
      rw [← hpt]
      show (0 : Int) ≤ ((i % g.width : Nat) : Int)
      exact Int.natCast_nonneg _
    have hy : (0 : Int) ≤ q.y := by
      rw [← hpt]
      show (0 : Int) ≤ ((i / g.width : Nat) : Int)
      exact Int.natCast_nonneg _
    rcases hq with hq | hq <;> omega

theorem link_dangling (g : Grid) (a b : Point) (ca : Cell) (hwf : g.WF)
    (ha : g.get a = some ca) (hb : b.x < 0 ∨ b.y < 0) (hadj : adjacentPt a b) :
    ∃ g' ca2, g.link a b true = some g' ∧ g'.WF ∧
      g'.width = g.width ∧ g'.height = g.height ∧ g'.cells.length = g.cells.length ∧
      (∀ p, p ≠ a → g'.get p = g.get p) ∧
      g'.get a = some ca2 ∧ (∀ q, q ∈ ca2.links ↔ (q ∈ ca.links ∨ q = b)) := by
  obtain ⟨ia, hia, hcia, hidxa, hpa⟩ := WF_get_index g a ca hwf ha
  have hsla := WF_slot_points g ca ia hwf hia hcia
  obtain ⟨ca2, hlka, hlinksa, hpca2⟩ := cell_link_adj ca b
    ⟨hsla.2.1, hsla.2.2.1, hsla.2.2.2.1, hsla.2.2.2.2⟩ (hpa ▸ hadj)
  have hgetD_ia : g.cells.getD ia none = some ca := by
    rw [List.getD_eq_getElem?_getD, hcia]; rfl
  have h1 : g.linkHalf a b = some { g with cells := g.cells.set ia (some ca2) } := by
    unfold Grid.linkHalf
    simp only [hidxa, hgetD_ia, hlka]
  set g' : Grid := { g with cells := g.cells.set ia (some ca2) } with hg'
  have hidxb : g'.point_to_index b = none := by
    unfold Grid.point_to_index
    rw [if_pos hb]
  have h2 : g'.linkHalf b a = some g' := by
    unfold Grid.linkHalf
    simp only [hidxb]
  have hlink : g.link a b true = some g' := by
    unfold Grid.link
    rw [h1]
    simp only [if_pos rfl]
    exact h2
  have hwf' : g'.WF := (link_WF g a b true g' hwf hlink).1
  have hlen' : g'.cells.length = g.cells.length := by simp [hg']
  have hslots : ∀ i : Nat, g'.cells[i]? =
      (if i = ia then some (some ca2) else g.cells[i]?) := by
    intro i
    by_cases hie : i = ia
    · subst hie
      rw [if_pos rfl]
      show (g.cells.set i (some ca2))[i]? = some (some ca2)
      exact List.getElem?_set_eq_of_lt _ hia
    · rw [if_neg hie]
      show (g.cells.set ia (some ca2))[i]? = g.cells[i]?
      exact List.getElem?_set_ne (fun he => hie he.symm)
  have hgeta : g'.get a = some ca2 := by
    have hmem : some ca2 ∈ g'.cells := List.getElem?_mem (by
      rw [hslots ia, if_pos rfl])
    have := WF_get_of_mem g' ca2 hwf' hmem
    rw [hpca2, hpa] at this
    exact this
  have hgetother : ∀ p, p ≠ a → g'.get p = g.get p := by
    intro p hpa2
    cases hgp : g.get p with
    | some cp =>
      obtain ⟨ip, hip, hcip, _, hppt⟩ := WF_get_index g p cp hwf hgp
      have hipa : ip ≠ ia := by
        intro he
        rw [he, hcia] at hcip
        simp only [Option.some_inj] at hcip
        exact hpa2 (by rw [← hppt, ← hcip, hpa])
      have hmem : some cp ∈ g'.cells := List.getElem?_mem (by
        rw [hslots ip, if_neg hipa]; exact hcip)
      have := WF_get_of_mem g' cp hwf' hmem
      rw [hppt] at this
      rw [this]
    | none =>
      cases hgp' : g'.get p with
      | none => rfl
      | some cp' =>
        obtain ⟨ip, hip, hcip, _, hppt⟩ := WF_get_index g' p cp' hwf' hgp'
        rw [hslots ip] at hcip
        by_cases hie : ip = ia
        · rw [if_pos hie] at hcip
          simp only [Option.some_inj] at hcip
          exact absurd (by rw [← hppt, ← hcip, hpca2, hpa]) hpa2
        · rw [if_neg hie] at hcip
          have hmem : some cp' ∈ g.cells := List.getElem?_mem hcip
          have := WF_get_of_mem g cp' hwf hmem
          rw [hppt, hgp] at this
          exact absurd this (by simp)
  exact ⟨g', ca2, hlink, hwf', by simp [hg'], by simp [hg'], hlen', hgetother, hgeta, hlinksa⟩

theorem biLinked_update (g g' : Grid) (a b : Point) (ca cb ca2 cb2 : Cell)
    (ha : g.get a = some ca) (hb : g.get b = some cb) (hne : a ≠ b)
    (hgetother : ∀ p, p ≠ a → p ≠ b → g'.get p = g.get p)
    (hgeta : g'.get a = some ca2) (hlinksa : ∀ q, q ∈ ca2.links ↔ (q ∈ ca.links ∨ q = b))
    (hgetb : g'.get b = some cb2) (hlinksb : ∀ q, q ∈ cb2.links ↔ (q ∈ cb.links ∨ q = a)) :
    ∀ p q, g'.biLinked p q = true ↔
      (g.biLinked p q = true ∨ (p = a ∧ q = b) ∨ (p = b ∧ q = a)) := by
  have hl := linkedTo_update g g' a b ca cb ca2 cb2 ha hb hne hgetother hgeta hlinksa
    hgetb hlinksb
  intro p q
  simp only [Grid.biLinked, Bool.and_eq_true]
  rw [hl p q, hl q p]
  tauto

theorem linkedTo_dangling (g g' : Grid) (a b : Point) (ca ca2 : Cell)
    (ha : g.get a = some ca)
    (hgetother : ∀ p, p ≠ a → g'.get p = g.get p)
    (hgeta : g'.get a = some ca2) (hlinksa : ∀ q, q ∈ ca2.links ↔ (q ∈ ca.links ∨ q = b)) :
    ∀ p q, g'.linkedTo p q = true ↔ (g.linkedTo p q = true ∨ (p = a ∧ q = b)) := by
  intro p q
  unfold Grid.linkedTo
  by_cases hpa : p = a
  · subst hpa
    rw [hgeta, ha]
    simp only [decide_eq_true_eq, hlinksa]
    constructor
    · rintro (hq | hq)
      · exact Or.inl hq
      · exact Or.inr ⟨trivial, hq⟩
    · rintro (hq | h2)
      · exact Or.inl hq
      · exact Or.inr h2.2
  · rw [hgetother p hpa]
    constructor
    · exact fun hq => Or.inl hq
    · rintro (hq | h2)
      · exact hq
      · exact absurd h2.1 hpa

theorem biLinked_dangling (g g' : Grid) (a b : Point) (ca ca2 : Cell)
    (ha : g.get a = some ca) (hne : a ≠ b) (hgb : g.get b = none)
    (hgetother : ∀ p, p ≠ a → g'.get p = g.get p)
    (hgeta : g'.get a = some ca2) (hlinksa : ∀ q, q ∈ ca2.links ↔ (q ∈ ca.links ∨ q = b)) :
    ∀ p q, g'.biLinked p q = true ↔ g.biLinked p q = true := by
  have hl := linkedTo_dangling g g' a b ca ca2 ha hgetother hgeta hlinksa
  have hlb : ∀ p, g.linkedTo b p = false := by
    intro p
    unfold Grid.linkedTo
    rw [hgb]
  intro p q
  simp only [Grid.biLinked, Bool.and_eq_true]
  rw [hl p q, hl q p]
  constructor
  · rintro ⟨h1 | h1, h2 | h2⟩
    · exact ⟨h1, h2⟩
    · obtain ⟨hq1, hp1⟩ := h2
      rw [hp1] at h1
      rw [hlb q] at h1
      exact absurd h1 (by simp)
    · obtain ⟨hp1, hq1⟩ := h1
      rw [hq1] at h2
      rw [hlb p] at h2
      exact absurd h2 (by simp)
    · exact absurd (h1.1.symm.trans h2.2) hne
  · rintro ⟨h1, h2⟩
    exact ⟨Or.inl h1, Or.inl h2⟩

theorem linkAllD_props (pairs : List (Point × Point)) :
    ∀ (g g' : Grid), g.WF →
    (∀ pr ∈ pairs, ((g.get pr.1).isSome = true ∧ adjacentPt pr.1 pr.2) ∧
      ((g.get pr.2).isSome = true ∨ pr.2.x < 0 ∨ pr.2.y < 0)) →
    linkAll g pairs = some g' →
    g'.WF ∧ g'.width = g.width ∧ g'.height = g.height ∧
    (∀ p, (g'.get p).isSome = (g.get p).isSome) ∧
    (∀ p q, g'.biLinked p q = true ↔
      (g.biLinked p q = true ∨ ∃ pr ∈ pairs, (g.get pr.2).isSome = true ∧
        ((p = pr.1 ∧ q = pr.2) ∨ (p = pr.2 ∧ q = pr.1)))) := by
  induction pairs with
  | nil =>
    intro g g' hwf _ h
    simp only [linkAll, Option.some_inj] at h
    subst h
    exact ⟨hwf, rfl, rfl, fun p => rfl, fun p q => by simp⟩
  | cons pr rest ih =>
    intro g g' hwf hok h
    obtain ⟨a, b⟩ := pr
    obtain ⟨⟨hsa, hadj⟩, hsb⟩ := hok (a, b) (List.mem_cons_self _ _)
    rcases Option.isSome_iff_exists.mp hsa with ⟨ca, hca⟩
    have hne := adjacentPt_ne a b hadj
    by_cases hsb2 : (g.get b).isSome = true
    · rcases Option.isSome_iff_exists.mp hsb2 with ⟨cb, hcb⟩
      obtain ⟨g2, ca2, cb2, hlink, hwf2, hw2, hh2, hlen2, hgetother, hgeta, hlinksa, hgetb,
        hlinksb⟩ := link_adj_some g a b ca cb hwf hca hcb hadj
      unfold linkAll at h
      rw [hlink] at h
      have hpres2 := isSome_update g g2 a b ca cb ca2 cb2 hca hcb hgetother hgeta hgetb
      have hok2 : ∀ q ∈ rest, ((g2.get q.1).isSome = true ∧ adjacentPt q.1 q.2) ∧
          ((g2.get q.2).isSome = true ∨ q.2.x < 0 ∨ q.2.y < 0) := by
        intro q hq
        obtain ⟨⟨h1, h2⟩, h3⟩ := hok q (List.mem_cons_of_mem _ hq)
        refine ⟨⟨(hpres2 q.1).trans h1, h2⟩, ?_⟩
        rcases h3 with h3 | h3
        · exact Or.inl ((hpres2 q.2).trans h3)
        · exact Or.inr h3
      obtain ⟨hwf', hw', hh', hpres', hbl'⟩ := ih g2 g' hwf2 hok2 h
      have hbl2 := biLinked_update g g2 a b ca cb ca2 cb2 hca hcb hne hgetother hgeta
        hlinksa hgetb hlinksb
      refine ⟨hwf', hw'.trans hw2, hh'.trans hh2, fun p => (hpres' p).trans (hpres2 p), ?_⟩
      intro p q
      rw [hbl' p q, hbl2 p q]
      constructor
      · rintro ((hl | hpq) | ⟨pr2, hpr2, hs2, hc⟩)
        · exact Or.inl hl
        · exact Or.inr ⟨(a, b), List.mem_cons_self _ _, hsb2, hpq⟩
        · exact Or.inr ⟨pr2, List.mem_cons_of_mem _ hpr2, (hpres2 pr2.2).symm.trans hs2, hc⟩
      · rintro (hl | ⟨pr2, hpr2, hs2, hc⟩)
        · exact Or.inl (Or.inl hl)
        · rcases List.mem_cons.mp hpr2 with he | hm
          · subst he
            exact Or.inl (Or.inr hc)
          · exact Or.inr ⟨pr2, hm, (hpres2 pr2.2).trans hs2, hc⟩
    · have hneg : b.x < 0 ∨ b.y < 0 := by
        rcases hsb with hsb | hsb
        · exact absurd hsb hsb2
        · exact hsb
      have hgb : g.get b = none := by
        cases hgb2 : g.get b with
        | none => rfl
        | some cb => rw [hgb2] at hsb2; exact absurd rfl hsb2
      obtain ⟨g2, ca2, hlink, hwf2, hw2, hh2, hlen2, hgetother, hgeta, hlinksa⟩ :=
        link_dangling g a b ca hwf hca hneg hadj
      unfold linkAll at h
      rw [hlink] at h
      have hpres2 : ∀ p, (g2.get p).isSome = (g.get p).isSome := by
        intro p
        by_cases hpa : p = a
        · subst hpa
          rw [hgeta, hca]
          rfl
        · rw [hgetother p hpa]
      have hok2 : ∀ q ∈ rest, ((g2.get q.1).isSome = true ∧ adjacentPt q.1 q.2) ∧
          ((g2.get q.2).isSome = true ∨ q.2.x < 0 ∨ q.2.y < 0) := by
        intro q hq
        obtain ⟨⟨h1, h2⟩, h3⟩ := hok q (List.mem_cons_of_mem _ hq)
        refine ⟨⟨(hpres2 q.1).trans h1, h2⟩, ?_⟩
        rcases h3 with h3 | h3
        · exact Or.inl ((hpres2 q.2).trans h3)
        · exact Or.inr h3
      obtain ⟨hwf', hw', hh', hpres', hbl'⟩ := ih g2 g' hwf2 hok2 h
      have hbl2 := biLinked_dangling g g2 a b ca ca2 hca hne hgb hgetother hgeta hlinksa
      refine ⟨hwf', hw'.trans hw2, hh'.trans hh2, fun p => (hpres' p).trans (hpres2 p), ?_⟩
      intro p q
      rw [hbl' p q, hbl2 p q]
      constructor
      · rintro (hl | ⟨pr2, hpr2, hs2, hc⟩)
        · exact Or.inl hl
        · exact Or.inr ⟨pr2, List.mem_cons_of_mem _ hpr2, (hpres2 pr2.2).symm.trans hs2, hc⟩
      · rintro (hl | ⟨pr2, hpr2, hs2, hc⟩)
        · exact Or.inl hl
        · rcases List.mem_cons.mp hpr2 with he | hm
          · subst he
            rw [hgb] at hs2
            exact absurd hs2 (by simp)
          · exact Or.inr ⟨pr2, hm, (hpres2 pr2.2).trans hs2, hc⟩

/-- The east-going extend actions of a sidewinder run, columns a..a+n-1. -/
def extList (y : Int) (a n : Nat) : List (Point × Point) :=
  (List.range' a n).map (fun x => (⟨Int.ofNat x, y⟩, ⟨Int.ofNat x + 1, y⟩))

/-- Parent-oriented pairs walking east toward the run member at column j. -/
def chainE (y : Int) (j : Nat) : Nat → List (Point × Point)
  | 0 => []
  | n + 1 => chainE y j n ++ [(⟨(j : Int) - (n + 1), y⟩, ⟨(j : Int) - n, y⟩)]

/-- Parent-oriented pairs walking west toward the run member at column j. -/
def chainW (y : Int) (j : Nat) : Nat → List (Point × Point)
  | 0 => []
  | n + 1 => chainW y j n ++ [(⟨(j : Int) + (n + 1), y⟩, ⟨(j : Int) + n, y⟩)]

theorem chainE_mem (y : Int) (j : Nat) : ∀ n pr, pr ∈ chainE y j n ↔
    ∃ t : Nat, t < n ∧ pr = (⟨(j : Int) - (t + 1), y⟩, ⟨(j : Int) - t, y⟩) := by
  intro n
  induction n with
  | zero => intro pr; simp [chainE]
  | succ m ih =>
    intro pr
    rw [chainE, List.mem_append, ih pr, List.mem_singleton]
    constructor
    · rintro (⟨t, ht, he⟩ | he)
      · exact ⟨t, by omega, he⟩
      · exact ⟨m, by omega, he⟩
    · rintro ⟨t, ht, he⟩
      by_cases htm : t = m
      · subst htm
        exact Or.inr he
      · exact Or.inl ⟨t, by omega, he⟩

theorem chainW_mem (y : Int) (j : Nat) : ∀ n pr, pr ∈ chainW y j n ↔
    ∃ t : Nat, t < n ∧ pr = (⟨(j : Int) + (t + 1), y⟩, ⟨(j : Int) + t, y⟩) := by
  intro n
  induction n with
  | zero => intro pr; simp [chainW]
  | succ m ih =>
    intro pr
    rw [chainW, List.mem_append, ih pr, List.mem_singleton]
    constructor
    · rintro (⟨t, ht, he⟩ | he)
      · exact ⟨t, by omega, he⟩
      · exact ⟨m, by omega, he⟩
    · rintro ⟨t, ht, he⟩
      by_cases htm : t = m
      · subst htm
        exact Or.inr he
      · exact Or.inl ⟨t, by omega, he⟩

theorem chainE_fst (y : Int) (j n : Nat) (p : Point) :
    p ∈ (chainE y j n).map Prod.fst ↔ ∃ t : Nat, t < n ∧ p = ⟨(j : Int) - (t + 1), y⟩ := by
  rw [List.mem_map]
  constructor
  · rintro ⟨pr, hm, he⟩
    rcases (chainE_mem y j n pr).mp hm with ⟨t, ht, hpr⟩
    exact ⟨t, ht, by rw [← he, hpr]⟩
  · rintro ⟨t, ht, he⟩
    exact ⟨(⟨(j : Int) - (t + 1), y⟩, ⟨(j : Int) - t, y⟩),
      (chainE_mem y j n _).mpr ⟨t, ht, rfl⟩, he.symm⟩

theorem chainW_fst (y : Int) (j n : Nat) (p : Point) :
    p ∈ (chainW y j n).map Prod.fst ↔ ∃ t : Nat, t < n ∧ p = ⟨(j : Int) + (t + 1), y⟩ := by
  rw [List.mem_map]
  constructor
  · rintro ⟨pr, hm, he⟩
    rcases (chainW_mem y j n pr).mp hm with ⟨t, ht, hpr⟩
    exact ⟨t, ht, by rw [← he, hpr]⟩
  · rintro ⟨t, ht, he⟩
    exact ⟨(⟨(j : Int) + (t + 1), y⟩, ⟨(j : Int) + t, y⟩),
      (chainW_mem y j n _).mpr ⟨t, ht, rfl⟩, he.symm⟩

theorem extList_mem (y : Int) (a n : Nat) (pr : Point × Point) :
    pr ∈ extList y a n ↔
      ∃ x : Nat, a ≤ x ∧ x < a + n ∧ pr = (⟨(x : Int), y⟩, ⟨(x : Int) + 1, y⟩) := by
  rw [extList, List.mem_map]
  constructor
  · rintro ⟨x, hm, he⟩
    rw [List.mem_range'_1] at hm
    exact ⟨x, hm.1, hm.2, he.symm⟩
  · rintro ⟨x, h1, h2, he⟩
    exact ⟨x, List.mem_range'_1.mpr ⟨h1, h2⟩, he.symm⟩

theorem chainE_nodup (y : Int) (j n : Nat) : ((chainE y j n).map Prod.fst).Nodup := by
  induction n with
  | zero => simp [chainE]
  | succ m ih =>
    rw [chainE, List.map_append]
    apply List.Nodup.append ih (by simp)
    intro p hp hp2
    simp only [List.map_cons, List.map_nil, List.mem_singleton] at hp2
    rcases (chainE_fst y j m p).mp hp with ⟨t, ht, he⟩
    rw [hp2] at he
    have hx : (j : Int) - (m + 1) = (j : Int) - (t + 1) := congrArg Point.x he
    omega

theorem chainW_nodup (y : Int) (j n : Nat) : ((chainW y j n).map Prod.fst).Nodup := by
  induction n with
  | zero => simp [chainW]
  | succ m ih =>
    rw [chainW, List.map_append]
    apply List.Nodup.append ih (by simp)
    intro p hp hp2
    simp only [List.map_cons, List.map_nil, List.mem_singleton] at hp2
    rcases (chainW_fst y j m p).mp hp with ⟨t, ht, he⟩
    rw [hp2] at he
    have hx : (j : Int) + (m + 1) = (j : Int) + (t + 1) := congrArg Point.x he
    omega

theorem chainE_attach (y : Int) (j : Nat) (r : Point) :
    ∀ n (seen : List Point), (⟨(j : Int), y⟩ : Point) ∈ seen →
    Attach r (chainE y j n) seen := by
  intro n
  induction n with
  | zero => intro seen _; trivial
  | succ m ih =>
    intro seen hj
    apply attach_append r (chainE y j m) _ seen (ih seen hj)
    refine ⟨?_, trivial⟩
    cases m with
    | zero =>
      right
      apply List.mem_append.mpr
      right
      show (⟨(j : Int) - 0, y⟩ : Point) ∈ seen
      have : ((j : Int) - 0) = (j : Int) := by omega
      rw [this]
      exact hj
    | succ m2 =>
      right
      apply List.mem_append.mpr
      left
      apply (chainE_fst y j (m2 + 1) _).mpr
      exact ⟨m2, by omega, by
        show (⟨(j : Int) - (m2 + 1), y⟩ : Point) = ⟨(j : Int) - (m2 + 1), y⟩
        rfl⟩

theorem chainW_attach (y : Int) (j : Nat) (r : Point) :
    ∀ n (seen : List Point), (⟨(j : Int), y⟩ : Point) ∈ seen →
    Attach r (chainW y j n) seen := by
  intro n
  induction n with
  | zero => intro seen _; trivial
  | succ m ih =>
    intro seen hj
    apply attach_append r (chainW y j m) _ seen (ih seen hj)
    refine ⟨?_, trivial⟩
    cases m with
    | zero =>
      right
      apply List.mem_append.mpr
      right
      show (⟨(j : Int) + 0, y⟩ : Point) ∈ seen
      have : ((j : Int) + 0) = (j : Int) := by omega
      rw [this]
      exact hj
    | succ m2 =>
      right
      apply List.mem_append.mpr
      left
      apply (chainW_fst y j (m2 + 1) _).mpr
      exact ⟨m2, by omega, rfl⟩

/-- The parent-oriented pairs of one closed sidewinder run over columns a..m
with the north link at column j. -/
def segBlock (y : Int) (a j m : Nat) : List (Point × Point) :=
  (⟨(j : Int), y⟩, ⟨(j : Int), y - 1⟩) :: (chainE y j (j - a) ++ chainW y j (m - j))

/-- The parent-oriented pairs of the single row-0 run, whose dangling north
link is dropped and whose member at column j is the tree root. -/
def rowZeroBlock (j m : Nat) : List (Point × Point) :=
  chainE 0 j j ++ chainW 0 j (m - j)

theorem segBlock_fst (y : Int) (a j m : Nat) (ha : a ≤ j) (hm : j ≤ m) (p : Point) :
    p ∈ (segBlock y a j m).map Prod.fst ↔
      (p.y = y ∧ (a : Int) ≤ p.x ∧ p.x ≤ (m : Int)) := by
  rw [segBlock, List.map_cons, List.mem_cons, List.map_append, List.mem_append,
    chainE_fst, chainW_fst]
  constructor
  · rintro (he | ⟨t, ht, he⟩ | ⟨t, ht, he⟩)
    · have he2 : p = (⟨(j : Int), y⟩ : Point) := he
      rw [he2]
      refine ⟨rfl, ?_, ?_⟩
      · show (a : Int) ≤ (j : Int)
        omega
      · show (j : Int) ≤ (m : Int)
        omega
    · rw [he]
      refine ⟨rfl, ?_, ?_⟩
      · show (a : Int) ≤ (j : Int) - (t + 1)
        omega
      · show (j : Int) - (t + 1) ≤ (m : Int)
        omega
    · rw [he]
      refine ⟨rfl, ?_, ?_⟩
      · show (a : Int) ≤ (j : Int) + (t + 1)
        omega
      · show (j : Int) + (t + 1) ≤ (m : Int)
        omega
  · rintro ⟨hy, hx1, hx2⟩
    rcases p with ⟨px, py⟩
    have hy2 : py = y := hy
    have hx1b : (a : Int) ≤ px := hx1
    have hx2b : px ≤ (m : Int) := hx2
    subst hy2
    by_cases hpj : px = (j : Int)
    · exact Or.inl (by rw [hpj])
    · by_cases hlt : px < (j : Int)
      · refine Or.inr (Or.inl ⟨(j - 1 - px.toNat), by omega, ?_⟩)
        simp only [Point.mk.injEq, and_true]
        omega
      · refine Or.inr (Or.inr ⟨(px.toNat - j - 1), by omega, ?_⟩)
        simp only [Point.mk.injEq, and_true]
        omega

theorem rowZeroBlock_fst (j m : Nat) (hm : j ≤ m) (p : Point) :
    p ∈ (rowZeroBlock j m).map Prod.fst ↔
      (p.y = 0 ∧ 0 ≤ p.x ∧ p.x ≤ (m : Int) ∧ p.x ≠ (j : Int)) := by
  rw [rowZeroBlock, List.map_append, List.mem_append, chainE_fst, chainW_fst]
  constructor
  · rintro (⟨t, ht, he⟩ | ⟨t, ht, he⟩)
    · rw [he]
      refine ⟨rfl, ?_, ?_, ?_⟩
      · show (0 : Int) ≤ (j : Int) - (t + 1)
        omega
      · show (j : Int) - (t + 1) ≤ (m : Int)
        omega
      · show (j : Int) - (t + 1) ≠ (j : Int)
        omega
    · rw [he]
      refine ⟨rfl, ?_, ?_, ?_⟩
      · show (0 : Int) ≤ (j : Int) + (t + 1)
        omega
      · show (j : Int) + (t + 1) ≤ (m : Int)
        omega
      · show (j : Int) + (t + 1) ≠ (j : Int)
        omega
  · rintro ⟨hy, hx1, hx2, hxj⟩
    rcases p with ⟨px, py⟩
    have hy2 : py = 0 := hy
    have hx1b : (0 : Int) ≤ px := hx1
    have hx2b : px ≤ (m : Int) := hx2
    have hxjb : px ≠ (j : Int) := hxj
    subst hy2
    by_cases hlt : px < (j : Int)
    · refine Or.inl ⟨(j - 1 - px.toNat), by omega, ?_⟩
      simp only [Point.mk.injEq, and_true]
      omega
    · refine Or.inr ⟨(px.toNat - j - 1), by omega, ?_⟩
      simp only [Point.mk.injEq, and_true]
      omega

theorem segBlock_nodup (y : Int) (a j m : Nat) : ((segBlock y a j m).map Prod.fst).Nodup := by
  rw [segBlock, List.map_cons, List.nodup_cons, List.map_append]
  constructor
  · intro hmem
    rcases List.mem_append.mp hmem with hmem | hmem
    · rcases (chainE_fst y j (j - a) _).mp hmem with ⟨t, ht, he⟩
      have hx : (j : Int) = (j : Int) - (t + 1) := congrArg Point.x he
      omega
    · rcases (chainW_fst y j (m - j) _).mp hmem with ⟨t, ht, he⟩
      have hx : (j : Int) = (j : Int) + (t + 1) := congrArg Point.x he
      omega
  · apply List.Nodup.append (chainE_nodup y j (j - a)) (chainW_nodup y j (m - j))
    intro p hp hp2
    rcases (chainE_fst y j (j - a) _).mp hp with ⟨t, ht, he⟩
    rcases (chainW_fst y j (m - j) _).mp hp2 with ⟨t2, ht2, he2⟩
    rw [he] at he2
    have hx : (j : Int) - (t + 1) = (j : Int) + (t2 + 1) := congrArg Point.x he2
    omega

theorem rowZeroBlock_nodup (j m : Nat) : ((rowZeroBlock j m).map Prod.fst).Nodup := by
  rw [rowZeroBlock, List.map_append]
  apply List.Nodup.append (chainE_nodup 0 j j) (chainW_nodup 0 j (m - j))
  intro p hp hp2
  rcases (chainE_fst 0 j j _).mp hp with ⟨t, ht, he⟩
  rcases (chainW_fst 0 j (m - j) _).mp hp2 with ⟨t2, ht2, he2⟩
  rw [he] at he2
  have hx : (j : Int) - (t + 1) = (j : Int) + (t2 + 1) := congrArg Point.x he2
  omega

theorem segBlock_attach (y : Int) (a j m : Nat) (r : Point) (seen : List Point)
    (hseen : (⟨(j : Int), y - 1⟩ : Point) ∈ seen) :
    Attach r (segBlock y a j m) seen := by
  refine ⟨Or.inr hseen, ?_⟩
  apply attach_append r (chainE y j (j - a)) _ _
    (chainE_attach y j r (j - a) _ (List.mem_cons_self _ _))
  apply chainW_attach y j r (m - j)
  apply List.mem_append.mpr
  right
  exact List.mem_cons_self _ _

theorem rowZeroBlock_attach (j m : Nat) (seen : List Point) :
    Attach (⟨(j : Int), 0⟩ : Point) (rowZeroBlock j m) seen := by
  apply attach_append _ (chainE 0 j j) _ _ ?_ ?_
  · have h2 : ∀ n, Attach (⟨(j : Int), 0⟩ : Point) (chainE 0 j n) seen := by
      intro n
      induction n with
      | zero => trivial
      | succ m2 ih =>
        apply attach_append _ (chainE 0 j m2) _ _ ih
        refine ⟨?_, trivial⟩
        cases m2 with
        | zero =>
          left
          show (⟨(j : Int) - 0, 0⟩ : Point) = ⟨(j : Int), 0⟩
          simp only [Point.mk.injEq, and_true]
          omega
        | succ m3 =>
          right
          apply List.mem_append.mpr
          left
          exact (chainE_fst 0 j (m3 + 1) _).mpr ⟨m3, by omega, rfl⟩
    exact h2 j
  · have h2 : ∀ n, Attach (⟨(j : Int), 0⟩ : Point) (chainW 0 j n)
        ((chainE 0 j j).map Prod.fst ++ seen) := by
      intro n
      induction n with
      | zero => trivial
      | succ m2 ih =>
        apply attach_append _ (chainW 0 j m2) _ _ ih
        refine ⟨?_, trivial⟩
        cases m2 with
        | zero =>
          left
          show (⟨(j : Int) + 0, 0⟩ : Point) = ⟨(j : Int), 0⟩
          simp only [Point.mk.injEq, and_true]
          omega
        | succ m3 =>
          right
          apply List.mem_append.mpr
          left
          exact (chainW_fst 0 j (m3 + 1) _).mpr ⟨m3, by omega, rfl⟩
    exact h2 (m - j)

/-- An unordered horizontal passage between columns x and x+1 of row y. -/
def EP (y : Int) (p q : Point) (x : Int) : Prop :=
  (p = ⟨x, y⟩ ∧ q = ⟨x + 1, y⟩) ∨ (q = ⟨x, y⟩ ∧ p = ⟨x + 1, y⟩)

theorem unordMem_extList (y : Int) (a n : Nat) (p q : Point) :
    unordMem (extList y a n) p q ↔
      ∃ x : Int, (a : Int) ≤ x ∧ x < (a : Int) + n ∧ EP y p q x := by
  constructor
  · rintro ⟨pr, hm, hc⟩
    rcases (extList_mem y a n pr).mp hm with ⟨x0, h1, h2, he⟩
    subst he
    refine ⟨(x0 : Int), by omega, by omega, ?_⟩
    rcases hc with ⟨hp, hq⟩ | ⟨hp, hq⟩
    · exact Or.inl ⟨hp, hq⟩
    · exact Or.inr ⟨hq, hp⟩
  · rintro ⟨x, h1, h2, hc⟩
    have hx : ((x.toNat : Nat) : Int) = x := by omega
    refine ⟨(⟨Int.ofNat x.toNat, y⟩, ⟨Int.ofNat x.toNat + 1, y⟩),
      (extList_mem y a n _).mpr ⟨x.toNat, by omega, by omega, rfl⟩, ?_⟩
    show (p = ⟨((x.toNat : Nat) : Int), y⟩ ∧ q = ⟨((x.toNat : Nat) : Int) + 1, y⟩) ∨
      (p = ⟨((x.toNat : Nat) : Int) + 1, y⟩ ∧ q = ⟨((x.toNat : Nat) : Int), y⟩)
    rw [hx]
    rcases hc with ⟨hp, hq⟩ | ⟨hq, hp⟩
    · exact Or.inl ⟨hp, hq⟩
    · exact Or.inr ⟨hp, hq⟩

theorem unordMem_chainE (y : Int) (j n : Nat) (p q : Point) :
    unordMem (chainE y j n) p q ↔
      ∃ x : Int, (j : Int) - n ≤ x ∧ x < (j : Int) ∧ EP y p q x := by
  constructor
  · rintro ⟨pr, hm, hc⟩
    rcases (chainE_mem y j n pr).mp hm with ⟨t, ht, he⟩
    subst he
    refine ⟨(j : Int) - (t + 1), by omega, by omega, ?_⟩
    have he2 : (j : Int) - t = ((j : Int) - (t + 1)) + 1 := by omega
    rw [he2] at hc
    rcases hc with ⟨hp, hq⟩ | ⟨hp, hq⟩
    · exact Or.inl ⟨hp, hq⟩
    · exact Or.inr ⟨hq, hp⟩
  · rintro ⟨x, h1, h2, hc⟩
    refine ⟨(⟨(j : Int) - ((((j : Int) - 1 - x).toNat : Nat) + 1), y⟩,
      ⟨(j : Int) - ((((j : Int) - 1 - x).toNat : Nat) : Int), y⟩),
      (chainE_mem y j n _).mpr ⟨((j : Int) - 1 - x).toNat, by omega, rfl⟩, ?_⟩
    show (p = ⟨(j : Int) - ((((j : Int) - 1 - x).toNat : Nat) + 1), y⟩ ∧
        q = ⟨(j : Int) - ((((j : Int) - 1 - x).toNat : Nat) : Int), y⟩) ∨
      (p = ⟨(j : Int) - ((((j : Int) - 1 - x).toNat : Nat) : Int), y⟩ ∧
        q = ⟨(j : Int) - ((((j : Int) - 1 - x).toNat : Nat) + 1), y⟩)
    rw [show (j : Int) - ((((j : Int) - 1 - x).toNat : Nat) + 1) = x by omega,
      show (j : Int) - ((((j : Int) - 1 - x).toNat : Nat) : Int) = x + 1 by omega]
    rcases hc with ⟨hp, hq⟩ | ⟨hq, hp⟩
    · exact Or.inl ⟨hp, hq⟩
    · exact Or.inr ⟨hp, hq⟩

theorem unordMem_chainW (y : Int) (j n : Nat) (p q : Point) :
    unordMem (chainW y j n) p q ↔
      ∃ x : Int, (j : Int) ≤ x ∧ x < (j : Int) + n ∧ EP y p q x := by
  constructor
  · rintro ⟨pr, hm, hc⟩
    rcases (chainW_mem y j n pr).mp hm with ⟨t, ht, he⟩
    subst he
    refine ⟨(j : Int) + t, by omega, by omega, ?_⟩
    have he2 : (j : Int) + (t + 1) = ((j : Int) + t) + 1 := by omega
    rw [he2] at hc
    rcases hc with ⟨hp, hq⟩ | ⟨hp, hq⟩
    · exact Or.inr ⟨hq, hp⟩
    · exact Or.inl ⟨hp, hq⟩
  · rintro ⟨x, h1, h2, hc⟩
    refine ⟨(⟨(j : Int) + ((x.toNat - j : Nat) + 1), y⟩,
      ⟨(j : Int) + ((x.toNat - j : Nat) : Int), y⟩),
      (chainW_mem y j n _).mpr ⟨x.toNat - j, by omega, rfl⟩, ?_⟩
    show (p = ⟨(j : Int) + ((x.toNat - j : Nat) + 1), y⟩ ∧
        q = ⟨(j : Int) + ((x.toNat - j : Nat) : Int), y⟩) ∨
      (p = ⟨(j : Int) + ((x.toNat - j : Nat) : Int), y⟩ ∧
        q = ⟨(j : Int) + ((x.toNat - j : Nat) + 1), y⟩)
    rw [show (j : Int) + ((x.toNat - j : Nat) + 1) = x + 1 by omega,
      show (j : Int) + ((x.toNat - j : Nat) : Int) = x by omega]
    rcases hc with ⟨hp, hq⟩ | ⟨hq, hp⟩
    · exact Or.inr ⟨hp, hq⟩
    · exact Or.inl ⟨hp, hq⟩

theorem unordMem_nil (p q : Point) : ¬ unordMem [] p q := by
  rintro ⟨pr, hm, _⟩
  exact List.not_mem_nil pr hm

theorem unordMem_singleton (e : Point × Point) (p q : Point) :
    unordMem [e] p q ↔ ((p = e.1 ∧ q = e.2) ∨ (p = e.2 ∧ q = e.1)) := by
  rw [unordMem_cons]
  constructor
  · rintro (h | h)
    · exact h
    · exact absurd h (unordMem_nil p q)
  · exact Or.inl

theorem segBlock_equiv (y : Int) (a j m : Nat) (ha : a ≤ j) (hm : j ≤ m) (p q : Point) :
    unordMem (extList y a (m - a) ++ [(⟨(j : Int), y⟩, ⟨(j : Int), y - 1⟩)]) p q ↔
      unordMem (segBlock y a j m) p q := by
  rw [unordMem_append, unordMem_singleton, segBlock, unordMem_cons, unordMem_append,
    unordMem_extList, unordMem_chainE, unordMem_chainW]
  constructor
  · rintro (⟨x, h1x, h2x, hep⟩ | hnorth)
    · by_cases hxj : x < (j : Int)
      · exact Or.inr (Or.inl ⟨x, by omega, by omega, hep⟩)
      · exact Or.inr (Or.inr ⟨x, by omega, by omega, hep⟩)
    · exact Or.inl hnorth
  · rintro (hnorth | ⟨x, h1x, h2x, hep⟩ | ⟨x, h1x, h2x, hep⟩)
    · exact Or.inr hnorth
    · exact Or.inl ⟨x, by omega, by omega, hep⟩
    · exact Or.inl ⟨x, by omega, by omega, hep⟩

theorem rowZeroBlock_equiv (j m : Nat) (hm : j ≤ m) (p q : Point) :
    unordMem (extList 0 0 m) p q ↔ unordMem (rowZeroBlock j m) p q := by
  rw [rowZeroBlock, unordMem_append, unordMem_extList, unordMem_chainE, unordMem_chainW]
  constructor
  · rintro ⟨x, h1x, h2x, hep⟩
    by_cases hxj : x < (j : Int)
    · exact Or.inl ⟨x, by omega, by omega, hep⟩
    · exact Or.inr ⟨x, by omega, by omega, hep⟩
  · rintro (⟨x, h1x, h2x, hep⟩ | ⟨x, h1x, h2x, hep⟩)
    · exact ⟨x, by omega, by omega, hep⟩
    · exact ⟨x, by omega, by omega, hep⟩

theorem segBlock_shape (y : Int) (a j m : Nat) (ha : a ≤ j) (hm : j ≤ m) :
    ∀ pr ∈ segBlock y a j m,
      (pr.1.y = y ∧ (a : Int) ≤ pr.1.x ∧ pr.1.x ≤ (m : Int)) ∧
      (pr.2 = pr.1.north ∨ pr.2 = pr.1.east ∨ pr.2 = pr.1.west) ∧
      ((pr.2.y = y ∧ (a : Int) ≤ pr.2.x ∧ pr.2.x ≤ (m : Int)) ∨
        pr.2 = (⟨(j : Int), y - 1⟩ : Point)) := by
  intro pr hmem
  rw [segBlock, List.mem_cons, List.mem_append] at hmem
  rcases hmem with he | hmem | hmem
  · subst he
    refine ⟨⟨rfl, ?_, ?_⟩, Or.inl rfl, Or.inr rfl⟩
    · show (a : Int) ≤ (j : Int)
      omega
    · show (j : Int) ≤ (m : Int)
      omega
  · rcases (chainE_mem y j (j - a) pr).mp hmem with ⟨t, ht, he⟩
    subst he
    refine ⟨⟨rfl, ?_, ?_⟩, Or.inr (Or.inl ?_), Or.inl ⟨rfl, ?_, ?_⟩⟩
    · show (a : Int) ≤ (j : Int) - (t + 1)
      omega
    · show (j : Int) - (t + 1) ≤ (m : Int)
      omega
    · show (⟨(j : Int) - t, y⟩ : Point) = ⟨((j : Int) - (t + 1)) + 1, y⟩
      simp only [Point.mk.injEq, and_true]
      omega
    · show (a : Int) ≤ (j : Int) - t
      omega
    · show (j : Int) - t ≤ (m : Int)
      omega
  · rcases (chainW_mem y j (m - j) pr).mp hmem with ⟨t, ht, he⟩
    subst he
    refine ⟨⟨rfl, ?_, ?_⟩, Or.inr (Or.inr ?_), Or.inl ⟨rfl, ?_, ?_⟩⟩
    · show (a : Int) ≤ (j : Int) + (t + 1)
      omega
    · show (j : Int) + (t + 1) ≤ (m : Int)
      omega
    · show (⟨(j : Int) + t, y⟩ : Point) = ⟨((j : Int) + (t + 1)) - 1, y⟩
      simp only [Point.mk.injEq, and_true]
      omega
    · show (a : Int) ≤ (j : Int) + t
      omega
    · show (j : Int) + t ≤ (m : Int)
      omega

theorem rowZeroBlock_shape (j m : Nat) (hm : j ≤ m) :
    ∀ pr ∈ rowZeroBlock j m,
      (pr.1.y = 0 ∧ (0 : Int) ≤ pr.1.x ∧ pr.1.x ≤ (m : Int)) ∧
      (pr.2 = pr.1.east ∨ pr.2 = pr.1.west) ∧
      (pr.2.y = 0 ∧ (0 : Int) ≤ pr.2.x ∧ pr.2.x ≤ (m : Int)) := by
  intro pr hmem
  rw [rowZeroBlock, List.mem_append] at hmem
  rcases hmem with hmem | hmem
  · rcases (chainE_mem 0 j j pr).mp hmem with ⟨t, ht, he⟩
    subst he
    refine ⟨⟨rfl, ?_, ?_⟩, Or.inl ?_, ⟨rfl, ?_, ?_⟩⟩
    · show (0 : Int) ≤ (j : Int) - (t + 1)
      omega
    · show (j : Int) - (t + 1) ≤ (m : Int)
      omega
    · show (⟨(j : Int) - t, 0⟩ : Point) = ⟨((j : Int) - (t + 1)) + 1, 0⟩
      simp only [Point.mk.injEq, and_true]
      omega
    · show (0 : Int) ≤ (j : Int) - t
      omega
    · show (j : Int) - t ≤ (m : Int)
      omega
  · rcases (chainW_mem 0 j (m - j) pr).mp hmem with ⟨t, ht, he⟩
    subst he
    refine ⟨⟨rfl, ?_, ?_⟩, Or.inr ?_, ⟨rfl, ?_, ?_⟩⟩
    · show (0 : Int) ≤ (j : Int) + (t + 1)
      omega
    · show (j : Int) + (t + 1) ≤ (m : Int)
      omega
    · show (⟨(j : Int) + t, 0⟩ : Point) = ⟨((j : Int) + (t + 1)) - 1, 0⟩
      simp only [Point.mk.injEq, and_true]
      omega
    · show (0 : Int) ≤ (j : Int) + t
      omega
    · show (j : Int) + t ≤ (m : Int)
      omega

/-- The slots of columns x0..x0+n-1 of row y, all present. -/
def rowSlots (y : Int) (x0 n : Nat) : List (Option Cell) :=
  (List.range' x0 n).map (fun x => some (Cell.new ⟨Int.ofNat x, y⟩))

/-- The cells of columns x0..x0+n-1 of row y. -/
def rowCells (y : Int) (x0 n : Nat) : List Cell :=
  (List.range' x0 n).map (fun x => Cell.new ⟨Int.ofNat x, y⟩)

theorem newRow_eq_rowSlots (w y : Nat) : newRow w y = rowSlots (Int.ofNat y) 0 w := by
  rw [newRow, rowSlots, List.range_eq_range']

theorem chunksGo_rows (w : Nat) (hw : 1 ≤ w) :
    ∀ (rows : List (List (Option Cell))) (bound : Nat),
    (∀ r ∈ rows, r.length = w) → rows.length ≤ bound →
    chunksGo w (rows.flatMap id) bound = rows := by
  intro rows
  induction rows with
  | nil =>
    intro bound _ _
    cases bound with
    | zero => rfl
    | succ b =>
      show (if 0 < w ∧ w ≤ (List.length ([] : List (Option Cell))) then _ else []) = []
      rw [if_neg (by simp; omega)]
  | cons r rest ih =>
    intro bound hlen hb
    cases bound with
    | zero => simp at hb
    | succ b =>
      have hr : r.length = w := hlen r (List.mem_cons_self _ _)
      have hflat : (r :: rest).flatMap id = r ++ rest.flatMap id := by
        simp [List.flatMap_cons]
      rw [hflat]
      show (if 0 < w ∧ w ≤ (r ++ rest.flatMap id).length then
        (r ++ rest.flatMap id).take w :: chunksGo w ((r ++ rest.flatMap id).drop w) b
        else []) = r :: rest
      rw [if_pos (by rw [List.length_append, hr]; omega)]
      have htake : (r ++ rest.flatMap id).take w = r := by
        rw [← hr]
        exact List.take_left r _
      have hdrop : (r ++ rest.flatMap id).drop w = rest.flatMap id := by
        rw [← hr]
        exact List.drop_left r _
      rw [htake, hdrop, ih b (fun q hq => hlen q (List.mem_cons_of_mem _ hq)) (by
        rw [List.length_cons] at hb
        omega)]

theorem range'_snoc (a n : Nat) : List.range' a (n + 1) = List.range' a n ++ [a + n] := by
  induction n generalizing a with
  | zero => rfl
  | succ m ih =>
    show a :: List.range' (a + 1) (m + 1) = (a :: List.range' (a + 1) m) ++ [a + (m + 1)]
    rw [ih (a + 1), List.cons_append]
    have he : a + 1 + m = a + (m + 1) := by omega
    rw [he]

theorem rowCells_length (y : Int) (a n : Nat) : (rowCells y a n).length = n := by
  simp [rowCells]

theorem rowCells_snoc (y : Int) (a n : Nat) :
    rowCells y a n ++ [Cell.new ⟨Int.ofNat (a + n), y⟩] = rowCells y a (n + 1) := by
  rw [rowCells, rowCells, range'_snoc, List.map_append]
  rfl

theorem rowCells_getD (y : Int) (a n t : Nat) (d : Cell) (ht : t < n) :
    (rowCells y a n).getD t d = Cell.new ⟨Int.ofNat (a + t), y⟩ := by
  rw [rowCells, List.getD_eq_getElem?_getD, List.getElem?_map]
  rw [List.getElem?_eq_getElem (by simpa using ht)]
  simp [List.getElem_range']

theorem extList_cons (y : Int) (a n : Nat) :
    extList y a (n + 1) =
      (⟨Int.ofNat a, y⟩, ⟨Int.ofNat a + 1, y⟩) :: extList y (a + 1) n := rfl

theorem swRow_le1 (w : Nat) (s : Nat → Nat) (y : Int) (hy : y ≤ 1) (hw : 1 ≤ w) :
    ∀ n x0 k, x0 + n = w → 1 ≤ n →
    swRow w s (rowSlots y x0 n) (rowCells y 0 x0) k =
      (extList y x0 (n - 1) ++
        [(⟨((s k % w : Nat) : Int), y⟩, ⟨((s k % w : Nat) : Int), y - 1⟩)], k + 1) := by
  intro n
  induction n with
  | zero => intro x0 k h1 h2; omega
  | succ n' ih =>
    intro x0 k h1 _
    show swRow w s (some (Cell.new ⟨Int.ofNat x0, y⟩) :: rowSlots y (x0 + 1) n')
      (rowCells y 0 x0) k = _
    rw [swRow]
    cases n' with
    | zero =>
      rw [if_pos (by
        show decide ((Cell.new ⟨Int.ofNat x0, y⟩).east.point.x = (w : Int)) = true
        rw [decide_eq_true_eq, (cellNew_slots _).2.2.2.1]
        show ((x0 : Nat) : Int) + 1 = (w : Int)
        omega)]
      have hrun2 : rowCells y 0 x0 ++ [Cell.new ⟨Int.ofNat x0, y⟩] = rowCells y 0 (x0 + 1) := by
        have h3 := rowCells_snoc y 0 x0
        simpa using h3
      have hw0 : x0 + 1 = w := by omega
      rw [hrun2, hw0]
      have hlen : (rowCells y 0 w).length = w := rowCells_length y 0 w
      rw [hlen]
      have hmem := rowCells_getD y 0 w (s k % w) (Cell.new ⟨Int.ofNat x0, y⟩)
        (Nat.mod_lt _ (by omega))
      rw [hmem]
      refine Prod.ext ?_ rfl
      show [((⟨(((0 + s k % w : Nat)) : Int), y⟩ : Point),
        (⟨(((0 + s k % w : Nat)) : Int), y⟩ : Point).add ⟨0, -1⟩)] =
        extList y x0 (0 + 1 - 1) ++
          [(⟨((s k % w : Nat) : Int), y⟩, ⟨((s k % w : Nat) : Int), y - 1⟩)]
      rw [show extList y x0 (0 + 1 - 1) = [] from rfl, List.nil_append]
      congr 1
      refine Prod.ext ?_ ?_
      · show (⟨(((0 + s k % w : Nat)) : Int), y⟩ : Point) = ⟨((s k % w : Nat) : Int), y⟩
        simp only [Point.mk.injEq, and_true]
        omega
      · show (⟨(((0 + s k % w : Nat)) : Int), y⟩ : Point).add ⟨0, -1⟩ =
          ⟨((s k % w : Nat) : Int), y - 1⟩
        simp only [Point.add, Point.mk.injEq]
        constructor
        · omega
        · omega
    | succ n'' =>
      rw [if_neg (by
        show ¬ decide ((Cell.new ⟨Int.ofNat x0, y⟩).east.point.x = (w : Int)) = true
        rw [decide_eq_true_eq, (cellNew_slots _).2.2.2.1]
        show ¬ (((x0 : Nat) : Int) + 1 = (w : Int))
        omega)]
      rw [if_pos (by
        show decide ((Cell.new ⟨Int.ofNat x0, y⟩).north.point.y ≤ 0) = true
        rw [decide_eq_true_eq, (cellNew_slots _).2.1]
        show y - 1 ≤ 0
        omega)]
      have hrun2 : rowCells y 0 x0 ++ [Cell.new ⟨Int.ofNat x0, y⟩] = rowCells y 0 (x0 + 1) := by
        have h3 := rowCells_snoc y 0 x0
        simpa using h3
      rw [hrun2]
      rw [ih (x0 + 1) k (by omega) (by omega)]
      refine Prod.ext ?_ rfl
      show ((⟨Int.ofNat x0, y⟩ : Point), (⟨Int.ofNat x0, y⟩ : Point).add ⟨1, 0⟩) ::
        (extList y (x0 + 1) (n'' + 1 - 1) ++
          [(⟨((s k % w : Nat) : Int), y⟩, ⟨((s k % w : Nat) : Int), y - 1⟩)]) =
        extList y x0 (n'' + 1 + 1 - 1) ++
          [(⟨((s k % w : Nat) : Int), y⟩, ⟨((s k % w : Nat) : Int), y - 1⟩)]
      rw [show (n'' + 1 + 1 - 1) = n'' + 1 from rfl, extList_cons, List.cons_append]
      congr 1
      refine Prod.ext rfl ?_
      show (⟨((x0 : Nat) : Int) + 1, y + 0⟩ : Point) = ⟨((x0 : Nat) : Int) + 1, y⟩
      rw [add_zero]

theorem extList_snoc (y : Int) (a n : Nat) :
    extList y a (n + 1) =
      extList y a n ++ [(⟨Int.ofNat (a + n), y⟩, ⟨Int.ofNat (a + n) + 1, y⟩)] := by
  rw [extList, extList, range'_snoc, List.map_append]
  rfl

theorem extList_nil (y : Int) (a : Nat) : extList y a 0 = [] := rfl

theorem swRow_eq_close_east (w : Nat) (s : Nat → Nat) (c : Cell) (rest : List (Option Cell))
    (run : List Cell) (k : Nat) (hc : c.east.point.x = (w : Int)) :
    swRow w s (some c :: rest) run k =
      ((((run ++ [c]).getD (s k % (run ++ [c]).length) c).point,
        ((run ++ [c]).getD (s k % (run ++ [c]).length) c).north.point) ::
        (swRow w s rest [] (k + 1)).1, (swRow w s rest [] (k + 1)).2) := by
  rw [swRow, if_pos (decide_eq_true hc)]

theorem swRow_eq_extend_north (w : Nat) (s : Nat → Nat) (c : Cell) (rest : List (Option Cell))
    (run : List Cell) (k : Nat) (hc1 : ¬(c.east.point.x = (w : Int)))
    (hc2 : c.north.point.y ≤ 0) :
    swRow w s (some c :: rest) run k =
      ((c.point, c.east.point) :: (swRow w s rest (run ++ [c]) k).1,
        (swRow w s rest (run ++ [c]) k).2) := by
  rw [swRow, if_neg (by simp only [decide_eq_true_eq]; exact hc1),
    if_pos (decide_eq_true hc2)]

theorem swRow_eq_close_coin (w : Nat) (s : Nat → Nat) (c : Cell) (rest : List (Option Cell))
    (run : List Cell) (k : Nat) (hc1 : ¬(c.east.point.x = (w : Int)))
    (hc2 : ¬(c.north.point.y ≤ 0)) (hc3 : boolDraw s k = true) :
    swRow w s (some c :: rest) run k =
      ((((run ++ [c]).getD (s (k + 1) % (run ++ [c]).length) c).point,
        ((run ++ [c]).getD (s (k + 1) % (run ++ [c]).length) c).north.point) ::
        (swRow w s rest [] (k + 2)).1, (swRow w s rest [] (k + 2)).2) := by
  rw [swRow, if_neg (by simp only [decide_eq_true_eq]; exact hc1),
    if_neg (by simp only [decide_eq_true_eq]; exact hc2), if_pos hc3]

theorem swRow_eq_extend (w : Nat) (s : Nat → Nat) (c : Cell) (rest : List (Option Cell))
    (run : List Cell) (k : Nat) (hc1 : ¬(c.east.point.x = (w : Int)))
    (hc2 : ¬(c.north.point.y ≤ 0)) (hc3 : boolDraw s k = false) :
    swRow w s (some c :: rest) run k =
      ((c.point, c.east.point) :: (swRow w s rest (run ++ [c]) (k + 1)).1,
        (swRow w s rest (run ++ [c]) (k + 1)).2) := by
  rw [swRow, if_neg (by simp only [decide_eq_true_eq]; exact hc1),
    if_neg (by simp only [decide_eq_true_eq]; exact hc2),
    if_neg (by rw [hc3]; simp)]

theorem segBlock_equiv2 (y : Int) (a j m : Nat) (ha : a ≤ j) (hm : j ≤ m) (p q : Point) :
    (unordMem (extList y a (m - a)) p q ∨
      ((p = (⟨(j : Int), y⟩ : Point) ∧ q = (⟨(j : Int), y - 1⟩ : Point)) ∨
       (p = (⟨(j : Int), y - 1⟩ : Point) ∧ q = (⟨(j : Int), y⟩ : Point)))) ↔
    unordMem (segBlock y a j m) p q := by
  rw [← segBlock_equiv y a j m ha hm p q, unordMem_append, unordMem_singleton]

theorem swRow_ge2 (w : Nat) (s : Nat → Nat) (y : Int) (hy : 2 ≤ y) (hw : 1 ≤ w) :
    ∀ n x0 a k, x0 + n = w → 1 ≤ n → a ≤ x0 →
    ∃ A' : List (Point × Point),
      (∀ p q, (unordMem (extList y a (x0 - a)) p q ∨
          unordMem (swRow w s (rowSlots y x0 n) (rowCells y a (x0 - a)) k).1 p q) ↔
        unordMem A' p q) ∧
      (∀ p, p ∈ A'.map Prod.fst ↔ (p.y = y ∧ (a : Int) ≤ p.x ∧ p.x < (w : Int))) ∧
      (A'.map Prod.fst).Nodup ∧
      (∀ (r : Point) (seen : List Point),
        (∀ t : Nat, t < w → (⟨(t : Int), y - 1⟩ : Point) ∈ seen) → Attach r A' seen) ∧
      (∀ pr ∈ A',
        (pr.1.y = y ∧ (0 : Int) ≤ pr.1.x ∧ pr.1.x < (w : Int)) ∧
        (pr.2 = pr.1.north ∨ pr.2 = pr.1.east ∨ pr.2 = pr.1.west) ∧
        ((pr.2.y = y ∨ pr.2.y = y - 1) ∧ (0 : Int) ≤ pr.2.x ∧ pr.2.x < (w : Int))) ∧
      (∀ pr ∈ (swRow w s (rowSlots y x0 n) (rowCells y a (x0 - a)) k).1,
        (pr.1.y = y ∧ (0 : Int) ≤ pr.1.x ∧ pr.1.x < (w : Int)) ∧
        (pr.2 = pr.1.north ∨ pr.2 = pr.1.east) ∧
        ((pr.2.y = y ∨ pr.2.y = y - 1) ∧ (0 : Int) ≤ pr.2.x ∧ pr.2.x < (w : Int))) := by
  intro n
  induction n with
  | zero => intro x0 a k h1 h2 ha; omega
  | succ n' ih =>
    intro x0 a k h1 _ ha
    have hslots : rowSlots y x0 (n' + 1) =
      some (Cell.new ⟨Int.ofNat x0, y⟩) :: rowSlots y (x0 + 1) n' := rfl
    have hrun2 : rowCells y a (x0 - a) ++ [Cell.new ⟨Int.ofNat x0, y⟩] =
        rowCells y a (x0 - a + 1) := by
      have h3 := rowCells_snoc y a (x0 - a)
      rw [show a + (x0 - a) = x0 from by omega] at h3
      exact h3
    by_cases hce : x0 + 1 = w
    · have hn0 : n' = 0 := by omega
      subst hn0
      have hstep := swRow_eq_close_east w s (Cell.new ⟨Int.ofNat x0, y⟩)
        (rowSlots y (x0 + 1) 0) (rowCells y a (x0 - a)) k
        (by
          rw [(cellNew_slots _).2.2.2.1]
          show ((x0 : Nat) : Int) + 1 = (w : Int)
          omega)
      rw [hrun2] at hstep
      have hnil : swRow w s (rowSlots y (x0 + 1) 0) [] (k + 1) = ([], k + 1) := rfl
      rw [hnil] at hstep
      have hlen : (rowCells y a (x0 - a + 1)).length = x0 - a + 1 := rowCells_length y a _
      rw [hlen] at hstep
      have hmlt : s k % (x0 - a + 1) < x0 - a + 1 := Nat.mod_lt _ (by omega)
      have hmem := rowCells_getD y a (x0 - a + 1) (s k % (x0 - a + 1))
        (Cell.new ⟨Int.ofNat x0, y⟩) hmlt
      rw [hmem] at hstep
      have hpairP : (Cell.new ⟨Int.ofNat (a + s k % (x0 - a + 1)), y⟩).point =
          (⟨((a + s k % (x0 - a + 1) : Nat) : Int), y⟩ : Point) := rfl
      have hpairN : (Cell.new ⟨Int.ofNat (a + s k % (x0 - a + 1)), y⟩).north.point =
          (⟨((a + s k % (x0 - a + 1) : Nat) : Int), y - 1⟩ : Point) := by
        rw [(cellNew_slots _).2.1]
        rfl
      rw [hpairP, hpairN] at hstep
      have hout : (swRow w s (rowSlots y x0 (0 + 1)) (rowCells y a (x0 - a)) k).1 =
          [((⟨((a + s k % (x0 - a + 1) : Nat) : Int), y⟩ : Point),
            (⟨((a + s k % (x0 - a + 1) : Nat) : Int), y - 1⟩ : Point))] := by
        rw [hslots, hstep]
      have haj : a ≤ a + s k % (x0 - a + 1) := by omega
      have hjx : a + s k % (x0 - a + 1) ≤ x0 := by omega
      refine ⟨segBlock y a (a + s k % (x0 - a + 1)) x0, ?_, ?_, segBlock_nodup _ _ _ _,
        ?_, ?_, ?_⟩
      · intro p q
        rw [hout, unordMem_cons,
          ← segBlock_equiv2 y a (a + s k % (x0 - a + 1)) x0 haj hjx p q]
        constructor
        · rintro (h | (h | h) | h)
          · exact Or.inl h
          · exact Or.inr (Or.inl h)
          · exact Or.inr (Or.inr h)
          · exact absurd h (unordMem_nil p q)
        · rintro (h | h | h)
          · exact Or.inl h
          · exact Or.inr (Or.inl (Or.inl h))
          · exact Or.inr (Or.inl (Or.inr h))
      · intro p
        rw [segBlock_fst y a _ x0 haj hjx p]
        constructor
        · rintro ⟨hpy, h2, h3⟩
          exact ⟨hpy, h2, by omega⟩
        · rintro ⟨hpy, h2, h3⟩
          exact ⟨hpy, h2, by omega⟩
      · intro r seen hseen
        exact segBlock_attach y a _ x0 r seen (hseen _ (by omega))
      · intro pr hm
        obtain ⟨⟨hp1, hp2, hp3⟩, hdir, hsnd⟩ :=
          segBlock_shape y a _ x0 haj hjx pr hm
        refine ⟨⟨hp1, by omega, by omega⟩, hdir, ?_⟩
        rcases hsnd with ⟨h4, h5, h6⟩ | h4
        · exact ⟨Or.inl h4, by omega, by omega⟩
        · rw [h4]
          refine ⟨Or.inr rfl, ?_, ?_⟩
          · show (0 : Int) ≤ ((a + s k % (x0 - a + 1) : Nat) : Int)
            omega
          · show ((a + s k % (x0 - a + 1) : Nat) : Int) < (w : Int)
            omega
      · intro pr hm
        rw [hout, List.mem_singleton] at hm
        subst hm
        refine ⟨⟨rfl, ?_, ?_⟩, Or.inl rfl, ⟨Or.inr rfl, ?_, ?_⟩⟩
        · show (0 : Int) ≤ ((a + s k % (x0 - a + 1) : Nat) : Int)
          omega
        · show ((a + s k % (x0 - a + 1) : Nat) : Int) < (w : Int)
          omega
        · show (0 : Int) ≤ ((a + s k % (x0 - a + 1) : Nat) : Int)
          omega
        · show ((a + s k % (x0 - a + 1) : Nat) : Int) < (w : Int)
          omega
    · have hn1 : 1 ≤ n' := by omega
      have hcene : ¬((Cell.new ⟨Int.ofNat x0, y⟩).east.point.x = (w : Int)) := by
        rw [(cellNew_slots _).2.2.2.1]
        show ¬(((x0 : Nat) : Int) + 1 = (w : Int))
        omega
      have hcnn : ¬((Cell.new ⟨Int.ofNat x0, y⟩).north.point.y ≤ 0) := by
        rw [(cellNew_slots _).2.1]
        show ¬(y - 1 ≤ 0)
        omega
      by_cases hcoin : boolDraw s k = true
      · have hstep := swRow_eq_close_coin w s (Cell.new ⟨Int.ofNat x0, y⟩)
          (rowSlots y (x0 + 1) n') (rowCells y a (x0 - a)) k hcene hcnn hcoin
        rw [hrun2] at hstep
        have hlen : (rowCells y a (x0 - a + 1)).length = x0 - a + 1 := rowCells_length y a _
        rw [hlen] at hstep
        have hmlt : s (k + 1) % (x0 - a + 1) < x0 - a + 1 := Nat.mod_lt _ (by omega)
        have hmem := rowCells_getD y a (x0 - a + 1) (s (k + 1) % (x0 - a + 1))
          (Cell.new ⟨Int.ofNat x0, y⟩) hmlt
        rw [hmem] at hstep
        have hpairP : (Cell.new ⟨Int.ofNat (a + s (k + 1) % (x0 - a + 1)), y⟩).point =
            (⟨((a + s (k + 1) % (x0 - a + 1) : Nat) : Int), y⟩ : Point) := rfl
        have hpairN : (Cell.new ⟨Int.ofNat (a + s (k + 1) % (x0 - a + 1)), y⟩).north.point =
            (⟨((a + s (k + 1) % (x0 - a + 1) : Nat) : Int), y - 1⟩ : Point) := by
          rw [(cellNew_slots _).2.1]
          rfl
        rw [hpairP, hpairN] at hstep
        obtain ⟨A2, hEq, hFst, hNd, hAt, hShA, hShO⟩ :=
          ih (x0 + 1) (x0 + 1) (k + 2) (by omega) hn1 (le_refl _)
        rw [Nat.sub_self] at hEq hShO
        have hout : (swRow w s (rowSlots y x0 (n' + 1)) (rowCells y a (x0 - a)) k).1 =
            ((⟨((a + s (k + 1) % (x0 - a + 1) : Nat) : Int), y⟩ : Point),
              (⟨((a + s (k + 1) % (x0 - a + 1) : Nat) : Int), y - 1⟩ : Point)) ::
              (swRow w s (rowSlots y (x0 + 1) n') (rowCells y (x0 + 1) 0) (k + 2)).1 := by
          rw [hslots, hstep]
          rfl
        have haj : a ≤ a + s (k + 1) % (x0 - a + 1) := by omega
        have hjx : a + s (k + 1) % (x0 - a + 1) ≤ x0 := by omega
        have hrk : ∀ p q, unordMem
            (swRow w s (rowSlots y (x0 + 1) n') (rowCells y (x0 + 1) 0) (k + 2)).1 p q ↔
            unordMem A2 p q := by
          intro p q
          constructor
          · intro h2
            exact (hEq p q).mp (Or.inr h2)
          · intro h2
            rcases (hEq p q).mpr h2 with h3 | h3
            · exact absurd h3 (unordMem_nil p q)
            · exact h3
        refine ⟨segBlock y a (a + s (k + 1) % (x0 - a + 1)) x0 ++ A2, ?_, ?_, ?_, ?_, ?_, ?_⟩
        · intro p q
          rw [hout, unordMem_cons, unordMem_append,
            ← segBlock_equiv2 y a (a + s (k + 1) % (x0 - a + 1)) x0 haj hjx p q,
            ← hrk p q]
          constructor
          · rintro (h | (h | h) | h)
            · exact Or.inl (Or.inl h)
            · exact Or.inl (Or.inr (Or.inl h))
            · exact Or.inl (Or.inr (Or.inr h))
            · exact Or.inr h
          · rintro ((h | h | h) | h)
            · exact Or.inl h
            · exact Or.inr (Or.inl (Or.inl h))
            · exact Or.inr (Or.inl (Or.inr h))
            · exact Or.inr (Or.inr h)
        · intro p
          rw [List.map_append, List.mem_append,
            segBlock_fst y a _ x0 haj hjx p, hFst p]
          constructor
          · rintro (⟨hpy, h2, h3⟩ | ⟨hpy, h2, h3⟩)
            · exact ⟨hpy, h2, by omega⟩
            · exact ⟨hpy, by omega, h3⟩
          · rintro ⟨hpy, h2, h3⟩
            by_cases hpx : p.x ≤ (x0 : Int)
            · exact Or.inl ⟨hpy, h2, hpx⟩
            · exact Or.inr ⟨hpy, by omega, h3⟩
        · rw [List.map_append]
          apply List.Nodup.append (segBlock_nodup _ _ _ _) hNd
          intro p hp hp2
          obtain ⟨_, _, h3⟩ := (segBlock_fst y a _ x0 haj hjx p).mp hp
          obtain ⟨_, h4, _⟩ := (hFst p).mp hp2
          omega
        · intro r seen hseen
          apply attach_append r _ _ seen
            (segBlock_attach y a _ x0 r seen (hseen _ (by omega)))
          apply hAt r
          intro t ht
          apply List.mem_append.mpr
          right
          exact hseen t ht
        · intro pr hm
          rcases List.mem_append.mp hm with hm | hm
          · obtain ⟨⟨hp1, hp2, hp3⟩, hdir, hsnd⟩ :=
              segBlock_shape y a _ x0 haj hjx pr hm
            refine ⟨⟨hp1, by omega, by omega⟩, hdir, ?_⟩
            rcases hsnd with ⟨h4, h5, h6⟩ | h4
            · exact ⟨Or.inl h4, by omega, by omega⟩
            · rw [h4]
              refine ⟨Or.inr rfl, ?_, ?_⟩
              · show (0 : Int) ≤ ((a + s (k + 1) % (x0 - a + 1) : Nat) : Int)
                omega
              · show ((a + s (k + 1) % (x0 - a + 1) : Nat) : Int) < (w : Int)
                omega
          · exact hShA pr hm
        · intro pr hm
          rw [hout] at hm
          rcases List.mem_cons.mp hm with he | hm2
          · subst he
            refine ⟨⟨rfl, ?_, ?_⟩, Or.inl rfl, ⟨Or.inr rfl, ?_, ?_⟩⟩
            · show (0 : Int) ≤ ((a + s (k + 1) % (x0 - a + 1) : Nat) : Int)
              omega
            · show ((a + s (k + 1) % (x0 - a + 1) : Nat) : Int) < (w : Int)
              omega
            · show (0 : Int) ≤ ((a + s (k + 1) % (x0 - a + 1) : Nat) : Int)
              omega
            · show ((a + s (k + 1) % (x0 - a + 1) : Nat) : Int) < (w : Int)
              omega
          · exact hShO pr hm2
      · have hcoin2 : boolDraw s k = false := by
          cases h2 : boolDraw s k
          · rfl
          · exact absurd h2 hcoin
        have hstep := swRow_eq_extend w s (Cell.new ⟨Int.ofNat x0, y⟩)
          (rowSlots y (x0 + 1) n') (rowCells y a (x0 - a)) k hcene hcnn hcoin2
        have hrun2b : rowCells y a (x0 - a) ++ [Cell.new ⟨Int.ofNat x0, y⟩] =
            rowCells y a (x0 + 1 - a) := by
          rw [hrun2, show x0 - a + 1 = x0 + 1 - a from by omega]
        rw [hrun2b] at hstep
        obtain ⟨A2, hEq, hFst, hNd, hAt, hShA, hShO⟩ :=
          ih (x0 + 1) a (k + 1) (by omega) hn1 (by omega)
        have hpairE : (Cell.new ⟨Int.ofNat x0, y⟩).east.point =
            (⟨((x0 : Nat) : Int) + 1, y⟩ : Point) := by
          rw [(cellNew_slots _).2.2.2.1]
          rfl
        have hout : (swRow w s (rowSlots y x0 (n' + 1)) (rowCells y a (x0 - a)) k).1 =
            ((⟨((x0 : Nat) : Int), y⟩ : Point), (⟨((x0 : Nat) : Int) + 1, y⟩ : Point)) ::
              (swRow w s (rowSlots y (x0 + 1) n') (rowCells y a (x0 + 1 - a)) (k + 1)).1 := by
          rw [hslots, hstep, hpairE]
          rfl
        have hext : extList y a (x0 + 1 - a) = extList y a (x0 - a) ++
            [((⟨((x0 : Nat) : Int), y⟩ : Point), (⟨((x0 : Nat) : Int) + 1, y⟩ : Point))] := by
          rw [show x0 + 1 - a = (x0 - a) + 1 from by omega, extList_snoc,
            show a + (x0 - a) = x0 from by omega]
          rfl
        refine ⟨A2, ?_, ?_, hNd, hAt, hShA, ?_⟩
        · intro p q
          rw [hout, unordMem_cons, ← hEq p q, hext, unordMem_append, unordMem_singleton]
          constructor
          · rintro (h | (h | h) | h)
            · exact Or.inl (Or.inl h)
            · exact Or.inl (Or.inr (Or.inl h))
            · exact Or.inl (Or.inr (Or.inr h))
            · exact Or.inr h
          · rintro ((h | (h | h)) | h)
            · exact Or.inl h
            · exact Or.inr (Or.inl (Or.inl h))
            · exact Or.inr (Or.inl (Or.inr h))
            · exact Or.inr (Or.inr h)
        · exact hFst
        · intro pr hm
          rw [hout] at hm
          rcases List.mem_cons.mp hm with he | hm2
          · subst he
            refine ⟨⟨rfl, ?_, ?_⟩, Or.inr rfl, ⟨Or.inl rfl, ?_, ?_⟩⟩
            · show (0 : Int) ≤ ((x0 : Nat) : Int)
              omega
            · show ((x0 : Nat) : Int) < (w : Int)
              omega
            · show (0 : Int) ≤ ((x0 : Nat) : Int) + 1
              omega
            · show ((x0 : Nat) : Int) + 1 < (w : Int)
              omega
          · exact hShO pr hm2

theorem segBlock_attach2 (y : Int) (a j m : Nat) (r : Point) (seen : List Point)
    (hseen : (⟨(j : Int), y - 1⟩ : Point) = r ∨ (⟨(j : Int), y - 1⟩ : Point) ∈ seen) :
    Attach r (segBlock y a j m) seen := by
  refine ⟨hseen, ?_⟩
  apply attach_append r (chainE y j (j - a)) _ _
    (chainE_attach y j r (j - a) _ (List.mem_cons_self _ _))
  apply chainW_attach y j r (m - j)
  apply List.mem_append.mpr
  right
  exact List.mem_cons_self _ _

theorem swActions_cons (w : Nat) (s : Nat → Nat) (row : List (Option Cell))
    (rows : List (List (Option Cell))) (k : Nat) :
    swActions w s (row :: rows) k =
      (swRow w s row [] k).1 ++ swActions w s rows (swRow w s row [] k).2 := rfl

theorem swActions_tail (w : Nat) (s : Nat → Nat) (hw : 1 ≤ w) :
    ∀ (cnt y0 k : Nat), 2 ≤ y0 →
    ∃ A' : List (Point × Point),
      (∀ p q, unordMem (swActions w s ((List.range' y0 cnt).map (newRow w)) k) p q ↔
        unordMem A' p q) ∧
      (∀ p, p ∈ A'.map Prod.fst ↔
        ((y0 : Int) ≤ p.y ∧ p.y < ((y0 + cnt : Nat) : Int) ∧ 0 ≤ p.x ∧ p.x < (w : Int))) ∧
      (A'.map Prod.fst).Nodup ∧
      (∀ (r : Point) (seen : List Point),
        (∀ t : Nat, t < w → (⟨(t : Int), (y0 : Int) - 1⟩ : Point) ∈ seen) →
        Attach r A' seen) ∧
      (∀ pr ∈ A',
        ((y0 : Int) ≤ pr.1.y ∧ pr.1.y < ((y0 + cnt : Nat) : Int) ∧
          0 ≤ pr.1.x ∧ pr.1.x < (w : Int)) ∧
        (pr.2 = pr.1.north ∨ pr.2 = pr.1.east ∨ pr.2 = pr.1.west) ∧
        ((y0 : Int) - 1 ≤ pr.2.y ∧ pr.2.y < ((y0 + cnt : Nat) : Int) ∧
          0 ≤ pr.2.x ∧ pr.2.x < (w : Int))) ∧
      (∀ pr ∈ swActions w s ((List.range' y0 cnt).map (newRow w)) k,
        ((y0 : Int) ≤ pr.1.y ∧ pr.1.y < ((y0 + cnt : Nat) : Int) ∧
          0 ≤ pr.1.x ∧ pr.1.x < (w : Int)) ∧
        (pr.2 = pr.1.north ∨ pr.2 = pr.1.east) ∧
        ((y0 : Int) - 1 ≤ pr.2.y ∧ pr.2.y < ((y0 + cnt : Nat) : Int) ∧
          0 ≤ pr.2.x ∧ pr.2.x < (w : Int))) := by
  intro cnt
  induction cnt with
  | zero =>
    intro y0 k hy0
    refine ⟨[], ?_, ?_, by simp, fun r seen _ => trivial, ?_, ?_⟩
    · intro p q
      exact Iff.rfl
    · intro p
      simp only [List.map_nil, List.not_mem_nil, false_iff]
      intro hcon
      omega
    · intro pr hm
      exact absurd hm (List.not_mem_nil pr)
    · intro pr hm
      exact absurd hm (List.not_mem_nil pr)
  | succ c ih =>
    intro y0 k hy0
    have hrows : (List.range' y0 (c + 1)).map (newRow w) =
        newRow w y0 :: (List.range' (y0 + 1) c).map (newRow w) := rfl
    have hy2 : (2 : Int) ≤ ((y0 : Nat) : Int) := by omega
    obtain ⟨Arow, hEq, hFst, hNd, hAt, hShA, hShO⟩ :=
      swRow_ge2 w s ((y0 : Nat) : Int) hy2 hw w 0 0 k (by omega) hw (le_refl 0)
    have hrow0 : rowCells ((y0 : Nat) : Int) 0 (0 - 0) = [] := rfl
    have hslots0 : rowSlots ((y0 : Nat) : Int) 0 w = newRow w y0 :=
      (newRow_eq_rowSlots w y0).symm
    rw [hrow0, hslots0] at hEq hShO
    have hrowEq : ∀ p q,
        unordMem (swRow w s (newRow w y0) [] k).1 p q ↔ unordMem Arow p q := by
      intro p q
      constructor
      · intro h2
        exact (hEq p q).mp (Or.inr h2)
      · intro h2
        rcases (hEq p q).mpr h2 with h3 | h3
        · exact absurd h3 (unordMem_nil p q)
        · exact h3
    obtain ⟨Atail, tEq, tFst, tNd, tAt, tShA, tShO⟩ := ih (y0 + 1) (swRow w s (newRow w y0) [] k).2 (by omega)
    refine ⟨Arow ++ Atail, ?_, ?_, ?_, ?_, ?_, ?_⟩
    · intro p q
      rw [hrows, swActions_cons, unordMem_append, unordMem_append, hrowEq p q, tEq p q]
    · intro p
      rw [List.map_append, List.mem_append, hFst p, tFst p]
      constructor
      · rintro (⟨h1, h2, h3⟩ | ⟨h1, h2, h3, h4⟩)
        · refine ⟨by omega, ?_, h2, h3⟩
          rw [h1]
          have hc : ((y0 + (c + 1) : Nat) : Int) = ((y0 : Nat) : Int) + (c + 1) := by
            push_cast
            ring
          rw [hc]
          omega
        · have hc : ((y0 + 1 + c : Nat) : Int) = ((y0 + (c + 1) : Nat) : Int) := by
            push_cast
            ring
          refine ⟨by omega, by rw [← hc]; exact h2, h3, h4⟩
      · rintro ⟨h1, h2, h3, h4⟩
        by_cases hpy : p.y = ((y0 : Nat) : Int)
        · exact Or.inl ⟨hpy, h3, h4⟩
        · refine Or.inr ⟨by omega, ?_, h3, h4⟩
          have hc : ((y0 + 1 + c : Nat) : Int) = ((y0 + (c + 1) : Nat) : Int) := by
            push_cast
            ring
          rw [hc]
          exact h2
    · rw [List.map_append]
      apply List.Nodup.append hNd tNd
      intro p hp hp2
      obtain ⟨h1, _, _⟩ := (hFst p).mp hp
      obtain ⟨h2, _, _⟩ := (tFst p).mp hp2
      omega
    · intro r seen hseen
      apply attach_append r Arow Atail seen (hAt r seen hseen)
      apply tAt r
      intro t ht
      apply List.mem_append.mpr
      left
      apply (hFst _).mpr
      refine ⟨?_, ?_, ?_⟩
      · show ((y0 + 1 : Nat) : Int) - 1 = ((y0 : Nat) : Int)
        push_cast
        ring
      · show (0 : Int) ≤ ((t : Nat) : Int)
        omega
      · show ((t : Nat) : Int) < (w : Int)
        omega
    · intro pr hm
      rcases List.mem_append.mp hm with hm | hm
      · obtain ⟨⟨h1, h2, h3⟩, hdir, ⟨h4, h5, h6⟩⟩ := hShA pr hm
        have hc : ((y0 + (c + 1) : Nat) : Int) = ((y0 : Nat) : Int) + (c + 1) := by
          push_cast
          ring
        refine ⟨⟨by omega, by rw [hc]; omega, h2, h3⟩, hdir, ?_⟩
        rcases h4 with h4 | h4
        · exact ⟨by omega, by rw [hc]; omega, h5, h6⟩
        · exact ⟨by omega, by rw [hc]; omega, h5, h6⟩
      · obtain ⟨⟨h1, h2, h3, h3b⟩, hdir, ⟨h4, h5, h6, h6b⟩⟩ := tShA pr hm
        have hc : ((y0 + 1 + c : Nat) : Int) = ((y0 + (c + 1) : Nat) : Int) := by
          push_cast
          ring
        refine ⟨⟨by omega, by rw [← hc]; exact h2, h3, h3b⟩, hdir,
          ⟨by omega, by rw [← hc]; exact h5, h6, h6b⟩⟩
    · intro pr hm
      rw [hrows, swActions_cons] at hm
      rcases List.mem_append.mp hm with hm | hm
      · obtain ⟨⟨h1, h2, h3⟩, hdir, ⟨h4, h5, h6⟩⟩ := hShO pr hm
        have hc : ((y0 + (c + 1) : Nat) : Int) = ((y0 : Nat) : Int) + (c + 1) := by
          push_cast
          ring
        refine ⟨⟨by omega, by rw [hc]; omega, h2, h3⟩, hdir, ?_⟩
        rcases h4 with h4 | h4
        · exact ⟨by omega, by rw [hc]; omega, h5, h6⟩
        · exact ⟨by omega, by rw [hc]; omega, h5, h6⟩
      · obtain ⟨⟨h1, h2, h3, h3b⟩, hdir, ⟨h4, h5, h6, h6b⟩⟩ := tShO pr hm
        have hc : ((y0 + 1 + c : Nat) : Int) = ((y0 + (c + 1) : Nat) : Int) := by
          push_cast
          ring
        refine ⟨⟨by omega, by rw [← hc]; exact h2, h3, h3b⟩, hdir,
          ⟨by omega, by rw [← hc]; exact h5, h6, h6b⟩⟩

theorem new_biLinked_false (w h : Nat) (p q : Point) :
    (RectangularGrid.new w h).biLinked p q = false := by
  unfold Grid.biLinked
  rw [new_linkedTo_false]
  rfl

theorem exists_pair_append (P : Point × Point → Prop) (A B : List (Point × Point)) :
    (∃ pr ∈ A ++ B, P pr) ↔ (∃ pr ∈ A, P pr) ∨ (∃ pr ∈ B, P pr) := by
  constructor
  · rintro ⟨pr, hm, hp⟩
    rcases List.mem_append.mp hm with hm | hm
    · exact Or.inl ⟨pr, hm, hp⟩
    · exact Or.inr ⟨pr, hm, hp⟩
  · rintro (⟨pr, hm, hp⟩ | ⟨pr, hm, hp⟩)
    · exact ⟨pr, List.mem_append.mpr (Or.inl hm), hp⟩
    · exact ⟨pr, List.mem_append.mpr (Or.inr hm), hp⟩

theorem goodMem_all (g0 : Grid) (L : List (Point × Point))
    (hL : ∀ pr ∈ L, (g0.get pr.2).isSome = true) (p q : Point) :
    (∃ pr ∈ L, (g0.get pr.2).isSome = true ∧
      ((p = pr.1 ∧ q = pr.2) ∨ (p = pr.2 ∧ q = pr.1))) ↔ unordMem L p q := by
  constructor
  · rintro ⟨pr, hm, _, hc⟩
    exact ⟨pr, hm, hc⟩
  · rintro ⟨pr, hm, hc⟩
    exact ⟨pr, hm, hL pr hm, hc⟩

theorem goodMem_none (g0 : Grid) (L : List (Point × Point))
    (hL : ∀ pr ∈ L, (g0.get pr.2).isSome = false) (p q : Point) :
    ¬(∃ pr ∈ L, (g0.get pr.2).isSome = true ∧
      ((p = pr.1 ∧ q = pr.2) ∨ (p = pr.2 ∧ q = pr.1))) := by
  rintro ⟨pr, hm, hs, _⟩
  rw [hL pr hm] at hs
  exact absurd hs (by simp)

theorem cert_to_goal (w h : Nat) (g' : Grid) (r : Point) (A' : List (Point × Point))
    (hwf' : g'.WF)
    (hpres : ∀ p, (g'.get p).isSome = ((RectangularGrid.new w h).get p).isSome)
    (hcert : LinkCert g' r A')
    (hspan : ∀ p, p ∈ (r :: A'.map Prod.fst) ↔ p ∈ g'.presentPoints) :
    PerfectMaze g' ∧ g'.edgePairs.card + 1 = w * h := by
  obtain ⟨hpm, hedge, hcardp⟩ := linkCert_perfect g' r A' hcert hspan
  refine ⟨hpm, ?_⟩
  have hfin : g'.presentPoints.toFinset.card = w * h := by
    rw [presentPoints_toFinset_eq (RectangularGrid.new w h) g' (WF_new w h) hwf' hpres,
      new_presentPoints_card]
  rw [hedge]
  omega

theorem span_of_fst (w h : Nat) (g' : Grid) (hwf' : g'.WF)
    (hpres : ∀ p, (g'.get p).isSome = ((RectangularGrid.new w h).get p).isSome)
    (r : Point) (A' : List (Point × Point))
    (hr : 0 ≤ r.x ∧ r.x < (w : Int) ∧ 0 ≤ r.y ∧ r.y < (h : Int))
    (hfst : ∀ p, p ∈ A'.map Prod.fst ↔
      ((0 ≤ p.x ∧ p.x < (w : Int) ∧ 0 ≤ p.y ∧ p.y < (h : Int)) ∧ p ≠ r)) :
    ∀ p, p ∈ (r :: A'.map Prod.fst) ↔ p ∈ g'.presentPoints := by
  intro p
  rw [presentPoints_iff_get _ hwf', hpres p, new_get_isSome, List.mem_cons, hfst p]
  constructor
  · rintro (he | ⟨hin, _⟩)
    · exact he ▸ hr
    · exact hin
  · intro hin
    by_cases hpr : p = r
    · exact Or.inl hpr
    · exact Or.inr ⟨hin, hpr⟩

theorem new_isSome_of (w h : Nat) (xx yy : Int) (h1 : 0 ≤ xx) (h2 : xx < (w : Int))
    (h3 : 0 ≤ yy) (h4 : yy < (h : Int)) :
    ((RectangularGrid.new w h).get ⟨xx, yy⟩).isSome = true := by
  rw [new_get_isSome]
  exact ⟨h1, h2, h3, h4⟩

theorem new_isSome_not (w h : Nat) (p : Point)
    (hno : ¬(0 ≤ p.x ∧ p.x < (w : Int) ∧ 0 ≤ p.y ∧ p.y < (h : Int))) :
    ((RectangularGrid.new w h).get p).isSome = false := by
  cases hg : ((RectangularGrid.new w h).get p).isSome with
  | false => rfl
  | true => exact absurd ((new_get_isSome w h p).mp hg) hno

theorem sw_chunks (w h : Nat) (hw : 1 ≤ w) :
    chunksExact w (RectangularGrid.new w h).cells = (List.range h).map (newRow w) := by
  have hflat : (RectangularGrid.new w h).cells = ((List.range h).map (newRow w)).flatMap id := by
    rw [new_cells_eq]
    have hgen : ∀ (l : List Nat), l.flatMap (newRow w) = (l.map (newRow w)).flatMap id := by
      intro l
      induction l with
      | nil => rfl
      | cons a rest ihl => simp only [List.flatMap_cons, List.map_cons, ihl, id_eq]
    exact hgen (List.range h)
  have hlen : (((List.range h).map (newRow w)).flatMap id).length = w * h := by
    rw [← hflat]
    exact new_cells_length w h
  have hrowsLen : ((List.range h).map (newRow w)).length = h := by simp
  rw [hflat]
  show chunksGo w (((List.range h).map (newRow w)).flatMap id)
    (((List.range h).map (newRow w)).flatMap id).length = _
  rw [hlen]
  apply chunksGo_rows w hw
  · intro r hr
    rcases List.mem_map.mp hr with ⟨y, _, he⟩
    rw [← he]
    exact newRow_length w y
  · rw [hrowsLen]
    exact Nat.le_mul_of_pos_left h (by omega)

theorem new_isSome_ofNat (w h x : Nat) (yy : Int) (h2 : x < w) (h3 : 0 ≤ yy)
    (h4 : yy < (h : Int)) :
    ((RectangularGrid.new w h).get ⟨Int.ofNat x, yy⟩).isSome = true :=
  new_isSome_of w h (Int.ofNat x) yy
    (by show (0 : Int) ≤ ((x : Nat) : Int); omega)
    (by show ((x : Nat) : Int) < ((w : Nat) : Int); omega) h3 h4

theorem new_isSome_ofNat1 (w h x : Nat) (yy : Int) (h2 : x + 1 < w) (h3 : 0 ≤ yy)
    (h4 : yy < (h : Int)) :
    ((RectangularGrid.new w h).get ⟨Int.ofNat x + 1, yy⟩).isSome = true :=
  new_isSome_of w h (Int.ofNat x + 1) yy
    (by show (0 : Int) ≤ ((x : Nat) : Int) + 1; omega)
    (by show ((x : Nat) : Int) + 1 < ((w : Nat) : Int); omega) h3 h4

theorem new_isSome_pt (w h : Nat) (p : Point) (h1 : 0 ≤ p.x) (h2 : p.x < (w : Int))
    (h3 : 0 ≤ p.y) (h4 : p.y < (h : Int)) :
    ((RectangularGrid.new w h).get p).isSome = true :=
  (new_get_isSome w h p).mpr ⟨h1, h2, h3, h4⟩

theorem sw_perfect_h1 (w : Nat) (s : Nat → Nat) (g' : Grid) (hw : 1 ≤ w)
    (hrun : Algorithm.sidewinder (RectangularGrid.new w 1) s = some g') :
    PerfectMaze g' ∧ g'.edgePairs.card + 1 = w * 1 := by
  rw [Algorithm.sidewinder] at hrun
  have hwid : (RectangularGrid.new w 1).width = w := rfl
  rw [hwid, sw_chunks w 1 hw] at hrun
  have hnr : newRow w 0 = rowSlots (0 : Int) 0 w := newRow_eq_rowSlots w 0
  have hrk0 : swRow w s (newRow w 0) [] 0 =
      (extList 0 0 (w - 1) ++
        [(⟨((s 0 % w : Nat) : Int), 0⟩, ⟨((s 0 % w : Nat) : Int), (0 : Int) - 1⟩)], 0 + 1) := by
    rw [hnr, show ([] : List Cell) = rowCells (0 : Int) 0 0 from rfl]
    exact swRow_le1 w s 0 (by omega) hw w 0 0 (by omega) (by omega)
  have hacts : swActions w s ((List.range 1).map (newRow w)) 0 =
      extList 0 0 (w - 1) ++
        [(⟨((s 0 % w : Nat) : Int), 0⟩, ⟨((s 0 % w : Nat) : Int), (0 : Int) - 1⟩)] := by
    rw [show (List.range 1).map (newRow w) = [newRow w 0] from rfl, swActions_cons, hrk0]
    show (extList 0 0 (w - 1) ++ [_]) ++ swActions w s [] (0 + 1) = _
    rw [show swActions w s [] (0 + 1) = [] from rfl, List.append_nil]
  rw [hacts] at hrun
  have hj0 : s 0 % w < w := Nat.mod_lt _ (by omega)
  have hok : ∀ pr ∈ extList 0 0 (w - 1) ++
      [(⟨((s 0 % w : Nat) : Int), 0⟩, ⟨((s 0 % w : Nat) : Int), (0 : Int) - 1⟩)],
      (((RectangularGrid.new w 1).get pr.1).isSome = true ∧ adjacentPt pr.1 pr.2) ∧
      (((RectangularGrid.new w 1).get pr.2).isSome = true ∨ pr.2.x < 0 ∨ pr.2.y < 0) := by
    intro pr hm
    rcases List.mem_append.mp hm with hm | hm
    · rcases (extList_mem 0 0 (w - 1) pr).mp hm with ⟨x, hx1, hx2, he⟩
      subst he
      exact ⟨⟨new_isSome_ofNat w 1 x 0 (by omega) (by omega) (by omega),
        Or.inr (Or.inr (Or.inl rfl))⟩,
        Or.inl (new_isSome_ofNat1 w 1 x 0 (by omega) (by omega) (by omega))⟩
    · rw [List.mem_singleton] at hm
      subst hm
      refine ⟨⟨new_isSome_of w 1 _ _ (by omega) (by omega) (by omega) (by omega),
        Or.inl rfl⟩, Or.inr (Or.inr ?_)⟩
      show (0 : Int) - 1 < 0
      omega
  obtain ⟨hwf', hwid', hhei', hpres, hbl⟩ :=
    linkAllD_props _ _ g' (WF_new w 1) hok hrun
  have hgoodE : ∀ pr ∈ extList 0 0 (w - 1),
      ((RectangularGrid.new w 1).get pr.2).isSome = true := by
    intro pr hm
    rcases (extList_mem 0 0 (w - 1) pr).mp hm with ⟨x, hx1, hx2, he⟩
    subst he
    exact new_isSome_ofNat1 w 1 x 0 (by omega) (by omega) (by omega)
  have hgoodD : ∀ pr ∈ [((⟨((s 0 % w : Nat) : Int), 0⟩ : Point),
      (⟨((s 0 % w : Nat) : Int), (0 : Int) - 1⟩ : Point))],
      ((RectangularGrid.new w 1).get pr.2).isSome = false := by
    intro pr hm
    rw [List.mem_singleton] at hm
    subst hm
    apply new_isSome_not
    intro hcon
    have h2 : (0 : Int) ≤ (0 : Int) - 1 := hcon.2.2.1
    omega
  have hbichar : ∀ p q, g'.biLinked p q = true ↔
      unordMem (rowZeroBlock (s 0 % w) (w - 1)) p q := by
    intro p q
    rw [hbl p q, new_biLinked_false]
    simp only [Bool.false_eq_true, false_or]
    rw [exists_pair_append, goodMem_all _ _ hgoodE p q]
    constructor
    · rintro (h2 | h2)
      · exact (rowZeroBlock_equiv (s 0 % w) (w - 1) (by omega) p q).mp h2
      · exact absurd h2 (goodMem_none _ _ hgoodD p q)
    · intro h2
      exact Or.inl ((rowZeroBlock_equiv (s 0 % w) (w - 1) (by omega) p q).mpr h2)
  have hcert : LinkCert g' ⟨((s 0 % w : Nat) : Int), 0⟩ (rowZeroBlock (s 0 % w) (w - 1)) := by
    apply linkCert_of_attach g' _ _ hbichar (rowZeroBlock_nodup _ _) ?_ ?_ ?_
      (rowZeroBlock_attach (s 0 % w) (w - 1) [])
    · intro hmem
      obtain ⟨_, _, _, hne⟩ := (rowZeroBlock_fst (s 0 % w) (w - 1) (by omega) _).mp hmem
      exact hne rfl
    · refine Option.isSome_iff_exists.mp ((hpres _).trans ?_)
      exact new_isSome_of w 1 _ _ (by omega) (by omega) (by omega) (by omega)
    · intro pr hm
      obtain ⟨⟨h1, h2, h3⟩, _, ⟨h4, h5, h6⟩⟩ :=
        rowZeroBlock_shape (s 0 % w) (w - 1) (by omega) pr hm
      constructor
      · refine Option.isSome_iff_exists.mp ((hpres pr.1).trans ?_)
        rcases hp : pr.1 with ⟨px, py⟩
        rw [hp] at h1 h2 h3
        exact new_isSome_of w 1 px py h2 (by
          have h7 : px ≤ ((w - 1 : Nat) : Int) := h3
          omega) (by rw [show py = (0 : Int) from h1]) (by rw [show py = (0 : Int) from h1]; omega)
      · refine Option.isSome_iff_exists.mp ((hpres pr.2).trans ?_)
        rcases hp : pr.2 with ⟨px, py⟩
        rw [hp] at h4 h5 h6
        exact new_isSome_of w 1 px py h5 (by
          have h7 : px ≤ ((w - 1 : Nat) : Int) := h6
          omega) (by rw [show py = (0 : Int) from h4]) (by rw [show py = (0 : Int) from h4]; omega)
  have hspan := span_of_fst w 1 g' hwf' hpres ⟨((s 0 % w : Nat) : Int), 0⟩
    (rowZeroBlock (s 0 % w) (w - 1))
    ⟨by show (0 : Int) ≤ ((s 0 % w : Nat) : Int); omega,
     by show ((s 0 % w : Nat) : Int) < ((w : Nat) : Int); omega,
     by show (0 : Int) ≤ (0 : Int); omega,
     by show (0 : Int) < ((1 : Nat) : Int); omega⟩
    (by
      intro p
      rw [rowZeroBlock_fst (s 0 % w) (w - 1) (by omega) p]
      constructor
      · rintro ⟨h1, h2, h3, h4⟩
        refine ⟨⟨h2, by
          have h7 : p.x ≤ ((w - 1 : Nat) : Int) := h3
          omega, by rw [h1], by rw [h1]; omega⟩, ?_⟩
        intro he
        rw [he] at h4
        exact h4 rfl
      · rintro ⟨⟨h1, h2, h3, h4⟩, hne⟩
        have hy0 : p.y = 0 := by omega
        refine ⟨hy0, h1, by omega, ?_⟩
        intro he
        apply hne
        rcases p with ⟨px, py⟩
        have hx : px = ((s 0 % w : Nat) : Int) := he
        have hy : py = (0 : Int) := hy0
        rw [hx, hy])
  exact cert_to_goal w 1 g' _ _ hwf' hpres hcert hspan

theorem sw_perfect_h2 (w c : Nat) (s : Nat → Nat) (g' : Grid) (hw : 1 ≤ w)
    (hrun : Algorithm.sidewinder (RectangularGrid.new w (c + 2)) s = some g') :
    PerfectMaze g' ∧ g'.edgePairs.card + 1 = w * (c + 2) := by
  rw [Algorithm.sidewinder] at hrun
  have hwid : (RectangularGrid.new w (c + 2)).width = w := rfl
  rw [hwid, sw_chunks w (c + 2) hw] at hrun
  have hrange : List.range (c + 2) = 0 :: 1 :: List.range' 2 c := by
    rw [List.range_eq_range']
    rfl
  have hnr0 : newRow w 0 = rowSlots (0 : Int) 0 w := newRow_eq_rowSlots w 0
  have hnr1 : newRow w 1 = rowSlots (1 : Int) 0 w := newRow_eq_rowSlots w 1
  have hrk0 : swRow w s (newRow w 0) [] 0 =
      (extList 0 0 (w - 1) ++
        [(⟨((s 0 % w : Nat) : Int), 0⟩, ⟨((s 0 % w : Nat) : Int), (0 : Int) - 1⟩)], 0 + 1) := by
    rw [hnr0, show ([] : List Cell) = rowCells (0 : Int) 0 0 from rfl]
    exact swRow_le1 w s 0 (by omega) hw w 0 0 (by omega) (by omega)
  have hrk1 : swRow w s (newRow w 1) [] 1 =
      (extList 1 0 (w - 1) ++
        [(⟨((s 1 % w : Nat) : Int), 1⟩, ⟨((s 1 % w : Nat) : Int), (1 : Int) - 1⟩)], 1 + 1) := by
    rw [hnr1, show ([] : List Cell) = rowCells (1 : Int) 0 0 from rfl]
    exact swRow_le1 w s 1 (by omega) hw w 0 1 (by omega) (by omega)
  have hacts : swActions w s ((List.range (c + 2)).map (newRow w)) 0 =
      (extList 0 0 (w - 1) ++
        [(⟨((s 0 % w : Nat) : Int), 0⟩, ⟨((s 0 % w : Nat) : Int), (0 : Int) - 1⟩)]) ++
      ((extList 1 0 (w - 1) ++
        [(⟨((s 1 % w : Nat) : Int), 1⟩, ⟨((s 1 % w : Nat) : Int), (1 : Int) - 1⟩)]) ++
        swActions w s ((List.range' 2 c).map (newRow w)) 2) := by
    rw [hrange]
    rw [show (0 :: 1 :: List.range' 2 c).map (newRow w) =
      newRow w 0 :: newRow w 1 :: (List.range' 2 c).map (newRow w) from rfl]
    rw [swActions_cons, hrk0]
    show (extList 0 0 (w - 1) ++ [_]) ++
      swActions w s (newRow w 1 :: (List.range' 2 c).map (newRow w)) 1 = _
    rw [swActions_cons, hrk1]
  rw [hacts] at hrun
  have hj0 : s 0 % w < w := Nat.mod_lt _ (by omega)
  have hj1 : s 1 % w < w := Nat.mod_lt _ (by omega)
  obtain ⟨Atail, tEq, tFst, tNd, tAt, tShA, tShO⟩ := swActions_tail w s hw c 2 2 (le_refl 2)
  have hok : ∀ pr ∈ (extList 0 0 (w - 1) ++
      [(⟨((s 0 % w : Nat) : Int), 0⟩, ⟨((s 0 % w : Nat) : Int), (0 : Int) - 1⟩)]) ++
      ((extList 1 0 (w - 1) ++
        [(⟨((s 1 % w : Nat) : Int), 1⟩, ⟨((s 1 % w : Nat) : Int), (1 : Int) - 1⟩)]) ++
        swActions w s ((List.range' 2 c).map (newRow w)) 2),
      (((RectangularGrid.new w (c + 2)).get pr.1).isSome = true ∧ adjacentPt pr.1 pr.2) ∧
      (((RectangularGrid.new w (c + 2)).get pr.2).isSome = true ∨
        pr.2.x < 0 ∨ pr.2.y < 0) := by
    intro pr hm
    rcases List.mem_append.mp hm with hm | hm
    · rcases List.mem_append.mp hm with hm | hm
      · rcases (extList_mem 0 0 (w - 1) pr).mp hm with ⟨x, hx1, hx2, he⟩
        subst he
        exact ⟨⟨new_isSome_ofNat w (c + 2) x 0 (by omega) (by omega) (by omega),
          Or.inr (Or.inr (Or.inl rfl))⟩,
          Or.inl (new_isSome_ofNat1 w (c + 2) x 0 (by omega) (by omega) (by omega))⟩
      · rw [List.mem_singleton] at hm
        subst hm
        refine ⟨⟨new_isSome_of w (c + 2) _ _ (by omega) (by omega) (by omega) (by omega),
          Or.inl rfl⟩, Or.inr (Or.inr ?_)⟩
        show (0 : Int) - 1 < 0
        omega
    · rcases List.mem_append.mp hm with hm | hm
      · rcases List.mem_append.mp hm with hm | hm
        · rcases (extList_mem 1 0 (w - 1) pr).mp hm with ⟨x, hx1, hx2, he⟩
          subst he
          exact ⟨⟨new_isSome_ofNat w (c + 2) x 1 (by omega) (by omega) (by omega),
            Or.inr (Or.inr (Or.inl rfl))⟩,
            Or.inl (new_isSome_ofNat1 w (c + 2) x 1 (by omega) (by omega) (by omega))⟩
        · rw [List.mem_singleton] at hm
          subst hm
          exact ⟨⟨new_isSome_of w (c + 2) _ _ (by omega) (by omega) (by omega) (by omega),
            Or.inl rfl⟩,
            Or.inl (new_isSome_of w (c + 2) _ _ (by omega) (by omega) (by omega) (by omega))⟩
      · obtain ⟨⟨h1, h2, h3, h4⟩, hdir, ⟨h5, h6, h7, h8⟩⟩ := tShO pr hm
        refine ⟨⟨?_, ?_⟩, Or.inl ?_⟩
        · exact new_isSome_pt w (c + 2) pr.1 h3 h4 (by omega) (by omega)
        · rcases hdir with hd | hd
          · exact Or.inl hd
          · exact Or.inr (Or.inr (Or.inl hd))
        · exact new_isSome_pt w (c + 2) pr.2 h7 h8 (by omega) (by omega)
  obtain ⟨hwf', hwid', hhei', hpres, hbl⟩ :=
    linkAllD_props _ _ g' (WF_new w (c + 2)) hok hrun
  have hgoodE0 : ∀ pr ∈ extList 0 0 (w - 1),
      ((RectangularGrid.new w (c + 2)).get pr.2).isSome = true := by
    intro pr hm
    rcases (extList_mem 0 0 (w - 1) pr).mp hm with ⟨x, hx1, hx2, he⟩
    subst he
    exact new_isSome_ofNat1 w (c + 2) x 0 (by omega) (by omega) (by omega)
  have hgoodD : ∀ pr ∈ [((⟨((s 0 % w : Nat) : Int), 0⟩ : Point),
      (⟨((s 0 % w : Nat) : Int), (0 : Int) - 1⟩ : Point))],
      ((RectangularGrid.new w (c + 2)).get pr.2).isSome = false := by
    intro pr hm
    rw [List.mem_singleton] at hm
    subst hm
    apply new_isSome_not
    intro hcon
    have h2 : (0 : Int) ≤ (0 : Int) - 1 := hcon.2.2.1
    omega
  have hgood1 : ∀ pr ∈ extList 1 0 (w - 1) ++
      [(⟨((s 1 % w : Nat) : Int), 1⟩, ⟨((s 1 % w : Nat) : Int), (1 : Int) - 1⟩)],
      ((RectangularGrid.new w (c + 2)).get pr.2).isSome = true := by
    intro pr hm
    rcases List.mem_append.mp hm with hm | hm
    · rcases (extList_mem 1 0 (w - 1) pr).mp hm with ⟨x, hx1, hx2, he⟩
      subst he
      exact new_isSome_ofNat1 w (c + 2) x 1 (by omega) (by omega) (by omega)
    · rw [List.mem_singleton] at hm
      subst hm
      exact new_isSome_of w (c + 2) _ _ (by omega) (by omega) (by omega) (by omega)
  have hgoodT : ∀ pr ∈ swActions w s ((List.range' 2 c).map (newRow w)) 2,
      ((RectangularGrid.new w (c + 2)).get pr.2).isSome = true := by
    intro pr hm
    obtain ⟨_, _, ⟨h5, h6, h7, h8⟩⟩ := tShO pr hm
    exact new_isSome_pt w (c + 2) pr.2 h7 h8 (by omega) (by omega)
  have hbichar : ∀ p q, g'.biLinked p q = true ↔
      unordMem (rowZeroBlock (s 0 % w) (w - 1) ++
        (segBlock 1 0 (s 1 % w) (w - 1) ++ Atail)) p q := by
    intro p q
    rw [hbl p q, new_biLinked_false]
    simp only [Bool.false_eq_true, false_or]
    rw [exists_pair_append, exists_pair_append, exists_pair_append,
      goodMem_all _ _ hgoodE0 p q, goodMem_all _ _ hgood1 p q, goodMem_all _ _ hgoodT p q]
    have hseg := segBlock_equiv 1 0 (s 1 % w) (w - 1) (by omega) (by omega) p q
    rw [show (w - 1 - 0) = w - 1 from rfl] at hseg
    conv_rhs => rw [unordMem_append, unordMem_append]
    constructor
    · rintro ((h2 | h2) | h2 | h2)
      · exact Or.inl ((rowZeroBlock_equiv (s 0 % w) (w - 1) (by omega) p q).mp h2)
      · exact absurd h2 (goodMem_none _ _ hgoodD p q)
      · exact Or.inr (Or.inl (hseg.mp h2))
      · exact Or.inr (Or.inr ((tEq p q).mp h2))
    · rintro (h2 | h2 | h2)
      · exact Or.inl (Or.inl ((rowZeroBlock_equiv (s 0 % w) (w - 1) (by omega) p q).mpr h2))
      · exact Or.inr (Or.inl (hseg.mpr h2))
      · exact Or.inr (Or.inr ((tEq p q).mpr h2))
  have hfst : ∀ p, p ∈ (rowZeroBlock (s 0 % w) (w - 1) ++
      (segBlock 1 0 (s 1 % w) (w - 1) ++ Atail)).map Prod.fst ↔
      ((0 ≤ p.x ∧ p.x < (w : Int) ∧ 0 ≤ p.y ∧ p.y < ((c + 2 : Nat) : Int)) ∧
        p ≠ (⟨((s 0 % w : Nat) : Int), 0⟩ : Point)) := by
    intro p
    rw [List.map_append, List.map_append, List.mem_append, List.mem_append,
      rowZeroBlock_fst (s 0 % w) (w - 1) (by omega) p,
      segBlock_fst 1 0 (s 1 % w) (w - 1) (by omega) (by omega) p, tFst p]
    constructor
    · rintro (⟨h1, h2, h3, h4⟩ | ⟨h1, h2, h3⟩ | ⟨h1, h2, h3, h4⟩)
      · refine ⟨⟨h2, by
          have h7 : p.x ≤ ((w - 1 : Nat) : Int) := h3
          omega, by omega, by omega⟩, ?_⟩
        intro he
        rw [he] at h4
        exact h4 rfl
      · refine ⟨⟨h2, by
          have h7 : p.x ≤ ((w - 1 : Nat) : Int) := h3
          omega, by omega, by omega⟩, ?_⟩
        intro he
        rw [he] at h1
        have h8 : (0 : Int) = 1 := h1
        omega
      · refine ⟨⟨h3, h4, by omega, by
          have h7 : p.y < ((2 + c : Nat) : Int) := h2
          have h9 : ((2 + c : Nat) : Int) = ((c + 2 : Nat) : Int) := by push_cast; ring
          omega⟩, ?_⟩
        intro he
        rw [he] at h1
        have h8 : ((2 : Nat) : Int) ≤ 0 := h1
        omega
    · rintro ⟨⟨h1, h2, h3, h4⟩, hne⟩
      by_cases hy0 : p.y = 0
      · refine Or.inl ⟨hy0, h1, by
          have h7 : p.x ≤ ((w - 1 : Nat) : Int) ↔ p.x < (w : Int) := by omega
          exact h7.mpr h2, ?_⟩
        intro he
        apply hne
        have hpe : p = ⟨p.x, p.y⟩ := rfl
        rw [hpe, he, hy0]
      · by_cases hy1 : p.y = 1
        · exact Or.inr (Or.inl ⟨hy1, by omega, by omega⟩)
        · refine Or.inr (Or.inr ⟨by omega, by omega, h1, h2⟩)
  have hcert : LinkCert g' ⟨((s 0 % w : Nat) : Int), 0⟩
      (rowZeroBlock (s 0 % w) (w - 1) ++ (segBlock 1 0 (s 1 % w) (w - 1) ++ Atail)) := by
    apply linkCert_of_attach g' _ _ hbichar ?_ ?_ ?_ ?_ ?_
    · rw [List.map_append, List.map_append]
      apply List.Nodup.append (rowZeroBlock_nodup _ _)
      · apply List.Nodup.append (segBlock_nodup _ _ _ _) tNd
        intro p hp hp2
        obtain ⟨h1, _, _⟩ := (segBlock_fst 1 0 (s 1 % w) (w - 1) (by omega) (by omega) p).mp hp
        obtain ⟨h2, _, _⟩ := (tFst p).mp hp2
        have h8 : ((2 : Nat) : Int) ≤ (1 : Int) := by rw [← h1]; exact h2
        omega
      · intro p hp hp2
        obtain ⟨h1, _, _⟩ := (rowZeroBlock_fst (s 0 % w) (w - 1) (by omega) p).mp hp
        rcases List.mem_append.mp hp2 with hp2 | hp2
        · obtain ⟨h2, _, _⟩ :=
            (segBlock_fst 1 0 (s 1 % w) (w - 1) (by omega) (by omega) p).mp hp2
          rw [h1] at h2
          exact absurd h2.symm (by omega)
        · obtain ⟨h2, _, _⟩ := (tFst p).mp hp2
          rw [h1] at h2
          have h8 : ((2 : Nat) : Int) ≤ 0 := h2
          omega
    · intro hmem
      rw [List.map_append, List.mem_append] at hmem
      rcases hmem with hmem | hmem
      · obtain ⟨_, _, _, hne⟩ := (rowZeroBlock_fst (s 0 % w) (w - 1) (by omega) _).mp hmem
        exact hne rfl
      · rw [List.map_append, List.mem_append] at hmem
        rcases hmem with hmem | hmem
        · obtain ⟨h1, _, _⟩ :=
            (segBlock_fst 1 0 (s 1 % w) (w - 1) (by omega) (by omega) _).mp hmem
          have h8 : (0 : Int) = 1 := h1
          omega
        · obtain ⟨h1, _, _⟩ := (tFst _).mp hmem
          have h8 : ((2 : Nat) : Int) ≤ 0 := h1
          omega
    · refine Option.isSome_iff_exists.mp ((hpres _).trans ?_)
      exact new_isSome_of w (c + 2) _ _ (by omega) (by omega) (by omega) (by omega)
    · intro pr hm
      have hin : ∀ p : Point, 0 ≤ p.x → p.x < (w : Int) → 0 ≤ p.y → p.y < ((c + 2 : Nat) : Int) →
          ∃ cc, g'.get p = some cc := by
        intro p k1 k2 k3 k4
        refine Option.isSome_iff_exists.mp ((hpres _).trans ?_)
        exact new_isSome_pt w (c + 2) p k1 k2 k3 k4
      rcases List.mem_append.mp hm with hm | hm
      · obtain ⟨⟨h1, h2, h3⟩, _, ⟨h4, h5, h6⟩⟩ :=
          rowZeroBlock_shape (s 0 % w) (w - 1) (by omega) pr hm
        exact ⟨hin pr.1 h2 (by omega) (by omega) (by omega),
          hin pr.2 h5 (by omega) (by omega) (by omega)⟩
      · rcases List.mem_append.mp hm with hm | hm
        · obtain ⟨⟨h1, h2, h3⟩, _, hsnd⟩ :=
            segBlock_shape 1 0 (s 1 % w) (w - 1) (by omega) (by omega) pr hm
          refine ⟨hin pr.1 h2 (by omega) (by omega) (by omega), ?_⟩
          rcases hsnd with ⟨h4, h5, h6⟩ | h4
          · exact hin pr.2 h5 (by omega) (by omega) (by omega)
          · rw [h4]
            refine hin _ ?_ ?_ ?_ ?_
            · show (0 : Int) ≤ ((s 1 % w : Nat) : Int)
              omega
            · show ((s 1 % w : Nat) : Int) < ((w : Nat) : Int)
              omega
            · show (0 : Int) ≤ (1 : Int) - 1
              omega
            · show (1 : Int) - 1 < ((c + 2 : Nat) : Int)
              omega
        · obtain ⟨⟨h1, h2, h3, h4⟩, _, ⟨h5, h6, h7, h8⟩⟩ := tShA pr hm
          exact ⟨hin pr.1 h3 h4 (by omega) (by omega),
            hin pr.2 h7 h8 (by omega) (by omega)⟩
    · apply attach_append _ (rowZeroBlock (s 0 % w) (w - 1)) _ []
        (rowZeroBlock_attach (s 0 % w) (w - 1) [])
      apply attach_append _ (segBlock 1 0 (s 1 % w) (w - 1)) Atail _ ?_ ?_
      · apply segBlock_attach2
        have hpt : (⟨((s 1 % w : Nat) : Int), (1 : Int) - 1⟩ : Point) =
            ⟨((s 1 % w : Nat) : Int), 0⟩ := by
          rw [show (1 : Int) - 1 = (0 : Int) from by omega]
        rw [hpt]
        by_cases hj : s 1 % w = s 0 % w
        · left
          rw [hj]
        · right
          apply List.mem_append.mpr
          left
          apply (rowZeroBlock_fst (s 0 % w) (w - 1) (by omega) _).mpr
          refine ⟨rfl, ?_, ?_, ?_⟩
          · show (0 : Int) ≤ ((s 1 % w : Nat) : Int)
            omega
          · show ((s 1 % w : Nat) : Int) ≤ ((w - 1 : Nat) : Int)
            omega
          · show ((s 1 % w : Nat) : Int) ≠ ((s 0 % w : Nat) : Int)
            omega
      · apply tAt
        intro t ht
        have hpt : (⟨((t : Nat) : Int), ((2 : Nat) : Int) - 1⟩ : Point) =
            ⟨((t : Nat) : Int), 1⟩ := by
          rw [show ((2 : Nat) : Int) - 1 = (1 : Int) from by omega]
        rw [hpt]
        apply List.mem_append.mpr
        left
        apply (segBlock_fst 1 0 (s 1 % w) (w - 1) (by omega) (by omega) _).mpr
        refine ⟨rfl, ?_, ?_⟩
        · show ((0 : Nat) : Int) ≤ ((t : Nat) : Int)
          omega
        · show ((t : Nat) : Int) ≤ ((w - 1 : Nat) : Int)
          omega
  have hspan := span_of_fst w (c + 2) g' hwf' hpres ⟨((s 0 % w : Nat) : Int), 0⟩ _
    ⟨by show (0 : Int) ≤ ((s 0 % w : Nat) : Int); omega,
     by show ((s 0 % w : Nat) : Int) < ((w : Nat) : Int); omega,
     by show (0 : Int) ≤ (0 : Int); omega,
     by show (0 : Int) < ((c + 2 : Nat) : Int); omega⟩ hfst
  exact cert_to_goal w (c + 2) g' _ _ hwf' hpres hcert hspan

theorem sw_perfect (w h : Nat) (s : Nat → Nat) (g' : Grid) (hw : 1 ≤ w) (hh : 1 ≤ h)
    (hrun : Algorithm.sidewinder (RectangularGrid.new w h) s = some g') :
    PerfectMaze g' ∧ g'.edgePairs.card + 1 = w * h := by
  by_cases h1 : h = 1
  · subst h1
    exact sw_perfect_h1 w s g' hw hrun
  · obtain ⟨c, hc⟩ : ∃ c, h = c + 2 := ⟨h - 2, by omega⟩
    subst hc
    exact sw_perfect_h2 w c s g' hw hrun

/-- In-range coordinates of a w×h rectangular grid. -/
def inR (w h : Nat) (p : Point) : Prop :=
  0 ≤ p.x ∧ p.x < (w : Int) ∧ 0 ≤ p.y ∧ p.y < (h : Int)

/-- The endpoints occurring in a recorded action list. -/
def epts (A : List (Point × Point)) : List Point :=
  A.map Prod.fst ++ A.map Prod.snd

theorem mem_epts (A : List (Point × Point)) (p : Point) :
    p ∈ epts A ↔ (∃ pr ∈ A, pr.1 = p) ∨ (∃ pr ∈ A, pr.2 = p) := by
  simp only [epts, List.mem_append, List.mem_map]

/-- The loop invariant shared by the stateful generation algorithms: the grid
is a well-formed full rectangle whose carved passages are exactly the recorded
action pairs, each recorded pair attaches a fresh cell to the already carved
component of the root, and a cell's link flags are non-empty exactly when the
cell occurs in a recorded pair. -/
structure MazeInv (w h : Nat) (g : Grid) (r : Point) (A : List (Point × Point)) : Prop where
  wf : g.WF
  pres : ∀ p, (g.get p).isSome = ((RectangularGrid.new w h).get p).isSome
  bichar : ∀ p q, g.biLinked p q = true ↔ unordMem A p q
  ndf : (A.map Prod.fst).Nodup
  rootNot : r ∉ A.map Prod.fst
  rootIn : inR w h r
  inA : ∀ pr ∈ A, inR w h pr.1 ∧ inR w h pr.2
  att : Attach r A []
  linksIff : ∀ p c, g.get p = some c → (c.links = [] ↔ p ∉ epts A)

theorem get_slots (g : Grid) (hwf : g.WF) (p : Point) (c : Cell) (h : g.get p = some c) :
    c.point = p ∧ c.north.point = p.north ∧ c.south.point = p.south ∧
      c.east.point = p.east ∧ c.west.point = p.west := by
  obtain ⟨i, hi, hci, _, hpt⟩ := WF_get_index g p c hwf h
  obtain ⟨_, h1, h2, h3, h4⟩ := WF_slot_points g c i hwf hi hci
  rw [hpt] at h1 h2 h3 h4
  exact ⟨hpt, h1, h2, h3, h4⟩

/-- Canonical slot coordinates of a cell value. -/
def cellOK (c : Cell) : Prop :=
  c.north.point = c.point.north ∧ c.south.point = c.point.south ∧
    c.east.point = c.point.east ∧ c.west.point = c.point.west

theorem get_cellOK (g : Grid) (hwf : g.WF) (p : Point) (c : Cell)
    (h : g.get p = some c) : cellOK c := by
  obtain ⟨hpt, h1, h2, h3, h4⟩ := get_slots g hwf p c h
  rw [← hpt] at h1 h2 h3 h4
  exact ⟨h1, h2, h3, h4⟩

theorem mem_getD {α : Type} (l : List α) (i : Nat) (d : α) (h : i < l.length) :
    l.getD i d ∈ l := by
  rw [List.getD_eq_getElem?_getD, List.getElem?_eq_getElem h]
  exact List.getElem_mem h

theorem inv_isSome (w h : Nat) (g : Grid) (r : Point) (A : List (Point × Point))
    (inv : MazeInv w h g r A) (p : Point) :
    (g.get p).isSome = true ↔ inR w h p := by
  rw [inv.pres p, new_get_isSome]
  exact Iff.rfl

theorem inv_present (w h : Nat) (g : Grid) (r : Point) (A : List (Point × Point))
    (inv : MazeInv w h g r A) (p : Point) (hp : inR w h p) : ∃ c, g.get p = some c :=
  Option.isSome_iff_exists.mp ((inv_isSome w h g r A inv p).mpr hp)

theorem inv_inR_of_get (w h : Nat) (g : Grid) (r : Point) (A : List (Point × Point))
    (inv : MazeInv w h g r A) (p : Point) (c : Cell) (hgc : g.get p = some c) : inR w h p :=
  (inv_isSome w h g r A inv p).mp (by rw [hgc]; rfl)

theorem epts_sub (r : Point) (A : List (Point × Point)) (hat : Attach r A []) :
    ∀ p ∈ epts A, p = r ∨ p ∈ A.map Prod.fst := by
  intro p hp
  rcases (mem_epts A p).mp hp with ⟨pr, hm, he⟩ | ⟨pr, hm, he⟩
  · exact Or.inr (he ▸ List.mem_map_of_mem Prod.fst hm)
  · rcases attach_closed r A [] hat pr hm with h2 | h2 | h2
    · exact Or.inl (by rw [← he, h2])
    · exact absurd h2 (List.not_mem_nil _)
    · exact Or.inr (he ▸ h2)

theorem root_ept (r : Point) (A : List (Point × Point)) (hA : A ≠ [])
    (hat : Attach r A []) : r ∈ A.map Prod.snd := by
  cases A with
  | nil => exact absurd rfl hA
  | cons pr rest =>
    obtain ⟨h1, _⟩ := hat
    rcases h1 with h1 | h1
    · rw [List.map_cons]
      exact List.mem_cons.mpr (Or.inl h1.symm)
    · exact absurd h1 (List.not_mem_nil _)

theorem new_links_empty (w h : Nat) (p : Point) (c : Cell)
    (hc : (RectangularGrid.new w h).get p = some c) : c.links = [] := by
  have hm := get_mem _ p c hc
  have he := (new_mem_cell w h c hm).1
  rw [he]
  rfl

theorem inv_init (w h : Nat) (r : Point) (hr : inR w h r) :
    MazeInv w h (RectangularGrid.new w h) r [] := by
  refine ⟨WF_new w h, fun p => rfl, ?_, List.nodup_nil, List.not_mem_nil r, hr, ?_, trivial, ?_⟩
  · intro p q
    rw [new_biLinked_false]
    constructor
    · intro hc
      exact absurd hc (by simp)
    · intro hc
      exact absurd hc (unordMem_nil p q)
  · intro pr hm
    exact absurd hm (List.not_mem_nil pr)
  · intro p c hc
    constructor
    · intro _
      exact List.not_mem_nil p
    · intro _
      exact new_links_empty w h p c hc

theorem inv_step_core (w h : Nat) (g g2 : Grid) (r : Point) (A : List (Point × Point))
    (inv : MazeInv w h g r A) (a b : Point) (ca cb ca2 cb2 : Cell)
    (hga : g.get a = some ca) (hgb : g.get b = some cb)
    (hadj : adjacentPt a b)
    (haV : a = r ∨ a ∈ A.map Prod.fst)
    (hbF : cb.links = [])
    (hwf2 : g2.WF)
    (hother : ∀ p, p ≠ a → p ≠ b → g2.get p = g.get p)
    (hgeta : g2.get a = some ca2) (hlinksa : ∀ q, q ∈ ca2.links ↔ (q ∈ ca.links ∨ q = b))
    (hgetb : g2.get b = some cb2) (hlinksb : ∀ q, q ∈ cb2.links ↔ (q ∈ cb.links ∨ q = a)) :
    MazeInv w h g2 r (A ++ [(b, a)]) ∧ b ≠ r ∧ b ∉ A.map Prod.fst := by
  have hne : a ≠ b := adjacentPt_ne a b hadj
  have hbE : b ∉ epts A := (inv.linksIff b cb hgb).mp hbF
  have hbf : b ∉ A.map Prod.fst := fun hm => hbE (List.mem_append.mpr (Or.inl hm))
  have hbs : b ∉ A.map Prod.snd := fun hm => hbE (List.mem_append.mpr (Or.inr hm))
  have hbr : b ≠ r := by
    intro he
    by_cases hA : A = []
    · subst hA
      rcases haV with haV | haV
      · exact hne (by rw [haV, ← he])
      · exact absurd haV (List.not_mem_nil a)
    · exact hbs (he ▸ root_ept r A hA inv.att)
  have hfst2 : (A ++ [(b, a)]).map Prod.fst = A.map Prod.fst ++ [b] := by
    rw [List.map_append]
    rfl
  have hsnd2 : (A ++ [(b, a)]).map Prod.snd = A.map Prod.snd ++ [a] := by
    rw [List.map_append]
    rfl
  have hept2 : ∀ p, p ∈ epts (A ++ [(b, a)]) ↔ (p ∈ epts A ∨ p = b ∨ p = a) := by
    intro p
    rw [epts, hfst2, hsnd2, epts]
    simp only [List.mem_append, List.mem_singleton]
    tauto
  refine ⟨⟨hwf2, ?_, ?_, ?_, ?_, inv.rootIn, ?_, ?_, ?_⟩, hbr, hbf⟩
  · intro p
    rw [isSome_update g g2 a b ca cb ca2 cb2 hga hgb hother hgeta hgetb p, inv.pres p]
  · intro p q
    rw [biLinked_update g g2 a b ca cb ca2 cb2 hga hgb hne hother hgeta hlinksa hgetb
      hlinksb p q, unordMem_append, unordMem_singleton, inv.bichar p q]
    constructor
    · rintro (h2 | h2 | h2)
      · exact Or.inl h2
      · exact Or.inr (Or.inr h2)
      · exact Or.inr (Or.inl h2)
    · rintro (h2 | h2 | h2)
      · exact Or.inl h2
      · exact Or.inr (Or.inr h2)
      · exact Or.inr (Or.inl h2)
  · rw [hfst2, List.nodup_append]
    exact ⟨inv.ndf, List.nodup_singleton b, by
      intro x hx hx2
      rw [List.mem_singleton] at hx2
      exact hbf (hx2 ▸ hx)⟩
  · rw [hfst2]
    intro hm
    rcases List.mem_append.mp hm with hm | hm
    · exact inv.rootNot hm
    · rw [List.mem_singleton] at hm
      exact hbr hm.symm
  · intro pr hm
    rcases List.mem_append.mp hm with hm | hm
    · exact inv.inA pr hm
    · rw [List.mem_singleton] at hm
      subst hm
      exact ⟨inv_inR_of_get w h g r A inv b cb hgb, inv_inR_of_get w h g r A inv a ca hga⟩
  · refine attach_append r A [(b, a)] [] inv.att ⟨?_, trivial⟩
    rcases haV with haV | haV
    · exact Or.inl haV
    · exact Or.inr (List.mem_append.mpr (Or.inl haV))
  · intro p c hc
    by_cases hpa : p = a
    · subst hpa
      rw [hgeta] at hc
      simp only [Option.some_inj] at hc
      subst hc
      have hbmem : b ∈ ca2.links := (hlinksa b).mpr (Or.inr rfl)
      constructor
      · intro he
        rw [he] at hbmem
        exact absurd hbmem (List.not_mem_nil b)
      · intro hnm
        exact absurd ((hept2 p).mpr (Or.inr (Or.inr rfl))) hnm
    · by_cases hpb : p = b
      · subst hpb
        rw [hgetb] at hc
        simp only [Option.some_inj] at hc
        subst hc
        have hamem : a ∈ cb2.links := (hlinksb a).mpr (Or.inr rfl)
        constructor
        · intro he
          rw [he] at hamem
          exact absurd hamem (List.not_mem_nil a)
        · intro hnm
          exact absurd ((hept2 p).mpr (Or.inr (Or.inl rfl))) hnm
      · rw [hother p hpa hpb] at hc
        rw [inv.linksIff p c hc]
        constructor
        · intro hnm hm2
          rcases (hept2 p).mp hm2 with hm2 | hm2 | hm2
          · exact hnm hm2
          · exact hpb hm2
          · exact hpa hm2
        · intro hnm hm2
          exact hnm ((hept2 p).mpr (Or.inl hm2))

theorem inv_step (w h : Nat) (g : Grid) (r : Point) (A : List (Point × Point))
    (inv : MazeInv w h g r A) (a b : Point) (ca cb : Cell)
    (hga : g.get a = some ca) (hgb : g.get b = some cb)
    (hadj : adjacentPt a b)
    (haV : a = r ∨ a ∈ A.map Prod.fst)
    (hbF : cb.links = []) :
    ∃ g2, g.link a b true = some g2 ∧ MazeInv w h g2 r (A ++ [(b, a)]) ∧
      b ≠ r ∧ b ∉ A.map Prod.fst := by
  obtain ⟨g2, ca2, cb2, hlink, hwf2, _, _, _, hother, hgeta, hlinksa, hgetb, hlinksb⟩ :=
    link_adj_some g a b ca cb inv.wf hga hgb hadj
  exact ⟨g2, hlink, inv_step_core w h g g2 r A inv a b ca cb ca2 cb2 hga hgb hadj haV hbF
    hwf2 hother hgeta hlinksa hgetb hlinksb⟩

theorem inv_step_rev (w h : Nat) (g : Grid) (r : Point) (A : List (Point × Point))
    (inv : MazeInv w h g r A) (a b : Point) (ca cb : Cell)
    (hga : g.get a = some ca) (hgb : g.get b = some cb)
    (hadj : adjacentPt a b)
    (haV : a = r ∨ a ∈ A.map Prod.fst)
    (hbF : cb.links = []) :
    ∃ g2, g.link b a true = some g2 ∧ MazeInv w h g2 r (A ++ [(b, a)]) ∧
      b ≠ r ∧ b ∉ A.map Prod.fst := by
  obtain ⟨g2, cb2, ca2, hlink, hwf2, _, _, _, hother, hgetb, hlinksb, hgeta, hlinksa⟩ :=
    link_adj_some g b a cb ca inv.wf hgb hga (adjacentPt_symm a b hadj)
  exact ⟨g2, hlink, inv_step_core w h g g2 r A inv a b ca cb ca2 cb2 hga hgb hadj haV hbF
    hwf2 (fun p h1 h2 => hother p h2 h1) hgeta hlinksa hgetb hlinksb⟩

theorem inv_cert (w h : Nat) (g : Grid) (r : Point) (A : List (Point × Point))
    (inv : MazeInv w h g r A)
    (hspan : ∀ p, p ∈ (r :: A.map Prod.fst) ↔ p ∈ g.presentPoints) :
    PerfectMaze g ∧ g.edgePairs.card + 1 = w * h := by
  have hcert : LinkCert g r A := by
    apply linkCert_of_attach g r A inv.bichar inv.ndf inv.rootNot ?_ ?_ inv.att
    · exact inv_present w h g r A inv r inv.rootIn
    · intro pr hm
      obtain ⟨h1, h2⟩ := inv.inA pr hm
      exact ⟨inv_present w h g r A inv pr.1 h1, inv_present w h g r A inv pr.2 h2⟩
  exact cert_to_goal w h g r A inv.wf inv.pres hcert hspan

theorem inv_span_card (w h : Nat) (g : Grid) (r : Point) (A : List (Point × Point))
    (inv : MazeInv w h g r A) (hlen : A.length + 1 = w * h) :
    ∀ p, p ∈ (r :: A.map Prod.fst) ↔ p ∈ g.presentPoints := by
  have hnd : (r :: A.map Prod.fst).Nodup := List.nodup_cons.mpr ⟨inv.rootNot, inv.ndf⟩
  have hsub : ∀ p ∈ (r :: A.map Prod.fst), p ∈ g.presentPoints := by
    intro p hp
    have hin : inR w h p := by
      rcases List.mem_cons.mp hp with he | hm
      · exact he ▸ inv.rootIn
      · rcases List.mem_map.mp hm with ⟨pr, hpr, he⟩
        exact he ▸ (inv.inA pr hpr).1
    obtain ⟨c, hc⟩ := inv_present w h g r A inv p hin
    exact get_presentPoints g p c hc
  have h1 : (r :: A.map Prod.fst).toFinset ⊆ g.presentPoints.toFinset := by
    intro p hp
    rw [List.mem_toFinset] at hp ⊢
    exact hsub p hp
  have h2 : (r :: A.map Prod.fst).toFinset.card = w * h := by
    rw [List.toFinset_card_of_nodup hnd, List.length_cons, List.length_map]
    omega
  have h3 : g.presentPoints.toFinset.card = w * h := by
    rw [presentPoints_toFinset_eq (RectangularGrid.new w h) g (WF_new w h) inv.wf inv.pres,
      new_presentPoints_card]
  have heq : (r :: A.map Prod.fst).toFinset = g.presentPoints.toFinset :=
    Finset.eq_of_subset_of_card_le h1 (by omega)
  intro p
  rw [← List.mem_toFinset, ← List.mem_toFinset, heq]

theorem adj_step_toward (w h : Nat) (r p : Point) (hr : inR w h r) (hp : inR w h p)
    (hne : p ≠ r) :
    ∃ p2, inR w h p2 ∧ adjacentPt p2 p ∧
      (p2.x - r.x).natAbs + (p2.y - r.y).natAbs + 1 =
        (p.x - r.x).natAbs + (p.y - r.y).natAbs := by
  obtain ⟨hr1, hr2, hr3, hr4⟩ := hr
  obtain ⟨hp1, hp2, hp3, hp4⟩ := hp
  by_cases hx : p.x = r.x
  · have hy : p.y ≠ r.y := by
      intro hy
      apply hne
      rcases p with ⟨px, py⟩
      rcases r with ⟨rx, ry⟩
      have e1 : px = rx := hx
      have e2 : py = ry := hy
      rw [e1, e2]
    by_cases hgt : r.y < p.y
    · refine ⟨⟨p.x, p.y - 1⟩, ⟨hp1, hp2,
        by show (0 : Int) ≤ p.y - 1; omega,
        by show p.y - 1 < (h : Int); omega⟩, Or.inr (Or.inl ?_), ?_⟩
      · show p = Point.south ⟨p.x, p.y - 1⟩
        show p = (⟨p.x, p.y - 1 + 1⟩ : Point)
        rcases p with ⟨px, py⟩
        rw [Point.mk.injEq]
        constructor
        · rfl
        · show py = py - 1 + 1
          omega
      · show (p.x - r.x).natAbs + (p.y - 1 - r.y).natAbs + 1 = _
        omega
    · refine ⟨⟨p.x, p.y + 1⟩, ⟨hp1, hp2,
        by show (0 : Int) ≤ p.y + 1; omega,
        by show p.y + 1 < (h : Int); omega⟩, Or.inl ?_, ?_⟩
      · show p = Point.north ⟨p.x, p.y + 1⟩
        show p = (⟨p.x, p.y + 1 - 1⟩ : Point)
        rcases p with ⟨px, py⟩
        rw [Point.mk.injEq]
        constructor
        · rfl
        · show py = py + 1 - 1
          omega
      · show (p.x - r.x).natAbs + (p.y + 1 - r.y).natAbs + 1 = _
        omega
  · by_cases hgt : r.x < p.x
    · refine ⟨⟨p.x - 1, p.y⟩, ⟨by show (0 : Int) ≤ p.x - 1; omega,
        by show p.x - 1 < (w : Int); omega, hp3, hp4⟩, Or.inr (Or.inr (Or.inl ?_)), ?_⟩
      · show p = Point.east ⟨p.x - 1, p.y⟩
        show p = (⟨p.x - 1 + 1, p.y⟩ : Point)
        rcases p with ⟨px, py⟩
        rw [Point.mk.injEq]
        constructor
        · show px = px - 1 + 1
          omega
        · rfl
      · show (p.x - 1 - r.x).natAbs + (p.y - r.y).natAbs + 1 = _
        omega
    · refine ⟨⟨p.x + 1, p.y⟩, ⟨by show (0 : Int) ≤ p.x + 1; omega,
        by show p.x + 1 < (w : Int); omega, hp3, hp4⟩, Or.inr (Or.inr (Or.inr ?_)), ?_⟩
      · show p = Point.west ⟨p.x + 1, p.y⟩
        show p = (⟨p.x + 1 - 1, p.y⟩ : Point)
        rcases p with ⟨px, py⟩
        rw [Point.mk.injEq]
        constructor
        · show px = px + 1 - 1
          omega
        · rfl
      · show (p.x + 1 - r.x).natAbs + (p.y - r.y).natAbs + 1 = _
        omega

theorem grid_closure (w h : Nat) (r : Point) (hr : inR w h r) (P : Point → Prop)
    (hrP : P r)
    (hclosed : ∀ u q, P u → inR w h q → adjacentPt u q → P q) :
    ∀ p, inR w h p → P p := by
  suffices H : ∀ n p, inR w h p → (p.x - r.x).natAbs + (p.y - r.y).natAbs = n → P p by
    intro p hp
    exact H _ p hp rfl
  intro n
  induction n using Nat.strong_induction_on with
  | _ n ih =>
    intro p hp hd
    by_cases hne : p = r
    · exact hne ▸ hrP
    · obtain ⟨p2, hp2, hadj, hdec⟩ := adj_step_toward w h r p hr hp hne
      have hP2 : P p2 := ih _ (by omega) p2 hp2 rfl
      exact hclosed p2 p hP2 hp hadj

theorem grid_neighbors_spec (g : Grid) (p q : Point) (hm : q ∈ g.neighbors p) :
    adjacentPt p q ∧ ∃ c, g.get q = some c := by
  rw [Grid.neighbors] at hm
  rcases List.mem_append.mp hm with hm | hm
  · rcases List.mem_append.mp hm with hm | hm
    · rcases List.mem_append.mp hm with hm | hm
      · cases hg : g.get p.north with
        | none => rw [hg] at hm; exact absurd hm (List.not_mem_nil q)
        | some c =>
          rw [hg, List.mem_singleton] at hm
          have hq : q = p.north := by rw [hm, get_point g p.north c hg]
          exact ⟨Or.inl hq, c, by rw [hq]; exact hg⟩
      · cases hg : g.get p.south with
        | none => rw [hg] at hm; exact absurd hm (List.not_mem_nil q)
        | some c =>
          rw [hg, List.mem_singleton] at hm
          have hq : q = p.south := by rw [hm, get_point g p.south c hg]
          exact ⟨Or.inr (Or.inl hq), c, by rw [hq]; exact hg⟩
    · cases hg : g.get p.east with
      | none => rw [hg] at hm; exact absurd hm (List.not_mem_nil q)
      | some c =>
        rw [hg, List.mem_singleton] at hm
        have hq : q = p.east := by rw [hm, get_point g p.east c hg]
        exact ⟨Or.inr (Or.inr (Or.inl hq)), c, by rw [hq]; exact hg⟩
  · cases hg : g.get p.west with
    | none => rw [hg] at hm; exact absurd hm (List.not_mem_nil q)
    | some c =>
      rw [hg, List.mem_singleton] at hm
      have hq : q = p.west := by rw [hm, get_point g p.west c hg]
      exact ⟨Or.inr (Or.inr (Or.inr hq)), c, by rw [hq]; exact hg⟩

theorem grid_neighbors_mem_of (g : Grid) (p q : Point) (c : Cell)
    (hq : g.get q = some c) (hadj : adjacentPt p q) : q ∈ g.neighbors p := by
  rw [Grid.neighbors]
  rcases hadj with hd | hd | hd | hd
  · subst hd
    rw [hq]
    refine List.mem_append.mpr (Or.inl (List.mem_append.mpr (Or.inl
      (List.mem_append.mpr (Or.inl ?_)))))
    rw [List.mem_singleton]
    exact (get_point g _ c hq).symm
  · subst hd
    rw [hq]
    refine List.mem_append.mpr (Or.inl (List.mem_append.mpr (Or.inl
      (List.mem_append.mpr (Or.inr ?_)))))
    rw [List.mem_singleton]
    exact (get_point g _ c hq).symm
  · subst hd
    rw [hq]
    refine List.mem_append.mpr (Or.inl (List.mem_append.mpr (Or.inr ?_)))
    rw [List.mem_singleton]
    exact (get_point g _ c hq).symm
  · subst hd
    rw [hq]
    refine List.mem_append.mpr (Or.inr ?_)
    rw [List.mem_singleton]
    exact (get_point g _ c hq).symm

theorem cell_neighbors_spec (g : Grid) (c : Cell) (hok : cellOK c) (n : Cell)
    (hm : n ∈ c.neighbors g) :
    g.get n.point = some n ∧ adjacentPt c.point n.point := by
  obtain ⟨h1, h2, h3, h4⟩ := hok
  rw [Cell.neighbors] at hm
  rcases List.mem_append.mp hm with hm | hm
  · rcases List.mem_append.mp hm with hm | hm
    · rcases List.mem_append.mp hm with hm | hm
      · cases hg : g.get c.north.point with
        | none => rw [hg] at hm; exact absurd hm (List.not_mem_nil n)
        | some m =>
          rw [hg, List.mem_singleton] at hm
          subst hm
          have hq : n.point = c.point.north := by rw [get_point g _ n hg, h1]
          exact ⟨by rw [hq, ← h1]; exact hg, Or.inl hq⟩
      · cases hg : g.get c.south.point with
        | none => rw [hg] at hm; exact absurd hm (List.not_mem_nil n)
        | some m =>
          rw [hg, List.mem_singleton] at hm
          subst hm
          have hq : n.point = c.point.south := by rw [get_point g _ n hg, h2]
          exact ⟨by rw [hq, ← h2]; exact hg, Or.inr (Or.inl hq)⟩
    · cases hg : g.get c.east.point with
      | none => rw [hg] at hm; exact absurd hm (List.not_mem_nil n)
      | some m =>
        rw [hg, List.mem_singleton] at hm
        subst hm
        have hq : n.point = c.point.east := by rw [get_point g _ n hg, h3]
        exact ⟨by rw [hq, ← h3]; exact hg, Or.inr (Or.inr (Or.inl hq))⟩
  · cases hg : g.get c.west.point with
    | none => rw [hg] at hm; exact absurd hm (List.not_mem_nil n)
    | some m =>
      rw [hg, List.mem_singleton] at hm
      subst hm
      have hq : n.point = c.point.west := by rw [get_point g _ n hg, h4]
      exact ⟨by rw [hq, ← h4]; exact hg, Or.inr (Or.inr (Or.inr hq))⟩

theorem cell_neighbors_mem_of (g : Grid) (c : Cell) (hok : cellOK c) (q : Point) (cq : Cell)
    (hq : g.get q = some cq) (hadj : adjacentPt c.point q) : cq ∈ c.neighbors g := by
  obtain ⟨h1, h2, h3, h4⟩ := hok
  rw [Cell.neighbors]
  rcases hadj with hd | hd | hd | hd
  · refine List.mem_append.mpr (Or.inl (List.mem_append.mpr (Or.inl
      (List.mem_append.mpr (Or.inl ?_)))))
    rw [h1, ← hd, hq]
    exact List.mem_singleton.mpr rfl
  · refine List.mem_append.mpr (Or.inl (List.mem_append.mpr (Or.inl
      (List.mem_append.mpr (Or.inr ?_)))))
    rw [h2, ← hd, hq]
    exact List.mem_singleton.mpr rfl
  · refine List.mem_append.mpr (Or.inl (List.mem_append.mpr (Or.inr ?_)))
    rw [h3, ← hd, hq]
    exact List.mem_singleton.mpr rfl
  · refine List.mem_append.mpr (Or.inr ?_)
    rw [h4, ← hd, hq]
    exact List.mem_singleton.mpr rfl

theorem random_cell_mem (g : Grid) (s : Nat → Nat) (k fuel : Nat) (c : Cell) (k2 : Nat)
    (h : g.random_cell s k fuel = some (c, k2)) : some c ∈ g.cells := by
  induction fuel generalizing k with
  | zero => exact absurd h (by simp [Grid.random_cell])
  | succ f ih =>
    unfold Grid.random_cell at h
    split at h
    · exact absurd h (by simp)
    · split at h
      case _ c2 hc =>
        simp only [Option.some_inj, Prod.mk.injEq] at h
        obtain ⟨hcc, _⟩ := h
        subst hcc
        exact List.getElem?_mem (getD_some_slot _ _ _ hc)
      case _ => exact ih (k + 1) h

theorem isEmpty_true_iff {α : Type} (l : List α) : l.isEmpty = true ↔ l = [] := by
  cases l <;> simp

theorem isEmpty_false_len {α : Type} (l : List α) (h : l.isEmpty = false) : 0 < l.length := by
  cases l with
  | nil => simp at h
  | cons a t => simp

theorem inv_V_inR (w h : Nat) (g : Grid) (r : Point) (A : List (Point × Point))
    (inv : MazeInv w h g r A) (p : Point) (hV : p = r ∨ p ∈ A.map Prod.fst) : inR w h p := by
  rcases hV with hV | hV
  · exact hV ▸ inv.rootIn
  · rcases List.mem_map.mp hV with ⟨pr, hm, he⟩
    exact he ▸ (inv.inA pr hm).1

theorem abLoop_done (g : Grid) (s : Nat → Nat) (fuel unvisited : Nat) (cell : Cell) (k : Nat)
    (hu : unvisited = 0) : abLoop g s fuel unvisited cell k = some g := by
  rw [abLoop.eq_def, if_pos hu]

theorem abLoop_succ (g : Grid) (s : Nat → Nat) (f unvisited : Nat) (cell : Cell) (k : Nat)
    (hu : ¬ unvisited = 0) :
    abLoop g s (f + 1) unvisited cell k =
      if (cell.neighbors g).isEmpty then none
      else
        let neighbor := (cell.neighbors g).getD (s k % (cell.neighbors g).length) cell
        if neighbor.links.isEmpty then
          match g.link cell.point neighbor.point true with
          | none => none
          | some g2 => abLoop g2 s f (unvisited - 1) neighbor (k + 1)
        else abLoop g s f unvisited neighbor (k + 1) := by
  rw [abLoop.eq_def, if_neg hu]

theorem abLoop_perfect (w h : Nat) (s : Nat → Nat) (r : Point) :
    ∀ (fuel : Nat) (g : Grid) (A : List (Point × Point)) (cell : Cell) (unvisited k : Nat)
      (g' : Grid),
    MazeInv w h g r A →
    cellOK cell →
    (cell.point = r ∨ cell.point ∈ A.map Prod.fst) →
    unvisited + A.length + 1 = w * h →
    abLoop g s fuel unvisited cell k = some g' →
    PerfectMaze g' ∧ g'.edgePairs.card + 1 = w * h := by
  intro fuel
  induction fuel with
  | zero =>
    intro g A cell unvisited k g' inv hok hV hcnt hrun
    by_cases hu : unvisited = 0
    · rw [abLoop_done g s 0 unvisited cell k hu] at hrun
      simp only [Option.some_inj] at hrun
      subst hrun
      exact inv_cert w h g r A inv (inv_span_card w h g r A inv (by omega))
    · rw [abLoop.eq_def, if_neg hu] at hrun
      exact absurd hrun (by simp)
  | succ f ih =>
    intro g A cell unvisited k g' inv hok hV hcnt hrun
    by_cases hu : unvisited = 0
    · rw [abLoop_done g s (f + 1) unvisited cell k hu] at hrun
      simp only [Option.some_inj] at hrun
      subst hrun
      exact inv_cert w h g r A inv (inv_span_card w h g r A inv (by omega))
    · rw [abLoop_succ g s f unvisited cell k hu] at hrun
      cases hns : (cell.neighbors g).isEmpty with
      | true => rw [if_pos hns] at hrun; exact absurd hrun (by simp)
      | false =>
        rw [if_neg (by rw [hns]; simp)] at hrun
        simp only [] at hrun
        have hlen : 0 < (cell.neighbors g).length := isEmpty_false_len _ hns
        have hnm : (cell.neighbors g).getD (s k % (cell.neighbors g).length) cell ∈
            cell.neighbors g := mem_getD _ _ _ (Nat.mod_lt _ hlen)
        obtain ⟨hgn, hadj⟩ := cell_neighbors_spec g cell hok _ hnm
        have hok2 : cellOK ((cell.neighbors g).getD (s k % (cell.neighbors g).length) cell) :=
          get_cellOK g inv.wf _ _ hgn
        obtain ⟨ca, hca⟩ := inv_present w h g r A inv cell.point
          (inv_V_inR w h g r A inv cell.point hV)
        cases hfr : ((cell.neighbors g).getD (s k % (cell.neighbors g).length)
            cell).links.isEmpty with
        | true =>
          rw [if_pos hfr] at hrun
          have hbF : ((cell.neighbors g).getD (s k % (cell.neighbors g).length)
              cell).links = [] := (isEmpty_true_iff _).mp hfr
          obtain ⟨g2, hlink, inv2, _, _⟩ := inv_step w h g r A inv cell.point _ ca _
            hca hgn hadj hV hbF
          rw [hlink] at hrun
          refine ih g2 _ _ (unvisited - 1) (k + 1) g' inv2 hok2 ?_ (by
            rw [List.length_append, List.length_singleton]
            omega) hrun
          right
          rw [List.map_append]
          exact List.mem_append.mpr (Or.inr (List.mem_singleton.mpr rfl))
        | false =>
          rw [if_neg (by rw [hfr]; simp)] at hrun
          refine ih g A _ unvisited (k + 1) g' inv hok2 ?_ hcnt hrun
          have hlnk : ((cell.neighbors g).getD (s k % (cell.neighbors g).length)
              cell).links ≠ [] := by
            intro he
            rw [(isEmpty_true_iff _).mpr he] at hfr
            exact absurd hfr (by simp)
          have hept : ((cell.neighbors g).getD (s k % (cell.neighbors g).length)
              cell).point ∈ epts A := by
            by_contra hc
            exact hlnk ((inv.linksIff _ _ hgn).mpr hc)
          exact epts_sub r A inv.att _ hept

theorem ab_perfect (w h : Nat) (s : Nat → Nat) (fuel : Nat) (g' : Grid) (hw : 1 ≤ w)
    (hh : 1 ≤ h)
    (hrun : Algorithm.aldous_broder (RectangularGrid.new w h) s fuel = some g') :
    PerfectMaze g' ∧ g'.edgePairs.card + 1 = w * h := by
  rw [Algorithm.aldous_broder] at hrun
  cases hrc : (RectangularGrid.new w h).random_cell s 0 fuel with
  | none => rw [hrc] at hrun; exact absurd hrun (by simp)
  | some ck =>
    rw [hrc] at hrun
    rcases ck with ⟨c, k⟩
    have hmem : some c ∈ (RectangularGrid.new w h).cells := random_cell_mem _ s 0 fuel c k hrc
    have hget : (RectangularGrid.new w h).get c.point = some c :=
      WF_get_of_mem _ c (WF_new w h) hmem
    have hin : inR w h c.point := (new_mem_cell w h c hmem).2
    have hok : cellOK c := get_cellOK _ (WF_new w h) c.point c hget
    have hwd : (RectangularGrid.new w h).width = w := rfl
    have hht : (RectangularGrid.new w h).height = h := rfl
    rw [hwd, hht] at hrun
    exact abLoop_perfect w h s c.point fuel (RectangularGrid.new w h) [] c (w * h - 1) k g'
      (inv_init w h c.point hin) hok (Or.inl rfl) (by
        have : 1 ≤ w * h := Nat.one_le_iff_ne_zero.mpr (by positivity)
        simp only [List.length_nil]
        omega) hrun

/-- The unlinked-neighbour pool examined by recursive_backtracker at the stack
top. -/
def rbPool (g : Grid) (cur : Point) : List Cell :=
  ((g.neighbors cur).filterMap (fun p => g.get p)).filter (fun c => c.links.isEmpty)

theorem rbLoop_nil (g : Grid) (s : Nat → Nat) (fuel k : Nat) :
    rbLoop g s fuel [] k = some g := by
  cases fuel <;> rfl

theorem rbLoop_cons (g : Grid) (s : Nat → Nat) (f : Nat) (cur : Point) (rest : List Point)
    (k : Nat) :
    rbLoop g s (f + 1) (cur :: rest) k =
      if (rbPool g cur).isEmpty then rbLoop g s f rest k
      else
        match g.link cur ((rbPool g cur).getD (s k % (rbPool g cur).length)
            (Cell.new cur)).point true with
        | none => none
        | some g2 =>
          match g.get ((rbPool g cur).getD (s k % (rbPool g cur).length)
              (Cell.new cur)).point with
          | none => none
          | some cn => rbLoop g2 s f (cn.point :: cur :: rest) (k + 1) := rfl

theorem inv_span_closed (w h : Nat) (g : Grid) (r : Point) (A : List (Point × Point))
    (inv : MazeInv w h g r A)
    (hclosed : ∀ v, (v = r ∨ v ∈ A.map Prod.fst) → ∀ q, adjacentPt v q → inR w h q →
      (q = r ∨ q ∈ A.map Prod.fst)) :
    ∀ p, p ∈ (r :: A.map Prod.fst) ↔ p ∈ g.presentPoints := by
  have hall := grid_closure w h r inv.rootIn (fun p => p = r ∨ p ∈ A.map Prod.fst)
    (Or.inl rfl) (fun u q hu hq hadj => hclosed u hu q hadj hq)
  intro p
  constructor
  · intro hp
    have hin : inR w h p := inv_V_inR w h g r A inv p (List.mem_cons.mp hp)
    obtain ⟨c, hc⟩ := inv_present w h g r A inv p hin
    exact get_presentPoints g p c hc
  · intro hp
    have hin : inR w h p := by
      rw [presentPoints_iff_get g inv.wf] at hp
      exact (inv_isSome w h g r A inv p).mp hp
    exact List.mem_cons.mpr (hall p hin)

theorem rbLoop_perfect (w h : Nat) (s : Nat → Nat) (r : Point) :
    ∀ (fuel : Nat) (g : Grid) (A : List (Point × Point)) (stack : List Point) (k : Nat)
      (g' : Grid),
    MazeInv w h g r A →
    (∀ p ∈ stack, p = r ∨ p ∈ A.map Prod.fst) →
    (∀ v, (v = r ∨ v ∈ A.map Prod.fst) → v ∉ stack → ∀ q, adjacentPt v q → inR w h q →
      (q = r ∨ q ∈ A.map Prod.fst)) →
    rbLoop g s fuel stack k = some g' →
    PerfectMaze g' ∧ g'.edgePairs.card + 1 = w * h := by
  intro fuel
  induction fuel with
  | zero =>
    intro g A stack k g' inv hstk hnb hrun
    cases stack with
    | nil =>
      rw [rbLoop_nil] at hrun
      simp only [Option.some_inj] at hrun
      subst hrun
      refine inv_cert w h g r A inv (inv_span_closed w h g r A inv ?_)
      intro v hv q hadj hq
      exact hnb v hv (List.not_mem_nil v) q hadj hq
    | cons cur rest => exact absurd hrun (by simp [rbLoop])
  | succ f ih =>
    intro g A stack k g' inv hstk hnb hrun
    cases stack with
    | nil =>
      rw [rbLoop_nil] at hrun
      simp only [Option.some_inj] at hrun
      subst hrun
      refine inv_cert w h g r A inv (inv_span_closed w h g r A inv ?_)
      intro v hv q hadj hq
      exact hnb v hv (List.not_mem_nil v) q hadj hq
    | cons cur rest =>
      rw [rbLoop_cons] at hrun
      cases hns : (rbPool g cur).isEmpty with
      | true =>
        rw [if_pos hns] at hrun
        refine ih g A rest k g' inv (fun p hp => hstk p (List.mem_cons.mpr (Or.inr hp)))
          ?_ hrun
        intro v hv hvn q hadj hq
        by_cases hvc : v ∈ cur :: rest
        · have hvcur : v = cur := by
            rcases List.mem_cons.mp hvc with he | hm
            · exact he
            · exact absurd hm hvn
          subst hvcur
          obtain ⟨cq, hcq⟩ := inv_present w h g r A inv q hq
          have hqnb : q ∈ g.neighbors v := grid_neighbors_mem_of g v q cq hcq hadj
          have hcqm : cq ∈ (g.neighbors v).filterMap (fun p => g.get p) :=
            List.mem_filterMap.mpr ⟨q, hqnb, hcq⟩
          have hlnk : cq.links ≠ [] := by
            intro he
            have hmem : cq ∈ rbPool g v := List.mem_filter.mpr ⟨hcqm,
              (isEmpty_true_iff _).mpr he⟩
            rw [(isEmpty_true_iff _).mp hns] at hmem
            exact absurd hmem (List.not_mem_nil cq)
          have hept : q ∈ epts A := by
            by_contra hc
            exact hlnk ((inv.linksIff q cq hcq).mpr hc)
          exact epts_sub r A inv.att q hept
        · exact hnb v hv hvc q hadj hq
      | false =>
        rw [if_neg (by rw [hns]; simp)] at hrun
        have hlen : 0 < (rbPool g cur).length := isEmpty_false_len _ hns
        have hnm : (rbPool g cur).getD (s k % (rbPool g cur).length) (Cell.new cur) ∈
            rbPool g cur := mem_getD _ _ _ (Nat.mod_lt _ hlen)
        obtain ⟨hncm, hfr⟩ := List.mem_filter.mp hnm
        obtain ⟨q, hqnb, hq⟩ := List.mem_filterMap.mp hncm
        have hqpt : ((rbPool g cur).getD (s k % (rbPool g cur).length)
            (Cell.new cur)).point = q := get_point g q _ hq
        have hgn : g.get ((rbPool g cur).getD (s k % (rbPool g cur).length)
            (Cell.new cur)).point = some ((rbPool g cur).getD (s k % (rbPool g cur).length)
            (Cell.new cur)) := by
          rw [hqpt]
          exact hq
        obtain ⟨hadj0, _⟩ := grid_neighbors_spec g cur q hqnb
        have hadj : adjacentPt cur ((rbPool g cur).getD (s k % (rbPool g cur).length)
            (Cell.new cur)).point := by
          rw [hqpt]
          exact hadj0
        have hcurV : cur = r ∨ cur ∈ A.map Prod.fst := hstk cur (List.mem_cons.mpr (Or.inl rfl))
        obtain ⟨ca, hca⟩ := inv_present w h g r A inv cur
          (inv_V_inR w h g r A inv cur hcurV)
        have hbF : ((rbPool g cur).getD (s k % (rbPool g cur).length)
            (Cell.new cur)).links = [] := (isEmpty_true_iff _).mp hfr
        obtain ⟨g2, hlink, inv2, hbr, hbnf⟩ := inv_step w h g r A inv cur _ ca _
          hca hgn hadj hcurV hbF
        rw [hlink, hgn] at hrun
        refine ih g2 _ _ (k + 1) g' inv2 ?_ ?_ hrun
        · intro p hp
          rcases List.mem_cons.mp hp with he | hp2
          · right
            rw [List.map_append, he]
            exact List.mem_append.mpr (Or.inr (List.mem_singleton.mpr rfl))
          · rcases hstk p hp2 with he | hm
            · exact Or.inl he
            · right
              rw [List.map_append]
              exact List.mem_append.mpr (Or.inl hm)
        · intro v hv hvn q2 hadj2 hq2
          have hvV : v = r ∨ v ∈ A.map Prod.fst := by
            rcases hv with he | hm
            · exact Or.inl he
            · rw [List.map_append] at hm
              rcases List.mem_append.mp hm with hm | hm
              · exact Or.inr hm
              · exact absurd (List.mem_cons.mpr (Or.inl (by simpa using hm))) hvn
          have hvn2 : v ∉ cur :: rest := by
            intro hc
            exact hvn (List.mem_cons.mpr (Or.inr hc))
          rcases hnb v hvV hvn2 q2 hadj2 hq2 with he | hm
          · exact Or.inl he
          · right
            rw [List.map_append]
            exact List.mem_append.mpr (Or.inl hm)

theorem rb_perfect (w h : Nat) (s : Nat → Nat) (fuel : Nat) (g' : Grid) (hw : 1 ≤ w)
    (hh : 1 ≤ h)
    (hrun : Algorithm.recursive_backtracker (RectangularGrid.new w h) s fuel = some g') :
    PerfectMaze g' ∧ g'.edgePairs.card + 1 = w * h := by
  rw [Algorithm.recursive_backtracker] at hrun
  cases hrc : (RectangularGrid.new w h).random_cell s 0 fuel with
  | none => rw [hrc] at hrun; exact absurd hrun (by simp)
  | some ck =>
    rw [hrc] at hrun
    rcases ck with ⟨c, k⟩
    have hmem : some c ∈ (RectangularGrid.new w h).cells := random_cell_mem _ s 0 fuel c k hrc
    have hin : inR w h c.point := (new_mem_cell w h c hmem).2
    refine rbLoop_perfect w h s c.point fuel (RectangularGrid.new w h) [] [c.point] k g'
      (inv_init w h c.point hin) ?_ ?_ hrun
    · intro p hp
      rw [List.mem_singleton] at hp
      exact Or.inl hp
    · intro v hv hvn q hadj hq
      rcases hv with he | hm
      · exact absurd (List.mem_singleton.mpr he) hvn
      · exact absurd hm (List.not_mem_nil v)

/-- The unlinked-neighbour pool of the hunt_and_kill walk phase. -/
def hkPool (g : Grid) (cur : Cell) : List Cell :=
  (cur.neighbors g).filter (fun n => n.links.isEmpty)

/-- The linked-neighbour pool of the hunt_and_kill hunt phase. -/
def hkVns (g : Grid) (c : Cell) : List Cell :=
  (c.neighbors g).filter (fun n => !n.links.isEmpty)

theorem hkLoop_none (g : Grid) (s : Nat → Nat) (fuel k : Nat) :
    hkLoop g s fuel none k = some g := by
  cases fuel <;> rfl

theorem hkLoop_some (g : Grid) (s : Nat → Nat) (f : Nat) (cur : Cell) (k : Nat) :
    hkLoop g s (f + 1) (some cur) k =
      if !(hkPool g cur).isEmpty then
        match g.link cur.point ((hkPool g cur).getD (s k % (hkPool g cur).length) cur).point
            true with
        | none => none
        | some g2 => hkLoop g2 s f
            (some ((hkPool g cur).getD (s k % (hkPool g cur).length) cur)) (k + 1)
      else
        match huntScan g s k (g.cells.filterMap id) with
        | none => hkLoop g s f none k
        | some (c, n, k2) =>
          match g.link c.point n.point true with
          | none => none
          | some g2 => hkLoop g2 s f (some c) k2 := rfl

theorem huntScan_none_spec (g : Grid) (s : Nat → Nat) (k : Nat) :
    ∀ L, huntScan g s k L = none →
      ∀ c ∈ L, c.links.isEmpty = true → (hkVns g c).isEmpty = true := by
  intro L
  induction L with
  | nil =>
    intro _ c hm
    exact absurd hm (List.not_mem_nil c)
  | cons c0 cs ih =>
    intro hsc c hm hf
    rw [huntScan] at hsc
    rw [show List.filter (fun n => !n.links.isEmpty) (c0.neighbors g) = hkVns g c0 from rfl]
      at hsc
    by_cases hcond : (c0.links.isEmpty && !(hkVns g c0).isEmpty) = true
    · rw [if_pos hcond] at hsc
      exact absurd hsc (by simp)
    · rw [if_neg hcond] at hsc
      rcases List.mem_cons.mp hm with he | hm2
      · subst he
        simp only [Bool.and_eq_true, Bool.not_eq_true', not_and] at hcond
        cases hvv : (hkVns g c).isEmpty with
        | true => rfl
        | false => exact absurd hvv (hcond hf)
      · exact ih hsc c hm2 hf

theorem huntScan_some_spec (g : Grid) (s : Nat → Nat) (k : Nat) :
    ∀ L c n k2, huntScan g s k L = some (c, n, k2) →
      c ∈ L ∧ c.links.isEmpty = true ∧ n ∈ hkVns g c := by
  intro L
  induction L with
  | nil =>
    intro c n k2 hsc
    exact absurd hsc (by simp [huntScan])
  | cons c0 cs ih =>
    intro c n k2 hsc
    rw [huntScan] at hsc
    rw [show List.filter (fun n => !n.links.isEmpty) (c0.neighbors g) = hkVns g c0 from rfl]
      at hsc
    by_cases hcond : (c0.links.isEmpty && !(hkVns g c0).isEmpty) = true
    · rw [if_pos hcond] at hsc
      simp only [Option.some_inj, Prod.mk.injEq] at hsc
      obtain ⟨he, hn, _⟩ := hsc
      subst he
      simp only [Bool.and_eq_true, Bool.not_eq_true'] at hcond
      obtain ⟨hf, hvne⟩ := hcond
      refine ⟨List.mem_cons.mpr (Or.inl rfl), hf, ?_⟩
      rw [← hn]
      exact mem_getD _ _ _ (Nat.mod_lt _ (isEmpty_false_len _ hvne))
    · rw [if_neg hcond] at hsc
      obtain ⟨h1, h2, h3⟩ := ih c n k2 hsc
      exact ⟨List.mem_cons.mpr (Or.inr h1), h2, h3⟩

theorem adj_inR_exists (w h : Nat) (r : Point) (hr : inR w h r) (hw : 1 ≤ w) (hh : 1 ≤ h)
    (hwh : 2 ≤ w * h) : ∃ q, adjacentPt r q ∧ inR w h q := by
  obtain ⟨h1, h2, h3, h4⟩ := hr
  by_cases hw2 : 2 ≤ w
  · by_cases hx : r.x + 1 < (w : Int)
    · refine ⟨r.east, Or.inr (Or.inr (Or.inl rfl)), ?_, ?_, ?_, ?_⟩
      · show (0 : Int) ≤ r.x + 1
        omega
      · show r.x + 1 < (w : Int)
        omega
      · show (0 : Int) ≤ r.y
        omega
      · show r.y < (h : Int)
        omega
    · refine ⟨r.west, Or.inr (Or.inr (Or.inr rfl)), ?_, ?_, ?_, ?_⟩
      · show (0 : Int) ≤ r.x - 1
        omega
      · show r.x - 1 < (w : Int)
        omega
      · show (0 : Int) ≤ r.y
        omega
      · show r.y < (h : Int)
        omega
  · have hw1 : w = 1 := by omega
    have hh2 : 2 ≤ h := by
      subst hw1
      omega
    by_cases hy : r.y + 1 < (h : Int)
    · refine ⟨r.south, Or.inr (Or.inl rfl), ?_, ?_, ?_, ?_⟩
      · show (0 : Int) ≤ r.x
        omega
      · show r.x < (w : Int)
        omega
      · show (0 : Int) ≤ r.y + 1
        omega
      · show r.y + 1 < (h : Int)
        omega
    · refine ⟨r.north, Or.inl rfl, ?_, ?_, ?_, ?_⟩
      · show (0 : Int) ≤ r.x
        omega
      · show r.x < (w : Int)
        omega
      · show (0 : Int) ≤ r.y - 1
        omega
      · show r.y - 1 < (h : Int)
        omega

theorem hkLoop_perfect (w h : Nat) (s : Nat → Nat) (r : Point) (hw : 1 ≤ w) (hh : 1 ≤ h) :
    ∀ (fuel : Nat) (g : Grid) (A : List (Point × Point)) (cur : Option Cell) (k : Nat)
      (g' : Grid),
    MazeInv w h g r A →
    (cur = none → ∀ p, p ∈ (r :: A.map Prod.fst) ↔ p ∈ g.presentPoints) →
    (∀ c, cur = some c → cellOK c ∧ (c.point = r ∨ c.point ∈ A.map Prod.fst)) →
    hkLoop g s fuel cur k = some g' →
    PerfectMaze g' ∧ g'.edgePairs.card + 1 = w * h := by
  intro fuel
  induction fuel with
  | zero =>
    intro g A cur k g' inv hnone hsome hrun
    cases cur with
    | none =>
      rw [hkLoop_none] at hrun
      simp only [Option.some_inj] at hrun
      subst hrun
      exact inv_cert w h g r A inv (hnone rfl)
    | some c => exact absurd hrun (by simp [hkLoop])
  | succ f ih =>
    intro g A cur k g' inv hnone hsome hrun
    cases cur with
    | none =>
      rw [hkLoop_none] at hrun
      simp only [Option.some_inj] at hrun
      subst hrun
      exact inv_cert w h g r A inv (hnone rfl)
    | some cur =>
      obtain ⟨hok, hV⟩ := hsome cur rfl
      rw [hkLoop_some] at hrun
      cases hns : (hkPool g cur).isEmpty with
      | false =>
        rw [if_pos (by rw [hns]; rfl)] at hrun
        have hnm : (hkPool g cur).getD (s k % (hkPool g cur).length) cur ∈ hkPool g cur :=
          mem_getD _ _ _ (Nat.mod_lt _ (isEmpty_false_len _ hns))
        obtain ⟨hnb, hfr⟩ := List.mem_filter.mp hnm
        obtain ⟨hgn, hadj⟩ := cell_neighbors_spec g cur hok _ hnb
        have hbF : ((hkPool g cur).getD (s k % (hkPool g cur).length) cur).links = [] :=
          (isEmpty_true_iff _).mp hfr
        obtain ⟨ca, hca⟩ := inv_present w h g r A inv cur.point
          (inv_V_inR w h g r A inv cur.point hV)
        obtain ⟨g2, hlink, inv2, _, _⟩ := inv_step w h g r A inv cur.point _ ca _
          hca hgn hadj hV hbF
        rw [hlink] at hrun
        refine ih g2 _ _ (k + 1) g' inv2 (by intro hc; exact absurd hc (by simp)) ?_ hrun
        intro c hc
        simp only [Option.some_inj] at hc
        subst hc
        refine ⟨get_cellOK g inv.wf _ _ hgn, Or.inr ?_⟩
        rw [List.map_append]
        exact List.mem_append.mpr (Or.inr (List.mem_singleton.mpr rfl))
      | true =>
        rw [if_neg (by rw [hns]; simp)] at hrun
        cases hsc : huntScan g s k (g.cells.filterMap id) with
        | some cnk =>
          rcases cnk with ⟨c, n, k2⟩
          rw [hsc] at hrun
          obtain ⟨hcm, hcf, hnm⟩ := huntScan_some_spec g s k _ c n k2 hsc
          have hcmem : some c ∈ g.cells := by
            rcases List.mem_filterMap.mp hcm with ⟨oc, hoc, hid⟩
            cases oc with
            | none => exact absurd hid (by simp)
            | some c3 =>
              simp only [id_eq, Option.some_inj] at hid
              rw [hid] at hoc
              exact hoc
          have hgc : g.get c.point = some c := WF_get_of_mem g c inv.wf hcmem
          have hcok : cellOK c := get_cellOK g inv.wf c.point c hgc
          obtain ⟨hnnb, hnl⟩ := List.mem_filter.mp hnm
          obtain ⟨hgn, hadjcn⟩ := cell_neighbors_spec g c hcok n hnnb
          have hnlnk : n.links ≠ [] := by
            intro he
            rw [(isEmpty_true_iff _).mpr he] at hnl
            exact absurd hnl (by simp)
          have hnV : n.point = r ∨ n.point ∈ A.map Prod.fst := by
            refine epts_sub r A inv.att n.point ?_
            by_contra hc2
            exact hnlnk ((inv.linksIff n.point n hgn).mpr hc2)
          have hcF : c.links = [] := (isEmpty_true_iff _).mp hcf
          obtain ⟨g2, hlink, inv2, _, _⟩ := inv_step_rev w h g r A inv n.point c.point n c
            hgn hgc (adjacentPt_symm c.point n.point hadjcn) hnV hcF
          have hrun2 : (match g.link c.point n.point true with
              | none => none
              | some g2 => hkLoop g2 s f (some c) k2) = some g' := hrun
          rw [hlink] at hrun2
          refine ih g2 _ _ k2 g' inv2 (by intro hc2; exact absurd hc2 (by simp)) ?_ hrun2
          intro c2 hc2
          simp only [Option.some_inj] at hc2
          subst hc2
          refine ⟨hcok, Or.inr ?_⟩
          rw [List.map_append]
          exact List.mem_append.mpr (Or.inr (List.mem_singleton.mpr rfl))
        | none =>
          rw [hsc] at hrun
          refine ih g A none k g' inv ?_ (by intro c hc; exact absurd hc (by simp)) hrun
          intro _
          by_cases hA : A = []
          · subst hA
            have hcr : cur.point = r := by
              rcases hV with he | he
              · exact he
              · exact absurd he (List.not_mem_nil _)
            have hnoadj : ∀ q, adjacentPt cur.point q → ¬ inR w h q := by
              intro q hadj hq
              obtain ⟨cq, hcq⟩ := inv_present w h g r [] inv q hq
              have hqf : cq.links = [] := by
                refine (inv.linksIff q cq hcq).mpr ?_
                intro hc2
                exact absurd hc2 (List.not_mem_nil q)
              have hmem2 : cq ∈ hkPool g cur := List.mem_filter.mpr
                ⟨cell_neighbors_mem_of g cur hok q cq hcq hadj,
                 (isEmpty_true_iff _).mpr hqf⟩
              rw [(isEmpty_true_iff _).mp hns] at hmem2
              exact absurd hmem2 (List.not_mem_nil cq)
            have hwh1 : w * h < 2 := by
              by_contra hwh
              obtain ⟨q, hadj, hq⟩ := adj_inR_exists w h r inv.rootIn hw hh (by omega)
              exact hnoadj q (hcr ▸ hadj) hq
            have hw1 : w = 1 := by
              have := Nat.le_mul_of_pos_right w (show 0 < h from hh)
              omega
            have hh1 : h = 1 := by
              have := Nat.le_mul_of_pos_left h (show 0 < w from hw)
              omega
            intro p
            simp only [List.map_nil, List.mem_singleton]
            constructor
            · intro he
              obtain ⟨c0, hc0⟩ := inv_present w h g r [] inv p (he ▸ inv.rootIn)
              exact get_presentPoints g p c0 hc0
            · intro hp
              have hin : inR w h p := by
                rw [presentPoints_iff_get g inv.wf] at hp
                exact (inv_isSome w h g r [] inv p).mp hp
              obtain ⟨k1, k2, k3, k4⟩ := hin
              obtain ⟨m1, m2, m3, m4⟩ := inv.rootIn
              have hpx : p.x = r.x := by
                subst hw1
                omega
              have hpy : p.y = r.y := by
                subst hh1
                omega
              have hpe : p = ⟨p.x, p.y⟩ := rfl
              have hre : r = ⟨r.x, r.y⟩ := rfl
              rw [hpe, hre, hpx, hpy]
          · refine inv_span_closed w h g r A inv ?_
            intro v hv q hadj hq
            obtain ⟨cq, hcq⟩ := inv_present w h g r A inv q hq
            by_cases hqf : cq.links = []
            · exfalso
              have hvE : v ∈ epts A := by
                rcases hv with he | hm
                · exact he ▸ List.mem_append.mpr (Or.inr (root_ept r A hA inv.att))
                · exact List.mem_append.mpr (Or.inl hm)
              obtain ⟨cv, hcv⟩ := inv_present w h g r A inv v
                (inv_V_inR w h g r A inv v hv)
              have hvl : cv.links ≠ [] := by
                intro he
                exact ((inv.linksIff v cv hcv).mp he) hvE
              have hqok : cellOK cq := get_cellOK g inv.wf q cq hcq
              have hqpt : cq.point = q := get_point g q cq hcq
              have hcvm : cv ∈ cq.neighbors g := by
                refine cell_neighbors_mem_of g cq hqok v cv hcv ?_
                rw [hqpt]
                exact adjacentPt_symm v q hadj
              have hcvvns : cv ∈ hkVns g cq := List.mem_filter.mpr ⟨hcvm, by
                cases hcvl : cv.links.isEmpty with
                | true => exact absurd ((isEmpty_true_iff _).mp hcvl) hvl
                | false => rfl⟩
              have hq2 : cq ∈ g.cells.filterMap id := get_mem_filterMap g q cq hcq
              have hvns := huntScan_none_spec g s k _ hsc cq hq2
                ((isEmpty_true_iff _).mpr hqf)
              rw [(isEmpty_true_iff _).mp hvns] at hcvvns
              exact absurd hcvvns (List.not_mem_nil cv)
            · refine epts_sub r A inv.att q ?_
              by_contra hc2
              exact hqf ((inv.linksIff q cq hcq).mpr hc2)

theorem hk_perfect (w h : Nat) (s : Nat → Nat) (fuel : Nat) (g' : Grid) (hw : 1 ≤ w)
    (hh : 1 ≤ h)
    (hrun : Algorithm.hunt_and_kill (RectangularGrid.new w h) s fuel = some g') :
    PerfectMaze g' ∧ g'.edgePairs.card + 1 = w * h := by
  rw [Algorithm.hunt_and_kill] at hrun
  cases hrc : (RectangularGrid.new w h).random_cell s 0 fuel with
  | none => rw [hrc] at hrun; exact absurd hrun (by simp)
  | some ck =>
    rw [hrc] at hrun
    rcases ck with ⟨c, k⟩
    have hmem : some c ∈ (RectangularGrid.new w h).cells := random_cell_mem _ s 0 fuel c k hrc
    have hget : (RectangularGrid.new w h).get c.point = some c :=
      WF_get_of_mem _ c (WF_new w h) hmem
    have hin : inR w h c.point := (new_mem_cell w h c hmem).2
    refine hkLoop_perfect w h s c.point hw hh fuel (RectangularGrid.new w h) [] (some c) k g'
      (inv_init w h c.point hin) (by intro hc; exact absurd hc (by simp)) ?_ hrun
    intro c2 hc2
    simp only [Option.some_inj] at hc2
    subst hc2
    exact ⟨get_cellOK _ (WF_new w h) c.point c hget, Or.inl rfl⟩

/-- The consecutive point pairs linked along a Wilson walk path. -/
def consecPairs : List Cell → List (Point × Point)
  | a :: b :: rest => (a.point, b.point) :: consecPairs (b :: rest)
  | _ => []

theorem consecPairs_nil : consecPairs [] = [] := rfl

theorem consecPairs_one (a : Cell) : consecPairs [a] = [] := rfl

theorem consecPairs_cons2 (a b : Cell) (rest : List Cell) :
    consecPairs (a :: b :: rest) = (a.point, b.point) :: consecPairs (b :: rest) := rfl

theorem consecPairs_fst : ∀ path : List Cell,
    (consecPairs path).map Prod.fst = (path.map Cell.point).dropLast := by
  intro path
  induction path with
  | nil => rfl
  | cons a t ih =>
    cases t with
    | nil => rfl
    | cons b t2 =>
      rw [consecPairs_cons2, List.map_cons, ih]
      rfl

theorem consec_mem_points : ∀ (path : List Cell) (pr : Point × Point), pr ∈ consecPairs path →
    pr.1 ∈ path.map Cell.point ∧ pr.2 ∈ path.map Cell.point := by
  intro path
  induction path with
  | nil => intro pr hm; exact absurd hm (List.not_mem_nil pr)
  | cons a t ih =>
    cases t with
    | nil => intro pr hm; exact absurd hm (List.not_mem_nil pr)
    | cons b t2 =>
      intro pr hm
      rw [consecPairs_cons2] at hm
      rcases List.mem_cons.mp hm with he | hm2
      · subst he
        exact ⟨List.mem_cons.mpr (Or.inl rfl),
          List.mem_cons.mpr (Or.inr (List.mem_cons.mpr (Or.inl rfl)))⟩
      · obtain ⟨h1, h2⟩ := ih pr hm2
        exact ⟨List.mem_cons.mpr (Or.inr h1), List.mem_cons.mpr (Or.inr h2)⟩

theorem ept_cons (pr0 : Point × Point) (L : List (Point × Point)) (p : Point) :
    p ∈ epts (pr0 :: L) ↔ (p = pr0.1 ∨ p = pr0.2 ∨ p ∈ epts L) := by
  rw [mem_epts, mem_epts]
  constructor
  · rintro (⟨pr, hm, he⟩ | ⟨pr, hm, he⟩)
    · rcases List.mem_cons.mp hm with h2 | h2
      · exact Or.inl (by rw [← he, h2])
      · exact Or.inr (Or.inr (Or.inl ⟨pr, h2, he⟩))
    · rcases List.mem_cons.mp hm with h2 | h2
      · exact Or.inr (Or.inl (by rw [← he, h2]))
      · exact Or.inr (Or.inr (Or.inr ⟨pr, h2, he⟩))
  · rintro (he | he | (⟨pr, hm, hee⟩ | ⟨pr, hm, hee⟩))
    · exact Or.inl ⟨pr0, List.mem_cons.mpr (Or.inl rfl), he.symm⟩
    · exact Or.inr ⟨pr0, List.mem_cons.mpr (Or.inl rfl), he.symm⟩
    · exact Or.inl ⟨pr, List.mem_cons.mpr (Or.inr hm), hee⟩
    · exact Or.inr ⟨pr, List.mem_cons.mpr (Or.inr hm), hee⟩

theorem epts_reverse (L : List (Point × Point)) (p : Point) :
    p ∈ epts L.reverse ↔ p ∈ epts L := by
  rw [mem_epts, mem_epts]
  constructor
  · rintro (⟨pr, hm, he⟩ | ⟨pr, hm, he⟩)
    · exact Or.inl ⟨pr, List.mem_reverse.mp hm, he⟩
    · exact Or.inr ⟨pr, List.mem_reverse.mp hm, he⟩
  · rintro (⟨pr, hm, he⟩ | ⟨pr, hm, he⟩)
    · exact Or.inl ⟨pr, List.mem_reverse.mpr hm, he⟩
    · exact Or.inr ⟨pr, List.mem_reverse.mpr hm, he⟩

theorem unordMem_reverse (L : List (Point × Point)) (p q : Point) :
    unordMem L.reverse p q ↔ unordMem L p q := by
  unfold unordMem
  constructor
  · rintro ⟨pr, hm, hc⟩
    exact ⟨pr, List.mem_reverse.mp hm, hc⟩
  · rintro ⟨pr, hm, hc⟩
    exact ⟨pr, List.mem_reverse.mpr hm, hc⟩

theorem consec_epts_points : ∀ (path : List Cell) (p : Point), 2 ≤ path.length →
    (p ∈ epts (consecPairs path) ↔ p ∈ path.map Cell.point) := by
  intro path
  induction path with
  | nil => intro p hlen; simp at hlen
  | cons a t ih =>
    cases t with
    | nil => intro p hlen; simp at hlen
    | cons b t2 =>
      intro p _
      rw [consecPairs_cons2, ept_cons]
      cases t2 with
      | nil =>
        rw [consecPairs_one]
        constructor
        · rintro (he | he | he)
          · exact List.mem_cons.mpr (Or.inl he)
          · exact List.mem_cons.mpr (Or.inr (List.mem_cons.mpr (Or.inl he)))
          · exact absurd he (List.not_mem_nil p)
        · intro hm
          rcases List.mem_cons.mp hm with he | hm2
          · exact Or.inl he
          · rcases List.mem_cons.mp hm2 with he | hm3
            · exact Or.inr (Or.inl he)
            · exact absurd hm3 (List.not_mem_nil p)
      | cons cc t3 =>
        rw [ih p (by simp only [List.length_cons]; omega)]
        constructor
        · rintro (he | he | hm)
          · exact List.mem_cons.mpr (Or.inl he)
          · exact List.mem_cons.mpr (Or.inr (by rw [he]; exact List.mem_cons.mpr (Or.inl rfl)))
          · exact List.mem_cons.mpr (Or.inr hm)
        · intro hm
          rcases List.mem_cons.mp hm with he | hm2
          · exact Or.inl he
          · exact Or.inr (Or.inr hm2)

theorem consec_snoc : ∀ (l : List Cell) (y z : Cell), l.getLast? = some y →
    consecPairs (l ++ [z]) = consecPairs l ++ [(y.point, z.point)] := by
  intro l
  induction l with
  | nil => intro y z hy; exact absurd hy (by simp)
  | cons a t ih =>
    intro y z hy
    cases t with
    | nil =>
      simp only [List.getLast?_singleton, Option.some_inj] at hy
      subst hy
      rfl
    | cons b t2 =>
      have hy2 : (b :: t2).getLast? = some y := by
        rw [← hy, List.getLast?_cons_cons]
      have hstep : consecPairs ((a :: b :: t2) ++ [z]) =
          (a.point, b.point) :: consecPairs ((b :: t2) ++ [z]) := rfl
      rw [hstep, ih y z hy2, consecPairs_cons2]
      rfl

theorem consec_take_mem : ∀ (l : List Cell) (n : Nat) (pr : Point × Point),
    pr ∈ consecPairs (l.take n) → pr ∈ consecPairs l := by
  intro l
  induction l with
  | nil => intro n pr hm; rw [List.take_nil] at hm; exact absurd hm (List.not_mem_nil pr)
  | cons a t ih =>
    intro n pr hm
    cases n with
    | zero => exact absurd hm (List.not_mem_nil pr)
    | succ m =>
      have hm2 : pr ∈ consecPairs (a :: t.take m) := by
        rw [show (a :: t).take (m + 1) = a :: t.take m from rfl] at hm
        exact hm
      cases t with
      | nil =>
        rw [List.take_nil] at hm2
        exact absurd hm2 (List.not_mem_nil pr)
      | cons b t2 =>
        cases m with
        | zero =>
          rw [List.take_zero] at hm2
          exact absurd hm2 (List.not_mem_nil pr)
        | succ m2 =>
          have hm3 : pr ∈ (a.point, b.point) :: consecPairs (b :: t2.take m2) := by
            rw [show (b :: t2).take (m2 + 1) = b :: t2.take m2 from rfl] at hm2
            rw [← consecPairs_cons2]
            exact hm2
          rw [consecPairs_cons2]
          rcases List.mem_cons.mp hm3 with he | hm4
          · exact List.mem_cons.mpr (Or.inl he)
          · refine List.mem_cons.mpr (Or.inr (ih (m2 + 1) pr ?_))
            rw [show (b :: t2).take (m2 + 1) = b :: t2.take m2 from rfl]
            exact hm4

theorem mem_take_mono {α : Type} : ∀ (l : List α) (m n : Nat) (x : α), m ≤ n →
    x ∈ l.take m → x ∈ l.take n := by
  intro l
  induction l with
  | nil => intro m n x _ hm; rw [List.take_nil] at hm; exact absurd hm (List.not_mem_nil x)
  | cons a t ih =>
    intro m n x hmn hm
    cases m with
    | zero => exact absurd hm (List.not_mem_nil x)
    | succ m2 =>
      cases n with
      | zero => omega
      | succ n2 =>
        have hm2 : x ∈ a :: t.take m2 := by
          rw [show (a :: t).take (m2 + 1) = a :: t.take m2 from rfl] at hm
          exact hm
        rw [show (a :: t).take (n2 + 1) = a :: t.take n2 from rfl]
        rcases List.mem_cons.mp hm2 with he | hm3
        · exact List.mem_cons.mpr (Or.inl he)
        · exact List.mem_cons.mpr (Or.inr (ih m2 n2 x (by omega) hm3))

theorem head?_take {α : Type} (l : List α) (n : Nat) (hn : 0 < n) :
    (l.take n).head? = l.head? := by
  cases l with
  | nil => rw [List.take_nil]
  | cons a t =>
    cases n with
    | zero => omega
    | succ m => rfl

theorem head?_append_left {α : Type} (l l2 : List α) (hl : l ≠ []) :
    (l ++ l2).head? = l.head? := by
  cases l with
  | nil => exact absurd rfl hl
  | cons a t => rfl

theorem getLast?_take_getElem {α : Type} (l : List α) (i : Nat) (hi : i < l.length) :
    (l.take (i + 1)).getLast? = some (l.get ⟨i, hi⟩) := by
  rw [List.take_succ, List.getElem?_eq_getElem hi]
  rw [show Option.toList (some l[i]) = [l.get ⟨i, hi⟩] from rfl]
  rw [List.getLast?_concat]

theorem findIdx?_some_spec {α : Type} (p : α → Bool) : ∀ (l : List α) (i j : Nat),
    List.findIdx? p l i = some j →
      ∃ m, ∃ hm : m < l.length, j = i + m ∧ p (l.get ⟨m, hm⟩) = true := by
  intro l
  induction l with
  | nil => intro i j hf; exact absurd hf (by simp)
  | cons a t ih =>
    intro i j hf
    rw [List.findIdx?_cons] at hf
    by_cases hpa : p a = true
    · rw [if_pos hpa] at hf
      simp only [Option.some_inj] at hf
      subst hf
      exact ⟨0, by simp only [List.length_cons]; omega, by omega, hpa⟩
    · rw [if_neg hpa] at hf
      obtain ⟨m, hm, hji, hp⟩ := ih (i + 1) j hf
      refine ⟨m + 1, by simp only [List.length_cons]; omega, by omega, ?_⟩
      exact hp

theorem findIdx?_none_spec {α : Type} (p : α → Bool) : ∀ (l : List α) (i : Nat),
    List.findIdx? p l i = none → ∀ x ∈ l, p x = false := by
  intro l
  induction l with
  | nil => intro _ _ x hm; exact absurd hm (List.not_mem_nil x)
  | cons a t ih =>
    intro i hf x hm
    rw [List.findIdx?_cons] at hf
    by_cases hpa : p a = true
    · rw [if_pos hpa] at hf
      exact absurd hf (by simp)
    · rw [if_neg hpa] at hf
      rcases List.mem_cons.mp hm with he | hm2
      · subst he
        cases hpx : p x with
        | true => exact absurd hpx hpa
        | false => rfl
      · exact ih (i + 1) hf x hm2

theorem dropLast_map_point : ∀ l : List Cell,
    (l.map Cell.point).dropLast = l.dropLast.map Cell.point := by
  intro l
  induction l with
  | nil => rfl
  | cons a t ih =>
    cases t with
    | nil => rfl
    | cons b t2 =>
      show a.point :: (List.map Cell.point (b :: t2)).dropLast =
        a.point :: List.map Cell.point ((b :: t2).dropLast)
      rw [ih]

theorem eraseIdx_mem_iff {α : Type} [DecidableEq α] : ∀ (l : List α) (i : Nat)
    (hi : i < l.length), l.Nodup → ∀ x, (x ∈ l.eraseIdx i ↔ x ∈ l ∧ x ≠ l.get ⟨i, hi⟩) := by
  intro l
  induction l with
  | nil => intro i hi; simp at hi
  | cons a t ih =>
    intro i hi hnd x
    rcases List.nodup_cons.mp hnd with ⟨hna, hndt⟩
    cases i with
    | zero =>
      rw [show (a :: t).eraseIdx 0 = t from rfl]
      rw [show (a :: t).get ⟨0, hi⟩ = a from rfl]
      constructor
      · intro hm
        refine ⟨List.mem_cons.mpr (Or.inr hm), ?_⟩
        intro he
        exact hna (he ▸ hm)
      · rintro ⟨hm, hne⟩
        rcases List.mem_cons.mp hm with he | hm2
        · exact absurd he hne
        · exact hm2
    | succ j =>
      have hj : j < t.length := by
        simp only [List.length_cons] at hi
        omega
      rw [show (a :: t).eraseIdx (j + 1) = a :: t.eraseIdx j from rfl]
      rw [show (a :: t).get ⟨j + 1, hi⟩ = t.get ⟨j, hj⟩ from rfl]
      rw [List.mem_cons, ih j hj hndt x, List.mem_cons]
      constructor
      · rintro (he | ⟨hm, hne⟩)
        · refine ⟨Or.inl he, ?_⟩
          intro he2
          apply hna
          rw [← he, he2]
          exact List.get_mem t j hj
        · exact ⟨Or.inr hm, hne⟩
      · rintro ⟨he | hm, hne⟩
        · exact Or.inl he
        · exact Or.inr ⟨hm, hne⟩

theorem retain_mem : ∀ (ps uv : List Cell) (c : Cell),
    c ∈ ps.foldl (fun uv2 p => uv2.filter (fun c2 => !decide (c2 = p))) uv ↔
      (c ∈ uv ∧ ∀ p ∈ ps, c ≠ p) := by
  intro ps
  induction ps with
  | nil =>
    intro uv c
    simp only [List.foldl_nil]
    constructor
    · intro hm
      exact ⟨hm, fun p hp => absurd hp (List.not_mem_nil p)⟩
    · exact fun hh2 => hh2.1
  | cons p0 ps2 ih =>
    intro uv c
    rw [List.foldl_cons, ih]
    rw [List.mem_filter]
    constructor
    · rintro ⟨⟨hm, hne⟩, hall⟩
      refine ⟨hm, ?_⟩
      intro p hp
      rcases List.mem_cons.mp hp with he | hp2
      · subst he
        simp only [Bool.not_eq_true', decide_eq_false_iff_not] at hne
        exact hne
      · exact hall p hp2
    · rintro ⟨hm, hall⟩
      refine ⟨⟨hm, ?_⟩, fun p hp => hall p (List.mem_cons.mpr (Or.inr hp))⟩
      simp only [Bool.not_eq_true', decide_eq_false_iff_not]
      exact hall p0 (List.mem_cons.mpr (Or.inl rfl))

theorem wilsonRetain_mem (uv path : List Cell) (c : Cell) :
    c ∈ wilsonRetain uv path ↔ (c ∈ uv ∧ ∀ p ∈ path.dropLast, c ≠ p) := by
  rw [wilsonRetain]
  exact retain_mem path.dropLast uv c

theorem consec_attach (r : Point) : ∀ (cs : List Cell) (z : Cell) (seen : List Point),
    (z.point = r ∨ z.point ∈ seen) →
    Attach r (consecPairs (cs ++ [z])).reverse seen := by
  intro cs
  induction cs with
  | nil =>
    intro z seen _
    rw [List.nil_append, consecPairs_one]
    trivial
  | cons a cs2 ih =>
    intro z seen hz
    cases cs2 with
    | nil =>
      refine ⟨?_, trivial⟩
      exact hz
    | cons b cs3 =>
      have hstep : consecPairs ((a :: b :: cs3) ++ [z]) =
          (a.point, b.point) :: consecPairs ((b :: cs3) ++ [z]) := rfl
      rw [hstep, List.reverse_cons]
      refine attach_append r _ _ seen (ih z seen hz) ⟨?_, trivial⟩
      right
      refine List.mem_append.mpr (Or.inl ?_)
      rw [List.map_reverse, List.mem_reverse, consecPairs_fst]
      rw [show (b :: cs3) ++ [z] = b :: (cs3 ++ [z]) from rfl]
      rw [List.map_cons]
      rw [show ((b.point :: List.map Cell.point (cs3 ++ [z])).dropLast) =
        b.point :: (List.map Cell.point (cs3 ++ [z])).dropLast from by
          cases hc : List.map Cell.point (cs3 ++ [z]) with
          | nil => exact absurd hc (by simp)
          | cons u t => rfl]
      exact List.mem_cons.mpr (Or.inl rfl)

theorem wilsonLink_spec (w h : Nat) : ∀ (path : List Cell) (g : Grid),
    g.WF →
    (∀ c ∈ path, (g.get c.point).isSome = true) →
    (∀ pr ∈ consecPairs path, adjacentPt pr.1 pr.2) →
    ∃ g2, wilsonLink g path = some g2 ∧ g2.WF ∧
      (∀ p, (g2.get p).isSome = (g.get p).isSome) ∧
      (∀ p, p ∉ path.map Cell.point → g2.get p = g.get p) ∧
      (∀ p q, g2.biLinked p q = true ↔
        (g.biLinked p q = true ∨ unordMem (consecPairs path) p q)) ∧
      (∀ p c2, g2.get p = some c2 → (c2.links = [] ↔
        ((∃ c1, g.get p = some c1 ∧ c1.links = []) ∧ p ∉ epts (consecPairs path)))) := by
  intro path
  induction path with
  | nil =>
    intro g hwf _ _
    refine ⟨g, rfl, hwf, fun p => rfl, fun p _ => rfl, ?_, ?_⟩
    · intro p q
      rw [consecPairs_nil]
      constructor
      · exact fun hb => Or.inl hb
      · rintro (hb | hb)
        · exact hb
        · exact absurd hb (unordMem_nil p q)
    · intro p c2 hc2
      rw [consecPairs_nil]
      constructor
      · intro he
        exact ⟨⟨c2, hc2, he⟩, List.not_mem_nil p⟩
      · rintro ⟨⟨c1, hc1, he⟩, _⟩
        rw [hc2] at hc1
        simp only [Option.some_inj] at hc1
        rw [← hc1] at he
        exact he
  | cons a t ih =>
    cases t with
    | nil =>
      intro g hwf _ _
      refine ⟨g, rfl, hwf, fun p => rfl, fun p _ => rfl, ?_, ?_⟩
      · intro p q
        rw [consecPairs_one]
        constructor
        · exact fun hb => Or.inl hb
        · rintro (hb | hb)
          · exact hb
          · exact absurd hb (unordMem_nil p q)
      · intro p c2 hc2
        rw [consecPairs_one]
        constructor
        · intro he
          exact ⟨⟨c2, hc2, he⟩, List.not_mem_nil p⟩
        · rintro ⟨⟨c1, hc1, he⟩, _⟩
          rw [hc2] at hc1
          simp only [Option.some_inj] at hc1
          rw [← hc1] at he
          exact he
    | cons b t2 =>
      intro g hwf hpres hadj
      obtain ⟨ca, hca⟩ := Option.isSome_iff_exists.mp
        (hpres a (List.mem_cons.mpr (Or.inl rfl)))
      obtain ⟨cb, hcb⟩ := Option.isSome_iff_exists.mp
        (hpres b (List.mem_cons.mpr (Or.inr (List.mem_cons.mpr (Or.inl rfl)))))
      have hadj0 : adjacentPt a.point b.point :=
        hadj (a.point, b.point) (by rw [consecPairs_cons2]; exact List.mem_cons.mpr (Or.inl rfl))
      obtain ⟨g1, ca2, cb2, hlink, hwf1, _, _, _, hother, hgeta, hlinksa, hgetb, hlinksb⟩ :=
        link_adj_some g a.point b.point ca cb hwf hca hcb hadj0
      have hpres1 : ∀ p, (g1.get p).isSome = (g.get p).isSome :=
        isSome_update g g1 a.point b.point ca cb ca2 cb2 hca hcb hother hgeta hgetb
      obtain ⟨g2, hlink2, hwf2, hpres2, hframe2, hbi2, hlinks2⟩ := ih g1 hwf1
        (by
          intro c hm
          rw [hpres1 c.point]
          exact hpres c (List.mem_cons.mpr (Or.inr hm)))
        (by
          intro pr hm
          refine hadj pr ?_
          rw [consecPairs_cons2]
          exact List.mem_cons.mpr (Or.inr hm))
      refine ⟨g2, ?_, hwf2, ?_, ?_, ?_, ?_⟩
      · rw [wilsonLink, hlink]
        exact hlink2
      · intro p
        rw [hpres2 p, hpres1 p]
      · intro p hp
        have hpa : p ≠ a.point := by
          intro he
          exact hp (he ▸ List.mem_cons.mpr (Or.inl rfl))
        have hpb : p ≠ b.point := by
          intro he
          exact hp (he ▸ List.mem_cons.mpr (Or.inr (List.mem_cons.mpr (Or.inl rfl))))
        rw [hframe2 p (by
          intro hm
          rcases List.mem_cons.mp hm with he | hm2
          · exact hp (List.mem_cons.mpr (Or.inr (List.mem_cons.mpr (Or.inl he))))
          · exact hp (List.mem_cons.mpr (Or.inr (List.mem_cons.mpr (Or.inr hm2))))),
          hother p hpa hpb]
      · intro p q
        rw [hbi2 p q, biLinked_update g g1 a.point b.point ca cb ca2 cb2 hca hcb
          (adjacentPt_ne a.point b.point hadj0) hother hgeta hlinksa hgetb hlinksb p q,
          consecPairs_cons2, unordMem_cons]
        constructor
        · rintro ((hb2 | hb2 | hb2) | hb2)
          · exact Or.inl hb2
          · exact Or.inr (Or.inl (Or.inl hb2))
          · exact Or.inr (Or.inl (Or.inr hb2))
          · exact Or.inr (Or.inr hb2)
        · rintro (hb2 | (hb2 | hb2) | hb2)
          · exact Or.inl (Or.inl hb2)
          · exact Or.inl (Or.inr (Or.inl hb2))
          · exact Or.inl (Or.inr (Or.inr hb2))
          · exact Or.inr hb2
      · intro p c2 hc2
        rw [hlinks2 p c2 hc2, consecPairs_cons2, ept_cons]
        by_cases hpa : p = a.point
        · subst hpa
          have hbmem : b.point ∈ ca2.links := (hlinksa b.point).mpr (Or.inr rfl)
          constructor
          · rintro ⟨⟨c1, hc1, he⟩, _⟩
            rw [hgeta] at hc1
            simp only [Option.some_inj] at hc1
            rw [← hc1] at he
            rw [he] at hbmem
            exact absurd hbmem (List.not_mem_nil b.point)
          · rintro ⟨_, hnm⟩
            exact absurd (Or.inl rfl) hnm
        · by_cases hpb : p = b.point
          · subst hpb
            have hamem : a.point ∈ cb2.links := (hlinksb a.point).mpr (Or.inr rfl)
            constructor
            · rintro ⟨⟨c1, hc1, he⟩, _⟩
              rw [hgetb] at hc1
              simp only [Option.some_inj] at hc1
              rw [← hc1] at he
              rw [he] at hamem
              exact absurd hamem (List.not_mem_nil a.point)
            · rintro ⟨_, hnm⟩
              exact absurd (Or.inr (Or.inl rfl)) hnm
          · rw [hother p hpa hpb]
            constructor
            · rintro ⟨hg, hnm⟩
              refine ⟨hg, ?_⟩
              rintro (he | he | hm)
              · exact hpa he
              · exact hpb he
              · exact hnm hm
            · rintro ⟨hg, hnm⟩
              exact ⟨hg, fun hm => hnm (Or.inr (Or.inr hm))⟩

theorem getLast?_mem {α : Type} (l : List α) (z : α) (hz : l.getLast? = some z) : z ∈ l := by
  rcases List.eq_nil_or_concat l with he | ⟨cs, y, he⟩
  · subst he
    simp at hz
  · subst he
    rw [List.concat_eq_append, List.getLast?_concat] at hz
    simp only [Option.some_inj] at hz
    subst hz
    rw [List.concat_eq_append]
    exact List.mem_append.mpr (Or.inr (List.mem_singleton.mpr rfl))

theorem wilsonWalk_step2 (g : Grid) (s : Nat → Nat) (uv : List Cell) (f : Nat) (cell : Cell)
    (path : List Cell) (k : Nat) :
    wilsonWalk g s uv (f + 1) cell path k =
      if decide (cell ∈ uv) = true then
        (if (cell.neighbors g).isEmpty then none
         else
          match path.findIdx? (fun c => decide (c = (cell.neighbors g).getD
              (s k % (cell.neighbors g).length) cell)) with
          | some pos => wilsonWalk g s uv f ((cell.neighbors g).getD
              (s k % (cell.neighbors g).length) cell) (path.take (pos + 1)) (k + 1)
          | none => wilsonWalk g s uv f ((cell.neighbors g).getD
              (s k % (cell.neighbors g).length) cell)
              (path ++ [(cell.neighbors g).getD (s k % (cell.neighbors g).length) cell])
              (k + 1))
      else some (path, k) := rfl

theorem wilsonWalk_step (g : Grid) (s : Nat → Nat) (uv : List Cell) (f : Nat) (cell : Cell)
    (path : List Cell) (k : Nat) (hcm : cell ∈ uv) :
    wilsonWalk g s uv (f + 1) cell path k =
      if (cell.neighbors g).isEmpty then none
      else
        match path.findIdx? (fun c => decide (c = (cell.neighbors g).getD
            (s k % (cell.neighbors g).length) cell)) with
        | some pos => wilsonWalk g s uv f ((cell.neighbors g).getD
            (s k % (cell.neighbors g).length) cell) (path.take (pos + 1)) (k + 1)
        | none => wilsonWalk g s uv f ((cell.neighbors g).getD
            (s k % (cell.neighbors g).length) cell)
            (path ++ [(cell.neighbors g).getD (s k % (cell.neighbors g).length) cell])
            (k + 1) := by
  rw [wilsonWalk_step2 g s uv f cell path k, if_pos (decide_eq_true hcm)]

theorem wilsonWalk_exit (g : Grid) (s : Nat → Nat) (uv : List Cell) (fuel : Nat) (cell : Cell)
    (path : List Cell) (k : Nat) (hcm : cell ∉ uv) :
    wilsonWalk g s uv fuel cell path k = some (path, k) := by
  cases fuel with
  | zero =>
    rw [show wilsonWalk g s uv 0 cell path k =
        if decide (cell ∈ uv) = true then none else some (path, k) from rfl]
    rw [if_neg (by simp only [decide_eq_true_eq]; exact hcm)]
  | succ f =>
    rw [wilsonWalk_step2 g s uv f cell path k]
    rw [if_neg (by simp only [decide_eq_true_eq]; exact hcm)]

theorem wilsonWalk_spec (g : Grid) (s : Nat → Nat) (uv : List Cell) (hwf : g.WF) :
    ∀ (fuel : Nat) (cell : Cell) (path : List Cell) (k : Nat) (path2 : List Cell) (k2 : Nat),
    wilsonWalk g s uv fuel cell path k = some (path2, k2) →
    path.getLast? = some cell →
    (∀ c ∈ path, g.get c.point = some c) →
    (∀ c ∈ path.dropLast, c ∈ uv) →
    (path.map Cell.point).Nodup →
    (∀ pr ∈ consecPairs path, adjacentPt pr.1 pr.2) →
    (path2.head? = path.head? ∧
      (∀ c ∈ path2, g.get c.point = some c) ∧
      (∀ c ∈ path2.dropLast, c ∈ uv) ∧
      (path2.map Cell.point).Nodup ∧
      (∀ pr ∈ consecPairs path2, adjacentPt pr.1 pr.2) ∧
      (∀ z, path2.getLast? = some z → z ∉ uv)) := by
  intro fuel
  induction fuel with
  | zero =>
    intro cell path k path2 k2 hrun hlast hpres hdrop hnd hadj
    by_cases hcm : cell ∈ uv
    · rw [show wilsonWalk g s uv 0 cell path k =
          if decide (cell ∈ uv) = true then none else some (path, k) from rfl,
        if_pos (decide_eq_true hcm)] at hrun
      exact Option.noConfusion hrun
    · rw [wilsonWalk_exit g s uv 0 cell path k hcm] at hrun
      simp only [Option.some_inj, Prod.mk.injEq] at hrun
      obtain ⟨he1, _⟩ := hrun
      subst he1
      refine ⟨rfl, hpres, hdrop, hnd, hadj, ?_⟩
      intro z hz
      rw [hlast] at hz
      simp only [Option.some_inj] at hz
      subst hz
      exact hcm
  | succ f ih =>
    intro cell path k path2 k2 hrun hlast hpres hdrop hnd hadj
    by_cases hcm : cell ∈ uv
    · rw [wilsonWalk_step g s uv f cell path k hcm] at hrun
      cases hns : (cell.neighbors g).isEmpty with
      | true =>
        rw [if_pos hns] at hrun
        exact Option.noConfusion hrun
      | false =>
        rw [if_neg (by rw [hns]; simp)] at hrun
        have hallin : ∀ c ∈ path, c ∈ uv := by
          intro c hc
          rcases List.eq_nil_or_concat path with he | ⟨cs, y, he⟩
          · subst he
            exact absurd hc (List.not_mem_nil c)
          · rw [List.concat_eq_append] at he
            subst he
            rw [List.getLast?_concat] at hlast
            simp only [Option.some_inj] at hlast
            rcases List.mem_append.mp hc with hc2 | hc2
            · refine hdrop c ?_
              rw [List.dropLast_concat]
              exact hc2
            · rw [List.mem_singleton] at hc2
              rw [hc2, hlast]
              exact hcm
        have hcellok : cellOK cell :=
          get_cellOK g hwf cell.point cell (hpres cell (getLast?_mem path cell hlast))
        have hnm : (cell.neighbors g).getD (s k % (cell.neighbors g).length) cell ∈
            cell.neighbors g := mem_getD _ _ _ (Nat.mod_lt _ (isEmpty_false_len _ hns))
        obtain ⟨hgn, hadjn⟩ := cell_neighbors_spec g cell hcellok _ hnm
        cases hfi : path.findIdx? (fun c => decide (c = (cell.neighbors g).getD
            (s k % (cell.neighbors g).length) cell)) with
        | some pos =>
          rw [hfi] at hrun
          obtain ⟨m, hm, hpos, hp⟩ := findIdx?_some_spec _ path 0 pos hfi
          have hmp : pos = m := by omega
          subst hmp
          have hgetc : path.get ⟨pos, hm⟩ = (cell.neighbors g).getD
              (s k % (cell.neighbors g).length) cell := of_decide_eq_true hp
          have hres := ih _ (path.take (pos + 1)) (k + 1) path2 k2 hrun
            (by rw [getLast?_take_getElem path pos hm, hgetc])
            (fun c hc => hpres c ((List.take_sublist (pos + 1) path).mem hc))
            (fun c hc => hallin c ((List.take_sublist (pos + 1) path).mem
              ((List.dropLast_sublist _).mem hc)))
            (List.Nodup.sublist ((List.take_sublist (pos + 1) path).map Cell.point) hnd)
            (fun pr hpr => hadj pr (consec_take_mem path (pos + 1) pr hpr))
          obtain ⟨hh1, hh2, hh3, hh4, hh5, hh6⟩ := hres
          refine ⟨?_, hh2, hh3, hh4, hh5, hh6⟩
          rw [hh1, head?_take path (pos + 1) (by omega)]
        | none =>
          rw [hfi] at hrun
          have hnotin : (cell.neighbors g).getD (s k % (cell.neighbors g).length) cell ∉
              path := by
            intro hc
            have := findIdx?_none_spec _ path 0 hfi _ hc
            rw [decide_eq_true rfl] at this
            exact Bool.noConfusion this
          have hptnotin : ((cell.neighbors g).getD (s k % (cell.neighbors g).length)
              cell).point ∉ path.map Cell.point := by
            intro hc
            rcases List.mem_map.mp hc with ⟨c, hcmem, he⟩
            have hgc := hpres c hcmem
            rw [he] at hgc
            rw [hgn] at hgc
            simp only [Option.some_inj] at hgc
            exact hnotin (hgc ▸ hcmem)
          have hres := ih _ (path ++ [(cell.neighbors g).getD
              (s k % (cell.neighbors g).length) cell]) (k + 1) path2 k2 hrun
            (List.getLast?_concat path)
            (by
              intro c hc
              rcases List.mem_append.mp hc with hc2 | hc2
              · exact hpres c hc2
              · rw [List.mem_singleton] at hc2
                rw [hc2]
                exact hgn)
            (by
              intro c hc
              rw [List.dropLast_concat] at hc
              exact hallin c hc)
            (by
              rw [List.map_append]
              rw [List.nodup_append]
              refine ⟨hnd, List.nodup_singleton _, ?_⟩
              intro x hx hx2
              simp only [List.map_cons, List.map_nil, List.mem_singleton] at hx2
              exact hptnotin (hx2 ▸ hx)
            )
            (by
              intro pr hpr
              rw [consec_snoc path cell _ hlast] at hpr
              rcases List.mem_append.mp hpr with hp2 | hp2
              · exact hadj pr hp2
              · rw [List.mem_singleton] at hp2
                subst hp2
                exact hadjn)
          obtain ⟨hh1, hh2, hh3, hh4, hh5, hh6⟩ := hres
          refine ⟨?_, hh2, hh3, hh4, hh5, hh6⟩
          rw [hh1, head?_append_left path _ (by
            intro he
            rw [he] at hlast
            exact Option.noConfusion hlast)]
    · rw [wilsonWalk_exit g s uv (f + 1) cell path k hcm] at hrun
      simp only [Option.some_inj, Prod.mk.injEq] at hrun
      obtain ⟨he1, _⟩ := hrun
      subst he1
      refine ⟨rfl, hpres, hdrop, hnd, hadj, ?_⟩
      intro z hz
      rw [hlast] at hz
      simp only [Option.some_inj] at hz
      subst hz
      exact hcm

theorem epts_append_mem (A B : List (Point × Point)) (p : Point) :
    p ∈ epts (A ++ B) ↔ p ∈ epts A ∨ p ∈ epts B := by
  rw [mem_epts, mem_epts, mem_epts]
  constructor
  · rintro (⟨pr, hm, he⟩ | ⟨pr, hm, he⟩)
    · rcases List.mem_append.mp hm with hm | hm
      · exact Or.inl (Or.inl ⟨pr, hm, he⟩)
      · exact Or.inr (Or.inl ⟨pr, hm, he⟩)
    · rcases List.mem_append.mp hm with hm | hm
      · exact Or.inl (Or.inr ⟨pr, hm, he⟩)
      · exact Or.inr (Or.inr ⟨pr, hm, he⟩)
  · rintro ((⟨pr, hm, he⟩ | ⟨pr, hm, he⟩) | (⟨pr, hm, he⟩ | ⟨pr, hm, he⟩))
    · exact Or.inl ⟨pr, List.mem_append.mpr (Or.inl hm), he⟩
    · exact Or.inr ⟨pr, List.mem_append.mpr (Or.inl hm), he⟩
    · exact Or.inl ⟨pr, List.mem_append.mpr (Or.inr hm), he⟩
    · exact Or.inr ⟨pr, List.mem_append.mpr (Or.inr hm), he⟩

theorem wilsonLoop_unfold0 (g : Grid) (s : Nat → Nat) (wfuel : Nat) (uv : List Cell)
    (k : Nat) :
    wilsonLoop g s wfuel 0 uv k = if uv.isEmpty then some g else none := rfl

theorem wilsonLoop_unfoldS (g : Grid) (s : Nat → Nat) (wfuel f : Nat) (uv : List Cell)
    (k : Nat) :
    wilsonLoop g s wfuel (f + 1) uv k =
      if uv.isEmpty then some g
      else
        match wilsonWalk g s uv wfuel (uv.getD (s k % uv.length) (Cell.new ⟨0, 0⟩))
            [uv.getD (s k % uv.length) (Cell.new ⟨0, 0⟩)] (k + 1) with
        | none => none
        | some (path, k2) =>
          match wilsonLink g path with
          | none => none
          | some g2 => wilsonLoop g2 s wfuel f (wilsonRetain uv path) k2 := rfl

theorem wilsonLoop_perfect (w h : Nat) (s : Nat → Nat) (r : Point) (wfuel : Nat) :
    ∀ (fuel : Nat) (g : Grid) (A : List (Point × Point)) (uv : List Cell) (k : Nat)
      (g' : Grid),
    MazeInv w h g r A →
    (∀ c ∈ uv, g.get c.point = some c) →
    (∀ p, inR w h p → (p ∉ (r :: A.map Prod.fst) ↔ ∃ c, c ∈ uv ∧ c.point = p)) →
    wilsonLoop g s wfuel fuel uv k = some g' →
    PerfectMaze g' ∧ g'.edgePairs.card + 1 = w * h := by
  intro fuel
  induction fuel with
  | zero =>
    intro g A uv k g' inv huv1 huv2 hrun
    rw [wilsonLoop_unfold0] at hrun
    cases hue : uv.isEmpty with
    | true =>
      rw [if_pos hue] at hrun
      simp only [Option.some_inj] at hrun
      subst hrun
      refine inv_cert w h g r A inv ?_
      intro p
      constructor
      · intro hp
        obtain ⟨c, hc⟩ := inv_present w h g r A inv p
          (inv_V_inR w h g r A inv p (List.mem_cons.mp hp))
        exact get_presentPoints g p c hc
      · intro hp
        have hin : inR w h p := by
          rw [presentPoints_iff_get g inv.wf] at hp
          exact (inv_isSome w h g r A inv p).mp hp
        by_contra hnv
        obtain ⟨c, hcm, _⟩ := (huv2 p hin).mp hnv
        rw [(isEmpty_true_iff _).mp hue] at hcm
        exact absurd hcm (List.not_mem_nil c)
    | false =>
      rw [if_neg (by rw [hue]; simp)] at hrun
      exact Option.noConfusion hrun
  | succ f ih =>
    intro g A uv k g' inv huv1 huv2 hrun
    rw [wilsonLoop_unfoldS] at hrun
    cases hue : uv.isEmpty with
    | true =>
      rw [if_pos hue] at hrun
      simp only [Option.some_inj] at hrun
      subst hrun
      refine inv_cert w h g r A inv ?_
      intro p
      constructor
      · intro hp
        obtain ⟨c, hc⟩ := inv_present w h g r A inv p
          (inv_V_inR w h g r A inv p (List.mem_cons.mp hp))
        exact get_presentPoints g p c hc
      · intro hp
        have hin : inR w h p := by
          rw [presentPoints_iff_get g inv.wf] at hp
          exact (inv_isSome w h g r A inv p).mp hp
        by_contra hnv
        obtain ⟨c, hcm, _⟩ := (huv2 p hin).mp hnv
        rw [(isEmpty_true_iff _).mp hue] at hcm
        exact absurd hcm (List.not_mem_nil c)
    | false =>
      rw [if_neg (by rw [hue]; simp)] at hrun
      have hrun2 : (match wilsonWalk g s uv wfuel
          (uv.getD (s k % uv.length) (Cell.new ⟨0, 0⟩))
          [uv.getD (s k % uv.length) (Cell.new ⟨0, 0⟩)] (k + 1) with
        | none => none
        | some (path, k2) =>
          match wilsonLink g path with
          | none => none
          | some g2 => wilsonLoop g2 s wfuel f (wilsonRetain uv path) k2) = some g' := hrun
      have hclm : uv.getD (s k % uv.length) (Cell.new ⟨0, 0⟩) ∈ uv :=
        mem_getD _ _ _ (Nat.mod_lt _ (isEmpty_false_len _ hue))
      have hgc : g.get (uv.getD (s k % uv.length) (Cell.new ⟨0, 0⟩)).point =
          some (uv.getD (s k % uv.length) (Cell.new ⟨0, 0⟩)) := huv1 _ hclm
      cases hwk : wilsonWalk g s uv wfuel (uv.getD (s k % uv.length) (Cell.new ⟨0, 0⟩))
          [uv.getD (s k % uv.length) (Cell.new ⟨0, 0⟩)] (k + 1) with
      | none =>
        rw [hwk] at hrun2
        exact Option.noConfusion hrun2
      | some pk =>
        rcases pk with ⟨path2, k2v⟩
        rw [hwk] at hrun2
        have hrun3 : (match wilsonLink g path2 with
          | none => none
          | some g2 => wilsonLoop g2 s wfuel f (wilsonRetain uv path2) k2v) = some g' := hrun2
        obtain ⟨hh1, hh2, hh3, hh4, hh5, hh6⟩ := wilsonWalk_spec g s uv inv.wf wfuel
          _ _ (k + 1) path2 k2v hwk rfl
          (by
            intro c hc
            rw [List.mem_singleton] at hc
            rw [hc]
            exact hgc)
          (by
            intro c hc
            exact absurd hc (List.not_mem_nil c))
          (by simp)
          (by
            intro pr hpr
            rw [consecPairs_one] at hpr
            exact absurd hpr (List.not_mem_nil pr))
        have hne2 : path2 ≠ [] := by
          intro he
          rw [he] at hh1
          exact Option.noConfusion hh1
        rcases List.eq_nil_or_concat path2 with he | ⟨cs, z, he⟩
        · exact absurd he hne2
        · rw [List.concat_eq_append] at he
          subst he
          have hlastz : (cs ++ [z]).getLast? = some z := List.getLast?_concat cs
          have hznot : z ∉ uv := hh6 z hlastz
          have hgz : g.get z.point = some z := hh2 z
            (List.mem_append.mpr (Or.inr (List.mem_singleton.mpr rfl)))
          have hzin : inR w h z.point := inv_inR_of_get w h g r A inv z.point z hgz
          have hzV : z.point ∈ (r :: A.map Prod.fst) := by
            by_contra hnv
            obtain ⟨c, hcm, hcp⟩ := (huv2 z.point hzin).mp hnv
            have hgcc := huv1 c hcm
            rw [hcp, hgz] at hgcc
            simp only [Option.some_inj] at hgcc
            rw [hgcc] at hznot
            exact hznot hcm
          obtain ⟨g2, hlk, hwf2, hpres2, hframe2, hbi2, hlinks2⟩ :=
            wilsonLink_spec w h (cs ++ [z]) g inv.wf
              (fun c hc => by rw [hh2 c hc]; rfl) hh5
          rw [hlk] at hrun3
          have hdropcs : ∀ c ∈ cs, c ∈ uv := by
            intro c hc
            refine hh3 c ?_
            rw [List.dropLast_concat]
            exact hc
          have hfstB : ∀ p, p ∈ ((consecPairs (cs ++ [z])).reverse).map Prod.fst ↔
              ∃ c, c ∈ cs ∧ c.point = p := by
            intro p
            rw [List.map_reverse, List.mem_reverse, consecPairs_fst, List.map_append]
            rw [show List.map Cell.point [z] = [z.point] from rfl, List.dropLast_concat]
            constructor
            · intro hm
              rcases List.mem_map.mp hm with ⟨c, hcm, hce⟩
              exact ⟨c, hcm, hce⟩
            · rintro ⟨c, hcm, hce⟩
              exact hce ▸ List.mem_map_of_mem Cell.point hcm
          have hcsnotV : ∀ c ∈ cs, c.point ∉ (r :: A.map Prod.fst) := by
            intro c hc
            have hcm := hdropcs c hc
            have hgcc := huv1 c hcm
            have hcin : inR w h c.point := inv_inR_of_get w h g r A inv c.point c hgcc
            exact (huv2 c.point hcin).mpr ⟨c, hcm, rfl⟩
          have inv2 : MazeInv w h g2 r (A ++ (consecPairs (cs ++ [z])).reverse) := by
            refine ⟨hwf2, ?_, ?_, ?_, ?_, inv.rootIn, ?_, ?_, ?_⟩
            · intro p
              rw [hpres2 p, inv.pres p]
            · intro p q
              rw [hbi2 p q, inv.bichar p q, unordMem_append, unordMem_reverse]
            · rw [List.map_append, List.nodup_append]
              refine ⟨inv.ndf, ?_, ?_⟩
              · rw [List.map_reverse, List.nodup_reverse, consecPairs_fst, List.map_append]
                rw [show List.map Cell.point [z] = [z.point] from rfl, List.dropLast_concat]
                refine List.Nodup.sublist ?_ hh4
                rw [List.map_append]
                exact (List.sublist_append_left _ _)
              · intro x hx hx2
                rcases (hfstB x).mp hx2 with ⟨c, hcm, hce⟩
                exact (hcsnotV c hcm) (hce ▸ List.mem_cons.mpr (Or.inr hx))
            · rw [List.map_append, List.mem_append]
              rintro (hm | hm)
              · exact inv.rootNot hm
              · rcases (hfstB r).mp hm with ⟨c, hcm, hce⟩
                exact (hcsnotV c hcm) (hce ▸ List.mem_cons.mpr (Or.inl rfl))
            · intro pr hm
              rcases List.mem_append.mp hm with hm | hm
              · exact inv.inA pr hm
              · rw [List.mem_reverse] at hm
                obtain ⟨h1, h2⟩ := consec_mem_points (cs ++ [z]) pr hm
                rcases List.mem_map.mp h1 with ⟨c1, hc1m, hc1e⟩
                rcases List.mem_map.mp h2 with ⟨c2, hc2m, hc2e⟩
                exact ⟨hc1e ▸ inv_inR_of_get w h g r A inv c1.point c1 (hh2 c1 hc1m),
                  hc2e ▸ inv_inR_of_get w h g r A inv c2.point c2 (hh2 c2 hc2m)⟩
            · refine attach_append r A _ [] inv.att ?_
              refine consec_attach r cs z (A.map Prod.fst ++ []) ?_
              rcases List.mem_cons.mp hzV with he | hm
              · exact Or.inl he
              · exact Or.inr (List.mem_append.mpr (Or.inl hm))
            · intro p c2 hc2
              rw [hlinks2 p c2 hc2]
              have hps : (g.get p).isSome = true := by
                rw [← hpres2 p, hc2]
                rfl
              obtain ⟨c1, hc1⟩ := Option.isSome_iff_exists.mp hps
              constructor
              · rintro ⟨⟨c1b, hc1b, hc1bl⟩, hnm⟩
                intro hm2
                rcases (epts_append_mem A _ p).mp hm2 with hm3 | hm3
                · rw [hc1b] at hc1
                  simp only [Option.some_inj] at hc1
                  exact ((inv.linksIff p c1b hc1b).mp hc1bl) hm3
                · exact hnm ((epts_reverse _ p).mp hm3)
              · intro hnm
                refine ⟨⟨c1, hc1, ?_⟩, ?_⟩
                · refine (inv.linksIff p c1 hc1).mpr ?_
                  intro hm3
                  exact hnm ((epts_append_mem A _ p).mpr (Or.inl hm3))
                · intro hm3
                  exact hnm ((epts_append_mem A _ p).mpr (Or.inr ((epts_reverse _ p).mpr hm3)))
          refine ih g2 _ (wilsonRetain uv (cs ++ [z])) k2v g' inv2 ?_ ?_ hrun3
          · intro c hc
            obtain ⟨hcm, hcnot⟩ := (wilsonRetain_mem uv (cs ++ [z]) c).mp hc
            rw [List.dropLast_concat] at hcnot
            have hgcc := huv1 c hcm
            rw [hframe2 c.point ?_]
            · exact hgcc
            · intro hm
              rcases List.mem_map.mp hm with ⟨d, hdm, hde⟩
              have hgd := hh2 d hdm
              rw [hde, hgcc] at hgd
              simp only [Option.some_inj] at hgd
              subst hgd
              rcases List.mem_append.mp hdm with hm2 | hm2
              · exact (hcnot c hm2) rfl
              · rw [List.mem_singleton] at hm2
                rw [hm2] at hcm
                exact hznot hcm
          · intro p hin
            rw [List.mem_cons, List.map_append, List.mem_append]
            constructor
            · intro hnv
              push_neg at hnv
              obtain ⟨hnr, hnA, hnB⟩ := hnv
              obtain ⟨c, hcm, hcp⟩ := (huv2 p hin).mp (by
                rw [List.mem_cons]
                push_neg
                exact ⟨hnr, hnA⟩)
              refine ⟨c, (wilsonRetain_mem uv (cs ++ [z]) c).mpr ⟨hcm, ?_⟩, hcp⟩
              rw [List.dropLast_concat]
              intro d hdm he
              subst he
              exact hnB ((hfstB p).mpr ⟨c, hdm, hcp⟩)
            · rintro ⟨c, hcret, hcp⟩
              obtain ⟨hcm, hcnot⟩ := (wilsonRetain_mem uv (cs ++ [z]) c).mp hcret
              rw [List.dropLast_concat] at hcnot
              have hnv := (huv2 p hin).mpr ⟨c, hcm, hcp⟩
              rw [List.mem_cons] at hnv
              push_neg at hnv
              push_neg
              refine ⟨hnv.1, hnv.2, ?_⟩
              intro hm
              rcases (hfstB p).mp hm with ⟨d, hdm, hde⟩
              have hgd := hh2 d (List.mem_append.mpr (Or.inl hdm))
              have hgcc := huv1 c hcm
              rw [hde, ← hcp, hgcc] at hgd
              simp only [Option.some_inj] at hgd
              subst hgd
              exact (hcnot c hdm) rfl

theorem wilsons_perfect (w h : Nat) (s : Nat → Nat) (fuel wfuel : Nat) (g' : Grid)
    (hw : 1 ≤ w) (hh : 1 ≤ h)
    (hrun : Algorithm.wilsons (RectangularGrid.new w h) s fuel wfuel = some g') :
    PerfectMaze g' ∧ g'.edgePairs.card + 1 = w * h := by
  have hlen : ((RectangularGrid.new w h).cells.filterMap id).length = w * h := by
    have h2 := new_presentPoints_length w h
    rw [Grid.presentPoints, List.length_map] at h2
    exact h2
  have hwh : 1 ≤ w * h := Nat.one_le_iff_ne_zero.mpr (by positivity)
  have hne0 : ¬ ((RectangularGrid.new w h).cells.filterMap id).length = 0 := by omega
  have hrun2 : (if ((RectangularGrid.new w h).cells.filterMap id).length = 0 then none
      else wilsonLoop (RectangularGrid.new w h) s wfuel fuel
        (((RectangularGrid.new w h).cells.filterMap id).eraseIdx
          (s 0 % ((RectangularGrid.new w h).cells.filterMap id).length)) 1) = some g' := hrun
  rw [if_neg hne0] at hrun2
  have hilt : s 0 % ((RectangularGrid.new w h).cells.filterMap id).length <
      ((RectangularGrid.new w h).cells.filterMap id).length := Nat.mod_lt _ (by omega)
  have hndp : ((RectangularGrid.new w h).cells.filterMap id).Nodup := by
    have h2 := new_presentPoints_nodup w h
    rw [Grid.presentPoints] at h2
    exact List.Nodup.of_map Cell.point h2
  have hrcm : ((RectangularGrid.new w h).cells.filterMap id).get
      ⟨s 0 % ((RectangularGrid.new w h).cells.filterMap id).length, hilt⟩ ∈
      (RectangularGrid.new w h).cells.filterMap id := List.get_mem _ _ hilt
  have hrccell : some (((RectangularGrid.new w h).cells.filterMap id).get
      ⟨s 0 % ((RectangularGrid.new w h).cells.filterMap id).length, hilt⟩) ∈
      (RectangularGrid.new w h).cells := by
    rcases List.mem_filterMap.mp hrcm with ⟨oc, hoc, hid⟩
    cases oc with
    | none => exact absurd hid (by simp)
    | some c3 =>
      simp only [id_eq, Option.some_inj] at hid
      rw [hid] at hoc
      exact hoc
  have hinr : inR w h (((RectangularGrid.new w h).cells.filterMap id).get
      ⟨s 0 % ((RectangularGrid.new w h).cells.filterMap id).length, hilt⟩).point :=
    (new_mem_cell w h _ hrccell).2
  refine wilsonLoop_perfect w h s _ wfuel fuel (RectangularGrid.new w h) []
    (((RectangularGrid.new w h).cells.filterMap id).eraseIdx
      (s 0 % ((RectangularGrid.new w h).cells.filterMap id).length)) 1 g'
    (inv_init w h _ hinr) ?_ ?_ hrun2
  · intro c hc
    have hcm : c ∈ (RectangularGrid.new w h).cells.filterMap id :=
      ((eraseIdx_mem_iff _ _ hilt hndp c).mp hc).1
    rcases List.mem_filterMap.mp hcm with ⟨oc, hoc, hid⟩
    cases oc with
    | none => exact absurd hid (by simp)
    | some c3 =>
      simp only [id_eq, Option.some_inj] at hid
      rw [hid] at hoc
      exact WF_get_of_mem _ c (WF_new w h) hoc
  · intro p hin
    simp only [List.map_nil, List.mem_singleton]
    obtain ⟨cp, hcp⟩ := Option.isSome_iff_exists.mp ((new_get_isSome w h p).mpr hin)
    have hcpm : cp ∈ (RectangularGrid.new w h).cells.filterMap id := by
      refine List.mem_filterMap.mpr ⟨some cp, ?_, rfl⟩
      exact get_mem _ p cp hcp
    have hcppt : cp.point = p := get_point _ p cp hcp
    constructor
    · intro hne
      refine ⟨cp, (eraseIdx_mem_iff _ _ hilt hndp cp).mpr ⟨hcpm, ?_⟩, hcppt⟩
      intro he
      apply hne
      rw [← hcppt, he]
    · rintro ⟨c, hce, hcpt⟩
      obtain ⟨hcm, hcne⟩ := (eraseIdx_mem_iff _ _ hilt hndp c).mp hce
      intro he
      apply hcne
      have hc3 : some c ∈ (RectangularGrid.new w h).cells := by
        rcases List.mem_filterMap.mp hcm with ⟨oc, hoc, hid⟩
        cases oc with
        | none => exact absurd hid (by simp)
        | some c3 =>
          simp only [id_eq, Option.some_inj] at hid
          rw [hid] at hoc
          exact hoc
      have hrc3 : some (((RectangularGrid.new w h).cells.filterMap id).get
          ⟨s 0 % ((RectangularGrid.new w h).cells.filterMap id).length, hilt⟩) ∈
          (RectangularGrid.new w h).cells := hrccell
      refine WF_mem_unique _ c _ (WF_new w h) hc3 hrc3 ?_
      rw [hcpt, he]

/-- C1: for every generation algorithm (Binary Tree, Sidewinder, Aldous-Broder,
Wilson's, Hunt-and-Kill, Recursive Backtracker) run on a fully-unmasked
rectangular grid of width W ≥ 1 and height H ≥ 1, every successful run yields a
perfect maze: exactly W*H - 1 bidirectional links, every cell reachable from
every other along links, and no cycles in the link graph (PerfectMaze bundles
the reachability, acyclicity and links = cells - 1 properties; the explicit
count ties the cell number to W*H). -/
theorem C1_perfect_mazes (w h : Nat) (s : Nat → Nat) (g' : Grid) (hw : 1 ≤ w) (hh : 1 ≤ h) :
    (Algorithm.binary_tree (RectangularGrid.new w h) s = some g' →
      PerfectMaze g' ∧ g'.edgePairs.card + 1 = w * h) ∧
    (Algorithm.sidewinder (RectangularGrid.new w h) s = some g' →
      PerfectMaze g' ∧ g'.edgePairs.card + 1 = w * h) ∧
    (∀ fuel, Algorithm.aldous_broder (RectangularGrid.new w h) s fuel = some g' →
      PerfectMaze g' ∧ g'.edgePairs.card + 1 = w * h) ∧
    (∀ fuel wfuel, Algorithm.wilsons (RectangularGrid.new w h) s fuel wfuel = some g' →
      PerfectMaze g' ∧ g'.edgePairs.card + 1 = w * h) ∧
    (∀ fuel, Algorithm.hunt_and_kill (RectangularGrid.new w h) s fuel = some g' →
      PerfectMaze g' ∧ g'.edgePairs.card + 1 = w * h) ∧
    (∀ fuel, Algorithm.recursive_backtracker (RectangularGrid.new w h) s fuel = some g' →
      PerfectMaze g' ∧ g'.edgePairs.card + 1 = w * h) := by
  refine ⟨?_, ?_, ?_, ?_, ?_, ?_⟩
  · intro hrun
    obtain ⟨hpm, hcnt⟩ := bt_perfect w h s g' hw hh hrun
    exact ⟨hpm, by omega⟩
  · exact fun hrun => sw_perfect w h s g' hw hh hrun
  · exact fun fuel hrun => ab_perfect w h s fuel g' hw hh hrun
  · exact fun fuel wfuel hrun => wilsons_perfect w h s fuel wfuel g' hw hh hrun
  · exact fun fuel hrun => hk_perfect w h s fuel g' hw hh hrun
  · exact fun fuel hrun => rb_perfect w h s fuel g' hw hh hrun

/-- Witness for C1 on the 2x2 grid: each of the six algorithms, run with a
concrete random stream on which it terminates, produces a perfect maze with
exactly 3 passages. -/
theorem C1_perfect_mazes_witness :
    (∃ g', Algorithm.binary_tree (RectangularGrid.new 2 2) (fun _ => 0) = some g' ∧
      PerfectMaze g' ∧ g'.edgePairs.card + 1 = 2 * 2) ∧
    (∃ g', Algorithm.sidewinder (RectangularGrid.new 2 2) (fun _ => 0) = some g' ∧
      PerfectMaze g' ∧ g'.edgePairs.card + 1 = 2 * 2) ∧
    (∃ g', Algorithm.aldous_broder (RectangularGrid.new 2 2) (fun k => k * k + 1) 60 =
      some g' ∧ PerfectMaze g' ∧ g'.edgePairs.card + 1 = 2 * 2) ∧
    (∃ g', Algorithm.wilsons (RectangularGrid.new 2 2) (fun k => k) 30 30 = some g' ∧
      PerfectMaze g' ∧ g'.edgePairs.card + 1 = 2 * 2) ∧
    (∃ g', Algorithm.hunt_and_kill (RectangularGrid.new 2 2) (fun _ => 0) 20 = some g' ∧
      PerfectMaze g' ∧ g'.edgePairs.card + 1 = 2 * 2) ∧
    (∃ g', Algorithm.recursive_backtracker (RectangularGrid.new 2 2) (fun _ => 0) 20 =
      some g' ∧ PerfectMaze g' ∧ g'.edgePairs.card + 1 = 2 * 2) := by
  have h1 : (Algorithm.binary_tree (RectangularGrid.new 2 2) (fun _ => 0)).isSome = true := by
    decide
  have h2 : (Algorithm.sidewinder (RectangularGrid.new 2 2) (fun _ => 0)).isSome = true := by
    decide
  have h3 : (Algorithm.aldous_broder (RectangularGrid.new 2 2) (fun k => k * k + 1)
      60).isSome = true := by decide
  have h4 : (Algorithm.wilsons (RectangularGrid.new 2 2) (fun k => k) 30 30).isSome = true := by
    decide
  have h5 : (Algorithm.hunt_and_kill (RectangularGrid.new 2 2) (fun _ => 0) 20).isSome =
      true := by decide
  have h6 : (Algorithm.recursive_backtracker (RectangularGrid.new 2 2) (fun _ => 0)
      20).isSome = true := by decide
  refine ⟨⟨_, (Option.some_get h1).symm, ?_⟩, ⟨_, (Option.some_get h2).symm, ?_⟩,
    ⟨_, (Option.some_get h3).symm, ?_⟩, ⟨_, (Option.some_get h4).symm, ?_⟩,
    ⟨_, (Option.some_get h5).symm, ?_⟩, ⟨_, (Option.some_get h6).symm, ?_⟩⟩
  · exact (C1_perfect_mazes 2 2 (fun _ => 0) _ (by decide) (by decide)).1
      (Option.some_get h1).symm
  · exact (C1_perfect_mazes 2 2 (fun _ => 0) _ (by decide) (by decide)).2.1
      (Option.some_get h2).symm
  · exact (C1_perfect_mazes 2 2 (fun k => k * k + 1) _ (by decide) (by decide)).2.2.1 60
      (Option.some_get h3).symm
  · exact (C1_perfect_mazes 2 2 (fun k => k) _ (by decide) (by decide)).2.2.2.1 30 30
      (Option.some_get h4).symm
  · exact (C1_perfect_mazes 2 2 (fun _ => 0) _ (by decide) (by decide)).2.2.2.2.1 20
      (Option.some_get h5).symm
  · exact (C1_perfect_mazes 2 2 (fun _ => 0) _ (by decide) (by decide)).2.2.2.2.2 20
      (Option.some_get h6).symm
